import Mathlib

/-!
SNAPLib/LandauVishkin.cpp: bounded edit distance with CIGAR output.

A shallow embedding of `writeCigar` and `LandauVishkinWithCigar::computeEditDistance`
and theorems about them.

Conventions of the embedding.

* A `char` is a `Byte` (`Fin 256`).  Memory read through `text` and `pattern` is a
  total function from the signed byte offset relative to the pointer to the byte
  stored there, so the reads the code makes before the pointer and behind the
  nominal length (the padding the word-at-a-time loops rely on) are all defined.
* `int` values are `Int`; no operation of the code overflows for lengths below `2^31 - 8`,
  the one conversion to `_uint32` is taken modulo `2^32`.
* The output cursor `*o_buf` is an address (`Int`), the null pointer is address `0`.
  Every store through the cursor is applied to `mem` and its address is recorded in `log`.
* The tables `L` and `A` of the instance are functions of the two array indices
  (row, column), the column being `MAX_K + d` as in the source.
* `MAX_K` (LandauVishkin.h) and the table `BAMAlignment::CigarToCode` (Bam.h) are
  parameters.
-/

namespace SNAP

/-- A `char`. -/
abbrev Byte := Fin 256

/-- Memory readable through a `const char*`, by signed offset from the pointer. -/
abbrev Mem := Int → Byte

/-- The byte of an ASCII character literal. -/
def ch (c : Char) : Byte := Fin.ofNat c.toNat

/-- The four values of `enum CigarFormat`, and any other selector value. -/
inductive CigarFormat where
  | COMPACT_CIGAR_STRING
  | EXPANDED_CIGAR_STRING
  | COMPACT_CIGAR_BINARY
  | BAM_CIGAR_OPS
  | invalid (v : Int)
  deriving DecidableEq, Repr

/-- The pair `(*o_buf, *o_buflen)` together with the memory the cursor points into
and the record of the addresses stored to (most recent first). -/
structure CigarBuf where
  buf : Int
  buflen : Int
  mem : Int → Byte
  log : List Int

/-- One byte store `*a = v` (the value is truncated to a `char`). -/
def CigarBuf.store (b : CigarBuf) (a : Int) (v : Nat) : CigarBuf :=
  { b with mem := fun i => if i = a then Fin.ofNat v else b.mem i, log := a :: b.log }

/-- The loop `for (i = 0; i < n; i++) *(*o_buf)++ = code;`. -/
def storeRun (code : Byte) : Nat → CigarBuf → CigarBuf
  | 0, b => b
  | n + 1, b => storeRun code n { b.store b.buf code.val with buf := b.buf + 1 }

/-- Stores the bytes of `bs` at consecutive addresses from `a` (cursor unchanged). -/
def storeBytes : List Nat → Int → CigarBuf → CigarBuf
  | [], _, b => b
  | v :: vs, a, b => storeBytes vs (a + 1) (b.store a v)

/-- Decimal digits of `n`, most significant first, as ASCII bytes (`%d` of a positive int). -/
def decimalAux : Nat → Nat → List Nat → List Nat
  | 0, _, acc => acc
  | fuel + 1, n, acc =>
    if n < 10 then (48 + n) :: acc else decimalAux fuel (n / 10) ((48 + n % 10) :: acc)

/-- The characters `printf("%d", n)` produces for `n ≥ 0`. -/
def decimal (n : Nat) : List Nat := decimalAux (n + 1) n []

/-- The conversion of an `int` to `size_t` (64 bits). -/
def sizeT (n : Int) : Nat := if n < 0 then (2 ^ 64 + n).toNat else n.toNat

/-- The call `snprintf(s, size, "%d%c", count, code)` for `count > 0`: at most `size - 1`
characters of the output are stored, followed by a NUL; nothing is stored when
`size = 0`.  Returns the length of the whole output. -/
def snprintf (b : CigarBuf) (size : Nat) (count : Nat) (code : Byte) : Nat × CigarBuf :=
  let out := decimal count ++ [code.val]
  if size = 0 then (out.length, b)
  else (out.length, storeBytes (out.take (size - 1) ++ [0]) b.buf b)

/-- The `while (true)` loop of the `COMPACT_CIGAR_BINARY` case. -/
def writeBinary (code : Byte) : Nat → Int → CigarBuf → Bool × CigarBuf
  | 0, _, b => (false, b)
  | fuel + 1, count, b =>
    if b.buflen < 3 then (false, b.store b.buf 0)
    else
      let b1 := { b.store b.buf (min count 255).toNat with buf := b.buf + 1 }
      let b2 := { b1.store b1.buf code.val with buf := b1.buf + 1 }
      let b3 := { b2 with buflen := b2.buflen - 2 }
      if count ≤ 255 then (true, b3) else writeBinary code fuel (count - 255) b3

/-- Function `writeCigar`.  The result is `some true` / `some false` for the value
returned, `none` when the call does not return (`soft_exit(1)` in the default case). -/
def writeCigar (CigarToCode : Byte → Nat) (b : CigarBuf) (count : Int) (code : Byte)
    (format : CigarFormat) : Option Bool × CigarBuf :=
  if count ≤ 0 then (some true, b)
  else
    match format with
    | .EXPANDED_CIGAR_STRING =>
      let n := min b.buflen count
      let b1 := storeRun code n.toNat b
      let b2 := { b1 with buflen := b1.buflen - n }
      let b3 := if b2.buflen = 0 then b2.store (b2.buf - 1) 0 else b2
      (some (decide (b3.buflen > 0)), b3)
    | .COMPACT_CIGAR_STRING =>
      if b.buflen = 0 then (some false, b.store (b.buf - 1) 0)
      else
        let (written, b1) := snprintf b (sizeT b.buflen) count.toNat code
        if (written : Int) > b.buflen - 1 then (some false, { b1 with buf := 0 })
        else (some true, { b1 with buf := b1.buf + written, buflen := b1.buflen - written })
    | .COMPACT_CIGAR_BINARY =>
      let (r, b1) := writeBinary code (count.toNat + 1) count b
      (some r, b1)
    | .BAM_CIGAR_OPS =>
      if b.buflen < 4 ∨ count ≥ 2 ^ 28 then (some false, b)
      else
        let w := ((count.toNat <<< 4) ||| CigarToCode code) % 2 ^ 32
        let b1 := storeBytes [w % 256, w / 256 % 256, w / 65536 % 256, w / 16777216 % 256] b.buf b
        (some true, { b1 with buf := b1.buf + 4, buflen := b1.buflen - 4 })
    | .invalid _ => (none, b)

/-! ## The word-at-a-time matcher -/

/-- The `n`-byte little-endian load at offset `p`; `*((_uint64*) p)` is `load 8`. -/
def load (m : Mem) : Nat → Int → Nat
  | 0, _ => 0
  | n + 1, p => (m p).val + 256 * load m n (p + 1)

/-- Number of low zero bits of `x`, looking at no more than `n` bits. -/
def ctz : Nat → Nat → Nat
  | 0, _ => 0
  | n + 1, x => if x % 2 = 1 then 0 else 1 + ctz n (x / 2)

/-- Modelled from the spec: the macro `CountTrailingZeroes(x, zeroes)` of Compat.h, which
is not among the sources; it is only used on a non-zero 64-bit `x` and sets `zeroes` to
the number of trailing zero bits of `x` ("counting trailing zero bits of the XOR of two
words to locate the first differing byte"). -/
def CountTrailingZeroes (x : Nat) : Nat := ctz 64 x

/-- The seed loop `while (p < pend) ...; L[0][MAX_K] = end; done1:` (lines 108-121);
`off` is `p - pattern = t - text`, the value is what is stored in `L[0][MAX_K]`. -/
def seedScan (pattern text : Mem) (end_ : Int) : Nat → Int → Int
  | 0, _ => end_
  | fuel + 1, off =>
    if off < end_ then
      let x := load pattern 8 off ^^^ load text 8 off
      if x ≠ 0 then min (off + ((CountTrailingZeroes x >>> 3 : Nat) : Int)) end_
      else seedScan pattern text end_ fuel (off + 8)
    else end_

/-- The value of type `int` (32 bits, two's complement) that a computation with the exact
result `x` leaves: `x` itself when `-2^31 ≤ x < 2^31`. -/
def wrap32 (x : Int) : Int := (x + 2 ^ 31) % 2 ^ 32 - 2 ^ 31

/-- The loop `while (true)` of lines 170-185 on diagonal `d`; `off` is `p - pattern`,
and `t - text = d + off`. The value is the new `best`; the sum
`(int)(p - pattern) + (int)zeroes` of line 176 is an `int`. -/
def extendScan (pattern text : Mem) (d end_ : Int) : Nat → Int → Int
  | 0, _ => end_
  | fuel + 1, off =>
    let x := load pattern 8 off ^^^ load text 8 (d + off)
    if x ≠ 0 then
      min (wrap32 (wrap32 off + ((CountTrailingZeroes x >>> 3 : Nat) : Int))) end_
    else if off + 8 ≥ end_ then end_
    else extendScan pattern text d end_ fuel (off + 8)

/-- Lines 164-186: the extension of `best` along diagonal `d` by exact matches; the
difference `textLen - d` of line 167 is an `int`. -/
def extend (pattern text : Mem) (patternLen textLen d best : Int) : Int :=
  if pattern best = text (d + best) then
    let end_ := min patternLen (wrap32 (textLen - d))
    extendScan pattern text d end_ ((end_ - best).toNat + 1) best
  else best

/-! ## The instance and the calls of `writeCigar` -/

/-- The fields of a `LandauVishkinWithCigar` instance. -/
structure LVState where
  L : Int → Int → Int
  A : Int → Int → Byte
  backtraceAction : Int → Byte
  backtraceMatched : Int → Int
  backtraceD : Int → Int

/-- The constructor: every cell of `L` is `-2`; the other arrays are not initialised
(`A0`, `bA0`, `bM0`, `bD0` are whatever they hold). -/
def LVState.init (A0 : Int → Int → Byte) (bA0 : Int → Byte) (bM0 bD0 : Int → Int) : LVState :=
  { L := fun _ _ => -2, A := A0, backtraceAction := bA0, backtraceMatched := bM0,
    backtraceD := bD0 }

/-- Assignment to one cell of a two-dimensional array. -/
def set2 {α : Type} (T : Int → Int → α) (i j : Int) (v : α) : Int → Int → α :=
  fun i' j' => if i' = i ∧ j' = j then v else T i' j'

/-- Assignment to one cell of a one-dimensional array. -/
def set1 {α : Type} (T : Int → α) (i : Int) (v : α) : Int → α :=
  fun i' => if i' = i then v else T i'

/-- The progress of the `writeCigar` calls of one `computeEditDistance` call.
`status` is `some true` while every call so far returned true; a call that returns
false makes the caller return `-2` at once, a call that exits ends the process: in
both cases the later calls are not made.  `script` lists the operations
`(count, code)` with `count > 0` that were written by the calls that returned true. -/
structure Emit where
  buf : CigarBuf
  status : Option Bool
  script : List (Int × Byte)

/-- One `if (!writeCigar(&cigarBuf, &cigarBufLen, count, code, format)) return -2;`. -/
def Emit.write (CigarToCode : Byte → Nat) (format : CigarFormat) (em : Emit) (count : Int)
    (code : Byte) : Emit :=
  match em.status with
  | some true =>
    let (r, b) := writeCigar CigarToCode em.buf count code format
    { buf := b, status := r,
      script := if r = some true ∧ count > 0 then em.script ++ [(count, code)] else em.script }
  | _ => em

/-- What a call of `computeEditDistance` leaves behind: the value returned (`none` when the
process was ended by `soft_exit`), the instance, the output buffer, the value stored
through `cigarBufUsed` (when one was stored), and the operations written. -/
structure Ret where
  result : Option Int
  st : LVState
  buf : CigarBuf
  cigarBufUsed : Option Int
  script : List (Int × Byte)

/-- The end of a path that writes a script: `-2` if a `writeCigar` call returned false,
otherwise (lines 141-144, 246-249, 358-364) the optional terminator, `*cigarBufUsed`
and `return e`. -/
def finish (st : LVState) (cigarBufStart : Int) (wantUsed : Bool) (terminate : Bool) (e : Int)
    (em : Emit) : Ret :=
  match em.status with
  | some true =>
    let b := if terminate then
        em.buf.store (em.buf.buf - (if em.buf.buflen = 0 then 1 else 0)) 0
      else em.buf
    { result := some e, st := st, buf := b,
      cigarBufUsed := if wantUsed then some (b.buf - cigarBufStart) else none,
      script := em.script }
  | some false =>
    { result := some (-2), st := st, buf := em.buf, cigarBufUsed := none, script := em.script }
  | none =>
    { result := none, st := st, buf := em.buf, cigarBufUsed := none, script := em.script }

/-! ## `computeEditDistance` -/

/-- Lines 123-145: the script of an exact match. -/
def exactScript (CigarToCode : Byte → Nat) (format : CigarFormat) (useM : Bool)
    (patternLen end_ : Int) (em : Emit) : Emit :=
  if useM then em.write CigarToCode format patternLen (ch 'M')
  else
    let em1 := em.write CigarToCode format end_ (ch '=')
    if patternLen > end_ then em1.write CigarToCode format (patternLen - end_) (ch 'X')
    else em1

/-- Lines 194-200: `straightMismatches` after the loop `for (i = 0; i < end; i++)`,
started at `i` with the count `acc`. -/
def countMismatches (pattern text : Mem) : Nat → Int → Int → Int
  | 0, _, acc => acc
  | n + 1, i, acc =>
    countMismatches pattern text n (i + 1) (if pattern i ≠ text i then acc + 1 else acc)

/-- Lines 214-223: the loop over `i` writing the streaks that end before `end`;
the state is `(streakStart, matching)` and the writes made. -/
def streakLoop (CigarToCode : Byte → Nat) (format : CigarFormat) (pattern text : Mem) :
    Nat → Int → Int → Bool → Emit → Int × Bool × Emit
  | 0, _, streakStart, matching, em => (streakStart, matching, em)
  | n + 1, i, streakStart, matching, em =>
    let newMatching := decide (pattern i = text i)
    if newMatching ≠ matching then
      streakLoop CigarToCode format pattern text n (i + 1) i newMatching
        (em.write CigarToCode format (i - streakStart) (if matching then ch '=' else ch 'X'))
    else
      streakLoop CigarToCode format pattern text n (i + 1) streakStart matching em

/-- Lines 203-244: the script of an alignment without indels. -/
def flatScript (CigarToCode : Byte → Nat) (format : CigarFormat) (useM : Bool)
    (pattern text : Mem) (patternLen end_ : Int) (em : Emit) : Emit :=
  if useM then em.write CigarToCode format patternLen (ch 'M')
  else
    let (streakStart, matching, em1) :=
      streakLoop CigarToCode format pattern text end_.toNat 0 0 (decide (pattern 0 = text 0)) em
    if patternLen > streakStart then
      if !matching then em1.write CigarToCode format (patternLen - streakStart) (ch 'X')
      else
        let em2 := em1.write CigarToCode format (end_ - streakStart) (ch '=')
        if patternLen > end_ then em2.write CigarToCode format (patternLen - end_) (ch 'X')
        else em2
    else em1

/-- Lines 278-296: the loop `for (curE = e; curE >= 1; curE--)` filling the backtrace
arrays from the tables; `n` bounds the number of iterations. -/
def backtrace (MAX_K : Int) : Nat → Int → Int → LVState → LVState
  | 0, _, _, st => st
  | n + 1, curE, curD, st =>
    if curE ≥ 1 then
      let a := st.A curE (MAX_K + curD)
      let bA := set1 st.backtraceAction curE a
      let (bD, bM) :=
        if a = ch 'I' then
          (set1 st.backtraceD curE (curD + 1),
           set1 st.backtraceMatched curE
             (st.L curE (MAX_K + curD) - st.L (curE - 1) (MAX_K + curD + 1) - 1))
        else if a = ch 'D' then
          (set1 st.backtraceD curE (curD - 1),
           set1 st.backtraceMatched curE
             (st.L curE (MAX_K + curD) - st.L (curE - 1) (MAX_K + curD - 1)))
        else
          (set1 st.backtraceD curE curD,
           set1 st.backtraceMatched curE
             (st.L curE (MAX_K + curD) - st.L (curE - 1) (MAX_K + curD) - 1))
      backtrace MAX_K n (curE - 1) (bD curE)
        { st with backtraceAction := bA, backtraceD := bD, backtraceMatched := bM }
    else st

/-- Lines 315-318: the loop counting the repeats of `action`; the value is the final
`(actionCount, curE)`. -/
def repeatLoop (st : LVState) (e : Int) (action : Byte) : Nat → Int → Int → Int × Int
  | 0, actionCount, curE => (actionCount, curE)
  | n + 1, actionCount, curE =>
    if curE + 1 ≤ e ∧ st.backtraceMatched curE = 0 ∧ st.backtraceAction (curE + 1) = action then
      repeatLoop st e action n (actionCount + 1) (curE + 1)
    else (actionCount, curE)

/-- Lines 311-349: the loop `while (curE <= e)` writing the actions and the exact
matches after them; the value is the final `accumulatedMs` and the writes made. -/
def emitLoop (CigarToCode : Byte → Nat) (format : CigarFormat) (useM : Bool) (st : LVState)
    (e : Int) : Nat → Int → Int → Emit → Int × Emit
  | 0, _, accumulatedMs, em => (accumulatedMs, em)
  | n + 1, curE, accumulatedMs, em =>
    if curE ≤ e then
      let action := st.backtraceAction curE
      let (actionCount, curE1) := repeatLoop st e action (e - curE).toNat 1 curE
      let (acc1, em1) :=
        if useM then
          if action = ch '=' ∨ action = ch 'X' then (accumulatedMs + actionCount, em)
          else
            let (acc, em0) :=
              if accumulatedMs ≠ 0 then
                ((0 : Int), em.write CigarToCode format accumulatedMs (ch 'M'))
              else (accumulatedMs, em)
            (acc, em0.write CigarToCode format actionCount action)
        else (accumulatedMs, em.write CigarToCode format actionCount action)
      let (acc2, em2) :=
        if st.backtraceMatched curE1 > 0 then
          if useM then (acc1 + st.backtraceMatched curE1, em1)
          else (acc1, em1.write CigarToCode format (st.backtraceMatched curE1) (ch '='))
        else (acc1, em1)
      emitLoop CigarToCode format useM st e n (curE1 + 1) acc2 em2
    else (accumulatedMs, em)

/-- Lines 298-357: the script read off the backtrace arrays. -/
def backtraceScript (CigarToCode : Byte → Nat) (format : CigarFormat) (useM : Bool)
    (MAX_K : Int) (st : LVState) (e : Int) (em : Emit) : Emit :=
  let (acc0, em0) :=
    if useM then (st.L 0 (MAX_K + 0), em)
    else if st.L 0 (MAX_K + 0) > 0 then
      ((0 : Int), em.write CigarToCode format (st.L 0 (MAX_K + 0)) (ch '='))
    else ((0 : Int), em)
  let (acc, em1) := emitLoop CigarToCode format useM st e e.toNat 1 acc0 em0
  if useM ∧ acc ≠ 0 then em1.write CigarToCode format acc (ch 'M') else em1

/-- The arguments of a call that stay fixed during the call. -/
structure Args where
  MAX_K : Int
  CigarToCode : Byte → Nat
  text : Mem
  textLen : Int
  pattern : Mem
  patternLen : Int
  k : Int
  useM : Bool
  format : CigarFormat
  cigarBufStart : Int
  wantUsed : Bool

/-- Lines 194-364: the block entered when `best == patternLen` at `(e, d)`; the value is
what the call returns with. -/
def acceptRet (a : Args) (e d : Int) (st : LVState) (buf : CigarBuf) : Ret :=
  let end_ := min a.patternLen a.textLen
  let em : Emit := { buf := buf, status := some true, script := [] }
  let straightMismatches := countMismatches a.pattern a.text end_.toNat 0 0 + (a.patternLen - end_)
  if straightMismatches = e then
    finish st a.cigarBufStart a.wantUsed false e
      (flatScript a.CigarToCode a.format a.useM a.pattern a.text a.patternLen end_ em)
  else
    let st1 := backtrace a.MAX_K e.toNat e d st
    finish st1 a.cigarBufStart a.wantUsed (decide (a.format ≠ .BAM_CIGAR_OPS)) e
      (backtraceScript a.CigarToCode a.format a.useM a.MAX_K st1 e em)

/-- Lines 190-365: `if (best == patternLen) { ... return ...; }`; `none` when the block is
not entered. -/
def accept (a : Args) (e d best : Int) (st : LVState) (buf : CigarBuf) : Option Ret :=
  if best = a.patternLen then some (acceptRet a e d st buf) else none

/-- Lines 151-188: the body of the loop over `d` up to the store into `L[e][MAX_K+d]`. -/
def cell (a : Args) (e d : Int) (st : LVState) : Int × LVState :=
  let best := st.L (e - 1) (a.MAX_K + d) + 1
  let A1 := set2 st.A e (a.MAX_K + d) (ch 'X')
  let left := st.L (e - 1) (a.MAX_K + d - 1)
  let (best1, A2) := if left > best then (left, set2 A1 e (a.MAX_K + d) (ch 'D')) else (best, A1)
  let right := st.L (e - 1) (a.MAX_K + d + 1) + 1
  let (best2, A3) :=
    if right > best1 then (right, set2 A2 e (a.MAX_K + d) (ch 'I')) else (best1, A2)
  let best3 := extend a.pattern a.text a.patternLen a.textLen d best2
  (best3, { st with A := A3, L := set2 st.L e (a.MAX_K + d) best3 })

/-- The loop `for (d = 0; d != -(e+1); d = (d >= 0 ? -(d+1) : -d))` of line 150: the
instance after the loop, or the value the call returned with inside it. -/
def dLoop (a : Args) (buf : CigarBuf) (e : Int) : Nat → Int → LVState → LVState ⊕ Ret
  | 0, _, st => .inl st
  | n + 1, d, st =>
    if d ≠ -(e + 1) then
      let (best, st1) := cell a e d st
      match accept a e d best st1 buf with
      | some r => .inr r
      | none => dLoop a buf e n (if d ≥ 0 then -(d + 1) else -d) st1
    else .inl st

/-- The loop `for (e = 1; e <= k; e++)` of line 147 and the lines 369-371 after it. -/
def eLoop (a : Args) (buf : CigarBuf) : Nat → Int → LVState → Ret
  | 0, _, st =>
    { result := some (-1), st := st,
      buf := buf.store (buf.buf - (if buf.buflen = 0 then 1 else 0)) 0,
      cigarBufUsed := none, script := [] }
  | n + 1, e, st =>
    if e ≤ a.k then
      match dLoop a buf e (2 * e + 1).toNat 0 st with
      | .inr r => r
      | .inl st1 => eLoop a buf n (e + 1) st1
    else
      { result := some (-1), st := st,
        buf := buf.store (buf.buf - (if buf.buflen = 0 then 1 else 0)) 0,
        cigarBufUsed := none, script := [] }

/-- Method `LandauVishkinWithCigar::computeEditDistance`, called on the instance `st`.
`text` is `none` for a null pointer; `cigarBuf` holds the output pointer, `cigarBufLen`
and the memory behind the pointer; `wantUsed` says that `cigarBufUsed` is not null. -/
def computeEditDistance (MAX_K : Int) (CigarToCode : Byte → Nat) (st : LVState)
    (text : Option Mem) (textLen : Int) (pattern : Mem) (patternLen : Int) (k : Int)
    (cigarBuf : CigarBuf) (useM : Bool) (format : CigarFormat) (wantUsed : Bool) : Ret :=
  match text with
  | none => { result := some (-1), st := st, buf := cigarBuf, cigarBufUsed := none, script := [] }
  | some text =>
    let a : Args := { MAX_K := MAX_K, CigarToCode := CigarToCode, text := text, textLen := textLen,
                      pattern := pattern, patternLen := patternLen, k := k, useM := useM,
                      format := format, cigarBufStart := cigarBuf.buf, wantUsed := wantUsed }
    let end_ := min patternLen textLen
    let st0 := { st with L := set2 st.L 0 MAX_K (seedScan pattern text end_ (end_.toNat + 1) 0) }
    if st0.L 0 MAX_K = end_ then
      finish st0 cigarBuf.buf wantUsed false 0
        (exactScript CigarToCode format useM patternLen end_
          { buf := cigarBuf, status := some true, script := [] })
    else eLoop a cigarBuf k.toNat 1 st0

/-! ## Notions used to state the properties -/

/-- Successive calls of `writeCigar` for the operations of `ops`, up to the first call
that does not return true. -/
def writeCigars (CigarToCode : Byte → Nat) (format : CigarFormat) :
    List (Int × Byte) → CigarBuf → Option Bool × CigarBuf
  | [], b => (some true, b)
  | op :: ops, b =>
    match writeCigar CigarToCode b op.1 op.2 format with
    | (some true, b1) => writeCigars CigarToCode format ops b1
    | r => r

/-- The bytes of `mem` at the `n` addresses from `a`. -/
def readBytes (mem : Int → Byte) : Int → Nat → List Byte
  | _, 0 => []
  | a, n + 1 => mem a :: readBytes mem (a + 1) n

/-- The ASCII digits. -/
def isDigit (c : Byte) : Bool := decide (48 ≤ c.val ∧ c.val ≤ 57)

/-- Reading a compact CIGAR string as repeated (decimal number, one character) pairs;
`acc` is the value of the digits read since the last pair. -/
def parseCompact : Nat → List Byte → List (Nat × Byte)
  | _, [] => []
  | acc, c :: cs =>
    if isDigit c then parseCompact (10 * acc + (c.val - 48)) cs
    else (acc, c) :: parseCompact 0 cs

/-- The loop over `d` of line 150 without the block of lines 190-365: the instance after
the loop, or the first `d` at which `best == patternLen` with the instance at that point. -/
def dSearch (a : Args) (e : Int) : Nat → Int → LVState → LVState ⊕ (Int × LVState)
  | 0, _, st => .inl st
  | n + 1, d, st =>
    if d ≠ -(e + 1) then
      if (cell a e d st).1 = a.patternLen then .inr (d, (cell a e d st).2)
      else dSearch a e n (if d ≥ 0 then -(d + 1) else -d) (cell a e d st).2
    else .inl st

/-- The loop over `e` of line 147 without the block of lines 190-365: the instance after
the loop, or the first `(e, d)` at which `best == patternLen` with the instance at that
point. -/
def eSearch (a : Args) : Nat → Int → LVState → LVState ⊕ (Int × Int × LVState)
  | 0, _, st => .inl st
  | n + 1, e, st =>
    if e ≤ a.k then
      match dSearch a e (2 * e + 1).toNat 0 st with
      | .inr (d, st1) => .inr (e, d, st1)
      | .inl st1 => eSearch a n (e + 1) st1
    else .inl st

/-- The value returned after the loops (lines 369-371). -/
def exceeded (st : LVState) (buf : CigarBuf) : Ret :=
  { result := some (-1), st := st,
    buf := buf.store (buf.buf - (if buf.buflen = 0 then 1 else 0)) 0,
    cigarBufUsed := none, script := [] }

/-- The choice of lines 151-162 among the three cells `up = L[e-1][d]`,
`left = L[e-1][d-1]`, `right = L[e-1][d+1]` of the row above: the candidate `best` and
the action recorded for it. -/
def choose (up left right : Int) : Int × Byte :=
  if right + 1 > (if left > up + 1 then left else up + 1) then (right + 1, ch 'I')
  else if left > up + 1 then (left, ch 'D')
  else (up + 1, ch 'X')

/-- The loop of `extendScan` in exact integers: the sum of line 176 without the 32-bit
wrap. -/
def exactScan (pattern text : Mem) (d end_ : Int) : Nat → Int → Int
  | 0, _ => end_
  | fuel + 1, off =>
    let x := load pattern 8 off ^^^ load text 8 (d + off)
    if x ≠ 0 then min (off + ((CountTrailingZeroes x >>> 3 : Nat) : Int)) end_
    else if off + 8 ≥ end_ then end_
    else exactScan pattern text d end_ fuel (off + 8)

/-- The extension of `extend` in exact integers: the difference of line 167 and the sum
of line 176 without the 32-bit wrap. -/
def exactExtend (pattern text : Mem) (patternLen textLen d best : Int) : Int :=
  if pattern best = text (d + best) then
    let end_ := min patternLen (textLen - d)
    exactScan pattern text d end_ ((end_ - best).toNat + 1) best
  else best

/-- The Landau-Vishkin table of the call in exact integers, as a function of `e` and `d`:
the seed in row 0, the extension of the chosen candidate for `|d| ≤ e`, and the `-2` of
the constructor in the cells that are never written. It is what the call stores in
`L[e][MAX_K+d]` as long as lines 167 and 176 do not overflow (`NoWrap`). -/
def lv (a : Args) : Nat → Int → Int
  | 0, d =>
    if d = 0 then
      seedScan a.pattern a.text (min a.patternLen a.textLen)
        ((min a.patternLen a.textLen).toNat + 1) 0
    else -2
  | e + 1, d =>
    if -((e : Int) + 1) ≤ d ∧ d ≤ (e : Int) + 1 then
      exactExtend a.pattern a.text a.patternLen a.textLen d
        (choose (lv a e d) (lv a e (d - 1)) (lv a e (d + 1))).1
    else -2

/-- The candidate `best` of the cell `(e + 1, d)` before its extension. -/
def lc (a : Args) (e : Nat) (d : Int) : Int :=
  (choose (lv a e d) (lv a e (d - 1)) (lv a e (d + 1))).1

/-- The action the call stores in `A[e+1][MAX_K+d]`. -/
def la (a : Args) (e : Nat) (d : Int) : Byte :=
  (choose (lv a e d) (lv a e (d - 1)) (lv a e (d + 1))).2

/-- Lines 167 and 176 do not overflow in any cell the call computes: in every row
`e + 1 ≤ k` that is reached (no cell of the rows up to `e` holds `patternLen`) the 32-bit
extension of the candidate agrees with the exact one on each diagonal of the row. -/
def NoWrap (a : Args) : Prop :=
  ∀ (e : Nat) (d : Int), (e : Int) + 1 ≤ a.k →
    (∀ e' : Nat, e' ≤ e → ∀ d' : Int, -(e' : Int) ≤ d' → d' ≤ (e' : Int) →
      lv a e' d' ≠ a.patternLen) →
    -((e : Int) + 1) ≤ d → d ≤ (e : Int) + 1 →
    extend a.pattern a.text a.patternLen a.textLen d (lc a e d) =
      exactExtend a.pattern a.text a.patternLen a.textLen d (lc a e d)

/-- The place of `d` in the order `0, -1, 1, -2, 2, ...` of the loop of line 150. -/
def scanPos (d : Int) : Nat := if d ≥ 0 then (2 * d).toNat else (-2 * d - 1).toNat

/-- The instance holds only the constructor's `-2` in the cells of `L` that no call
writes (row `e ≥ 0`, `|d| > e`). -/
def LVState.Clean (MAX_K : Int) (st : LVState) : Prop :=
  ∀ (e : Nat) (d : Int), ((e : Int) < d ∨ d < -(e : Int)) → st.L e (MAX_K + d) = -2

/-- The tables of the instance hold the rows below `e` of the call in progress. -/
def Tab (a : Args) (st : LVState) (e : Nat) : Prop :=
  (∀ e' : Nat, e' < e → ∀ d : Int, st.L e' (a.MAX_K + d) = lv a e' d) ∧
  (∀ e' : Nat, e' + 1 < e → ∀ d : Int, -((e' : Int) + 1) ≤ d → d ≤ (e' : Int) + 1 →
    st.A ((e' : Int) + 1) (a.MAX_K + d) = la a e' d) ∧
  st.Clean a.MAX_K

/-- The tables hold the cells of row `e + 1` that come before place `p` of the loop over
`d`, and none of them reached `patternLen`. -/
def RowPart (a : Args) (st : LVState) (e : Nat) (p : Nat) : Prop :=
  ∀ d : Int, scanPos d < p →
    st.L ((e : Int) + 1) (a.MAX_K + d) = lv a (e + 1) d ∧
    st.A ((e : Int) + 1) (a.MAX_K + d) = la a e d ∧
    lv a (e + 1) d ≠ a.patternLen

/-- The position at which the search of row `e + 1` stopped: `d`, with the tables `st`. -/
def RowFound (a : Args) (e : Nat) (d : Int) (st : LVState) : Prop :=
  (-((e : Int) + 1) ≤ d ∧ d ≤ (e : Int) + 1) ∧ lv a (e + 1) d = a.patternLen ∧
  Tab a st (e + 1) ∧ RowPart a st e (scanPos d) ∧
  st.L ((e : Int) + 1) (a.MAX_K + d) = a.patternLen ∧
  st.A ((e : Int) + 1) (a.MAX_K + d) = la a e d

/-- The calls `writeCigar(.., count, code, ..)` for the operations of `calls`, in order,
each made only while the calls before it returned true. -/
def writeAll (CigarToCode : Byte → Nat) (format : CigarFormat) (calls : List (Int × Byte))
    (em : Emit) : Emit :=
  calls.foldl (fun em op => em.write CigarToCode format op.1 op.2) em

/-- The `(count, code)` arguments of the `writeCigar` calls of lines 123-139. -/
def exactCalls (useM : Bool) (patternLen end_ : Int) : List (Int × Byte) :=
  if useM then [(patternLen, ch 'M')]
  else if patternLen > end_ then [(end_, ch '='), (patternLen - end_, ch 'X')]
  else [(end_, ch '=')]

/-- The arguments of the `writeCigar` calls of the loop of lines 214-223, with the final
`(streakStart, matching)`. -/
def streakCalls (pattern text : Mem) : Nat → Int → Int → Bool → Int × Bool × List (Int × Byte)
  | 0, _, streakStart, matching => (streakStart, matching, [])
  | n + 1, i, streakStart, matching =>
    if decide (pattern i = text i) ≠ matching then
      ((streakCalls pattern text n (i + 1) i (decide (pattern i = text i))).1,
       (streakCalls pattern text n (i + 1) i (decide (pattern i = text i))).2.1,
       (i - streakStart, if matching then ch '=' else ch 'X')
         :: (streakCalls pattern text n (i + 1) i (decide (pattern i = text i))).2.2)
    else streakCalls pattern text n (i + 1) streakStart matching

/-- The arguments of the `writeCigar` calls of lines 203-244. -/
def flatCalls (useM : Bool) (pattern text : Mem) (patternLen end_ : Int) : List (Int × Byte) :=
  if useM then [(patternLen, ch 'M')]
  else
    (streakCalls pattern text end_.toNat 0 0 (decide (pattern 0 = text 0))).2.2 ++
    (if patternLen > (streakCalls pattern text end_.toNat 0 0 (decide (pattern 0 = text 0))).1 then
      if !(streakCalls pattern text end_.toNat 0 0 (decide (pattern 0 = text 0))).2.1 then
        [(patternLen - (streakCalls pattern text end_.toNat 0 0 (decide (pattern 0 = text 0))).1,
          ch 'X')]
      else
        (end_ - (streakCalls pattern text end_.toNat 0 0 (decide (pattern 0 = text 0))).1, ch '=')
          :: (if patternLen > end_ then [(patternLen - end_, ch 'X')] else [])
    else [])

/-- The arguments of the `writeCigar` calls of one round of the loop of lines 311-349,
for the action `action` repeated `actionCount` times and followed by `matched` exact
matches, with the new `accumulatedMs`. -/
def roundCalls (useM : Bool) (action : Byte) (actionCount matched accumulatedMs : Int) :
    Int × List (Int × Byte) :=
  if useM then
    if action = ch '=' ∨ action = ch 'X' then
      (if matched > 0 then accumulatedMs + actionCount + matched else accumulatedMs + actionCount,
       [])
    else
      (if matched > 0 then 0 + matched else 0,
       (if accumulatedMs ≠ 0 then [(accumulatedMs, ch 'M')] else []) ++ [(actionCount, action)])
  else
    (accumulatedMs,
     (actionCount, action) :: (if matched > 0 then [(matched, ch '=')] else []))

/-- The arguments of the `writeCigar` calls of the loop of lines 311-349, with the final
`accumulatedMs`. -/
def emitCalls (useM : Bool) (st : LVState) (e : Int) : Nat → Int → Int → Int × List (Int × Byte)
  | 0, _, accumulatedMs => (accumulatedMs, [])
  | n + 1, curE, accumulatedMs =>
    if curE ≤ e then
      ((emitCalls useM st e n
          ((repeatLoop st e (st.backtraceAction curE) (e - curE).toNat 1 curE).2 + 1)
          (roundCalls useM (st.backtraceAction curE)
            (repeatLoop st e (st.backtraceAction curE) (e - curE).toNat 1 curE).1
            (st.backtraceMatched (repeatLoop st e (st.backtraceAction curE) (e - curE).toNat 1 curE).2)
            accumulatedMs).1).1,
       (roundCalls useM (st.backtraceAction curE)
            (repeatLoop st e (st.backtraceAction curE) (e - curE).toNat 1 curE).1
            (st.backtraceMatched (repeatLoop st e (st.backtraceAction curE) (e - curE).toNat 1 curE).2)
            accumulatedMs).2 ++
        (emitCalls useM st e n
          ((repeatLoop st e (st.backtraceAction curE) (e - curE).toNat 1 curE).2 + 1)
          (roundCalls useM (st.backtraceAction curE)
            (repeatLoop st e (st.backtraceAction curE) (e - curE).toNat 1 curE).1
            (st.backtraceMatched (repeatLoop st e (st.backtraceAction curE) (e - curE).toNat 1 curE).2)
            accumulatedMs).1).2)
    else (accumulatedMs, [])

/-- The arguments of the `writeCigar` calls of lines 298-357. -/
def backtraceCalls (useM : Bool) (MAX_K : Int) (st : LVState) (e : Int) : List (Int × Byte) :=
  if useM then
    (emitCalls useM st e e.toNat 1 (st.L 0 (MAX_K + 0))).2 ++
      (if (emitCalls useM st e e.toNat 1 (st.L 0 (MAX_K + 0))).1 ≠ 0 then
        [((emitCalls useM st e e.toNat 1 (st.L 0 (MAX_K + 0))).1, ch 'M')] else [])
  else
    (if st.L 0 (MAX_K + 0) > 0 then [(st.L 0 (MAX_K + 0), ch '=')] else []) ++
      (emitCalls useM st e e.toNat 1 0).2

/-- The operations of a list of calls that are written: those with a positive count. -/
def written (calls : List (Int × Byte)) : List (Int × Byte) :=
  calls.filter (fun op => decide (op.1 > 0))

/-- The arguments of a call gathered as in `computeEditDistance`. -/
def callArgs (MAX_K : Int) (CigarToCode : Byte → Nat) (text : Mem) (textLen : Int)
    (pattern : Mem) (patternLen k : Int) (cigarBuf : CigarBuf) (useM : Bool)
    (format : CigarFormat) (wantUsed : Bool) : Args :=
  { MAX_K := MAX_K, CigarToCode := CigarToCode, text := text, textLen := textLen,
    pattern := pattern, patternLen := patternLen, k := k, useM := useM,
    format := format, cigarBufStart := cigarBuf.buf, wantUsed := wantUsed }

/-- The number of positions `i < n` with `pattern[i] != text[i]`; for two strings of
length `n` their Hamming distance. -/
def mismatches (pattern text : Mem) : Nat → Nat
  | 0 => 0
  | n + 1 => mismatches pattern text n + (if pattern (n : Int) ≠ text (n : Int) then 1 else 0)

/-- A script spelled out one opcode per position: each run `(count, code)` becomes
`count` copies of `code`. -/
def expand (s : List (Int × Byte)) : List Byte :=
  s.flatMap (fun op => List.replicate op.1.toNat op.2)

/-- The opcode of position `i` in an alignment without indels: `=` where the bytes agree
inside the text window, `X` elsewhere. -/
def flatOp (pattern text : Mem) (end_ : Int) (i : Int) : Byte :=
  if i < end_ ∧ pattern i = text i then ch '=' else ch 'X'

/-- The opcodes of the `n` positions from `i` in an alignment without indels. -/
def flatOps (pattern text : Mem) (end_ : Int) : Int → Nat → List Byte
  | _, 0 => []
  | i, n + 1 => flatOp pattern text end_ i :: flatOps pattern text end_ (i + 1) n

/-- The diagonal the backtrace moves to from diagonal `d` for an action (lines 281-291). -/
def prevD (action : Byte) (d : Int) : Int :=
  if action = ch 'I' then d + 1 else if action = ch 'D' then d - 1 else d

/-- The diagonal in row `j` of the path the backtrace follows down from the cell `(e, d)`. -/
def route (a : Args) : Nat → Int → Nat → Int
  | 0, d, _ => d
  | e + 1, d, j => if j ≥ e + 1 then d else route a e (prevD (la a e d) d) j

/-- Replaying a script spelled out one opcode per position, with a pattern cursor `i` and
a text cursor `j`: `=` needs equal bytes inside the text, `X` needs different bytes or a
text position at or past `textLen`, `I` moves only `i`, `D` only `j`; no other opcode is
accepted.  The value is the pair of cursors after the script. -/
def replayOps (pattern text : Mem) (textLen : Int) : List Byte → Int → Int → Option (Int × Int)
  | [], i, j => some (i, j)
  | op :: ops, i, j =>
    if op = ch '=' then
      if pattern i = text j ∧ j < textLen then replayOps pattern text textLen ops (i + 1) (j + 1)
      else none
    else if op = ch 'X' then
      if pattern i ≠ text j ∨ textLen ≤ j then replayOps pattern text textLen ops (i + 1) (j + 1)
      else none
    else if op = ch 'I' then replayOps pattern text textLen ops (i + 1) j
    else if op = ch 'D' then replayOps pattern text textLen ops i (j + 1)
    else none

/-- Replaying a script of runs `(count, opcode)` with a pattern cursor `i` and a text
cursor `j`: an `=` run of `n` needs `pattern[i..i+n)` equal to `text[j..j+n)` inside the
text and moves both cursors by `n`; an `X` run of `n` needs each of its pattern bytes to
differ from the text byte at the same text position, or that position to be at or past
`textLen`, and moves both cursors by `n`; an `I` run moves only `i`, a `D` run only `j`.
The value is the pair of cursors after the script, `none` when a run is not consistent
with the inputs. -/
def replay (pattern text : Mem) (textLen : Int) :
    List (Int × Byte) → Int → Int → Option (Int × Int)
  | [], i, j => some (i, j)
  | (n, c) :: s, i, j =>
    if c = ch '=' then
      if ∀ t : Nat, t < n.toNat → pattern (i + t) = text (j + t) ∧ j + t < textLen then
        replay pattern text textLen s (i + n) (j + n)
      else none
    else if c = ch 'X' then
      if ∀ t : Nat, t < n.toNat → pattern (i + t) ≠ text (j + t) ∨ textLen ≤ j + t then
        replay pattern text textLen s (i + n) (j + n)
      else none
    else if c = ch 'I' then replay pattern text textLen s (i + n) j
    else if c = ch 'D' then replay pattern text textLen s i (j + n)
    else none

/-- The opcodes the backtrace arrays stand for in the `n` rows from `i`: the action of
each row followed by its exact matches. -/
def arrOps (st : LVState) : Int → Nat → List Byte
  | _, 0 => []
  | i, n + 1 =>
    st.backtraceAction i :: (List.replicate (st.backtraceMatched i).toNat (ch '=')
      ++ arrOps st (i + 1) n)

/-- The opcodes along the path of the backtrace from `(F, df)`, from the seed up to
row `j`: the seed's exact matches, then for each row its action and its exact matches. -/
def routeOps (a : Args) (F : Nat) (df : Int) : Nat → List Byte
  | 0 => List.replicate (lv a 0 0).toNat (ch '=')
  | j + 1 =>
    routeOps a F df j ++ (la a j (route a F df (j + 1))
      :: List.replicate (lv a (j + 1) (route a F df (j + 1))
          - lc a j (route a F df (j + 1))).toNat (ch '='))

/-- The bytes of one operation in compact text: its count in decimal, then its opcode. -/
def compactBytes (op : Int × Byte) : List Nat := decimal op.1.toNat ++ [op.2.val]

/-- The memory holding the bytes of `l` from offset 0 on and `pad` everywhere else. -/
def bytesOf (l : List Char) (pad : Byte) : Mem := fun i =>
  if i < 0 then pad else (l.map ch).getD i.toNat pad

/-- An output buffer of `n` bytes at address `p`, zero-filled, with nothing stored yet. -/
def freshBuf (p n : Int) : CigarBuf := { buf := p, buflen := n, mem := fun _ => 0, log := [] }

/-- A newly constructed instance (arrays other than `L` zero-filled). -/
def fresh : LVState := LVState.init (fun _ _ => 0) (fun _ => 0) (fun _ => 0) (fun _ => 0)


/-! ## The collapse of a script, following the wording of the unified-match mode -/

/-- The opcode of the unified-match mode for an opcode of the distinct mode: `M` for
`=` and `X`, the opcode itself otherwise. -/
def toM (op : Byte) : Byte := if op = ch '=' ∨ op = ch 'X' then ch 'M' else op

/-- Adjacent `M` runs merged into one run whose length is their sum; other runs are
unchanged. -/
def mergeM : List (Int × Byte) → List (Int × Byte)
  | [] => []
  | (n, op) :: rest =>
    match mergeM rest with
    | [] => [(n, op)]
    | (m, op2) :: rest1 =>
      if op = ch 'M' ∧ op2 = ch 'M' then (n + m, ch 'M') :: rest1
      else (n, op) :: (m, op2) :: rest1

/-- The collapse of a script of the distinct mode: every `=` and `X` opcode replaced by
`M`, then adjacent `M` runs merged. -/
def collapse (s : List (Int × Byte)) : List (Int × Byte) :=
  mergeM (s.map (fun op => (op.1, toM op.2)))

/-! ## Edit distance -/

/-- The number of edits of a sequence of opcodes: every opcode other than `=`. -/
def editCost (ops : List Byte) : Nat := (ops.filter (fun c => decide (c ≠ ch '='))).length

/-- The Levenshtein distance (substitutions, insertions and deletions of cost 1) between
the first `patternLen` bytes of `pattern` and the first `j` bytes of `text`. -/
def prefixDistance (pattern text : Mem) (patternLen : Int) (j : Nat) : Nat :=
  levenshtein Levenshtein.defaultCost (readBytes pattern 0 patternLen.toNat) (readBytes text 0 j)

/-- The minimum of `prefixDistance` over the prefixes of `text` of length at most `n`. -/
def minDistance (pattern text : Mem) (patternLen : Int) : Nat → Nat
  | 0 => prefixDistance pattern text patternLen 0
  | n + 1 => min (minDistance pattern text patternLen n) (prefixDistance pattern text patternLen (n + 1))

/-- The total length of the insertion and deletion runs of a script. -/
def indelLength (s : List (Int × Byte)) : Int :=
  ((s.filter (fun op => decide (op.2 = ch 'I' ∨ op.2 = ch 'D'))).map (fun op => op.1)).sum

/-- The number of edits of a script: the total length of its runs other than `=`. -/
def editLength (s : List (Int × Byte)) : Int :=
  ((s.filter (fun op => decide (op.2 ≠ ch '='))).map (fun op => op.1)).sum


/-! ## Notions for the claims on exhaustion and on the per-position script -/

/-- The state of the writes of a call in a text format with the buffer ending at `E`:
while every call returned true there is room left before `E`; after a call returned
false the byte before `E` is a NUL; no call exits. -/
def TextInv (E : Int) (em : Emit) : Prop :=
  (em.status = some true → em.buf.buf + em.buf.buflen = E ∧ 1 ≤ em.buf.buflen) ∧
  (em.status = some false → em.buf.mem (E - 1) = 0) ∧
  em.status ≠ none

/-- A run of `n` copies of `c` put before a run-length encoded sequence: it joins the
first run when that run has the same opcode; nothing is added for `n ≤ 0`. -/
def rlePush (n : Int) (c : Byte) (s : List (Int × Byte)) : List (Int × Byte) :=
  if n ≤ 0 then s
  else
    match s with
    | [] => [(n, c)]
    | (m, c2) :: rest => if c = c2 then (n + m, c) :: rest else (n, c) :: (m, c2) :: rest

/-- The run-length encoding of a sequence of opcodes: maximal runs of equal opcodes, each
as `(length, opcode)`. -/
def rle : List Byte → List (Int × Byte)
  | [] => []
  | c :: cs => rlePush 1 c (rle cs)

/-- The number of `X`, `I` and `D` opcodes of a sequence of opcodes. -/
def xidCount (ops : List Byte) : Nat :=
  (ops.filter (fun c => decide (c = ch 'X' ∨ c = ch 'I' ∨ c = ch 'D'))).length

/-- The total length of the `X`, `I` and `D` runs of a script. -/
def xidLength (s : List (Int × Byte)) : Int :=
  ((s.filter (fun op => decide (op.2 = ch 'X' ∨ op.2 = ch 'I' ∨ op.2 = ch 'D'))).map
    (fun op => op.1)).sum

/-- The arguments of one call of `computeEditDistance`. -/
structure Call where
  text : Option Mem
  textLen : Int
  pattern : Mem
  patternLen : Int
  k : Int
  cigarBuf : CigarBuf
  useM : Bool
  format : CigarFormat
  wantUsed : Bool

/-- The call `c` made on the instance `st`. -/
def Call.run (MAX_K : Int) (CigarToCode : Byte → Nat) (st : LVState) (c : Call) : Ret :=
  computeEditDistance MAX_K CigarToCode st c.text c.textLen c.pattern c.patternLen c.k
    c.cigarBuf c.useM c.format c.wantUsed

/-- The instance after the calls of `calls` were made on it in order. -/
def afterCalls (MAX_K : Int) (CigarToCode : Byte → Nat) : LVState → List Call → LVState
  | st, [] => st
  | st, c :: cs => afterCalls MAX_K CigarToCode (c.run MAX_K CigarToCode st).st cs

/-! ## `setLVProbabilities` -/

/-- The globals `lv_indelProbabilities` and `lv_phredToProbability`: each is the array
the pointer points to, as a function of the index.  A `double` is a rational number
(arithmetic taken as exact). -/
structure LVGlobals where
  lv_indelProbabilities : Nat → ℚ
  lv_phredToProbability : Nat → ℚ

/-- The loop `for (unsigned i = 0; i < 255; i++) lv_phredToProbability[i] = ...` of lines
384-386, from `i` on; `fuel` bounds the number of iterations. -/
def setLoop (i_phredToProbability : Nat → ℚ) (mutationProbability : ℚ) :
    Nat → Nat → (Nat → ℚ) → (Nat → ℚ)
  | 0, _, table => table
  | fuel + 1, i, table =>
    if i < 255 then
      setLoop i_phredToProbability mutationProbability fuel (i + 1)
        (fun j => if j = i then
            1 - (1 - i_phredToProbability i) * (1 - mutationProbability)
          else table j)
    else table

/-- Function `setLVProbabilities` (lines 374-387). -/
def setLVProbabilities (g : LVGlobals) (i_indelProbabilities i_phredToProbability : Nat → ℚ)
    (mutationProbability : ℚ) : LVGlobals :=
  { lv_indelProbabilities := i_indelProbabilities,
    lv_phredToProbability :=
      setLoop i_phredToProbability mutationProbability 255 0 g.lv_phredToProbability }


/-! ## The encoder `writeCigar` -/

theorem fin_ofNat_val {v : Nat} (h : v < 256) : ((Fin.ofNat v : Byte) : Nat) = v := by
  simp [Fin.ofNat, Nat.mod_eq_of_lt h]

theorem shift4_or (n c : Nat) (hc : c ≤ 15) : (n <<< 4) ||| c = 16 * n + c := by
  have h := Nat.mul_add_lt_is_or (i := 4) (b := c) (by norm_num; omega) n
  rw [Nat.shiftLeft_eq, Nat.mul_comm]
  exact h.symm

theorem writeCigar_bam_fail (CigarToCode : Byte → Nat) (b : CigarBuf) (count : Int) (code : Byte)
    (hcount : 1 ≤ count) (h : b.buflen < 4 ∨ count ≥ 2 ^ 28) :
    writeCigar CigarToCode b count code .BAM_CIGAR_OPS = (some false, b) := by
  have hc0 : ¬ count ≤ 0 := by omega
  simp only [writeCigar, hc0, if_false, h, if_true]

theorem writeCigar_bam_ok (CigarToCode : Byte → Nat) (b : CigarBuf) (count : Int) (code : Byte)
    (hcount : 1 ≤ count) (h4 : 4 ≤ b.buflen) (h28 : count < 2 ^ 28) :
    writeCigar CigarToCode b count code .BAM_CIGAR_OPS =
      (some true,
        { storeBytes
            [((count.toNat <<< 4) ||| CigarToCode code) % 2 ^ 32 % 256,
             ((count.toNat <<< 4) ||| CigarToCode code) % 2 ^ 32 / 256 % 256,
             ((count.toNat <<< 4) ||| CigarToCode code) % 2 ^ 32 / 65536 % 256,
             ((count.toNat <<< 4) ||| CigarToCode code) % 2 ^ 32 / 16777216 % 256] b.buf b with
          buf := b.buf + 4, buflen := b.buflen - 4 }) := by
  have hc0 : ¬ count ≤ 0 := by omega
  have hf : ¬ (b.buflen < 4 ∨ count ≥ 2 ^ 28) := by omega
  simp only [writeCigar, hc0, if_false, hf]
  rfl

theorem storeBytes4_mem (b : CigarBuf) (p : Int) (v0 v1 v2 v3 : Nat) (a : Int) :
    (storeBytes [v0, v1, v2, v3] p b).mem a =
      if a = p + 3 then Fin.ofNat v3 else if a = p + 2 then Fin.ofNat v2
      else if a = p + 1 then Fin.ofNat v1 else if a = p then Fin.ofNat v0 else b.mem a := by
  simp only [storeBytes, CigarBuf.store]
  have e2 : p + 1 + 1 = p + 2 := by ring
  have e3 : p + 1 + 1 + 1 = p + 3 := by ring
  rw [e3, e2]

/-- C10. `writeCigar` in `BAM_CIGAR_OPS` format with `count ≥ 1` and `CigarToCode[code]` in
`0..15` returns true exactly when `*o_buflen ≥ 4` and `count < 2^28`.  On success the
four bytes at the cursor are the only ones stored, they hold the little-endian word `w`
with `w >> 4 = count` and `w & 15 = CigarToCode[code]`, the cursor advances by 4 and the
remaining length drops by 4.  Otherwise the call returns false and leaves the buffer,
the cursor and the remaining length as they were. -/
theorem writeCigar_bam (CigarToCode : Byte → Nat) (b : CigarBuf) (count : Int) (code : Byte)
    (hcount : 1 ≤ count) (hcode : CigarToCode code ≤ 15) :
    let r := writeCigar CigarToCode b count code .BAM_CIGAR_OPS
    let w := (r.2.mem b.buf).val + 256 * (r.2.mem (b.buf + 1)).val
      + 65536 * (r.2.mem (b.buf + 2)).val + 16777216 * (r.2.mem (b.buf + 3)).val
    (r.1 = some true ↔ (4 ≤ b.buflen ∧ count < 2 ^ 28)) ∧
    (r.1 = some true →
      w >>> 4 = count.toNat ∧ w &&& 15 = CigarToCode code ∧
      r.2.buf = b.buf + 4 ∧ r.2.buflen = b.buflen - 4 ∧
      r.2.log = [b.buf + 3, b.buf + 2, b.buf + 1, b.buf] ++ b.log ∧
      ∀ a, (a < b.buf ∨ b.buf + 4 ≤ a) → r.2.mem a = b.mem a) ∧
    (r.1 ≠ some true → r.1 = some false ∧ r.2 = b) := by
  by_cases hfail : b.buflen < 4 ∨ count ≥ 2 ^ 28
  · rw [writeCigar_bam_fail CigarToCode b count code hcount hfail]
    refine ⟨?_, ?_, ?_⟩
    · simp only [reduceCtorEq, false_iff, not_and, not_lt, Option.some.injEq]
      intro h4
      rcases hfail with h | h
      · omega
      · exact h
    · intro h; simp at h
    · intro _; exact ⟨rfl, rfl⟩
  · have h4 : 4 ≤ b.buflen := by omega
    have h28 : count < 2 ^ 28 := by omega
    rw [writeCigar_bam_ok CigarToCode b count code hcount h4 h28]
    obtain ⟨n, rfl⟩ : ∃ n : Nat, count = n := ⟨count.toNat, by omega⟩
    have hn : n < 2 ^ 28 := by exact_mod_cast h28
    norm_num at hn
    simp only [Int.toNat_ofNat, shift4_or n _ hcode]
    have hw : (16 * n + CigarToCode code) % 2 ^ 32 = 16 * n + CigarToCode code := by
      apply Nat.mod_eq_of_lt; omega
    rw [hw]
    generalize hW : 16 * n + CigarToCode code = W
    have hWlt : W < 4294967296 := by omega
    refine ⟨⟨fun _ => ⟨h4, h28⟩, fun _ => trivial⟩, ?_, by simp⟩
    intro _
    have e0 : ((Fin.ofNat (W % 256) : Byte) : Nat) = W % 256 := fin_ofNat_val (by omega)
    have e1 : ((Fin.ofNat (W / 256 % 256) : Byte) : Nat) = W / 256 % 256 :=
      fin_ofNat_val (by omega)
    have e2 : ((Fin.ofNat (W / 65536 % 256) : Byte) : Nat) = W / 65536 % 256 :=
      fin_ofNat_val (by omega)
    have e3 : ((Fin.ofNat (W / 16777216 % 256) : Byte) : Nat) = W / 16777216 % 256 :=
      fin_ofNat_val (by omega)
    have hsum : W % 256 + 256 * (W / 256 % 256) + 65536 * (W / 65536 % 256)
        + 16777216 * (W / 16777216 % 256) = W := by omega
    have m0 : ∀ v0 v1 v2 v3, (storeBytes [v0, v1, v2, v3] b.buf b).mem b.buf = Fin.ofNat v0 := by
      intro v0 v1 v2 v3; rw [storeBytes4_mem]; simp
    have m1 : ∀ v0 v1 v2 v3,
        (storeBytes [v0, v1, v2, v3] b.buf b).mem (b.buf + 1) = Fin.ofNat v1 := by
      intro v0 v1 v2 v3; rw [storeBytes4_mem]; simp
    have m2 : ∀ v0 v1 v2 v3,
        (storeBytes [v0, v1, v2, v3] b.buf b).mem (b.buf + 2) = Fin.ofNat v2 := by
      intro v0 v1 v2 v3; rw [storeBytes4_mem]; simp
    have m3 : ∀ v0 v1 v2 v3,
        (storeBytes [v0, v1, v2, v3] b.buf b).mem (b.buf + 3) = Fin.ofNat v3 := by
      intro v0 v1 v2 v3; rw [storeBytes4_mem]; simp
    refine ⟨?_, ?_, trivial, trivial, ?_, ?_⟩
    · simp only [m0, m1, m2, m3, e0, e1, e2, e3, hsum]
      rw [Nat.shiftRight_eq_div_pow]; omega
    · simp only [m0, m1, m2, m3, e0, e1, e2, e3, hsum]
      have := Nat.and_pow_two_sub_one_eq_mod W 4
      norm_num at this
      rw [this]; omega
    · simp [storeBytes, CigarBuf.store, add_assoc]
    · intro a ha
      simp only [storeBytes4_mem]
      have h3 : a ≠ b.buf + 3 := by omega
      have h2 : a ≠ b.buf + 2 := by omega
      have h1 : a ≠ b.buf + 1 := by omega
      have h0 : a ≠ b.buf := by omega
      simp [h0, h1, h2, h3]

theorem writeCigar_bam_witness :
    (writeCigar (fun _ => 7) (freshBuf 100 4) (2 ^ 28 - 1) (ch 'M') .BAM_CIGAR_OPS).1 = some true :=
  ((writeCigar_bam (fun _ => 7) (freshBuf 100 4) (2 ^ 28 - 1) (ch 'M')
    (by decide) (by decide)).1).2 ⟨by decide, by decide⟩


/-! ### Compact text: `%d%c` and its reading -/

theorem decimalAux_eq (fuel : Nat) : ∀ (n : Nat) (acc : List Nat), 1 ≤ n → n ≤ fuel →
    decimalAux fuel n acc = ((Nat.digits 10 n).reverse.map (48 + ·)) ++ acc := by
  induction fuel with
  | zero => intro n acc h1 h2; omega
  | succ f ih =>
    intro n acc h1 h2
    rw [decimalAux]
    by_cases h : n < 10
    · rw [if_pos h, Nat.digits_def' (by norm_num) (by omega)]
      have h0 : n / 10 = 0 := by omega
      have hm : n % 10 = n := by omega
      simp [h0, hm]
    · rw [if_neg h, ih (n / 10) _ (by omega) (by omega)]
      conv_rhs => rw [Nat.digits_def' (by norm_num : 1 < 10) (by omega : 0 < n)]
      simp

theorem decimal_eq (n : Nat) (h : 1 ≤ n) :
    decimal n = (Nat.digits 10 n).reverse.map (48 + ·) := by
  rw [decimal, decimalAux_eq (n + 1) n [] h (by omega)]; simp

theorem decimal_length (n : Nat) (h : 1 ≤ n) : (decimal n).length = (Nat.digits 10 n).length := by
  rw [decimal_eq n h]; simp

theorem parseCompact_digits (l : List Nat) (hl : ∀ d ∈ l, d < 10) (acc : Nat) (rest : List Byte) :
    parseCompact acc ((l.map (fun d => (Fin.ofNat (48 + d) : Byte))) ++ rest)
      = parseCompact (l.foldl (fun a d => 10 * a + d) acc) rest := by
  induction l generalizing acc with
  | nil => rfl
  | cons d l ih =>
    have hd : d < 10 := hl d (by simp)
    have hv : ((Fin.ofNat (48 + d) : Byte) : Nat) = 48 + d := by
      simp [Fin.ofNat]; omega
    have hdig : isDigit (Fin.ofNat (48 + d) : Byte) = true := by
      simp only [isDigit, hv, decide_eq_true_eq]; omega
    simp only [List.map_cons, List.cons_append, parseCompact, hdig, if_true, hv,
      Nat.add_sub_cancel_left, List.foldl_cons]
    exact ih (fun x hx => hl x (by simp [hx])) _

theorem foldl_digits (n : Nat) :
    (Nat.digits 10 n).reverse.foldl (fun a d => 10 * a + d) 0 = n := by
  rw [List.foldl_reverse]
  have h := Nat.ofDigits_digits 10 n
  rw [Nat.ofDigits_eq_foldr] at h
  simpa [Nat.cast_id, add_comm] using h

/-- The bytes `snprintf` produces for `"%d%c"`. -/
theorem parseCompact_op (n : Nat) (hn : 1 ≤ n) (c : Byte) (hc : isDigit c = false)
    (rest : List Byte) :
    parseCompact 0 ((decimal n ++ [c.val]).map (fun v => (Fin.ofNat v : Byte)) ++ rest)
      = (n, c) :: parseCompact 0 rest := by
  rw [decimal_eq n hn]
  simp only [List.map_append, List.map_map, List.map_cons, List.map_nil, List.append_assoc,
    List.singleton_append]
  have := parseCompact_digits (Nat.digits 10 n).reverse
    (fun d hd => Nat.digits_lt_base (by norm_num) (List.mem_reverse.mp hd)) 0 (Fin.ofNat c.val :: rest)
  simp only [Function.comp_def] at this ⊢
  rw [this, foldl_digits]
  have hcc : (Fin.ofNat c.val : Byte) = c := by
    apply Fin.ext; simp [Fin.ofNat, Nat.mod_eq_of_lt c.isLt]
  rw [hcc, parseCompact, hc]
  simp


@[simp] theorem storeBytes_buf (vs : List Nat) : ∀ (a : Int) (b : CigarBuf),
    (storeBytes vs a b).buf = b.buf := by
  induction vs with
  | nil => intro a b; rfl
  | cons v vs ih => intro a b; rw [storeBytes, ih]; rfl

@[simp] theorem storeBytes_buflen (vs : List Nat) : ∀ (a : Int) (b : CigarBuf),
    (storeBytes vs a b).buflen = b.buflen := by
  induction vs with
  | nil => intro a b; rfl
  | cons v vs ih => intro a b; rw [storeBytes, ih]; rfl

theorem storeBytes_mem_out (vs : List Nat) : ∀ (a : Int) (b : CigarBuf) (x : Int),
    (x < a ∨ a + vs.length ≤ x) → (storeBytes vs a b).mem x = b.mem x := by
  induction vs with
  | nil => intro a b x _; rfl
  | cons v vs ih =>
    intro a b x hx
    rw [storeBytes, ih (a + 1) _ x (by simp only [List.length_cons, Nat.cast_add, Nat.cast_one] at hx; omega)]
    have : x ≠ a := by
      simp only [List.length_cons, Nat.cast_add, Nat.cast_one] at hx; omega
    simp [CigarBuf.store, this]

theorem readBytes_congr (m m' : Int → Byte) : ∀ (n : Nat) (a : Int),
    (∀ x, a ≤ x → x < a + n → m x = m' x) → readBytes m a n = readBytes m' a n := by
  intro n
  induction n with
  | zero => intro a _; rfl
  | succ n ih =>
    intro a h
    rw [readBytes, readBytes, h a (by omega) (by push_cast; omega),
      ih (a + 1) (fun x h1 h2 => h x (by omega) (by push_cast; omega))]

theorem readBytes_add (m : Int → Byte) : ∀ (n k : Nat) (a : Int),
    readBytes m a (n + k) = readBytes m a n ++ readBytes m (a + n) k := by
  intro n
  induction n with
  | zero => intro k a; simp [readBytes]
  | succ n ih =>
    intro k a
    have : n + 1 + k = (n + k) + 1 := by omega
    rw [this, readBytes, readBytes, ih k (a + 1)]
    have e : a + 1 + (n : Int) = a + ((n + 1 : Nat) : Int) := by push_cast; ring
    rw [e]; rfl

theorem readBytes_storeBytes (vs : List Nat) : ∀ (a : Int) (b : CigarBuf),
    readBytes (storeBytes vs a b).mem a vs.length = vs.map (fun v => (Fin.ofNat v : Byte)) := by
  induction vs with
  | nil => intro a b; rfl
  | cons v vs ih =>
    intro a b
    rw [storeBytes, List.length_cons, readBytes, ih (a + 1), storeBytes_mem_out vs (a + 1) _ a (by omega)]
    simp [CigarBuf.store]

theorem writeCigar_compact_eq (CigarToCode : Byte → Nat) (b : CigarBuf) (count : Int) (code : Byte)
    (hcount : 1 ≤ count) :
    writeCigar CigarToCode b count code .COMPACT_CIGAR_STRING =
      if b.buflen = 0 then (some false, b.store (b.buf - 1) 0)
      else if (((decimal count.toNat).length + 1 : Nat) : Int) > b.buflen - 1 then
        (some false, { (snprintf b (sizeT b.buflen) count.toNat code).2 with buf := 0 })
      else
        (some true,
          { (snprintf b (sizeT b.buflen) count.toNat code).2 with
            buf := (snprintf b (sizeT b.buflen) count.toNat code).2.buf
              + ((decimal count.toNat).length + 1 : Nat),
            buflen := (snprintf b (sizeT b.buflen) count.toNat code).2.buflen
              - ((decimal count.toNat).length + 1 : Nat) }) := by
  have hc0 : ¬ count ≤ 0 := by omega
  have hw : (snprintf b (sizeT b.buflen) count.toNat code).1 = (decimal count.toNat).length + 1 := by
    simp only [snprintf]; split_ifs <;> simp
  simp only [writeCigar, hc0, if_false]
  by_cases h0 : b.buflen = 0
  · simp only [h0, if_true]
  · simp only [h0, if_false]
    rw [← hw]

theorem writeCigar_compact_ok (CigarToCode : Byte → Nat) (b : CigarBuf) (count : Int) (code : Byte)
    (hcount : 1 ≤ count)
    (h : (writeCigar CigarToCode b count code .COMPACT_CIGAR_STRING).1 = some true) :
    ((decimal count.toNat).length : Int) + 1 ≤ b.buflen - 1 ∧
    (writeCigar CigarToCode b count code .COMPACT_CIGAR_STRING).2 =
      { storeBytes (decimal count.toNat ++ [code.val] ++ [0]) b.buf b with
        buf := b.buf + ((decimal count.toNat).length + 1 : Nat),
        buflen := b.buflen - ((decimal count.toNat).length + 1 : Nat) } := by
  rw [writeCigar_compact_eq CigarToCode b count code hcount] at h ⊢
  by_cases h0 : b.buflen = 0
  · rw [if_pos h0] at h; simp at h
  · rw [if_neg h0] at h ⊢
    by_cases h1 : (((decimal count.toNat).length + 1 : Nat) : Int) > b.buflen - 1
    · rw [if_pos h1] at h; simp at h
    · rw [if_neg h1]
      push_cast at h1
      have hsz : sizeT b.buflen = b.buflen.toNat := by
        simp only [sizeT]; rw [if_neg (by omega)]
      have hs : ¬ sizeT b.buflen = 0 := by rw [hsz]; omega
      have htake : (decimal count.toNat ++ [code.val]).take (sizeT b.buflen - 1)
          = decimal count.toNat ++ [code.val] := by
        apply List.take_of_length_le
        simp only [List.length_append, List.length_singleton, hsz]
        omega
      refine ⟨by omega, ?_⟩
      simp only [snprintf, hs, if_false, htake, storeBytes_buf, storeBytes_buflen]


theorem writeCigars_cons_ok (CigarToCode : Byte → Nat) (format : CigarFormat) (op : Int × Byte)
    (ops : List (Int × Byte)) (b : CigarBuf)
    (h : (writeCigars CigarToCode format (op :: ops) b).1 = some true) :
    (writeCigar CigarToCode b op.1 op.2 format).1 = some true ∧
    writeCigars CigarToCode format (op :: ops) b =
      writeCigars CigarToCode format ops (writeCigar CigarToCode b op.1 op.2 format).2 := by
  rw [writeCigars] at h ⊢
  rcases hw : writeCigar CigarToCode b op.1 op.2 format with ⟨r, b1⟩
  rw [hw] at h
  rcases r with _ | r
  · simp at h
  · cases r
    · simp at h
    · exact ⟨rfl, rfl⟩

theorem writeCigars_append_ok (CigarToCode : Byte → Nat) (format : CigarFormat)
    (pre : List (Int × Byte)) : ∀ (post : List (Int × Byte)) (b : CigarBuf),
    (writeCigars CigarToCode format (pre ++ post) b).1 = some true →
    (writeCigars CigarToCode format pre b).1 = some true ∧
    writeCigars CigarToCode format (pre ++ post) b =
      writeCigars CigarToCode format post (writeCigars CigarToCode format pre b).2 := by
  induction pre with
  | nil => intro post b _; exact ⟨rfl, rfl⟩
  | cons op pre ih =>
    intro post b h
    rw [List.cons_append] at h ⊢
    obtain ⟨h1, h2⟩ := writeCigars_cons_ok CigarToCode format op (pre ++ post) b h
    rw [h2] at h
    obtain ⟨h3, h4⟩ := ih post _ h
    have h5 : writeCigars CigarToCode format (op :: pre) b =
        writeCigars CigarToCode format pre (writeCigar CigarToCode b op.1 op.2 format).2 := by
      rw [writeCigars]
      rcases hw : writeCigar CigarToCode b op.1 op.2 format with ⟨r, b1⟩
      rw [hw] at h1
      simp only at h1
      subst h1
      rfl
    rw [h5, h2, h4]
    exact ⟨h3, rfl⟩

theorem readBytes_length (m : Int → Byte) : ∀ (n : Nat) (a : Int), (readBytes m a n).length = n := by
  intro n
  induction n with
  | zero => intro a; rfl
  | succ n ih => intro a; simp [readBytes, ih]


theorem compact_writes (CigarToCode : Byte → Nat) (ops : List (Int × Byte)) :
    ∀ (b : CigarBuf), (∀ op ∈ ops, 1 ≤ op.1) →
    (writeCigars CigarToCode .COMPACT_CIGAR_STRING ops b).1 = some true →
    (writeCigars CigarToCode .COMPACT_CIGAR_STRING ops b).2.buf
        = b.buf + ((ops.map (fun op => (decimal op.1.toNat).length + 1)).sum : Nat) ∧
    (writeCigars CigarToCode .COMPACT_CIGAR_STRING ops b).2.buflen
        = b.buflen - ((ops.map (fun op => (decimal op.1.toNat).length + 1)).sum : Nat) ∧
    readBytes (writeCigars CigarToCode .COMPACT_CIGAR_STRING ops b).2.mem b.buf
        (ops.map (fun op => (decimal op.1.toNat).length + 1)).sum
      = (ops.flatMap compactBytes).map (fun v => (Fin.ofNat v : Byte)) ∧
    ∀ x, x < b.buf → (writeCigars CigarToCode .COMPACT_CIGAR_STRING ops b).2.mem x = b.mem x := by
  induction ops with
  | nil => intro b _ _; simp [writeCigars, readBytes]
  | cons op ops ih =>
    intro b hc h
    obtain ⟨h1, h2⟩ := writeCigars_cons_ok CigarToCode _ op ops b h
    have hop : 1 ≤ op.1 := hc op (by simp)
    obtain ⟨hlen, hb1⟩ := writeCigar_compact_ok CigarToCode b op.1 op.2 hop h1
    rw [h2] at h ⊢
    obtain ⟨i1, i2, i3, i4⟩ := ih _ (fun o ho => hc o (by simp [ho])) h
    generalize writeCigars CigarToCode CigarFormat.COMPACT_CIGAR_STRING ops
      (writeCigar CigarToCode b op.1 op.2 CigarFormat.COMPACT_CIGAR_STRING).2 = b' at i1 i2 i3 i4 ⊢
    rw [hb1] at i1 i2 i3 i4
    simp only at i1 i2 i3 i4
    simp only [List.map_cons, List.sum_cons, List.flatMap_cons, List.map_append]
    refine ⟨by rw [i1]; push_cast; ring, by rw [i2]; push_cast; ring, ?_, ?_⟩
    · rw [readBytes_add, i3]
      congr 1
      rw [readBytes_congr b'.2.mem
        (storeBytes (decimal op.1.toNat ++ [op.2.val] ++ [0]) b.buf b).mem
        ((decimal op.1.toNat).length + 1) b.buf
        (fun x _ hx2 => i4 x (by omega))]
      have hsplit := readBytes_add (storeBytes (decimal op.1.toNat ++ [op.2.val] ++ [0]) b.buf b).mem
        ((decimal op.1.toNat).length + 1) 1 b.buf
      have hall := readBytes_storeBytes (decimal op.1.toNat ++ [op.2.val] ++ [0]) b.buf b
      have hl : (decimal op.1.toNat ++ [op.2.val] ++ [0]).length
          = (decimal op.1.toNat).length + 1 + 1 := by simp
      rw [hl, hsplit] at hall
      simp only [List.map_append] at hall
      have := List.append_inj_left hall (by simp [readBytes_length])
      rw [this]; simp [compactBytes]
    · intro x hx
      rw [i4 x (by omega), storeBytes_mem_out _ _ _ _ (Or.inl hx)]

theorem parseCompact_flatMap (ops : List (Int × Byte)) (hcount : ∀ op ∈ ops, 1 ≤ op.1)
    (hcode : ∀ op ∈ ops, isDigit op.2 = false) :
    parseCompact 0 ((ops.flatMap compactBytes).map (fun v => (Fin.ofNat v : Byte)))
      = ops.map (fun op => (op.1.toNat, op.2)) := by
  induction ops with
  | nil => rfl
  | cons op ops ih =>
    simp only [List.flatMap_cons, List.map_append, List.map_cons]
    have h1 : 1 ≤ op.1.toNat := by have := hcount op (by simp); omega
    have := parseCompact_op op.1.toNat h1 op.2 (hcode op (by simp))
      ((ops.flatMap compactBytes).map (fun v => (Fin.ofNat v : Byte)))
    simp only [compactBytes] at this ⊢
    rw [this, ← ih (fun o ho => hcount o (by simp [ho])) (fun o ho => hcode o (by simp [ho]))]

/-- C9. Compact-text round trip: when the operations `ops` (counts at least 1, opcodes
not digits) are written in order by `writeCigar` in `COMPACT_CIGAR_STRING` format and every
call returns true, each call advances the cursor and lowers the remaining length by the
number of decimal digits of its count plus one, and reading the bytes between the initial
and the final cursor as (decimal number, character) pairs gives back `ops`. -/
theorem compact_roundtrip (CigarToCode : Byte → Nat) (ops : List (Int × Byte)) (b : CigarBuf)
    (hcount : ∀ op ∈ ops, 1 ≤ op.1) (hcode : ∀ op ∈ ops, isDigit op.2 = false)
    (hok : (writeCigars CigarToCode .COMPACT_CIGAR_STRING ops b).1 = some true) :
    (∀ pre op post, ops = pre ++ op :: post →
      (writeCigar CigarToCode (writeCigars CigarToCode .COMPACT_CIGAR_STRING pre b).2 op.1 op.2
          .COMPACT_CIGAR_STRING).2.buf
        = (writeCigars CigarToCode .COMPACT_CIGAR_STRING pre b).2.buf
          + ((Nat.digits 10 op.1.toNat).length + 1 : Nat) ∧
      (writeCigar CigarToCode (writeCigars CigarToCode .COMPACT_CIGAR_STRING pre b).2 op.1 op.2
          .COMPACT_CIGAR_STRING).2.buflen
        = (writeCigars CigarToCode .COMPACT_CIGAR_STRING pre b).2.buflen
          - ((Nat.digits 10 op.1.toNat).length + 1 : Nat)) ∧
    parseCompact 0 (readBytes (writeCigars CigarToCode .COMPACT_CIGAR_STRING ops b).2.mem b.buf
        ((writeCigars CigarToCode .COMPACT_CIGAR_STRING ops b).2.buf - b.buf).toNat)
      = ops.map (fun op => (op.1.toNat, op.2)) := by
  constructor
  · intro pre op post hops
    subst hops
    obtain ⟨_, h2⟩ := writeCigars_append_ok CigarToCode _ pre (op :: post) b hok
    rw [h2] at hok
    obtain ⟨h3, _⟩ := writeCigars_cons_ok CigarToCode _ op post _ hok
    have hop : 1 ≤ op.1 := hcount op (by simp)
    obtain ⟨_, hb1⟩ := writeCigar_compact_ok CigarToCode _ op.1 op.2 hop h3
    rw [hb1, decimal_length _ (by omega)]
    exact ⟨rfl, rfl⟩
  · obtain ⟨h1, _, h3, _⟩ := compact_writes CigarToCode ops b hcount hok
    rw [h1]
    have : (b.buf + ((ops.map (fun op => (decimal op.1.toNat).length + 1)).sum : Nat) - b.buf).toNat
        = (ops.map (fun op => (decimal op.1.toNat).length + 1)).sum := by
      rw [add_sub_cancel_left]; exact Int.toNat_ofNat _
    rw [this, h3]
    exact parseCompact_flatMap ops hcount hcode

theorem compact_roundtrip_witness :
    parseCompact 0 (readBytes (writeCigars (fun _ => 0) .COMPACT_CIGAR_STRING
        [(2, ch '='), (1, ch 'D'), (12, ch '=')] (freshBuf 100 16)).2.mem (freshBuf 100 16).buf
        ((writeCigars (fun _ => 0) .COMPACT_CIGAR_STRING
          [(2, ch '='), (1, ch 'D'), (12, ch '=')] (freshBuf 100 16)).2.buf
            - (freshBuf 100 16).buf).toNat)
      = [(2, ch '='), (1, ch 'D'), (12, ch '=')] :=
  (compact_roundtrip (fun _ => 0) [(2, ch '='), (1, ch 'D'), (12, ch '=')] (freshBuf 100 16)
    (by decide) (by decide) (by decide)).2


/-! ## `computeEditDistance`: the null text -/

/-- C8, as stated, fails: with text "A", pattern "C" and `k = 0` the edit distance exceeds
`k`, and the value returned is the value returned for a null text. -/
theorem null_text_not_distinguished :
    (computeEditDistance 31 (fun _ => 0) fresh (some (bytesOf ['A'] 0)) 1 (bytesOf ['C'] 0) 1 0
        (freshBuf 100 16) false .COMPACT_CIGAR_STRING true).result = some (-1) ∧
    (computeEditDistance 31 (fun _ => 0) fresh none 1 (bytesOf ['C'] 0) 1 0
        (freshBuf 100 16) false .COMPACT_CIGAR_STRING true).result = some (-1) := by
  decide

/-- C8, amended. When `text` is null, `computeEditDistance` returns `-1` at once: nothing
is stored to the output buffer (no byte, cursor and remaining length untouched), nothing is
stored through `cigarBufUsed`, no operation is written, and the tables of the instance are
left as they were. -/
theorem computeEditDistance_null_text (MAX_K : Int) (CigarToCode : Byte → Nat) (st : LVState)
    (textLen : Int) (pattern : Mem) (patternLen k : Int) (cigarBuf : CigarBuf) (useM : Bool)
    (format : CigarFormat) (wantUsed : Bool) :
    (computeEditDistance MAX_K CigarToCode st none textLen pattern patternLen k cigarBuf useM
        format wantUsed).result = some (-1) ∧
    (computeEditDistance MAX_K CigarToCode st none textLen pattern patternLen k cigarBuf useM
        format wantUsed).buf = cigarBuf ∧
    (computeEditDistance MAX_K CigarToCode st none textLen pattern patternLen k cigarBuf useM
        format wantUsed).cigarBufUsed = none ∧
    (computeEditDistance MAX_K CigarToCode st none textLen pattern patternLen k cigarBuf useM
        format wantUsed).script = [] ∧
    (computeEditDistance MAX_K CigarToCode st none textLen pattern patternLen k cigarBuf useM
        format wantUsed).st = st :=
  ⟨rfl, rfl, rfl, rfl, rfl⟩


/-! ## The word-at-a-time matcher -/

theorem ctz_mul_two_pow (j : Nat) : ∀ (f A : Nat), ctz (j + f) (2 ^ j * A) = j + ctz f A := by
  induction j with
  | zero => intro f A; simp
  | succ j ih =>
    intro f A
    have e1 : j + 1 + f = (j + f) + 1 := by omega
    have e2 : 2 ^ (j + 1) * A = 2 * (2 ^ j * A) := by ring
    rw [e1, ctz, e2]
    have h1 : ¬ (2 * (2 ^ j * A)) % 2 = 1 := by omega
    have h2 : 2 * (2 ^ j * A) / 2 = 2 ^ j * A := by omega
    rw [if_neg h1, h2, ih]
    omega

theorem ctz_lt (j : Nat) : ∀ (f x : Nat), x % 2 ^ j ≠ 0 → ctz (j + f) x < j := by
  induction j with
  | zero => intro f x h; simp [Nat.mod_one] at h
  | succ j ih =>
    intro f x h
    have e1 : j + 1 + f = (j + f) + 1 := by omega
    rw [e1, ctz]
    by_cases h1 : x % 2 = 1
    · rw [if_pos h1]; omega
    · rw [if_neg h1]
      have h2 : (x / 2) % 2 ^ j ≠ 0 := by
        intro h3
        apply h
        have h4 : x % 2 ^ (j + 1) = x % 2 + 2 * ((x / 2) % 2 ^ j) := by
          rw [pow_succ, mul_comm, Nat.mod_mul]
        rw [h4, h3]; omega
      have := ih f (x / 2) h2
      omega

theorem xor_bytes (a b A B : Nat) (ha : a < 256) (hb : b < 256) :
    (a + 256 * A) ^^^ (b + 256 * B) = (a ^^^ b) + 256 * (A ^^^ B) := by
  have hx : a ^^^ b < 2 ^ 8 := Nat.xor_lt_two_pow (by simpa using ha) (by simpa using hb)
  apply Nat.eq_of_testBit_eq
  intro i
  have e1 : a + 256 * A = 2 ^ 8 * A + a := by ring
  have e2 : b + 256 * B = 2 ^ 8 * B + b := by ring
  have e3 : (a ^^^ b) + 256 * (A ^^^ B) = 2 ^ 8 * (A ^^^ B) + (a ^^^ b) := by ring
  rw [e1, e2, e3, Nat.testBit_xor, Nat.testBit_mul_pow_two_add _ (by simpa using ha),
    Nat.testBit_mul_pow_two_add _ (by simpa using hb), Nat.testBit_mul_pow_two_add _ hx]
  by_cases h : i < 8
  · simp [h]
  · simp [h]

theorem xor_eq_zero_iff (a b : Nat) : a ^^^ b = 0 ↔ a = b := by
  constructor
  · intro h
    apply Nat.eq_of_testBit_eq
    intro i
    have := congrArg (fun x => Nat.testBit x i) h
    simp only [Nat.testBit_xor, Nat.zero_testBit] at this
    cases h1 : a.testBit i <;> cases h2 : b.testBit i <;> simp_all
  · intro h; subst h; exact Nat.xor_self a

theorem load_succ (m : Mem) (n : Nat) (p : Int) :
    load m (n + 1) p = (m p).val + 256 * load m n (p + 1) := rfl

/-- Comparing two `n`-byte words through the exclusive or: the words are equal exactly
when their bytes are, and otherwise the number of trailing zero bits, divided by 8, is the
index of the first byte in which they differ. -/
theorem word_cmp (m m' : Mem) (n : Nat) : ∀ (p q : Int),
    (load m n p ^^^ load m' n q = 0 ↔ ∀ i : Nat, i < n → m (p + i) = m' (q + i)) ∧
    (load m n p ^^^ load m' n q ≠ 0 →
      ctz (8 * n) (load m n p ^^^ load m' n q) / 8 < n ∧
      m (p + (ctz (8 * n) (load m n p ^^^ load m' n q) / 8 : Nat))
        ≠ m' (q + (ctz (8 * n) (load m n p ^^^ load m' n q) / 8 : Nat)) ∧
      ∀ i : Nat, i < ctz (8 * n) (load m n p ^^^ load m' n q) / 8 → m (p + i) = m' (q + i)) := by
  induction n with
  | zero =>
    intro p q
    simp [load]
  | succ n ih =>
    intro p q
    obtain ⟨ih1, ih2⟩ := ih (p + 1) (q + 1)
    rw [load_succ, load_succ, xor_bytes _ _ _ _ (m p).isLt (m' q).isLt]
    generalize hX : load m n (p + 1) ^^^ load m' n (q + 1) = X at ih1 ih2
    have hab : (m p).val ^^^ (m' q).val < 256 := by
      have := Nat.xor_lt_two_pow (n := 8) (x := (m p).val) (y := (m' q).val)
        (by simp) (by simp)
      simpa using this
    generalize hY : (m p).val ^^^ (m' q).val = Y at hab
    have hY0 : Y = 0 ↔ m p = m' q := by
      rw [← hY, xor_eq_zero_iff]
      exact ⟨fun h => Fin.ext h, fun h => by rw [h]⟩
    have shift : ∀ i : Nat, p + 1 + (i : Int) = p + ((i + 1 : Nat) : Int) := by
      intro i; push_cast; ring
    have shift' : ∀ i : Nat, q + 1 + (i : Int) = q + ((i + 1 : Nat) : Int) := by
      intro i; push_cast; ring
    constructor
    · constructor
      · intro h
        have hy : Y = 0 := by omega
        have hx : X = 0 := by omega
        intro i hi
        rcases i with _ | i
        · simpa using hY0.mp hy
        · have := ih1.mp hx i (by omega)
          rwa [shift, shift'] at this
      · intro h
        have hy : Y = 0 := hY0.mpr (by simpa using h 0 (by omega))
        have hx : X = 0 := ih1.mpr (fun i hi => by
          have := h (i + 1) (by omega)
          rwa [shift, shift'])
        rw [hy, hx]
    · intro hne
      by_cases hy : Y = 0
      · have hx : X ≠ 0 := by
          intro hx; apply hne; rw [hy, hx]
        obtain ⟨h1, h2, h3⟩ := ih2 hx
        have hc : ctz (8 * (n + 1)) (Y + 256 * X) = 8 + ctz (8 * n) X := by
          have := ctz_mul_two_pow 8 (8 * n) X
          rw [hy, zero_add]
          have e : 8 * (n + 1) = 8 + 8 * n := by ring
          rw [e]
          simpa using this
        rw [hc]
        have hd : (8 + ctz (8 * n) X) / 8 = ctz (8 * n) X / 8 + 1 := by omega
        rw [hd]
        refine ⟨by omega, ?_, ?_⟩
        · rw [← shift, ← shift']; exact h2
        · intro i hi
          rcases i with _ | i
          · simpa using hY0.mp hy
          · have := h3 i (by omega)
            rwa [shift, shift'] at this
      · have hc : ctz (8 * (n + 1)) (Y + 256 * X) < 8 := by
          have := ctz_lt 8 (8 * n) (Y + 256 * X) (by
            have : (Y + 256 * X) % 2 ^ 8 = Y := by norm_num; omega
            rw [this]; exact hy)
          have e : 8 * (n + 1) = 8 + 8 * n := by ring
          rw [e]; exact this
        have hd : ctz (8 * (n + 1)) (Y + 256 * X) / 8 = 0 := by omega
        rw [hd]
        refine ⟨by omega, ?_, ?_⟩
        · simpa using fun h => hy (hY0.mpr h)
        · intro i hi; omega


/-- One step of the scan: the word comparison at `off` on diagonal `d`. -/
theorem scan_word (pattern text : Mem) (d off : Int) :
    (load pattern 8 off ^^^ load text 8 (d + off) = 0 →
      ∀ i : Int, off ≤ i → i < off + 8 → pattern i = text (d + i)) ∧
    (load pattern 8 off ^^^ load text 8 (d + off) ≠ 0 →
      (∀ i : Int, off ≤ i →
          i < off + ((CountTrailingZeroes (load pattern 8 off ^^^ load text 8 (d + off)) >>> 3 : Nat) : Int) →
          pattern i = text (d + i)) ∧
      pattern (off + ((CountTrailingZeroes (load pattern 8 off ^^^ load text 8 (d + off)) >>> 3 : Nat) : Int))
        ≠ text (d + (off + ((CountTrailingZeroes (load pattern 8 off ^^^ load text 8 (d + off)) >>> 3 : Nat) : Int)))) := by
  obtain ⟨h1, h2⟩ := word_cmp pattern text 8 off (d + off)
  have hz : ∀ x, CountTrailingZeroes x >>> 3 = ctz (8 * 8) x / 8 := by
    intro x; rw [Nat.shiftRight_eq_div_pow]; rfl
  constructor
  · intro h i hi1 hi2
    have := h1.mp h (i - off).toNat (by omega)
    have e : ((i - off).toNat : Int) = i - off := Int.toNat_of_nonneg (by omega)
    rw [e] at this
    have e1 : off + (i - off) = i := by ring
    have e2 : d + off + (i - off) = d + i := by ring
    rwa [e1, e2] at this
  · intro h
    obtain ⟨_, h4, h5⟩ := h2 h
    rw [hz]
    constructor
    · intro i hi1 hi2
      have := h5 (i - off).toNat (by omega)
      have e : ((i - off).toNat : Int) = i - off := Int.toNat_of_nonneg (by omega)
      rw [e] at this
      have e1 : off + (i - off) = i := by ring
      have e2 : d + off + (i - off) = d + i := by ring
      rwa [e1, e2] at this
    · have e2 : ∀ z : Int, d + off + z = d + (off + z) := by intro z; ring
      rw [e2] at h4
      exact h4

/-- The value of the scanning loop of lines 170-185. -/
theorem exactScan_spec (pattern text : Mem) (d end_ : Int) (fuel : Nat) :
    ∀ off : Int, end_ - off < fuel →
    (end_ ≤ off → exactScan pattern text d end_ fuel off = end_) ∧
    (off < end_ →
      off ≤ exactScan pattern text d end_ fuel off ∧
      exactScan pattern text d end_ fuel off ≤ end_ ∧
      (∀ i : Int, off ≤ i → i < exactScan pattern text d end_ fuel off →
        pattern i = text (d + i)) ∧
      (exactScan pattern text d end_ fuel off < end_ →
        pattern (exactScan pattern text d end_ fuel off)
          ≠ text (d + exactScan pattern text d end_ fuel off))) := by
  induction fuel with
  | zero =>
    intro off h
    simp only [exactScan]
    refine ⟨fun _ => trivial, fun h1 => ?_⟩
    simp at h; omega
  | succ fuel ih =>
    intro off h
    obtain ⟨w1, w2⟩ := scan_word pattern text d off
    simp only [exactScan]
    generalize hx : load pattern 8 off ^^^ load text 8 (d + off) = x at w1 w2
    generalize hz : ((CountTrailingZeroes x >>> 3 : Nat) : Int) = z at w2
    have hz0 : 0 ≤ z := by rw [← hz]; exact Int.ofNat_nonneg _
    by_cases hx0 : x = 0
    · simp only [hx0, ne_eq, not_true_eq_false, if_false]
      have w := w1 hx0
      by_cases h8 : off + 8 ≥ end_
      · simp only [h8, if_true]
        refine ⟨fun _ => trivial, fun h1 => ⟨by omega, le_refl _, ?_, fun h2 => absurd h2 (lt_irrefl _)⟩⟩
        intro i hi1 hi2
        exact w i hi1 (by omega)
      · simp only [h8, if_false]
        obtain ⟨_, i2⟩ := ih (off + 8) (by push_cast at h ⊢; omega)
        obtain ⟨j1, j2, j3, j4⟩ := i2 (by omega)
        refine ⟨fun h1 => by omega, fun _ => ⟨by omega, j2, ?_, j4⟩⟩
        intro i hi1 hi2
        by_cases hi : i < off + 8
        · exact w i hi1 hi
        · exact j3 i (by omega) hi2
    · simp only [hx0, ne_eq, not_false_eq_true, if_true]
      obtain ⟨w3, w4⟩ := w2 hx0
      refine ⟨fun h1 => by omega, fun h1 => ⟨by omega, by omega, ?_, ?_⟩⟩
      · intro i hi1 hi2
        exact w3 i hi1 (by omega)
      · intro h2
        have : min (off + z) end_ = off + z := by omega
        rw [this]; exact w4

/-- The value of `exactExtend` (lines 164-186) with `end = min(patternLen, textLen - d)`:
`best` stays when the bytes at `best` differ; it is `end` when they agree and
`best ≥ end`; otherwise it moves over equal bytes up to the first difference or `end`. -/
theorem exactExtend_spec (pattern text : Mem) (patternLen textLen d best : Int) :
    (pattern best ≠ text (d + best) →
      exactExtend pattern text patternLen textLen d best = best) ∧
    (pattern best = text (d + best) → min patternLen (textLen - d) ≤ best →
      exactExtend pattern text patternLen textLen d best = min patternLen (textLen - d)) ∧
    (pattern best = text (d + best) → best < min patternLen (textLen - d) →
      best < exactExtend pattern text patternLen textLen d best ∧
      exactExtend pattern text patternLen textLen d best ≤ min patternLen (textLen - d) ∧
      (∀ i : Int, best ≤ i → i < exactExtend pattern text patternLen textLen d best →
        pattern i = text (d + i)) ∧
      (exactExtend pattern text patternLen textLen d best < min patternLen (textLen - d) →
        pattern (exactExtend pattern text patternLen textLen d best)
          ≠ text (d + exactExtend pattern text patternLen textLen d best))) := by
  obtain ⟨s1, s2⟩ := exactScan_spec pattern text d (min patternLen (textLen - d))
    ((min patternLen (textLen - d) - best).toNat + 1) best (by push_cast; omega)
  refine ⟨fun h => by simp [exactExtend, h], fun h h1 => ?_, fun h h1 => ?_⟩
  · simp only [exactExtend, h, if_true]; exact s1 h1
  · simp only [exactExtend, h, if_true]
    obtain ⟨j1, j2, j3, j4⟩ := s2 h1
    refine ⟨?_, j2, j3, j4⟩
    rcases lt_or_eq_of_le j1 with h2 | h2
    · exact h2
    · exfalso
      have := j4 (by rw [← h2]; exact h1)
      rw [← h2] at this
      exact this h

/-- The value of the seed loop (lines 106-121) with `end = min(patternLen, textLen)`. -/
theorem seedScan_spec (pattern text : Mem) (end_ : Int) (fuel : Nat) :
    ∀ off : Int, end_ - off ≤ fuel →
    (end_ ≤ off → seedScan pattern text end_ fuel off = end_) ∧
    (off < end_ →
      off ≤ seedScan pattern text end_ fuel off ∧
      seedScan pattern text end_ fuel off ≤ end_ ∧
      (∀ i : Int, off ≤ i → i < seedScan pattern text end_ fuel off → pattern i = text i) ∧
      (seedScan pattern text end_ fuel off < end_ →
        pattern (seedScan pattern text end_ fuel off)
          ≠ text (seedScan pattern text end_ fuel off))) := by
  induction fuel with
  | zero =>
    intro off h
    simp only [seedScan]
    refine ⟨fun _ => trivial, fun h1 => ?_⟩
    simp at h; omega
  | succ fuel ih =>
    intro off h
    obtain ⟨w1, w2⟩ := scan_word pattern text 0 off
    simp only [zero_add] at w1 w2
    simp only [seedScan]
    generalize hx : load pattern 8 off ^^^ load text 8 off = x at w1 w2
    generalize hz : ((CountTrailingZeroes x >>> 3 : Nat) : Int) = z at w2
    have hz0 : 0 ≤ z := by rw [← hz]; exact Int.ofNat_nonneg _
    by_cases hlt : off < end_
    · simp only [hlt, if_true]
      by_cases hx0 : x = 0
      · simp only [hx0, ne_eq, not_true_eq_false, if_false]
        have w := w1 hx0
        obtain ⟨i1, i2⟩ := ih (off + 8) (by push_cast at h ⊢; omega)
        refine ⟨fun h1 => by omega, fun _ => ?_⟩
        by_cases h8 : end_ ≤ off + 8
        · rw [i1 h8]
          refine ⟨by omega, le_refl _, ?_, fun h2 => absurd h2 (lt_irrefl _)⟩
          intro i hi1 hi2
          exact w i hi1 (by omega)
        · obtain ⟨j1, j2, j3, j4⟩ := i2 (by omega)
          refine ⟨by omega, j2, ?_, j4⟩
          intro i hi1 hi2
          by_cases hi : i < off + 8
          · exact w i hi1 hi
          · exact j3 i (by omega) hi2
      · simp only [hx0, ne_eq, not_false_eq_true, if_true]
        obtain ⟨w3, w4⟩ := w2 hx0
        refine ⟨fun h1 => by omega, fun h1 => ⟨by omega, by omega, ?_, ?_⟩⟩
        · intro i hi1 hi2
          exact w3 i hi1 (by omega)
        · intro h2
          have : min (off + z) end_ = off + z := by omega
          rw [this]; exact w4
    · simp only [hlt, if_false]
      exact ⟨fun _ => trivial, fun h1 => h1.elim⟩


/-! ## The 32-bit arithmetic of the extension -/

theorem wrap32_eq (x : Int) (h1 : -2 ^ 31 ≤ x) (h2 : x < 2 ^ 31) : wrap32 x = x := by
  unfold wrap32
  norm_num at h1 h2 ⊢
  omega

/-- The byte index found in a non-zero word is at most 7. -/
theorem zeroes_le (pattern text : Mem) (p q : Int)
    (h : load pattern 8 p ^^^ load text 8 q ≠ 0) :
    ((CountTrailingZeroes (load pattern 8 p ^^^ load text 8 q) >>> 3 : Nat) : Int) ≤ 7 := by
  have hz : CountTrailingZeroes (load pattern 8 p ^^^ load text 8 q) >>> 3
      = ctz (8 * 8) (load pattern 8 p ^^^ load text 8 q) / 8 := by
    rw [Nat.shiftRight_eq_div_pow]; rfl
  have := ((word_cmp pattern text 8 p q).2 h).1
  rw [hz]
  omega

/-- The scan of lines 170-185 started at an offset `off` with `off + 7 < 2^31`, towards
an `end` with `end + 6 < 2^31`, never overflows in line 176. -/
theorem extendScan_exact (pattern text : Mem) (d end_ : Int) (hend : end_ + 6 < 2 ^ 31)
    (fuel : Nat) : ∀ off : Int, -2 ^ 31 ≤ off → off + 7 < 2 ^ 31 →
      extendScan pattern text d end_ fuel off = exactScan pattern text d end_ fuel off := by
  induction fuel with
  | zero => intro off _ _; rfl
  | succ fuel ih =>
    intro off h1 h2
    simp only [extendScan, exactScan]
    by_cases hx : load pattern 8 off ^^^ load text 8 (d + off) = 0
    · simp only [hx, ne_eq, not_true_eq_false, if_false]
      by_cases h8 : off + 8 ≥ end_
      · simp only [h8, if_true]
      · simp only [h8, if_false]
        exact ih (off + 8) (by omega) (by omega)
    · simp only [hx, ne_eq, not_false_eq_true, if_true]
      have hz := zeroes_le pattern text off (d + off) hx
      have hz0 : (0 : Int) ≤ ((CountTrailingZeroes (load pattern 8 off ^^^ load text 8 (d + off))
          >>> 3 : Nat) : Int) := Int.ofNat_nonneg _
      rw [wrap32_eq off h1 (by omega), wrap32_eq _ (by omega) (by omega)]

/-- The extension of lines 164-186 is the exact one when neither the difference of line
167 nor the sum of line 176 leaves the range of `int`. -/
theorem extend_exact (pattern text : Mem) (patternLen textLen d best : Int)
    (hP : patternLen + 6 < 2 ^ 31) (hd1 : -2 ^ 31 ≤ textLen - d) (hd2 : textLen - d < 2 ^ 31)
    (hb1 : -2 ^ 31 ≤ best) (hb2 : best + 7 < 2 ^ 31) :
    extend pattern text patternLen textLen d best
      = exactExtend pattern text patternLen textLen d best := by
  unfold extend exactExtend
  rw [wrap32_eq _ hd1 hd2]
  split
  · exact extendScan_exact pattern text d _
      (lt_of_le_of_lt (add_le_add_right (min_le_left _ _) 6) hP) _ best hb1 hb2
  · rfl


/-! ## The control flow of `computeEditDistance` -/

theorem dLoop_eq (a : Args) (buf : CigarBuf) (e : Int) (n : Nat) : ∀ (d : Int) (st : LVState),
    dLoop a buf e n d st =
      match dSearch a e n d st with
      | .inl st1 => .inl st1
      | .inr (d1, st1) => .inr (acceptRet a e d1 st1 buf) := by
  induction n with
  | zero => intro d st; rfl
  | succ n ih =>
    intro d st
    simp only [dLoop, dSearch]
    by_cases hd : d ≠ -(e + 1)
    · rw [if_pos hd, if_pos hd]
      simp only [accept]
      by_cases hb : (cell a e d st).1 = a.patternLen
      · rw [if_pos hb, if_pos hb]
      · rw [if_neg hb, if_neg hb]
        exact ih _ _
    · rw [if_neg hd, if_neg hd]

theorem eLoop_eq (a : Args) (buf : CigarBuf) (n : Nat) : ∀ (e : Int) (st : LVState),
    eLoop a buf n e st =
      match eSearch a n e st with
      | .inl st1 => exceeded st1 buf
      | .inr (e1, d1, st1) => acceptRet a e1 d1 st1 buf := by
  induction n with
  | zero => intro e st; rfl
  | succ n ih =>
    intro e st
    simp only [eLoop, eSearch]
    by_cases he : e ≤ a.k
    · simp only [he, if_true]
      rw [dLoop_eq]
      rcases hs : dSearch a e (2 * e + 1).toNat 0 st with st1 | ⟨d1, st1⟩
      · simp only []
        exact ih _ _
      · simp only []
    · simp only [he, if_false]; rfl

theorem eSearch_range (a : Args) (n : Nat) : ∀ (e : Int) (st : LVState) (e1 d1 : Int)
    (st1 : LVState), eSearch a n e st = .inr (e1, d1, st1) → e ≤ e1 ∧ e1 ≤ a.k := by
  induction n with
  | zero => intro e st e1 d1 st1 h; simp [eSearch] at h
  | succ n ih =>
    intro e st e1 d1 st1 h
    simp only [eSearch] at h
    by_cases he : e ≤ a.k
    · simp only [he, if_true] at h
      rcases hs : dSearch a e (2 * e + 1).toNat 0 st with st2 | ⟨d2, st2⟩
      · rw [hs] at h
        have := ih _ _ _ _ _ h
        omega
      · rw [hs] at h
        simp only [Sum.inr.injEq, Prod.mk.injEq] at h
        omega
    · simp only [he, if_false] at h
      cases h


/-! ## The writes of a call and the value returned -/

theorem finish_result (st : LVState) (s : Int) (w t : Bool) (e : Int) (em : Emit) :
    (finish st s w t e em).result =
      match em.status with
      | some true => some e
      | some false => some (-2)
      | none => none := by
  unfold finish
  rcases em.status with _ | b
  · rfl
  · cases b <;> rfl

theorem finish_script (st : LVState) (s : Int) (w t : Bool) (e : Int) (em : Emit) :
    (finish st s w t e em).script = em.script := by
  unfold finish
  rcases em.status with _ | b
  · rfl
  · cases b <;> rfl

theorem finish_ok (st : LVState) (s : Int) (w t : Bool) (e : Int) (em : Emit)
    (h1 : (finish st s w t e em).result ≠ some (-2)) (h2 : (finish st s w t e em).result ≠ none) :
    em.status = some true ∧ (finish st s w t e em).result = some e := by
  rw [finish_result] at h1 h2 ⊢
  obtain ⟨b, s, sc⟩ := em
  rcases s with _ | (_ | _)
  · simp at h2
  · simp at h1
  · exact ⟨rfl, rfl⟩

/-- A call of `writeCigar` that leaves the status true was made with the status true, and
adds its operation to the script when the count is positive. -/
theorem write_ok (CigarToCode : Byte → Nat) (format : CigarFormat) (em : Emit) (count : Int)
    (code : Byte) (h : (em.write CigarToCode format count code).status = some true) :
    em.status = some true ∧
    (em.write CigarToCode format count code).script
      = em.script ++ (if count > 0 then [(count, code)] else []) := by
  obtain ⟨b, s, sc⟩ := em
  rcases s with _ | (_ | _)
  · simp [Emit.write] at h
  · simp [Emit.write] at h
  · simp only [Emit.write] at h ⊢
    refine ⟨trivial, ?_⟩
    rw [h]
    by_cases hc : count > 0
    · simp [hc]
    · simp [hc]

theorem acceptRet_result (a : Args) (e d : Int) (st : LVState) (buf : CigarBuf) (v : Int)
    (h : (acceptRet a e d st buf).result = some v) : v = e ∨ v = -2 := by
  unfold acceptRet at h
  simp only at h
  split_ifs at h
  all_goals
    rw [finish_result] at h
    split at h
    · left; simpa using h.symm
    · right; simpa using h.symm
    · cases h

/-- The value returned by the loops of lines 147-371 started at `e`. -/
theorem eLoop_result (a : Args) (buf : CigarBuf) (n : Nat) (e : Int) (st : LVState) (v : Int)
    (h : (eLoop a buf n e st).result = some v) : v = -1 ∨ v = -2 ∨ (e ≤ v ∧ v ≤ a.k) := by
  rw [eLoop_eq] at h
  rcases hs : eSearch a n e st with st1 | ⟨e1, d1, st1⟩
  · rw [hs] at h
    simp only [exceeded, Option.some.injEq] at h
    left; exact h.symm
  · rw [hs] at h
    simp only at h
    have hr := eSearch_range a n e st e1 d1 st1 hs
    rcases acceptRet_result a e1 d1 st1 buf v h with h1 | h1
    · right; right; omega
    · right; left; exact h1


/-! ## The seed step -/

theorem seed_spec (pattern text : Mem) (end_ : Int) :
    (seedScan pattern text end_ (end_.toNat + 1) 0 = end_ ↔
      ∀ i : Int, 0 ≤ i → i < end_ → pattern i = text i) ∧
    (0 ≤ end_ → 0 ≤ seedScan pattern text end_ (end_.toNat + 1) 0) ∧
    seedScan pattern text end_ (end_.toNat + 1) 0 ≤ max end_ 0 ∧
    (∀ i : Int, 0 ≤ i → i < seedScan pattern text end_ (end_.toNat + 1) 0 → pattern i = text i) ∧
    (seedScan pattern text end_ (end_.toNat + 1) 0 < end_ →
      pattern (seedScan pattern text end_ (end_.toNat + 1) 0)
        ≠ text (seedScan pattern text end_ (end_.toNat + 1) 0)) := by
  obtain ⟨s1, s2⟩ := seedScan_spec pattern text end_ (end_.toNat + 1) 0 (by push_cast; omega)
  by_cases h : end_ ≤ 0
  · have := s1 h
    rw [this]
    refine ⟨⟨fun _ i h1 h2 => by omega, fun _ => rfl⟩, fun h0 => by omega, by omega,
      fun i h1 h2 => by omega, fun h1 => by omega⟩
  · obtain ⟨j1, j2, j3, j4⟩ := s2 (by omega)
    refine ⟨⟨fun h1 i hi1 hi2 => j3 i hi1 (by omega), fun h1 => ?_⟩, fun _ => j1, by omega, j3, j4⟩
    by_contra hne
    have hlt : seedScan pattern text end_ (end_.toNat + 1) 0 < end_ := by omega
    exact j4 hlt (h1 _ j1 hlt)

/-- C5. The seed step: `computeEditDistance`, when every write fits the buffer, returns 0
exactly when the first `min(patternLen, textLen)` bytes of pattern and text are equal (also
when `patternLen > textLen`); the script is then, for `useM = false`, the `=` run of length
`min(patternLen, textLen)` followed by the `X` run of length
`patternLen - min(patternLen, textLen)`, and for `useM = true` the `M` run of length
`patternLen` (a run of length 0 is not written). -/
theorem seed_step (MAX_K : Int) (CigarToCode : Byte → Nat) (st : LVState) (text : Mem)
    (textLen : Int) (pattern : Mem) (patternLen k : Int) (cigarBuf : CigarBuf) (useM : Bool)
    (format : CigarFormat) (wantUsed : Bool)
    (hbuf : (computeEditDistance MAX_K CigarToCode st (some text) textLen pattern patternLen k
      cigarBuf useM format wantUsed).result ≠ some (-2))
    (hret : (computeEditDistance MAX_K CigarToCode st (some text) textLen pattern patternLen k
      cigarBuf useM format wantUsed).result ≠ none) :
    ((computeEditDistance MAX_K CigarToCode st (some text) textLen pattern patternLen k
        cigarBuf useM format wantUsed).result = some 0 ↔
      ∀ i : Int, 0 ≤ i → i < min patternLen textLen → pattern i = text i) ∧
    ((computeEditDistance MAX_K CigarToCode st (some text) textLen pattern patternLen k
        cigarBuf useM format wantUsed).result = some 0 →
      (computeEditDistance MAX_K CigarToCode st (some text) textLen pattern patternLen k
        cigarBuf useM format wantUsed).script =
        if useM then (if patternLen > 0 then [(patternLen, ch 'M')] else [])
        else (if min patternLen textLen > 0 then [(min patternLen textLen, ch '=')] else [])
          ++ (if patternLen - min patternLen textLen > 0 then
                [(patternLen - min patternLen textLen, ch 'X')] else [])) := by
  obtain ⟨s1, -, -, -, s5⟩ := seed_spec pattern text (min patternLen textLen)
  simp only [computeEditDistance, set2, and_self, if_true] at hbuf hret ⊢
  by_cases hseed : seedScan pattern text (min patternLen textLen)
      ((min patternLen textLen).toNat + 1) 0 = min patternLen textLen
  · simp only [hseed, if_true] at hbuf hret ⊢
    obtain ⟨hst, hres⟩ := finish_ok _ _ _ _ _ _ hbuf hret
    refine ⟨⟨fun _ => s1.mp hseed, fun _ => hres⟩, fun _ => ?_⟩
    rw [finish_script]
    unfold exactScript at hst ⊢
    cases useM
    · simp only [Bool.false_eq_true, if_false] at hst ⊢
      by_cases hx : patternLen > min patternLen textLen
      · simp only [hx, if_true] at hst ⊢
        obtain ⟨h1, h2⟩ := write_ok _ _ _ _ _ hst
        obtain ⟨_, h4⟩ := write_ok _ _ _ _ _ h1
        rw [h2, h4]
        have : patternLen - min patternLen textLen > 0 := by omega
        simp [this]
      · simp only [hx, if_false] at hst ⊢
        obtain ⟨_, h4⟩ := write_ok _ _ _ _ _ hst
        rw [h4]
        have : ¬ patternLen - min patternLen textLen > 0 := by omega
        simp [this]
    · simp only [if_true] at hst ⊢
      obtain ⟨_, h4⟩ := write_ok _ _ _ _ _ hst
      rw [h4]; simp
  · simp only [hseed, if_false] at hbuf hret ⊢
    have hne : (eLoop
        { MAX_K := MAX_K, CigarToCode := CigarToCode, text := text, textLen := textLen,
          pattern := pattern, patternLen := patternLen, k := k, useM := useM, format := format,
          cigarBufStart := cigarBuf.buf, wantUsed := wantUsed }
        cigarBuf k.toNat 1
        { L := fun i' j' => if i' = 0 ∧ j' = MAX_K then
              seedScan pattern text (min patternLen textLen) ((min patternLen textLen).toNat + 1) 0
            else st.L i' j',
          A := st.A, backtraceAction := st.backtraceAction,
          backtraceMatched := st.backtraceMatched, backtraceD := st.backtraceD }).result
          ≠ some 0 := by
      intro h0
      rcases eLoop_result _ _ _ _ _ _ h0 with h | h | h
      · omega
      · omega
      · omega
    refine ⟨⟨fun h => absurd h hne, fun h => absurd (s1.mpr h) hseed⟩, fun h => absurd h hne⟩

theorem seed_step_witness :
    (computeEditDistance 31 (fun _ => 0) fresh (some (bytesOf ['A','C','G','T','A','C','G','T'] 0))
        8 (bytesOf ['A','C','G','T','A','C','G','T'] 0) 8 2 (freshBuf 100 64) false
        .COMPACT_CIGAR_STRING true).result = some 0 ∧
    (computeEditDistance 31 (fun _ => 0) fresh (some (bytesOf ['A','C','G','T','A','C','G','T'] 0))
        8 (bytesOf ['A','C','G','T','A','C','G','T'] 0) 8 2 (freshBuf 100 64) false
        .COMPACT_CIGAR_STRING true).script = [(8, ch '=')] :=
  ⟨by decide,
   (seed_step 31 (fun _ => 0) fresh (bytesOf ['A','C','G','T','A','C','G','T'] 0)
      8 (bytesOf ['A','C','G','T','A','C','G','T'] 0) 8 2 (freshBuf 100 64) false
      .COMPACT_CIGAR_STRING true (by decide) (by decide)).2 (by decide)⟩


/-! ## The tables during the search -/

theorem scanPos_next (d : Int) : scanPos (if d ≥ 0 then -(d + 1) else -d) = scanPos d + 1 := by
  unfold scanPos
  split_ifs <;> omega

theorem scanPos_le_iff (d : Int) (e : Nat) :
    scanPos d ≤ 2 * e ↔ (-(e : Int) ≤ d ∧ d ≤ e) := by
  unfold scanPos
  split_ifs <;> omega

theorem scanPos_eq_iff (d : Int) (e : Nat) : scanPos d = 2 * e + 1 ↔ d = -((e : Int) + 1) := by
  unfold scanPos
  split_ifs <;> omega

theorem scanPos_inj (d d' : Int) (h : scanPos d = scanPos d') : d = d' := by
  unfold scanPos at h
  split_ifs at h <;> omega

theorem cell_fst (a : Args) (e d : Int) (st : LVState) :
    (cell a e d st).1 = extend a.pattern a.text a.patternLen a.textLen d
      (choose (st.L (e - 1) (a.MAX_K + d)) (st.L (e - 1) (a.MAX_K + d - 1))
        (st.L (e - 1) (a.MAX_K + d + 1))).1 := by
  simp only [cell, choose]
  split_ifs <;> rfl

theorem cell_L (a : Args) (e d : Int) (st : LVState) :
    (cell a e d st).2.L = set2 st.L e (a.MAX_K + d) (cell a e d st).1 := by
  simp only [cell]

theorem cell_A (a : Args) (e d : Int) (st : LVState) :
    (cell a e d st).2.A = set2 st.A e (a.MAX_K + d)
      (choose (st.L (e - 1) (a.MAX_K + d)) (st.L (e - 1) (a.MAX_K + d - 1))
        (st.L (e - 1) (a.MAX_K + d + 1))).2 := by
  simp only [cell, choose]
  split_ifs <;> (funext i j; simp only [set2]; try (split_ifs <;> rfl))

theorem cell_other (a : Args) (e d : Int) (st : LVState) :
    (cell a e d st).2.backtraceAction = st.backtraceAction ∧
    (cell a e d st).2.backtraceMatched = st.backtraceMatched ∧
    (cell a e d st).2.backtraceD = st.backtraceD := by
  simp only [cell]; exact ⟨trivial, trivial, trivial⟩

/-- The cell `(e + 1, d)` computed on tables holding row `e`, when its extension does not
overflow. -/
theorem cell_lv (a : Args) (e : Nat) (d : Int) (st : LVState) (ht : Tab a st (e + 1))
    (hd : -((e : Int) + 1) ≤ d ∧ d ≤ (e : Int) + 1)
    (hx : extend a.pattern a.text a.patternLen a.textLen d (lc a e d) =
      exactExtend a.pattern a.text a.patternLen a.textLen d (lc a e d)) :
    (cell a ((e : Int) + 1) d st).1 = lv a (e + 1) d ∧
    (cell a ((e : Int) + 1) d st).2.A ((e : Int) + 1) (a.MAX_K + d) = la a e d := by
  obtain ⟨hL, -, -⟩ := ht
  have h1 := hL e (by omega) d
  have h2 := hL e (by omega) (d - 1)
  have h3 := hL e (by omega) (d + 1)
  have e1 : (e : Int) + 1 - 1 = e := by ring
  have e2 : a.MAX_K + d - 1 = a.MAX_K + (d - 1) := by ring
  have e3 : a.MAX_K + d + 1 = a.MAX_K + (d + 1) := by ring
  constructor
  · rw [cell_fst, e1, e2, e3, h1, h2, h3, lv, if_pos hd]
    exact hx
  · rw [cell_A, e1, e2, e3, h1, h2, h3]
    simp [set2, la]


theorem lv_unwritten (a : Args) (e : Nat) (d : Int) (h : (e : Int) < d ∨ d < -(e : Int)) :
    lv a e d = -2 := by
  cases e with
  | zero =>
    have : d ≠ 0 := by simp at h; omega
    simp [lv, this]
  | succ e =>
    have : ¬ (-((e : Int) + 1) ≤ d ∧ d ≤ (e : Int) + 1) := by push_cast at h; omega
    simp only [lv, this, if_false]

/-- Storing the cell `(e + 1, d)` keeps what the tables hold. -/
theorem cell_keeps (a : Args) (e : Nat) (d : Int) (st : LVState) (ht : Tab a st (e + 1))
    (hd : -((e : Int) + 1) ≤ d ∧ d ≤ (e : Int) + 1) (hp : RowPart a st e (scanPos d))
    (hx : extend a.pattern a.text a.patternLen a.textLen d (lc a e d) =
      exactExtend a.pattern a.text a.patternLen a.textLen d (lc a e d)) :
    Tab a (cell a ((e : Int) + 1) d st).2 (e + 1) ∧
    RowPart a (cell a ((e : Int) + 1) d st).2 e (scanPos d) ∧
    (lv a (e + 1) d ≠ a.patternLen →
      RowPart a (cell a ((e : Int) + 1) d st).2 e (scanPos d + 1)) := by
  obtain ⟨c1, c2⟩ := cell_lv a e d st ht hd hx
  obtain ⟨hL, hA, hC⟩ := ht
  have hLeq : ∀ (i j : Int), ¬ (i = (e : Int) + 1 ∧ j = a.MAX_K + d) →
      (cell a ((e : Int) + 1) d st).2.L i j = st.L i j := by
    intro i j h; rw [cell_L]; simp only [set2, h, if_false]
  have hAeq : ∀ (i j : Int), ¬ (i = (e : Int) + 1 ∧ j = a.MAX_K + d) →
      (cell a ((e : Int) + 1) d st).2.A i j = st.A i j := by
    intro i j h; rw [cell_A]; simp only [set2, h, if_false]
  have hLat : (cell a ((e : Int) + 1) d st).2.L ((e : Int) + 1) (a.MAX_K + d) = lv a (e + 1) d := by
    rw [cell_L]; simp only [set2, and_self, if_true]; exact c1
  have hkeep : RowPart a (cell a ((e : Int) + 1) d st).2 e (scanPos d) := by
    intro d' hd'
    have hne : d' ≠ d := by intro h; rw [h] at hd'; exact lt_irrefl _ hd'
    obtain ⟨p1, p2, p3⟩ := hp d' hd'
    refine ⟨?_, ?_, p3⟩
    · rw [hLeq _ _ (by intro h; apply hne; omega)]; exact p1
    · rw [hAeq _ _ (by intro h; apply hne; omega)]; exact p2
  refine ⟨⟨?_, ?_, ?_⟩, hkeep, ?_⟩
  · intro e' he' d'
    rw [hLeq _ _ (by intro h; omega)]
    exact hL e' he' d'
  · intro e' he' d' h1 h2
    rw [hAeq _ _ (by intro h; omega)]
    exact hA e' he' d' h1 h2
  · intro e' d' h
    by_cases hc : (e' : Int) = (e : Int) + 1 ∧ a.MAX_K + d' = a.MAX_K + d
    · exfalso; omega
    · rw [hLeq _ _ hc]; exact hC e' d' h
  · intro hne d' hd'
    by_cases hdd : d' = d
    · subst hdd
      exact ⟨hLat, c2, hne⟩
    · have : scanPos d' ≠ scanPos d := fun h => hdd (scanPos_inj _ _ h)
      exact hkeep d' (by omega)

theorem dSearch_spec (a : Args) (e : Nat) (n : Nat)
    (hx : ∀ d : Int, -((e : Int) + 1) ≤ d → d ≤ (e : Int) + 1 →
      extend a.pattern a.text a.patternLen a.textLen d (lc a e d) =
        exactExtend a.pattern a.text a.patternLen a.textLen d (lc a e d)) :
    ∀ (d : Int) (st : LVState),
    scanPos d + n = 2 * (e + 1) + 1 → Tab a st (e + 1) → RowPart a st e (scanPos d) →
    match dSearch a ((e : Int) + 1) n d st with
    | .inl st1 => Tab a st1 (e + 2) ∧
        ∀ d' : Int, -((e : Int) + 1) ≤ d' → d' ≤ (e : Int) + 1 → lv a (e + 1) d' ≠ a.patternLen
    | .inr (d1, st1) => RowFound a e d1 st1 := by
  induction n with
  | zero =>
    intro d st hn ht hp
    simp only [dSearch]
    obtain ⟨hL, hA, hC⟩ := ht
    have hrow : ∀ d' : Int, -((e : Int) + 1) ≤ d' → d' ≤ (e : Int) + 1 → scanPos d' < scanPos d := by
      intro d' h1 h2
      have := (scanPos_le_iff d' (e + 1)).mpr (by push_cast; omega)
      omega
    refine ⟨⟨?_, ?_, hC⟩, ?_⟩
    · intro e' he' d'
      by_cases h : e' < e + 1
      · exact hL e' h d'
      · have he : e' = e + 1 := by omega
        subst he
        by_cases hw : -((e : Int) + 1) ≤ d' ∧ d' ≤ (e : Int) + 1
        · have := (hp d' (hrow d' hw.1 hw.2)).1
          push_cast; exact this
        · rw [lv_unwritten a (e + 1) d' (by push_cast; omega)]
          exact hC (e + 1) d' (by push_cast; omega)
    · intro e' he' d' h1 h2
      by_cases h : e' + 1 < e + 1
      · exact hA e' h d' h1 h2
      · have he : e' = e := by omega
        subst he
        exact (hp d' (hrow d' h1 h2)).2.1
    · intro d' h1 h2
      exact (hp d' (hrow d' h1 h2)).2.2
  | succ n ih =>
    intro d st hn ht hp
    have hpos : scanPos d ≤ 2 * (e + 1) := by omega
    have hd := (scanPos_le_iff d (e + 1)).mp hpos
    push_cast at hd
    have hne : d ≠ -((e : Int) + 1 + 1) := by
      intro h
      have := (scanPos_eq_iff d (e + 1)).mpr (by push_cast; omega)
      omega
    simp only [dSearch]
    rw [if_pos hne]
    obtain ⟨c1, c2⟩ := cell_lv a e d st ht hd (hx d hd.1 hd.2)
    obtain ⟨k1, k2, k3⟩ := cell_keeps a e d st ht hd hp (hx d hd.1 hd.2)
    by_cases hb : (cell a ((e : Int) + 1) d st).1 = a.patternLen
    · rw [if_pos hb]
      refine ⟨hd, by rw [← c1]; exact hb, k1, k2, ?_, c2⟩
      rw [cell_L]; simp only [set2, and_self, if_true]; exact hb
    · rw [if_neg hb]
      have := ih (if d ≥ 0 then -(d + 1) else -d) (cell a ((e : Int) + 1) d st).2
        (by rw [scanPos_next]; omega) k1 (by rw [scanPos_next]; exact k3 (by rw [← c1]; exact hb))
      exact this

theorem eSearch_spec (a : Args) (hx : NoWrap a) (n : Nat) : ∀ (e : Nat) (st : LVState),
    a.k - e ≤ n → Tab a st (e + 1) →
    (∀ e' : Nat, e' ≤ e → ∀ d' : Int, -(e' : Int) ≤ d' → d' ≤ (e' : Int) →
      lv a e' d' ≠ a.patternLen) →
    match eSearch a n ((e : Int) + 1) st with
    | .inl st1 => (∃ e1 : Nat, Tab a st1 (e1 + 1)) ∧
        ∀ e' : Nat, (e' : Int) ≤ a.k → ∀ d' : Int, -(e' : Int) ≤ d' → d' ≤ (e' : Int) →
          lv a e' d' ≠ a.patternLen
    | .inr (e1, d1, st1) => ∃ e2 : Nat, e1 = (e2 : Int) + 1 ∧ e ≤ e2 ∧ (e2 : Int) + 1 ≤ a.k ∧
        RowFound a e2 d1 st1 ∧
        ∀ e' : Nat, e' ≤ e2 → ∀ d' : Int, -(e' : Int) ≤ d' → d' ≤ (e' : Int) →
          lv a e' d' ≠ a.patternLen := by
  induction n with
  | zero =>
    intro e st hn ht hno
    simp only [eSearch]
    refine ⟨⟨e, ht⟩, ?_⟩
    intro e' he' d' h1 h2
    exact hno e' (by push_cast at hn; omega) d' h1 h2
  | succ n ih =>
    intro e st hn ht hno
    simp only [eSearch]
    by_cases hk : (e : Int) + 1 ≤ a.k
    · rw [if_pos hk]
      have h2e : (2 * ((e : Int) + 1) + 1).toNat = 2 * (e + 1) + 1 := by omega
      rw [h2e]
      have hs := dSearch_spec a e (2 * (e + 1) + 1) (fun d h1 h2 => hx e d hk hno h1 h2)
        0 st (by simp [scanPos]) ht
        (by intro d' hd'; simp [scanPos] at hd')
      rcases hd : dSearch a ((e : Int) + 1) (2 * (e + 1) + 1) 0 st with st1 | ⟨d1, st1⟩
      · rw [hd] at hs
        simp only at hs ⊢
        have := ih (e + 1) st1 (by push_cast at hn ⊢; omega) hs.1 (by
          intro e' he' d' h1 h2
          by_cases h : e' ≤ e
          · exact hno e' h d' h1 h2
          · have : e' = e + 1 := by omega
            subst this
            exact hs.2 d' (by push_cast at h1; omega) (by push_cast at h2; omega))
        have e1 : ((e + 1 : Nat) : Int) + 1 = (e : Int) + 1 + 1 := by push_cast; ring
        rw [e1] at this
        rcases hes : eSearch a n ((e : Int) + 1 + 1) st1 with st2 | ⟨e2, d2, st2⟩
        · rw [hes] at this; exact this
        · rw [hes] at this
          simp only at this ⊢
          obtain ⟨e3, q1, q2, q3, q4, q5⟩ := this
          exact ⟨e3, q1, by omega, q3, q4, q5⟩
      · rw [hd] at hs
        simp only at hs ⊢
        exact ⟨e, rfl, le_refl _, hk, hs, hno⟩
    · rw [if_neg hk]
      refine ⟨⟨e, ht⟩, ?_⟩
      intro e' he' d' h1 h2
      exact hno e' (by omega) d' h1 h2

/-- Storing a cell of row `e` on a diagonal `|d| ≤ e` leaves the unwritten cells as they
are. -/
theorem cell_clean (a : Args) (e : Nat) (d : Int) (st : LVState)
    (hd : -(e : Int) ≤ d ∧ d ≤ (e : Int)) (hc : st.Clean a.MAX_K) :
    (cell a (e : Int) d st).2.Clean a.MAX_K := by
  intro e' d' h
  rw [cell_L]
  simp only [set2]
  split_ifs with h1
  · exfalso; omega
  · exact hc e' d' h

theorem dSearch_clean (a : Args) (e : Nat) (n : Nat) : ∀ (d : Int) (st : LVState),
    scanPos d + n = 2 * e + 1 → st.Clean a.MAX_K →
    match dSearch a (e : Int) n d st with
    | .inl st1 => st1.Clean a.MAX_K
    | .inr (_, st1) => st1.Clean a.MAX_K := by
  induction n with
  | zero => intro d st _ hc; simpa only [dSearch] using hc
  | succ n ih =>
    intro d st hn hc
    have hd := (scanPos_le_iff d e).mp (by omega)
    have hne : d ≠ -((e : Int) + 1) := by
      intro h
      have := (scanPos_eq_iff d e).mpr h
      omega
    simp only [dSearch]
    rw [if_pos hne]
    have hcl := cell_clean a e d st hd hc
    by_cases hb : (cell a (e : Int) d st).1 = a.patternLen
    · rw [if_pos hb]; exact hcl
    · rw [if_neg hb]
      exact ih _ _ (by rw [scanPos_next]; omega) hcl

/-- The search leaves -2 in the cells of `L` that no call writes, whatever the lengths. -/
theorem eSearch_clean (a : Args) (n : Nat) : ∀ (e : Nat) (st : LVState),
    st.Clean a.MAX_K →
    match eSearch a n (e : Int) st with
    | .inl st1 => st1.Clean a.MAX_K
    | .inr (_, _, st1) => st1.Clean a.MAX_K := by
  induction n with
  | zero => intro e st hc; simpa only [eSearch] using hc
  | succ n ih =>
    intro e st hc
    simp only [eSearch]
    by_cases hk : (e : Int) ≤ a.k
    · rw [if_pos hk]
      have h2e : (2 * (e : Int) + 1).toNat = 2 * e + 1 := by omega
      rw [h2e]
      have hs := dSearch_clean a e (2 * e + 1) 0 st (by simp [scanPos]) hc
      rcases hd : dSearch a (e : Int) (2 * e + 1) 0 st with st1 | ⟨d1, st1⟩
      · rw [hd] at hs
        simp only at hs ⊢
        have := ih (e + 1) st1 hs
        have e1 : ((e + 1 : Nat) : Int) = (e : Int) + 1 := by push_cast; ring
        rw [e1] at this
        exact this
      · rw [hd] at hs
        simp only at hs ⊢
        exact hs
    · rw [if_neg hk]; exact hc


/-! ## The scripts as lists of calls -/

theorem writeAll_nil (C : Byte → Nat) (f : CigarFormat) (em : Emit) : writeAll C f [] em = em := rfl

theorem writeAll_cons (C : Byte → Nat) (f : CigarFormat) (op : Int × Byte)
    (calls : List (Int × Byte)) (em : Emit) :
    writeAll C f (op :: calls) em = writeAll C f calls (em.write C f op.1 op.2) := rfl

theorem writeAll_append (C : Byte → Nat) (f : CigarFormat) (c1 c2 : List (Int × Byte))
    (em : Emit) : writeAll C f (c1 ++ c2) em = writeAll C f c2 (writeAll C f c1 em) := by
  simp [writeAll, List.foldl_append]

/-- When the last status is true every call returned true, and the script is extended by
the operations with a positive count. -/
theorem writeAll_ok (C : Byte → Nat) (f : CigarFormat) (calls : List (Int × Byte)) :
    ∀ em : Emit, (writeAll C f calls em).status = some true →
      em.status = some true ∧ (writeAll C f calls em).script = em.script ++ written calls := by
  induction calls with
  | nil => intro em h; exact ⟨h, by simp [writeAll_nil, written]⟩
  | cons op calls ih =>
    intro em h
    rw [writeAll_cons] at h ⊢
    obtain ⟨h1, h2⟩ := ih _ h
    obtain ⟨h3, h4⟩ := write_ok C f em op.1 op.2 h1
    refine ⟨h3, ?_⟩
    rw [h2, h4]
    by_cases hc : op.1 > 0
    · simp [written, List.filter_cons, hc]
    · simp [written, List.filter_cons, hc]

theorem exactScript_eq (C : Byte → Nat) (f : CigarFormat) (useM : Bool) (P E : Int) (em : Emit) :
    exactScript C f useM P E em = writeAll C f (exactCalls useM P E) em := by
  unfold exactScript exactCalls
  cases useM
  · simp only [Bool.false_eq_true, if_false]
    split_ifs <;> rfl
  · rfl

theorem streakLoop_eq (C : Byte → Nat) (f : CigarFormat) (pattern text : Mem) (n : Nat) :
    ∀ (i ss : Int) (m : Bool) (em : Emit),
    streakLoop C f pattern text n i ss m em =
      ((streakCalls pattern text n i ss m).1, (streakCalls pattern text n i ss m).2.1,
        writeAll C f (streakCalls pattern text n i ss m).2.2 em) := by
  induction n with
  | zero => intro i ss m em; rfl
  | succ n ih =>
    intro i ss m em
    simp only [streakLoop, streakCalls]
    by_cases h : decide (pattern i = text i) ≠ m
    · rw [if_pos h, if_pos h, ih]
      rfl
    · rw [if_neg h, if_neg h, ih]

theorem flatScript_eq (C : Byte → Nat) (f : CigarFormat) (useM : Bool) (pattern text : Mem)
    (P E : Int) (em : Emit) :
    flatScript C f useM pattern text P E em = writeAll C f (flatCalls useM pattern text P E) em := by
  unfold flatScript flatCalls
  cases useM
  · simp only [Bool.false_eq_true, if_false]
    rw [streakLoop_eq]
    simp only
    split_ifs <;> simp [writeAll_append, writeAll_cons, writeAll_nil]
  · rfl

theorem emitLoop_eq (C : Byte → Nat) (f : CigarFormat) (useM : Bool) (st : LVState) (e : Int)
    (n : Nat) : ∀ (curE acc : Int) (em : Emit),
    emitLoop C f useM st e n curE acc em =
      ((emitCalls useM st e n curE acc).1, writeAll C f (emitCalls useM st e n curE acc).2 em) := by
  induction n with
  | zero => intro curE acc em; rfl
  | succ n ih =>
    intro curE acc em
    simp only [emitLoop, emitCalls]
    by_cases h : curE ≤ e
    · rw [if_pos h, if_pos h]
      simp only [roundCalls]
      cases useM
      · simp only [Bool.false_eq_true, if_false]
        split_ifs <;> rw [ih] <;> simp [writeAll_append, writeAll_cons, writeAll_nil]
      · simp only [if_true]
        by_cases h0 : acc = 0
        · subst h0
          split_ifs <;> rw [ih] <;> simp [writeAll_append, writeAll_cons, writeAll_nil]
        · split_ifs <;> rw [ih] <;> simp [writeAll_append, writeAll_cons, writeAll_nil]
    · rw [if_neg h, if_neg h]; rfl

theorem backtraceScript_eq (C : Byte → Nat) (f : CigarFormat) (useM : Bool) (K : Int)
    (st : LVState) (e : Int) (em : Emit) :
    backtraceScript C f useM K st e em = writeAll C f (backtraceCalls useM K st e) em := by
  unfold backtraceScript backtraceCalls
  cases useM
  · simp only [Bool.false_eq_true, if_false, false_and]
    split_ifs <;> rw [emitLoop_eq] <;> simp [writeAll_append, writeAll_cons, writeAll_nil]
  · simp only [if_true, true_and]
    rw [emitLoop_eq]
    split_ifs <;> simp [writeAll_append, writeAll_cons, writeAll_nil]


/-! ## The shape of a call -/

theorem computeEditDistance_eq (MAX_K : Int) (CigarToCode : Byte → Nat) (st : LVState) (text : Mem)
    (textLen : Int) (pattern : Mem) (patternLen k : Int) (cigarBuf : CigarBuf) (useM : Bool)
    (format : CigarFormat) (wantUsed : Bool) :
    computeEditDistance MAX_K CigarToCode st (some text) textLen pattern patternLen k cigarBuf
        useM format wantUsed =
      if lv (callArgs MAX_K CigarToCode text textLen pattern patternLen k cigarBuf useM format
          wantUsed) 0 0 = min patternLen textLen then
        finish { st with L := set2 st.L 0 MAX_K (lv (callArgs MAX_K CigarToCode text textLen pattern
            patternLen k cigarBuf useM format wantUsed) 0 0) } cigarBuf.buf wantUsed false 0
          (writeAll CigarToCode format (exactCalls useM patternLen (min patternLen textLen))
            { buf := cigarBuf, status := some true, script := [] })
      else
        match eSearch (callArgs MAX_K CigarToCode text textLen pattern patternLen k cigarBuf useM
            format wantUsed) k.toNat 1
          { st with L := set2 st.L 0 MAX_K (lv (callArgs MAX_K CigarToCode text textLen pattern
            patternLen k cigarBuf useM format wantUsed) 0 0) } with
        | .inl st1 => exceeded st1 cigarBuf
        | .inr (e1, d1, st1) =>
          acceptRet (callArgs MAX_K CigarToCode text textLen pattern patternLen k cigarBuf useM
            format wantUsed) e1 d1 st1 cigarBuf := by
  simp only [computeEditDistance, set2, and_self, if_true, lv, callArgs]
  split_ifs
  · rw [exactScript_eq]
  · rw [eLoop_eq]
    try (split <;> simp_all)

theorem acceptRet_eq (a : Args) (e d : Int) (st : LVState) (buf : CigarBuf) :
    acceptRet a e d st buf =
      if countMismatches a.pattern a.text (min a.patternLen a.textLen).toNat 0 0
          + (a.patternLen - min a.patternLen a.textLen) = e then
        finish st a.cigarBufStart a.wantUsed false e
          (writeAll a.CigarToCode a.format
            (flatCalls a.useM a.pattern a.text a.patternLen (min a.patternLen a.textLen))
            { buf := buf, status := some true, script := [] })
      else
        finish (backtrace a.MAX_K e.toNat e d st) a.cigarBufStart a.wantUsed
          (decide (a.format ≠ .BAM_CIGAR_OPS)) e
          (writeAll a.CigarToCode a.format
            (backtraceCalls a.useM a.MAX_K (backtrace a.MAX_K e.toNat e d st) e)
            { buf := buf, status := some true, script := [] }) := by
  simp only [acceptRet]
  split_ifs
  · rw [flatScript_eq]
  · rw [backtraceScript_eq]

/-- The seed leaves the tables holding row 0. -/
theorem seed_tab (a : Args) (st : LVState) (hc : st.Clean a.MAX_K) :
    Tab a { st with L := set2 st.L 0 a.MAX_K (lv a 0 0) } 1 := by
  refine ⟨?_, ?_, ?_⟩
  · intro e' he' d
    have : e' = 0 := by omega
    subst this
    by_cases hd : d = 0
    · subst hd; simp [set2]
    · have h1 : ¬ ((0 : Int) = 0 ∧ a.MAX_K + d = a.MAX_K) := by omega
      have h2 := hc 0 d (by simp; omega)
      simp only [Nat.cast_zero] at h2
      have h3 : ¬ (True ∧ a.MAX_K + d = a.MAX_K) := by omega
      simp only [set2, Nat.cast_zero]
      rw [if_neg h3, lv_unwritten a 0 d (by simp; omega), h2]
  · intro e' he'; omega
  · intro e' d h
    by_cases h1 : (e' : Int) = 0 ∧ a.MAX_K + d = a.MAX_K
    · exfalso; omega
    · simp only [set2, h1, if_false]
      exact hc e' d h


theorem lv_zero_zero (a : Args) :
    lv a 0 0 = seedScan a.pattern a.text (min a.patternLen a.textLen)
      ((min a.patternLen a.textLen).toNat + 1) 0 := by
  simp [lv]

/-- The seed: `L[0][MAX_K]` lies in `0..end`, the bytes before it agree, and the bytes at it
differ when it is below `end = min(patternLen, textLen)`. -/
theorem lv_seed (a : Args) :
    (lv a 0 0 = min a.patternLen a.textLen ↔
      ∀ i : Int, 0 ≤ i → i < min a.patternLen a.textLen → a.pattern i = a.text i) ∧
    (0 ≤ min a.patternLen a.textLen → 0 ≤ lv a 0 0) ∧
    lv a 0 0 ≤ max (min a.patternLen a.textLen) 0 ∧
    (∀ i : Int, 0 ≤ i → i < lv a 0 0 → a.pattern i = a.text i) ∧
    (lv a 0 0 < min a.patternLen a.textLen → a.pattern (lv a 0 0) ≠ a.text (lv a 0 0)) := by
  rw [lv_zero_zero]
  exact seed_spec a.pattern a.text (min a.patternLen a.textLen)

theorem lv_seed_lt (a : Args) (h : lv a 0 0 ≠ min a.patternLen a.textLen) :
    0 ≤ lv a 0 0 ∧ lv a 0 0 < min a.patternLen a.textLen := by
  obtain ⟨s1, s2, s3, _, _⟩ := lv_seed a
  by_cases hE : 0 ≤ min a.patternLen a.textLen
  · have := s2 hE
    omega
  · exfalso
    apply h
    apply s1.mpr
    intro i h1 h2; omega

/-- The three ways a call with a text ends: at the seed with an exact match, after the
loops without reaching `patternLen`, or in the block of lines 190-365 at the first cell,
in the order of the loops, that reaches `patternLen`. -/
theorem call_cases (MAX_K : Int) (CigarToCode : Byte → Nat) (st : LVState) (text : Mem)
    (textLen : Int) (pattern : Mem) (patternLen k : Int) (cigarBuf : CigarBuf) (useM : Bool)
    (format : CigarFormat) (wantUsed : Bool) (hc : st.Clean MAX_K)
    (hx : NoWrap (callArgs MAX_K CigarToCode text textLen pattern patternLen k cigarBuf useM
      format wantUsed)) :
    (lv (callArgs MAX_K CigarToCode text textLen pattern patternLen k cigarBuf useM format
        wantUsed) 0 0 = min patternLen textLen ∧
      computeEditDistance MAX_K CigarToCode st (some text) textLen pattern patternLen k cigarBuf
        useM format wantUsed =
        finish { st with L := set2 st.L 0 MAX_K (lv (callArgs MAX_K CigarToCode text textLen pattern
            patternLen k cigarBuf useM format wantUsed) 0 0) } cigarBuf.buf wantUsed false 0
          (writeAll CigarToCode format (exactCalls useM patternLen (min patternLen textLen))
            { buf := cigarBuf, status := some true, script := [] })) ∨
    (lv (callArgs MAX_K CigarToCode text textLen pattern patternLen k cigarBuf useM format
        wantUsed) 0 0 ≠ min patternLen textLen ∧
      (∃ st1, computeEditDistance MAX_K CigarToCode st (some text) textLen pattern patternLen k
        cigarBuf useM format wantUsed = exceeded st1 cigarBuf) ∧
      ∀ e' : Nat, (e' : Int) ≤ k → ∀ d' : Int, -(e' : Int) ≤ d' → d' ≤ (e' : Int) →
        lv (callArgs MAX_K CigarToCode text textLen pattern patternLen k cigarBuf useM format
          wantUsed) e' d' ≠ patternLen) ∨
    (lv (callArgs MAX_K CigarToCode text textLen pattern patternLen k cigarBuf useM format
        wantUsed) 0 0 ≠ min patternLen textLen ∧
      ∃ (e : Nat) (d : Int) (st1 : LVState), (e : Int) + 1 ≤ k ∧
        RowFound (callArgs MAX_K CigarToCode text textLen pattern patternLen k cigarBuf useM format
          wantUsed) e d st1 ∧
        (∀ e' : Nat, e' ≤ e → ∀ d' : Int, -(e' : Int) ≤ d' → d' ≤ (e' : Int) →
          lv (callArgs MAX_K CigarToCode text textLen pattern patternLen k cigarBuf useM format
            wantUsed) e' d' ≠ patternLen) ∧
        computeEditDistance MAX_K CigarToCode st (some text) textLen pattern patternLen k cigarBuf
          useM format wantUsed =
          acceptRet (callArgs MAX_K CigarToCode text textLen pattern patternLen k cigarBuf useM
            format wantUsed) ((e : Int) + 1) d st1 cigarBuf) := by
  rw [computeEditDistance_eq]
  generalize ha : callArgs MAX_K CigarToCode text textLen pattern patternLen k cigarBuf useM format
    wantUsed = a at hx ⊢
  have hK : a.MAX_K = MAX_K := by rw [← ha]; rfl
  have hP : a.patternLen = patternLen := by rw [← ha]; rfl
  have hT : a.textLen = textLen := by rw [← ha]; rfl
  have hk : a.k = k := by rw [← ha]; rfl
  by_cases hs : lv a 0 0 = min patternLen textLen
  · left
    rw [if_pos hs]
    exact ⟨hs, rfl⟩
  · right
    rw [if_neg hs]
    have hlt := lv_seed_lt a (by rw [hP, hT]; exact hs)
    rw [hP, hT] at hlt
    have htab := seed_tab a st (by rw [hK]; exact hc)
    rw [hK] at htab
    have hno : ∀ e' : Nat, e' ≤ 0 → ∀ d' : Int, -(e' : Int) ≤ d' → d' ≤ (e' : Int) →
        lv a e' d' ≠ a.patternLen := by
      intro e' he' d' h1 h2
      have : e' = 0 := by omega
      subst this
      have : d' = 0 := by simp at h1 h2; omega
      subst this
      rw [hP]; omega
    have hsp := eSearch_spec a hx k.toNat 0 _ (by rw [hk]; omega) htab hno
    simp only [Nat.cast_zero, zero_add] at hsp
    rcases hes : eSearch a k.toNat 1
      { st with L := set2 st.L 0 MAX_K (lv a 0 0) } with st1 | ⟨e1, d1, st1⟩
    · left
      rw [hes] at hsp
      simp only at hsp ⊢
      refine ⟨hs, ⟨st1, rfl⟩, ?_⟩
      intro e' he' d' h1 h2
      rw [← hP]
      exact hsp.2 e' (by rw [hk]; exact he') d' h1 h2
    · right
      rw [hes] at hsp
      simp only at hsp ⊢
      obtain ⟨e2, q1, -, q3, q4, q5⟩ := hsp
      subst q1
      refine ⟨hs, e2, d1, st1, by rw [← hk]; exact q3, q4, ?_, rfl⟩
      intro e' he' d' h1 h2
      rw [← hP]
      exact q5 e' he' d' h1 h2


/-! ## The recurrence of the table -/

theorem ch_ne : ch 'I' ≠ ch 'D' ∧ ch 'I' ≠ ch 'X' ∧ ch 'D' ≠ ch 'X' ∧ ch '=' ≠ ch 'I' ∧
    ch '=' ≠ ch 'D' ∧ ch '=' ≠ ch 'X' ∧ ch 'M' ≠ ch 'I' ∧ ch 'M' ≠ ch 'D' ∧ ch 'M' ≠ ch 'X' ∧
    ch 'M' ≠ ch '=' := by decide

/-- The choice among the three candidates: insertion only when strictly better than both
others, deletion only when strictly better than the mismatch. -/
theorem choose_cases (u l r : Int) :
    (choose u l r = (r + 1, ch 'I') ∧ u + 1 < r + 1 ∧ l < r + 1) ∨
    (choose u l r = (l, ch 'D') ∧ u + 1 < l ∧ r + 1 ≤ l) ∨
    (choose u l r = (u + 1, ch 'X') ∧ l ≤ u + 1 ∧ r + 1 ≤ u + 1) := by
  unfold choose
  by_cases h1 : l > u + 1
  · rw [if_pos h1]
    by_cases h2 : r + 1 > l
    · left; rw [if_pos h2]; exact ⟨rfl, by omega, by omega⟩
    · right; left; rw [if_neg h2, if_pos h1]; exact ⟨rfl, by omega, by omega⟩
  · rw [if_neg h1]
    by_cases h2 : r + 1 > u + 1
    · left; rw [if_pos h2]; exact ⟨rfl, by omega, by omega⟩
    · right; right; rw [if_neg h2, if_neg h1]; exact ⟨rfl, by omega, by omega⟩

theorem choose_ge (u l r : Int) :
    u + 1 ≤ (choose u l r).1 ∧ l ≤ (choose u l r).1 ∧ r + 1 ≤ (choose u l r).1 := by
  rcases choose_cases u l r with ⟨h, h1, h2⟩ | ⟨h, h1, h2⟩ | ⟨h, h1, h2⟩ <;> rw [h] <;>
    simp only <;> omega

theorem choose_le (u l r B : Int) (h1 : u + 1 ≤ B) (h2 : l ≤ B) (h3 : r + 1 ≤ B) :
    (choose u l r).1 ≤ B := by
  rcases choose_cases u l r with ⟨h, -, -⟩ | ⟨h, -, -⟩ | ⟨h, -, -⟩ <;> rw [h] <;>
    simp only <;> omega

theorem lv_succ (a : Args) (e : Nat) (d : Int) (hd : -((e : Int) + 1) ≤ d ∧ d ≤ (e : Int) + 1) :
    lv a (e + 1) d = exactExtend a.pattern a.text a.patternLen a.textLen d (lc a e d) := by
  simp only [lv, hd, and_self, if_true, lc]

theorem lc_ge (a : Args) (e : Nat) (d : Int) :
    lv a e d + 1 ≤ lc a e d ∧ lv a e (d - 1) ≤ lc a e d ∧ lv a e (d + 1) + 1 ≤ lc a e d :=
  choose_ge _ _ _

/-- Bounds on the extension of a candidate `c` on diagonal `d`. -/
theorem extend_bounds (a : Args) (d c : Int) :
    min c (min a.patternLen (a.textLen - d)) ≤ exactExtend a.pattern a.text a.patternLen a.textLen d c ∧
    exactExtend a.pattern a.text a.patternLen a.textLen d c ≤ max c (min a.patternLen (a.textLen - d)) ∧
    (exactExtend a.pattern a.text a.patternLen a.textLen d c < c →
      exactExtend a.pattern a.text a.patternLen a.textLen d c = min a.patternLen (a.textLen - d)) ∧
    (min a.patternLen (a.textLen - d) ≤ c →
      exactExtend a.pattern a.text a.patternLen a.textLen d c ≤ c) := by
  obtain ⟨s1, s2, s3⟩ := exactExtend_spec a.pattern a.text a.patternLen a.textLen d c
  by_cases hb : a.pattern c = a.text (d + c)
  · by_cases hE : min a.patternLen (a.textLen - d) ≤ c
    · rw [s2 hb hE]
      exact ⟨by omega, by omega, fun _ => rfl, fun _ => hE⟩
    · obtain ⟨j1, j2, -, -⟩ := s3 hb (by omega)
      exact ⟨by omega, by omega, fun h => by omega, fun h => by omega⟩
  · rw [s1 hb]
    exact ⟨by omega, by omega, fun h => absurd h (lt_irrefl _), fun _ => le_refl _⟩

/-- The extension of a candidate inside the text window: it moves over equal bytes and
stops at a difference or at `end`. -/
theorem extend_inside (a : Args) (d c : Int) (hc : c ≤ min a.patternLen (a.textLen - d)) :
    c ≤ exactExtend a.pattern a.text a.patternLen a.textLen d c ∧
    exactExtend a.pattern a.text a.patternLen a.textLen d c ≤ min a.patternLen (a.textLen - d) ∧
    (∀ i : Int, c ≤ i → i < exactExtend a.pattern a.text a.patternLen a.textLen d c →
      a.pattern i = a.text (d + i)) ∧
    (exactExtend a.pattern a.text a.patternLen a.textLen d c < min a.patternLen (a.textLen - d) →
      a.pattern (exactExtend a.pattern a.text a.patternLen a.textLen d c)
        ≠ a.text (d + exactExtend a.pattern a.text a.patternLen a.textLen d c)) := by
  obtain ⟨s1, s2, s3⟩ := exactExtend_spec a.pattern a.text a.patternLen a.textLen d c
  by_cases hb : a.pattern c = a.text (d + c)
  · by_cases hE : min a.patternLen (a.textLen - d) ≤ c
    · rw [s2 hb hE]
      exact ⟨hc, le_refl _, fun i h1 h2 => by omega, fun h => absurd h (lt_irrefl _)⟩
    · obtain ⟨j1, j2, j3, j4⟩ := s3 hb (by omega)
      exact ⟨by omega, j2, j3, j4⟩
  · rw [s1 hb]
    exact ⟨le_refl _, hc, fun i h1 h2 => by omega, fun _ => hb⟩

/-! ## Substitutions only: the main diagonal -/

theorem mismatches_mono (pattern text : Mem) (n m : Nat) (h : n ≤ m) :
    mismatches pattern text n ≤ mismatches pattern text m := by
  induction m with
  | zero => have : n = 0 := by omega
            subst this; exact le_refl _
  | succ m ih =>
    by_cases hn : n = m + 1
    · subst hn; exact le_refl _
    · have := ih (by omega)
      simp only [mismatches]; omega

theorem mismatches_pos (pattern text : Mem) (n : Nat) (i : Nat) (hi : i < n)
    (hne : pattern (i : Int) ≠ text (i : Int)) :
    mismatches pattern text i + 1 ≤ mismatches pattern text n := by
  have h1 : mismatches pattern text (i + 1) = mismatches pattern text i + 1 := by
    simp [mismatches, hne]
  have := mismatches_mono pattern text (i + 1) n (by omega)
  omega

theorem mismatches_zero (pattern text : Mem) (n : Nat)
    (h : ∀ i : Int, 0 ≤ i → i < n → pattern i = text i) : mismatches pattern text n = 0 := by
  induction n with
  | zero => rfl
  | succ n ih =>
    have h1 := ih (fun i h1 h2 => h i h1 (by push_cast; omega))
    have h2 := h n (by omega) (by push_cast; omega)
    simp [mismatches, h1, h2]

/-- With `textLen = patternLen`, the cell `L[e][MAX_K]` of the main diagonal lies at or
behind every position `x ≤ patternLen` whose prefix holds at most `e` mismatches. -/
theorem diag_zero_reach (a : Args) (hlen : a.textLen = a.patternLen) (hP : 0 ≤ a.patternLen)
    (e : Nat) : ∀ x : Nat, (x : Int) ≤ a.patternLen → mismatches a.pattern a.text x ≤ e →
      (x : Int) ≤ lv a e 0 := by
  induction e with
  | zero =>
    intro x hx hm
    obtain ⟨-, s2, -, -, s5⟩ := lv_seed a
    have hE : min a.patternLen a.textLen = a.patternLen := by rw [hlen]; simp
    rw [hE] at s2 s5
    by_contra hlt
    have h0 := s2 hP
    have hne := s5 (by omega)
    have := mismatches_pos a.pattern a.text x (lv a 0 0).toNat (by omega)
      (by rw [Int.toNat_of_nonneg h0]; exact hne)
    omega
  | succ e ih =>
    intro x hx hm
    have h0 : (0 : Int) ≤ lv a e 0 := by
      have := ih 0 (by simpa using hP) (by simp [mismatches])
      simpa using this
    rw [lv_succ a e 0 (by constructor <;> omega)]
    obtain ⟨b1, -, -, -⟩ := extend_bounds a 0 (lc a e 0)
    obtain ⟨g1, -, -⟩ := lc_ge a e 0
    have hE : min a.patternLen (a.textLen - 0) = a.patternLen := by rw [hlen]; simp
    rw [hE] at b1
    by_contra hlt
    push_neg at hlt
    have hc : lc a e 0 ≤ min a.patternLen (a.textLen - 0) := by rw [hE]; omega
    obtain ⟨i1, i2, -, i4⟩ := extend_inside a 0 (lc a e 0) hc
    rw [hE] at i2 i4
    have hne := i4 (by omega)
    rw [zero_add] at hne
    generalize hv : exactExtend a.pattern a.text a.patternLen a.textLen 0 (lc a e 0) = v at *
    have hv0 : 0 ≤ v := by omega
    have hy : ¬ mismatches a.pattern a.text (lv a e 0 + 1).toNat ≤ e := by
      intro hle
      have := ih (lv a e 0 + 1).toNat (by rw [Int.toNat_of_nonneg (by omega)]; omega) hle
      rw [Int.toNat_of_nonneg (by omega)] at this
      omega
    have hm1 := mismatches_pos a.pattern a.text x v.toNat (by omega)
      (by rw [Int.toNat_of_nonneg hv0]; exact hne)
    have hm2 := mismatches_mono a.pattern a.text (lv a e 0 + 1).toNat v.toNat (by omega)
    omega


/-! ## Scripts spelled out -/

theorem expand_nil : expand [] = [] := rfl

theorem expand_cons (op : Int × Byte) (s : List (Int × Byte)) :
    expand (op :: s) = List.replicate op.1.toNat op.2 ++ expand s := by
  simp [expand]

theorem expand_append (s t : List (Int × Byte)) : expand (s ++ t) = expand s ++ expand t := by
  simp [expand]

theorem expand_written (calls : List (Int × Byte)) : expand (written calls) = expand calls := by
  induction calls with
  | nil => rfl
  | cons op calls ih =>
    by_cases h : op.1 > 0
    · simp [written, List.filter_cons, h, expand_cons] at ih ⊢
      exact ih
    · have h0 : op.1.toNat = 0 := by omega
      simp [written, List.filter_cons, h, expand_cons, h0] at ih ⊢
      exact ih

theorem written_sum (calls : List (Int × Byte)) :
    ((written calls).map (fun op => op.1)).sum = ((expand calls).length : Int) := by
  induction calls with
  | nil => rfl
  | cons op calls ih =>
    have hw : written (op :: calls) = if op.1 > 0 then op :: written calls else written calls := by
      by_cases h : op.1 > 0 <;> simp [written, List.filter_cons, h]
    rw [hw, expand_cons, List.length_append, List.length_replicate, Nat.cast_add]
    by_cases h : op.1 > 0
    · rw [if_pos h, List.map_cons, List.sum_cons, ih]; omega
    · rw [if_neg h, ih]; omega

theorem streakCalls_change (pattern text : Mem) (n : Nat) (i ss : Int) (m : Bool)
    (h : decide (pattern i = text i) ≠ m) :
    streakCalls pattern text (n + 1) i ss m =
      ((streakCalls pattern text n (i + 1) i (decide (pattern i = text i))).1,
       (streakCalls pattern text n (i + 1) i (decide (pattern i = text i))).2.1,
       (i - ss, if m then ch '=' else ch 'X')
         :: (streakCalls pattern text n (i + 1) i (decide (pattern i = text i))).2.2) := by
  simp only [streakCalls]
  exact if_pos h

theorem streakCalls_same (pattern text : Mem) (n : Nat) (i ss : Int) (m : Bool)
    (h : ¬ decide (pattern i = text i) ≠ m) :
    streakCalls pattern text (n + 1) i ss m = streakCalls pattern text n (i + 1) ss m := by
  simp only [streakCalls]
  exact if_neg h

theorem flatOps_length (pattern text : Mem) (E : Int) (n : Nat) : ∀ i : Int,
    (flatOps pattern text E i n).length = n := by
  induction n with
  | zero => intro i; rfl
  | succ n ih => intro i; simp [flatOps, ih]

theorem replicate_toNat_succ (x : Int) (c : Byte) (hx : 0 ≤ x) :
    List.replicate (x + 1).toNat c = List.replicate x.toNat c ++ [c] := by
  have : (x + 1).toNat = x.toNat + 1 := by omega
  rw [this, List.replicate_succ']

/-- The calls of the streak loop, spelled out: together with the streak still open when
the loop ends they give the streak open at the start followed by the opcodes of the
positions visited. -/
theorem streakCalls_expand (pattern text : Mem) (E : Int) (n : Nat) :
    ∀ (i ss : Int) (m : Bool), ss ≤ i → i + n ≤ E →
      (∀ j : Int, ss ≤ j → j < i → decide (pattern j = text j) = m) →
      expand (streakCalls pattern text n i ss m).2.2
          ++ List.replicate (i + n - (streakCalls pattern text n i ss m).1).toNat
              (if (streakCalls pattern text n i ss m).2.1 then ch '=' else ch 'X')
        = List.replicate (i - ss).toNat (if m then ch '=' else ch 'X')
            ++ flatOps pattern text E i n ∧
      ss ≤ (streakCalls pattern text n i ss m).1 ∧
      (streakCalls pattern text n i ss m).1 ≤ i + n ∧
      (∀ j : Int, (streakCalls pattern text n i ss m).1 ≤ j → j < i + n →
        decide (pattern j = text j) = (streakCalls pattern text n i ss m).2.1) ∧
      (∀ op ∈ (streakCalls pattern text n i ss m).2.2, op.2 = ch '=' ∨ op.2 = ch 'X') := by
  induction n with
  | zero =>
    intro i ss m h1 h2 h3
    simp only [streakCalls, expand_nil, List.nil_append, Nat.cast_zero, add_zero, flatOps,
      List.append_nil]
    exact ⟨trivial, le_refl _, h1, h3, by simp⟩
  | succ n ih =>
    intro i ss m h1 h2 h3
    have hiE : i < E := by push_cast at h2; omega
    have hop : flatOp pattern text E i = if decide (pattern i = text i) then ch '=' else ch 'X' := by
      simp only [flatOp, hiE, true_and, decide_eq_true_eq]
    have hcast : i + ((n + 1 : Nat) : Int) = i + 1 + (n : Int) := by push_cast; ring
    by_cases hm : decide (pattern i = text i) ≠ m
    · rw [streakCalls_change pattern text n i ss m hm]
      simp only
      obtain ⟨q1, q2, q3, q4, q5⟩ := ih (i + 1) i (decide (pattern i = text i)) (by omega)
        (by push_cast at h2 ⊢; omega)
        (fun j hj1 hj2 => by have : j = i := by omega
                             rw [this])
      rw [hcast]
      refine ⟨?_, by omega, q3, q4, ?_⟩
      · rw [expand_cons, List.append_assoc, q1]
        simp only [flatOps, hop]
        have : (i + 1 - i).toNat = 1 := by omega
        rw [this]; simp
      · intro op hop'
        simp only [List.mem_cons] at hop'
        rcases hop' with h | h
        · rw [h]; simp only; split_ifs <;> simp
        · exact q5 op h
    · rw [streakCalls_same pattern text n i ss m hm]
      have hm' : decide (pattern i = text i) = m := by
        by_contra h; exact hm h
      obtain ⟨q1, q2, q3, q4, q5⟩ := ih (i + 1) ss m (by omega) (by push_cast at h2 ⊢; omega)
        (fun j hj1 hj2 => by
          by_cases hji : j = i
          · rw [hji]; exact hm'
          · exact h3 j hj1 (by omega))
      rw [hcast]
      refine ⟨?_, q2, q3, q4, q5⟩
      rw [q1]
      have e1 : i + 1 - ss = (i - ss) + 1 := by ring
      rw [e1, replicate_toNat_succ _ _ (by omega)]
      simp only [flatOps, hop, hm', List.append_assoc, List.singleton_append]

theorem replicate_add_toNat (x y : Int) (c : Byte) (hx : 0 ≤ x) (hy : 0 ≤ y) :
    List.replicate (x + y).toNat c = List.replicate x.toNat c ++ List.replicate y.toNat c := by
  have : (x + y).toNat = x.toNat + y.toNat := by omega
  rw [this, List.replicate_add]

/-- The script of lines 203-244 for `useM = false`, spelled out, is the opcode of every
position below `end` followed by an `X` for every position from `end` to `patternLen`. -/
theorem flatCalls_expand (pattern text : Mem) (P E : Int) (hE : 0 ≤ E) (hPE : E ≤ P) :
    expand (flatCalls false pattern text P E)
      = flatOps pattern text E 0 E.toNat ++ List.replicate (P - E).toNat (ch 'X') ∧
    ∀ op ∈ flatCalls false pattern text P E, op.2 = ch '=' ∨ op.2 = ch 'X' := by
  obtain ⟨q1, q2, q3, q4, q5⟩ := streakCalls_expand pattern text E E.toNat 0 0
    (decide (pattern 0 = text 0)) (le_refl _) (by omega) (fun j h1 h2 => by omega)
  simp only [flatCalls, Bool.false_eq_true, if_false]
  generalize streakCalls pattern text E.toNat 0 0 (decide (pattern 0 = text 0)) = r at q1 q2 q3 q4 q5
  obtain ⟨ss, m, calls⟩ := r
  simp only at q1 q2 q3 q4 q5 ⊢
  have hEn : (0 : Int) + (E.toNat : Int) = E := by omega
  rw [hEn] at q1 q3 q4
  simp only [sub_zero, Int.toNat_zero, List.replicate_zero, List.nil_append] at q1
  constructor
  · rw [← q1]
    by_cases hP : P > ss
    · rw [if_pos hP]
      cases m
      · simp only [Bool.not_false, if_true, Bool.false_eq_true, if_false] at q1 ⊢
        rw [expand_append, expand_cons, expand_nil, List.append_nil, List.append_assoc]
        simp only
        have : P - ss = (E - ss) + (P - E) := by ring
        rw [this, replicate_add_toNat _ _ _ (by omega) (by omega)]
      · simp only [Bool.not_true, Bool.false_eq_true, if_false, if_true] at q1 ⊢
        rw [expand_append, expand_cons, List.append_assoc]
        simp only
        by_cases hPE' : P > E
        · rw [if_pos hPE', expand_cons, expand_nil, List.append_nil]
        · rw [if_neg hPE', expand_nil]
          have : (P - E).toNat = 0 := by omega
          rw [this]; simp
    · rw [if_neg hP]
      have h1 : (E - ss).toNat = 0 := by omega
      have h2 : (P - E).toNat = 0 := by omega
      rw [h1, h2]; simp
  · intro op hop
    simp only [List.mem_append] at hop
    rcases hop with h | h
    · exact q5 op h
    · split_ifs at h
      · simp only [List.mem_singleton] at h; rw [h]; right; rfl
      · simp only [List.mem_cons, List.mem_singleton, List.not_mem_nil, or_false] at h
        rcases h with h | h
        · rw [h]; left; rfl
        · rw [h]; right; rfl
      · simp only [List.mem_cons, List.mem_singleton, List.not_mem_nil, or_false] at h
        rw [h]; left; rfl
      · simp at h

theorem countMismatches_eq (pattern text : Mem) (n : Nat) : ∀ (i : Nat) (acc : Int),
    countMismatches pattern text n i acc
      = acc + (mismatches pattern text (i + n) : Int) - (mismatches pattern text i : Int) := by
  induction n with
  | zero => intro i acc; simp [countMismatches]
  | succ n ih =>
    intro i acc
    have e1 : ((i : Int) + 1) = ((i + 1 : Nat) : Int) := by push_cast; ring
    rw [countMismatches, e1, ih]
    have e2 : i + 1 + n = i + (n + 1) := by omega
    rw [e2]
    by_cases h : pattern (i : Int) ≠ text (i : Int)
    · simp only [mismatches, h, ne_eq, not_false_eq_true, if_true]; push_cast; ring
    · simp only [mismatches, h, if_false]; push_cast; ring


/-- While no cell has reached `patternLen`, no cell exceeds it. -/
theorem lv_le (a : Args) (hP : 0 ≤ a.patternLen) (e : Nat)
    (hno : ∀ e' : Nat, e' < e → ∀ d' : Int, -(e' : Int) ≤ d' → d' ≤ (e' : Int) →
      lv a e' d' ≠ a.patternLen) :
    ∀ e' : Nat, e' ≤ e → ∀ d' : Int, lv a e' d' ≤ a.patternLen := by
  intro e'
  induction e' with
  | zero =>
    intro _ d'
    by_cases hd : d' = 0
    · subst hd
      obtain ⟨-, -, s3, -, -⟩ := lv_seed a
      omega
    · rw [lv_unwritten a 0 d' (by simp; omega)]; omega
  | succ e' ih =>
    intro he d'
    by_cases hw : -((e' : Int) + 1) ≤ d' ∧ d' ≤ (e' : Int) + 1
    · rw [lv_succ a e' d' hw]
      obtain ⟨-, b2, -, -⟩ := extend_bounds a d' (lc a e' d')
      have hlt : ∀ d'' : Int, lv a e' d'' < a.patternLen := by
        intro d''
        by_cases hw' : -(e' : Int) ≤ d'' ∧ d'' ≤ (e' : Int)
        · have h1 := ih (by omega) d''
          have h2 := hno e' (by omega) d'' hw'.1 hw'.2
          omega
        · rw [lv_unwritten a e' d'' (by omega)]; omega
      have hc : lc a e' d' ≤ a.patternLen :=
        choose_le _ _ _ _ (by have := hlt d'; omega) (by have := hlt (d' - 1); omega)
          (by have := hlt (d' + 1); omega)
      omega
    · rw [lv_unwritten a (e' + 1) d' (by push_cast; omega)]; omega

theorem acceptRet_ok (a : Args) (e d : Int) (st : LVState) (buf : CigarBuf)
    (h1 : (acceptRet a e d st buf).result ≠ some (-2)) (h2 : (acceptRet a e d st buf).result ≠ none) :
    (acceptRet a e d st buf).result = some e ∧
    (acceptRet a e d st buf).script =
      if countMismatches a.pattern a.text (min a.patternLen a.textLen).toNat 0 0
          + (a.patternLen - min a.patternLen a.textLen) = e then
        written (flatCalls a.useM a.pattern a.text a.patternLen (min a.patternLen a.textLen))
      else
        written (backtraceCalls a.useM a.MAX_K (backtrace a.MAX_K e.toNat e d st) e) := by
  rw [acceptRet_eq] at h1 h2 ⊢
  split_ifs at h1 h2 ⊢
  all_goals
    obtain ⟨q1, q2⟩ := finish_ok _ _ _ _ _ _ h1 h2
    refine ⟨q2, ?_⟩
    rw [finish_script]
    obtain ⟨-, q4⟩ := writeAll_ok _ _ _ _ q1
    rw [q4]; rfl


/-! ## Rows below the first one that reaches `patternLen` -/

/-- Below the first row that reaches `patternLen` every cell is smaller. -/
theorem lv_lt (a : Args) (hP : 0 ≤ a.patternLen) (F : Nat)
    (hno : ∀ e' : Nat, e' < F → ∀ d' : Int, -(e' : Int) ≤ d' → d' ≤ (e' : Int) →
      lv a e' d' ≠ a.patternLen) (e : Nat) (he : e < F) (d : Int) : lv a e d < a.patternLen := by
  by_cases hw : -(e : Int) ≤ d ∧ d ≤ (e : Int)
  · have h1 := lv_le a hP F hno e (by omega) d
    have h2 := hno e he d hw.1 hw.2
    omega
  · rw [lv_unwritten a e d (by omega)]; omega

theorem lc_le (a : Args) (hP : 0 ≤ a.patternLen) (F : Nat)
    (hno : ∀ e' : Nat, e' < F → ∀ d' : Int, -(e' : Int) ≤ d' → d' ≤ (e' : Int) →
      lv a e' d' ≠ a.patternLen) (e : Nat) (he : e < F) (d : Int) : lc a e d ≤ a.patternLen := by
  have h1 := lv_lt a hP F hno e he d
  have h2 := lv_lt a hP F hno e he (d - 1)
  have h3 := lv_lt a hP F hno e he (d + 1)
  exact choose_le _ _ _ _ (by omega) (by omega) (by omega)

/-- Lower bounds: a written cell is non-negative on the diagonals `d ≤ 0`, and at least
`min(0, textLen - d)` on the diagonals `d > 0`. -/
theorem lv_lower (a : Args) (hP : 0 ≤ a.patternLen) (hT : 0 ≤ a.textLen) (e : Nat) :
    ∀ d : Int, -(e : Int) ≤ d → d ≤ (e : Int) →
      (d ≤ 0 → 0 ≤ lv a e d) ∧ (0 < d → min 0 (a.textLen - d) ≤ lv a e d) := by
  induction e with
  | zero =>
    intro d h1 h2
    have : d = 0 := by simp at h1 h2; omega
    subst this
    obtain ⟨-, s2, -, -, -⟩ := lv_seed a
    exact ⟨fun _ => s2 (by omega), fun h => absurd h (lt_irrefl _)⟩
  | succ e ih =>
    intro d h1 h2
    push_cast at h1 h2
    rw [lv_succ a e d ⟨h1, h2⟩]
    obtain ⟨b1, -, -, -⟩ := extend_bounds a d (lc a e d)
    obtain ⟨g1, g2, g3⟩ := lc_ge a e d
    constructor
    · intro hd
      by_cases hd0 : d = 0
      · subst hd0
        have := (ih 0 (by omega) (by omega)).1 (le_refl _)
        omega
      · have := (ih (d + 1) (by omega) (by omega)).1 (by omega)
        omega
    · intro hd
      have := ih (d - 1) (by omega) (by omega)
      by_cases hd1 : d - 1 ≤ 0
      · have := this.1 hd1
        omega
      · have := this.2 (by omega)
        omega

/-- The main diagonal advances by at least one per row up to the end of the text. -/
theorem lv_diag_zero (a : Args) (hP : 0 ≤ a.patternLen) (hT : 0 ≤ a.textLen) (F : Nat)
    (hno : ∀ e' : Nat, e' < F → ∀ d' : Int, -(e' : Int) ≤ d' → d' ≤ (e' : Int) →
      lv a e' d' ≠ a.patternLen) (e : Nat) (he : e < F) : min (e : Int) a.textLen ≤ lv a e 0 := by
  induction e with
  | zero =>
    have := (lv_lower a hP hT 0 0 (by simp) (by simp)).1 (le_refl _)
    simp only [Nat.cast_zero]; omega
  | succ e ih =>
    have h1 := ih (by omega)
    have h2 := lv_lt a hP F hno (e + 1) he 0
    rw [lv_succ a e 0 (by constructor <;> omega)] at h2 ⊢
    obtain ⟨b1, -, -, -⟩ := extend_bounds a 0 (lc a e 0)
    obtain ⟨g1, -, -⟩ := lc_ge a e 0
    push_cast
    omega

/-- A cell at or behind the end of the text pushes the cell below it, one diagonal to
the left, to the end of the text on that diagonal. -/
theorem atEnd_step (a : Args) (hP : 0 ≤ a.patternLen) (F : Nat)
    (hno : ∀ e' : Nat, e' < F → ∀ d' : Int, -(e' : Int) ≤ d' → d' ≤ (e' : Int) →
      lv a e' d' ≠ a.patternLen) (e : Nat) (he : e < F) (d : Int)
    (hae : a.textLen - d ≤ lv a e d)
    (hw : -((e : Int) + 1) ≤ d - 1 ∧ d - 1 ≤ (e : Int) + 1) :
    a.textLen - d + 1 ≤ lv a (e + 1) (d - 1) := by
  rw [lv_succ a e (d - 1) hw]
  obtain ⟨b1, -, -, -⟩ := extend_bounds a (d - 1) (lc a e (d - 1))
  obtain ⟨-, -, g3⟩ := lc_ge a e (d - 1)
  have e1 : d - 1 + 1 = d := by ring
  rw [e1] at g3
  have h1 := lv_lt a hP F hno e he d
  omega

theorem atEnd_iter (a : Args) (hP : 0 ≤ a.patternLen) (hT : 0 ≤ a.textLen) (F : Nat)
    (hno : ∀ e' : Nat, e' < F → ∀ d' : Int, -(e' : Int) ≤ d' → d' ≤ (e' : Int) →
      lv a e' d' ≠ a.patternLen) (e : Nat) (d : Int)
    (hae : a.textLen - d ≤ lv a e d) (hd : d ≤ (e : Int) + 2) (t : Nat) :
    e + t ≤ F → a.textLen - d + t ≤ lv a (e + t) (d - t) := by
  have hdl : -(e : Int) ≤ d := by
    by_contra h
    rw [lv_unwritten a e d (by omega)] at hae
    omega
  induction t with
  | zero => intro _; simpa using hae
  | succ t ih =>
    intro ht
    have h1 := ih (by omega)
    have := atEnd_step a hP F hno (e + t) (by omega) (d - t) (by omega)
      (by push_cast; constructor <;> omega)
    have e1 : d - (t : Int) - 1 = d - ((t + 1 : Nat) : Int) := by push_cast; ring
    have e2 : e + t + 1 = e + (t + 1) := by ring
    rw [e1, e2] at this
    push_cast at this ⊢
    omega

/-- A cell at or behind the end of the text in row `e` bounds the first row `F` that
reaches `patternLen`: `F ≤ e + patternLen - textLen + d`. -/
theorem atEnd_bound (a : Args) (hP : 0 ≤ a.patternLen) (hT : 0 ≤ a.textLen) (F : Nat)
    (hno : ∀ e' : Nat, e' < F → ∀ d' : Int, -(e' : Int) ≤ d' → d' ≤ (e' : Int) →
      lv a e' d' ≠ a.patternLen) (e : Nat) (he : e < F) (d : Int)
    (hae : a.textLen - d ≤ lv a e d) (hd : d ≤ (e : Int) + 2) :
    (F : Int) ≤ e + a.patternLen - a.textLen + d := by
  by_contra hlt
  push_neg at hlt
  have h0 := lv_lt a hP F hno e he d
  have ht0 : 0 < a.patternLen - a.textLen + d := by omega
  have := atEnd_iter a hP hT F hno e d hae hd (a.patternLen - a.textLen + d).toNat (by omega)
  have h1 := lv_lt a hP F hno (e + (a.patternLen - a.textLen + d).toNat) (by omega)
    (d - ((a.patternLen - a.textLen + d).toNat : Int))
  rw [Int.toNat_of_nonneg (by omega)] at this h1
  omega

/-- The first row that reaches `patternLen` is at most `patternLen`. -/
theorem first_row_le (a : Args) (hP : 0 ≤ a.patternLen) (hT : 0 ≤ a.textLen) (F : Nat)
    (hno : ∀ e' : Nat, e' < F → ∀ d' : Int, -(e' : Int) ≤ d' → d' ≤ (e' : Int) →
      lv a e' d' ≠ a.patternLen) : (F : Int) ≤ a.patternLen := by
  by_contra hlt
  push_neg at hlt
  by_cases hPT : a.patternLen ≤ a.textLen
  · have h1 := lv_diag_zero a hP hT F hno a.patternLen.toNat (by omega)
    have h2 := lv_lt a hP F hno a.patternLen.toNat (by omega) 0
    rw [Int.toNat_of_nonneg hP] at h1
    omega
  · have h1 := lv_diag_zero a hP hT F hno a.textLen.toNat (by omega)
    rw [Int.toNat_of_nonneg hT] at h1
    have := atEnd_bound a hP hT F hno a.textLen.toNat (by omega) 0 (by omega) (by omega)
    rw [Int.toNat_of_nonneg hT] at this
    omega


/-! ## Lengths for which the 32-bit arithmetic is exact -/

theorem lc_lower (a : Args) (hP : 0 ≤ a.patternLen) (hT : 0 ≤ a.textLen) (e : Nat) (d : Int) :
    -(e : Int) - 1 ≤ lc a e d := by
  obtain ⟨h1, -, -⟩ := lc_ge a e d
  by_cases hw : -(e : Int) ≤ d ∧ d ≤ (e : Int)
  · obtain ⟨l1, l2⟩ := lv_lower a hP hT e d hw.1 hw.2
    by_cases hd : d ≤ 0
    · have := l1 hd; omega
    · have := l2 (by omega); omega
  · rw [lv_unwritten a e d (by omega)] at h1
    omega

/-- With `0 ≤ patternLen < 2^31 - 7`, `0 ≤ textLen` and `textLen + k < 2^31` neither the
difference `textLen - d` of line 167 nor the sum of line 176 overflows in a cell the call
computes. -/
theorem fits_nowrap (a : Args) (hP : 0 ≤ a.patternLen) (hT : 0 ≤ a.textLen)
    (hPw : a.patternLen < 2 ^ 31 - 7) (hTw : a.textLen + a.k < 2 ^ 31) : NoWrap a := by
  intro e d hk hno h1 h2
  have hc1 := lc_lower a hP hT e d
  have hc2 := lc_le a hP (e + 1) (fun e' he' => hno e' (by omega)) e (by omega) d
  norm_num at hPw hTw
  apply extend_exact
  · norm_num; omega
  · norm_num; omega
  · norm_num; omega
  · norm_num; omega
  · norm_num; omega

theorem call_nowrap (MAX_K : Int) (CigarToCode : Byte → Nat) (text : Mem) (textLen : Int)
    (pattern : Mem) (patternLen k : Int) (cigarBuf : CigarBuf) (useM : Bool)
    (format : CigarFormat) (wantUsed : Bool) (hP : 0 ≤ patternLen) (hT : 0 ≤ textLen)
    (hPw : patternLen < 2 ^ 31 - 7) (hTw : textLen + k < 2 ^ 31) :
    NoWrap (callArgs MAX_K CigarToCode text textLen pattern patternLen k cigarBuf useM format
      wantUsed) :=
  fits_nowrap _ hP hT hPw hTw


/-- C3, as stated, fails: pattern "AAB" and text "ABA" have equal length and Hamming
distance 2, and with `k = 2` the call returns 1, not 2. -/
theorem hamming_not_returned :
    mismatches (bytesOf ['A', 'A', 'B'] 0) (bytesOf ['A', 'B', 'A'] 0) 3 = 2 ∧
    (computeEditDistance 31 (fun _ => 0) fresh (some (bytesOf ['A', 'B', 'A'] 0)) 3
        (bytesOf ['A', 'A', 'B'] 0) 3 2 (freshBuf 100 64) false .COMPACT_CIGAR_STRING true).result
      = some 1 := by
  decide

/-- C3, amended. For a pattern and a text of equal length `n` whose Hamming distance `h`
is at most `k` (`k < MAX_K`, every write fits the buffer; `n < 2^31 - 7` and
`n + k < 2^31`, so that the `int` arithmetic is exact), `computeEditDistance` returns
a value `r` with `0 ≤ r ≤ h`, and whenever `r = h` the script holds no insertion and no
deletion and its run lengths sum to `patternLen`. -/
theorem hamming_case (MAX_K : Int) (CigarToCode : Byte → Nat) (st : LVState) (text : Mem)
    (pattern : Mem) (n k : Int) (cigarBuf : CigarBuf) (useM : Bool)
    (format : CigarFormat) (wantUsed : Bool) (hn : 0 ≤ n)
    (hh : (mismatches pattern text n.toNat : Int) ≤ k) (_hk : k < MAX_K)
    (hc : st.Clean MAX_K)
    (hbuf : (computeEditDistance MAX_K CigarToCode st (some text) n pattern n k
      cigarBuf useM format wantUsed).result ≠ some (-2))
    (hret : (computeEditDistance MAX_K CigarToCode st (some text) n pattern n k
      cigarBuf useM format wantUsed).result ≠ none)
    (hnw : n < 2 ^ 31 - 7) (hkw : n + k < 2 ^ 31) :
    ∃ r : Int,
      (computeEditDistance MAX_K CigarToCode st (some text) n pattern n k
        cigarBuf useM format wantUsed).result = some r ∧
      0 ≤ r ∧ r ≤ mismatches pattern text n.toNat ∧
      (r = mismatches pattern text n.toNat →
        (∀ op ∈ (computeEditDistance MAX_K CigarToCode st (some text) n pattern n k
            cigarBuf useM format wantUsed).script, op.2 ≠ ch 'I' ∧ op.2 ≠ ch 'D') ∧
        (((computeEditDistance MAX_K CigarToCode st (some text) n pattern n k
            cigarBuf useM format wantUsed).script).map (fun op => op.1)).sum = n) := by
  have hcases := call_cases MAX_K CigarToCode st text n pattern n k cigarBuf useM format wantUsed hc
    (call_nowrap MAX_K CigarToCode text n pattern n k cigarBuf useM format wantUsed hn hn hnw hkw)
  generalize ha : callArgs MAX_K CigarToCode text n pattern n k cigarBuf useM format
    wantUsed = a at hcases
  have hP : a.patternLen = n := by rw [← ha]; rfl
  have hT : a.textLen = n := by rw [← ha]; rfl
  have hpat : a.pattern = pattern := by rw [← ha]; rfl
  have htxt : a.text = text := by rw [← ha]; rfl
  have hM : a.useM = useM := by rw [← ha]; rfl
  have hreach := diag_zero_reach a (by rw [hP, hT]) (by rw [hP]; exact hn)
  rw [hpat, htxt, hP] at hreach
  have hmin : min n n = n := min_self n
  obtain ⟨ne, ce, -, -, -, -, -, -, -, -⟩ := ch_ne
  rcases hcases with ⟨hs, hr⟩ | ⟨hs, ⟨st1, hr⟩, hno⟩ | ⟨hs, e, d, st1, hek, hfound, hno, hr⟩
  · -- exact match
    rw [hr] at hbuf hret ⊢
    obtain ⟨q1, q2⟩ := finish_ok _ _ _ _ _ _ hbuf hret
    refine ⟨0, q2, le_refl _, by omega, fun _ => ?_⟩
    rw [finish_script]
    obtain ⟨-, q4⟩ := writeAll_ok _ _ _ _ q1
    rw [q4, hmin]
    simp only [List.nil_append]
    constructor
    · intro op hop
      have hmem := List.mem_of_mem_filter hop
      cases useM
      · simp only [exactCalls, Bool.false_eq_true, if_false, gt_iff_lt, lt_self_iff_false,
          List.mem_singleton] at hmem
        rw [hmem]; simp only; exact ⟨by decide, by decide⟩
      · simp only [exactCalls, if_true, List.mem_singleton] at hmem
        rw [hmem]; simp only; exact ⟨by decide, by decide⟩
    · rw [written_sum]
      cases useM
      · simp only [exactCalls, Bool.false_eq_true, if_false, gt_iff_lt, lt_self_iff_false,
          expand_cons, expand_nil, List.append_nil, List.length_replicate]
        omega
      · simp only [exactCalls, if_true, expand_cons, expand_nil, List.append_nil,
          List.length_replicate]
        omega
  · -- budget exceeded: impossible
    exfalso
    have h1 := hreach (mismatches pattern text n.toNat) n.toNat (by omega) (le_refl _)
    have h2 := lv_le a (by rw [hP]; exact hn) (mismatches pattern text n.toNat)
      (fun e' he' d' hd1 hd2 => by rw [hP]; exact hno e' (by omega) d' hd1 hd2)
      (mismatches pattern text n.toNat) (le_refl _) 0
    rw [hP] at h2
    exact hno (mismatches pattern text n.toNat) hh 0 (by omega) (by omega) (by omega)
  · -- found at row e + 1
    rw [hr] at hbuf hret ⊢
    obtain ⟨q1, q2⟩ := acceptRet_ok a _ _ _ _ hbuf hret
    have hle : (e : Int) + 1 ≤ mismatches pattern text n.toNat := by
      by_contra hlt
      have h1 := hreach (mismatches pattern text n.toNat) n.toNat (by omega) (le_refl _)
      have h2 := lv_le a (by rw [hP]; exact hn) (mismatches pattern text n.toNat)
        (fun e' he' d' hd1 hd2 => by rw [hP]; exact hno e' (by omega) d' hd1 hd2)
        (mismatches pattern text n.toNat) (le_refl _) 0
      rw [hP] at h2
      exact hno (mismatches pattern text n.toNat) (by omega) 0 (by omega) (by omega) (by omega)
    refine ⟨(e : Int) + 1, q1, by omega, hle, fun hr => ?_⟩
    rw [q2, hP, hT, hpat, htxt, hM, hmin]
    have hcm := countMismatches_eq pattern text n.toNat 0 0
    simp only [Nat.cast_zero, zero_add, mismatches, sub_zero] at hcm
    rw [hcm, sub_self, add_zero, if_pos hr.symm]
    have hn1 : 1 ≤ n := by
      have := lv_seed_lt a (by rw [hP, hT]; exact hs)
      rw [hP, hT, hmin] at this; omega
    cases useM
    · obtain ⟨f1, f2⟩ := flatCalls_expand pattern text n n hn (le_refl _)
      constructor
      · intro op hop
        rcases f2 op (List.mem_of_mem_filter hop) with h | h <;> rw [h] <;>
          exact ⟨by decide, by decide⟩
      · rw [written_sum, f1]
        simp only [List.length_append, flatOps_length, List.length_replicate, sub_self,
          Int.toNat_zero, add_zero]
        omega
    · simp only [flatCalls, if_true]
      constructor
      · intro op hop
        have hmem := List.mem_of_mem_filter hop
        simp only [List.mem_singleton] at hmem
        rw [hmem]; simp only; exact ⟨by decide, by decide⟩
      · rw [written_sum]
        simp only [expand_cons, expand_nil, List.append_nil, List.length_replicate]
        omega

theorem hamming_case_witness :
    ∃ r : Int,
      (computeEditDistance 31 (fun _ => 0) fresh
        (some (bytesOf ['A', 'C', 'G', 'A', 'A', 'C', 'G', 'T'] 0)) 8
        (bytesOf ['A', 'C', 'G', 'T', 'A', 'C', 'G', 'T'] 0) 8 1 (freshBuf 100 64) false
        .COMPACT_CIGAR_STRING true).result = some r ∧
      0 ≤ r ∧ r ≤ mismatches (bytesOf ['A', 'C', 'G', 'T', 'A', 'C', 'G', 'T'] 0)
        (bytesOf ['A', 'C', 'G', 'A', 'A', 'C', 'G', 'T'] 0) (8 : Int).toNat ∧
      (r = mismatches (bytesOf ['A', 'C', 'G', 'T', 'A', 'C', 'G', 'T'] 0)
          (bytesOf ['A', 'C', 'G', 'A', 'A', 'C', 'G', 'T'] 0) (8 : Int).toNat →
        (∀ op ∈ (computeEditDistance 31 (fun _ => 0) fresh
            (some (bytesOf ['A', 'C', 'G', 'A', 'A', 'C', 'G', 'T'] 0)) 8
            (bytesOf ['A', 'C', 'G', 'T', 'A', 'C', 'G', 'T'] 0) 8 1 (freshBuf 100 64) false
            .COMPACT_CIGAR_STRING true).script, op.2 ≠ ch 'I' ∧ op.2 ≠ ch 'D') ∧
        (((computeEditDistance 31 (fun _ => 0) fresh
            (some (bytesOf ['A', 'C', 'G', 'A', 'A', 'C', 'G', 'T'] 0)) 8
            (bytesOf ['A', 'C', 'G', 'T', 'A', 'C', 'G', 'T'] 0) 8 1 (freshBuf 100 64) false
            .COMPACT_CIGAR_STRING true).script).map (fun op => op.1)).sum = 8) :=
  hamming_case 31 (fun _ => 0) fresh (bytesOf ['A', 'C', 'G', 'A', 'A', 'C', 'G', 'T'] 0)
    (bytesOf ['A', 'C', 'G', 'T', 'A', 'C', 'G', 'T'] 0) 8 1 (freshBuf 100 64) false
    .COMPACT_CIGAR_STRING true (by decide) (by decide) (by decide)
    (fun _ _ _ => rfl) (by decide) (by decide) (by decide) (by decide)


/-! ## The path of the backtrace -/

theorem route_self (a : Args) (e : Nat) : ∀ (d : Int) (j : Nat), e ≤ j → route a e d j = d := by
  induction e with
  | zero => intro d j _; rfl
  | succ e _ =>
    intro d j h
    simp only [route]
    rw [if_pos (by omega)]

theorem route_below (a : Args) (e : Nat) (d : Int) (j : Nat) (h : j ≤ e) :
    route a (e + 1) d j = route a e (prevD (la a e d) d) j := by
  simp only [route]
  rw [if_neg (by omega)]

theorem route_pred (a : Args) (F : Nat) : ∀ (d : Int) (j : Nat), j < F →
    route a F d j = prevD (la a j (route a F d (j + 1))) (route a F d (j + 1)) := by
  induction F with
  | zero => intro d j h; omega
  | succ F ih =>
    intro d j h
    rw [route_below a F d j (by omega)]
    by_cases hj : j = F
    · subst hj
      rw [route_self a j _ j (le_refl _), route_self a (j + 1) d (j + 1) (le_refl _)]
    · rw [route_below a F d (j + 1) (by omega)]
      exact ih _ j (by omega)

/-- One step of the backtrace: the action recorded in the cell, the diagonal it leads to in
the row above and the candidate it stands for. -/
theorem route_step (a : Args) (F : Nat) (df : Int) (j : Nat) (h : j < F) :
    (la a j (route a F df (j + 1)) = ch 'I' ∧
      route a F df j = route a F df (j + 1) + 1 ∧
      lc a j (route a F df (j + 1)) = lv a j (route a F df j) + 1) ∨
    (la a j (route a F df (j + 1)) = ch 'D' ∧
      route a F df j = route a F df (j + 1) - 1 ∧
      lc a j (route a F df (j + 1)) = lv a j (route a F df j)) ∨
    (la a j (route a F df (j + 1)) = ch 'X' ∧
      route a F df j = route a F df (j + 1) ∧
      lc a j (route a F df (j + 1)) = lv a j (route a F df j) + 1) := by
  rw [route_pred a F df j h]
  generalize route a F df (j + 1) = d
  obtain ⟨n1, n2, n3, -⟩ := ch_ne
  simp only [la, lc]
  rcases choose_cases (lv a j d) (lv a j (d - 1)) (lv a j (d + 1)) with ⟨hc, -, -⟩ | ⟨hc, -, -⟩ | ⟨hc, -, -⟩
  · left; rw [hc]; simp [prevD]
  · right; left; rw [hc]
    simp only [prevD, if_neg n1.symm, if_true, and_self]
  · right; right; rw [hc]
    simp only [prevD, if_neg n2.symm, if_neg n3.symm, and_self]

/-- Past the end of the text the path gains at most one position per row. -/
theorem route_atEnd_iter (a : Args) (hP : 0 ≤ a.patternLen) (F : Nat)
    (hno : ∀ e' : Nat, e' < F → ∀ d' : Int, -(e' : Int) ≤ d' → d' ≤ (e' : Int) →
      lv a e' d' ≠ a.patternLen) (df : Int) (j : Nat)
    (hae : a.textLen - route a F df j ≤ lv a j (route a F df j)) (n : Nat) :
    j + n ≤ F →
    (∀ i : Nat, j < i → i ≤ j + n → -(i : Int) ≤ route a F df i ∧ route a F df i ≤ (i : Int)) →
    lv a (j + n) (route a F df (j + n)) ≤ lv a j (route a F df j) + n ∧
    a.textLen - route a F df (j + n) ≤ lv a (j + n) (route a F df (j + n)) := by
  induction n with
  | zero => intro _ _; exact ⟨by simp, hae⟩
  | succ n ih =>
    intro hn hw
    obtain ⟨i1, i2⟩ := ih (by omega) (fun i h1 h2 => hw i h1 (by omega))
    have hwr := hw (j + n + 1) (by omega) (by omega)
    have hcl := lc_le a hP F hno (j + n) (by omega) (route a F df (j + n + 1))
    have e1 : j + (n + 1) = j + n + 1 := by ring
    rw [e1]
    rw [lv_succ a (j + n) _ (by push_cast at hwr ⊢; omega)]
    obtain ⟨b1, -, -, b4⟩ := extend_bounds a (route a F df (j + n + 1))
      (lc a (j + n) (route a F df (j + n + 1)))
    have hstep := route_step a F df (j + n) (by omega)
    generalize hd : route a F df (j + n + 1) = d at *
    generalize hd' : route a F df (j + n) = d' at *
    generalize hv : lv a (j + n) d' = v at *
    generalize hc : lc a (j + n) d = c at *
    have hcv : c ≤ v + 1 ∧ a.textLen - d ≤ c := by
      rcases hstep with ⟨-, q2, q3⟩ | ⟨-, q2, q3⟩ | ⟨-, q2, q3⟩ <;> omega
    have := b4 (by omega)
    push_cast
    omega

/-- A chain of insertions arriving past the end of the text cannot lead to the first
cell that reaches `patternLen`. -/
theorem route_chain (a : Args) (hP : 0 ≤ a.patternLen) (hT : 0 ≤ a.textLen) (F : Nat)
    (hno : ∀ e' : Nat, e' < F → ∀ d' : Int, -(e' : Int) ≤ d' → d' ≤ (e' : Int) →
      lv a e' d' ≠ a.patternLen) (df : Int) (i : Nat) : i < F →
    a.textLen - route a F df i + 1 ≤ lv a i (route a F df i) →
    (F : Int) = i + a.patternLen - a.textLen + route a F df i → False := by
  have hF := first_row_le a hP hT F hno
  induction i with
  | zero =>
    intro _ h1 h2
    by_cases hr : route a F df 0 = 0
    · rw [hr] at h1
      obtain ⟨-, -, s3, -, -⟩ := lv_seed a
      omega
    · rw [lv_unwritten a 0 _ (by simp; omega)] at h1
      push_cast at h2
      omega
  | succ i ih =>
    intro hi h1 h2
    by_cases hw : -((i : Int) + 1) ≤ route a F df (i + 1) ∧ route a F df (i + 1) ≤ (i : Int) + 1
    · rw [lv_succ a i _ hw] at h1
      obtain ⟨-, b2, -, -⟩ := extend_bounds a (route a F df (i + 1)) (lc a i (route a F df (i + 1)))
      generalize hd : route a F df (i + 1) = d at *
      generalize hc : lc a i d = c at *
      have hcd : a.textLen - d + 1 ≤ c := by omega
      push_cast at h2
      rcases route_step a F df i (by omega) with ⟨-, q2, q3⟩ | ⟨-, q2, q3⟩ | ⟨-, q2, q3⟩
      · rw [hd] at q2
        rw [hd, hc] at q3
        exact ih (by omega) (by omega) (by omega)
      · rw [hd] at q2
        rw [hd, hc, q2] at q3
        have := atEnd_bound a hP hT F hno i (by omega) (d - 1) (by omega) (by omega)
        omega
      · rw [hd] at q2
        rw [hd, hc, q2] at q3
        have := atEnd_bound a hP hT F hno i (by omega) d (by omega) (by omega)
        omega
    · rw [lv_unwritten a (i + 1) _ (by push_cast; omega)] at h1
      push_cast at h2
      omega

/-- The path of the backtrace from the first cell that reaches `patternLen` stays among the
cells written by the call, it ends in the seed cell, and every cell on it is at or behind
its candidate (its extension did not fall back to the end of the text). -/
theorem route_good (a : Args) (hP : 0 ≤ a.patternLen) (hT : 0 ≤ a.textLen) (F : Nat)
    (hno : ∀ e' : Nat, e' < F → ∀ d' : Int, -(e' : Int) ≤ d' → d' ≤ (e' : Int) →
      lv a e' d' ≠ a.patternLen) (df : Int) (hdf : -(F : Int) ≤ df ∧ df ≤ (F : Int))
    (hfound : lv a F df = a.patternLen) :
    (∀ j : Nat, j ≤ F → -(j : Int) ≤ route a F df j ∧ route a F df j ≤ (j : Int)) ∧
    (∀ j : Nat, j < F → lc a j (route a F df (j + 1)) ≤ lv a (j + 1) (route a F df (j + 1))) := by
  have hF := first_row_le a hP hT F hno
  have hrF : route a F df F = df := route_self a F df F (le_refl _)
  -- the path stays among the written cells
  have hwritten : ∀ n : Nat, n ≤ F →
      ∀ j : Nat, F - n ≤ j → j ≤ F → -(j : Int) ≤ route a F df j ∧ route a F df j ≤ (j : Int) := by
    intro n
    induction n with
    | zero =>
      intro _ j h1 h2
      have : j = F := by omega
      subst this
      rw [hrF]; exact hdf
    | succ n ih =>
      intro hn j h1 h2
      by_cases hj : F - n ≤ j
      · exact ih (by omega) j hj h2
      · have hjn : j = F - (n + 1) := by omega
        have hjF : j < F := by omega
        have hw1 := ih (by omega) (j + 1) (by omega) (by omega)
        by_contra hnw
        have hv : lv a j (route a F df j) = -2 := lv_unwritten a j _ (by omega)
        have hcl := lc_le a hP F hno j hjF (route a F df (j + 1))
        obtain ⟨g1, g2, g3⟩ := lc_ge a j (route a F df (j + 1))
        obtain ⟨b1, -, -, b4⟩ := extend_bounds a (route a F df (j + 1))
          (lc a j (route a F df (j + 1)))
        have hlv := lv_succ a j (route a F df (j + 1)) (by push_cast at hw1; omega)
        have hstep := route_step a F df j hjF
        generalize hd : route a F df (j + 1) = d at *
        generalize hd' : route a F df j = d' at *
        generalize hc : lc a j d = c at *
        have hc1 : c ≤ -1 := by
          rcases hstep with ⟨-, q2, q3⟩ | ⟨-, q2, q3⟩ | ⟨-, q2, q3⟩ <;> omega
        have hcd : a.textLen - d ≤ c := by
          by_cases hdw : -(j : Int) ≤ d ∧ d ≤ (j : Int)
          · have := lv_lower a hP hT j d hdw.1 hdw.2
            by_cases hd0 : d ≤ 0
            · have := this.1 hd0; omega
            · have := this.2 (by omega); omega
          · push_cast at hw1
            by_cases hdp : d = (j : Int) + 1
            · have := lv_lower a hP hT j (d - 1) (by omega) (by omega)
              by_cases hd0 : d - 1 ≤ 0
              · have := this.1 hd0; omega
              · have := this.2 (by omega); omega
            · have hdn : d = -((j : Int) + 1) := by omega
              have := (lv_lower a hP hT j (d + 1) (by omega) (by omega)).1 (by omega)
              omega
        have hb4 := b4 (by omega)
        have hit := route_atEnd_iter a hP F hno df (j + 1)
          (by rw [hd, hlv]; omega) (F - (j + 1)) (by omega)
          (fun i hi1 hi2 => ih (by omega) i (by omega) (by omega))
        have e1 : j + 1 + (F - (j + 1)) = F := by omega
        rw [e1, hrF, hfound, hd, hlv] at hit
        have := hit.1
        have hcast : ((F - (j + 1) : Nat) : Int) = (F : Int) - j - 1 := by omega
        rw [hcast] at this
        omega
  have hw : ∀ j : Nat, j ≤ F → -(j : Int) ≤ route a F df j ∧ route a F df j ≤ (j : Int) :=
    fun j hj => hwritten F (le_refl _) j (by omega) hj
  refine ⟨hw, ?_⟩
  -- no cell of the path fell back
  intro j hj
  by_contra hred
  push_neg at hred
  have hw1 := hw (j + 1) (by omega)
  have hlv := lv_succ a j (route a F df (j + 1)) (by push_cast at hw1; omega)
  have hcl := lc_le a hP F hno j hj (route a F df (j + 1))
  obtain ⟨-, -, b3, -⟩ := extend_bounds a (route a F df (j + 1)) (lc a j (route a F df (j + 1)))
  rw [← hlv] at b3
  have hE := b3 hred
  have hit := route_atEnd_iter a hP F hno df (j + 1) (by rw [hE]; omega) (F - (j + 1)) (by omega)
    (fun i _ hi2 => hw i (by omega))
  have e1 : j + 1 + (F - (j + 1)) = F := by omega
  rw [e1, hrF, hfound] at hit
  have hcast : ((F - (j + 1) : Nat) : Int) = (F : Int) - j - 1 := by omega
  rw [hcast] at hit
  have hstep := route_step a F df j hj
  have hchain := route_chain a hP hT F hno df j hj
  generalize hd : route a F df (j + 1) = d at *
  generalize hd' : route a F df j = d' at *
  generalize hc : lc a j d = c at *
  generalize hv : lv a (j + 1) d = v at *
  push_cast at hw1
  rcases hstep with ⟨-, q2, q3⟩ | ⟨-, q2, q3⟩ | ⟨-, q2, q3⟩
  · have hb := atEnd_bound a hP hT F hno j hj d' (by omega) (by omega)
    exact hchain (by omega) (by omega)
  · have hb := atEnd_bound a hP hT F hno j hj d' (by omega) (by omega)
    omega
  · have hb := atEnd_bound a hP hT F hno j hj d' (by omega) (by omega)
    omega


/-! ## Replaying scripts -/

theorem replayOps_append (pattern text : Mem) (T : Int) (xs ys : List Byte) :
    ∀ (i j i' j' : Int), replayOps pattern text T xs i j = some (i', j') →
      replayOps pattern text T (xs ++ ys) i j = replayOps pattern text T ys i' j' := by
  induction xs with
  | nil =>
    intro i j i' j' h
    simp only [replayOps, Option.some.injEq, Prod.mk.injEq] at h
    rw [List.nil_append, h.1, h.2]
  | cons op xs ih =>
    intro i j i' j' h
    simp only [List.cons_append, replayOps] at h ⊢
    split_ifs at h ⊢ <;> exact ih _ _ _ _ h

theorem replayOps_match (pattern text : Mem) (T : Int) (n : Nat) : ∀ (i j : Int),
    (∀ t : Nat, t < n → pattern (i + t) = text (j + t) ∧ j + t < T) →
    replayOps pattern text T (List.replicate n (ch '=')) i j = some (i + n, j + n) := by
  induction n with
  | zero => intro i j _; simp [replayOps]
  | succ n ih =>
    intro i j h
    have h0 := h 0 (by omega)
    simp only [Nat.cast_zero, add_zero] at h0
    simp only [List.replicate_succ, replayOps, if_true, h0, and_self]
    rw [ih (i + 1) (j + 1) (fun t ht => by
      have := h (t + 1) (by omega)
      push_cast at this
      have e1 : i + 1 + (t : Int) = i + (t + 1) := by ring
      have e2 : j + 1 + (t : Int) = j + (t + 1) := by ring
      rw [e1, e2]; exact this)]
    push_cast
    congr 2 <;> ring

/-- A written cell below the first row that reaches `patternLen` stops at a difference
or at the end of the text. -/
theorem lv_frontier (a : Args) (hP : 0 ≤ a.patternLen) (_hT : 0 ≤ a.textLen) (F : Nat)
    (hno : ∀ e' : Nat, e' < F → ∀ d' : Int, -(e' : Int) ≤ d' → d' ≤ (e' : Int) →
      lv a e' d' ≠ a.patternLen) (e : Nat) (he : e < F) (d : Int)
    (hw : -(e : Int) ≤ d ∧ d ≤ (e : Int)) :
    a.pattern (lv a e d) ≠ a.text (d + lv a e d) ∨ a.textLen ≤ d + lv a e d := by
  have hlt := lv_lt a hP F hno e he d
  cases e with
  | zero =>
    have hd : d = 0 := by simp at hw; omega
    subst hd
    obtain ⟨-, -, s3, -, s5⟩ := lv_seed a
    by_cases h : lv a 0 0 < min a.patternLen a.textLen
    · left; rw [zero_add]; exact s5 h
    · right; omega
  | succ e =>
    push_cast at hw
    rw [lv_succ a e d hw] at hlt ⊢
    obtain ⟨s1, s2, s3⟩ := exactExtend_spec a.pattern a.text a.patternLen a.textLen d (lc a e d)
    by_cases hb : a.pattern (lc a e d) = a.text (d + lc a e d)
    · by_cases hE : min a.patternLen (a.textLen - d) ≤ lc a e d
      · rw [s2 hb hE] at hlt ⊢
        right; omega
      · obtain ⟨-, j2, -, j4⟩ := s3 hb (by omega)
        by_cases h : exactExtend a.pattern a.text a.patternLen a.textLen d (lc a e d)
            < min a.patternLen (a.textLen - d)
        · left; exact j4 h
        · right; omega
    · rw [s1 hb]; left; exact hb

/-- Replaying the opcodes along the path of the backtrace up to row `j` leads from the
start of pattern and text to the cell of the path in row `j`. -/
theorem routeOps_replay (a : Args) (hP : 0 ≤ a.patternLen) (hT : 0 ≤ a.textLen) (F : Nat)
    (hno : ∀ e' : Nat, e' < F → ∀ d' : Int, -(e' : Int) ≤ d' → d' ≤ (e' : Int) →
      lv a e' d' ≠ a.patternLen) (df : Int) (hdf : -(F : Int) ≤ df ∧ df ≤ (F : Int))
    (hfound : lv a F df = a.patternLen) (j : Nat) : j ≤ F →
    replayOps a.pattern a.text a.textLen (routeOps a F df j) 0 0
      = some (lv a j (route a F df j), lv a j (route a F df j) + route a F df j) := by
  obtain ⟨hw, hgood⟩ := route_good a hP hT F hno df hdf hfound
  induction j with
  | zero =>
    intro _
    have hr0 : route a F df 0 = 0 := by
      have := hw 0 (by omega); simp at this; omega
    rw [hr0]
    obtain ⟨-, s2, s3, s4, -⟩ := lv_seed a
    have h0 := s2 (by omega)
    simp only [routeOps]
    rw [replayOps_match]
    · simp only [zero_add, add_zero, Int.toNat_of_nonneg h0]
    · intro t ht
      simp only [zero_add]
      exact ⟨s4 t (by omega) (by omega), by omega⟩
  | succ j ih =>
    intro hj
    have ih' := ih (by omega)
    simp only [routeOps]
    rw [replayOps_append _ _ _ _ _ _ _ _ _ ih']
    have hwj := hw j (by omega)
    have hwj1 := hw (j + 1) hj
    push_cast at hwj1
    have hfr := lv_frontier a hP hT F hno j (by omega) (route a F df j) hwj
    have hg := hgood j (by omega)
    have hlv := lv_succ a j (route a F df (j + 1)) hwj1
    have hcl := lc_le a hP F hno j (by omega) (route a F df (j + 1))
    obtain ⟨-, b2, -, -⟩ := extend_bounds a (route a F df (j + 1)) (lc a j (route a F df (j + 1)))
    have hins := extend_inside a (route a F df (j + 1)) (lc a j (route a F df (j + 1)))
    rw [← hlv] at b2 hins
    have hstep := route_step a F df j (by omega)
    obtain ⟨n1, n2, n3, n4, n5, n6, -⟩ := ch_ne
    generalize hd : route a F df (j + 1) = d at *
    generalize hd' : route a F df j = d' at *
    generalize hc : lc a j d = c at *
    generalize hv : lv a (j + 1) d = v at *
    generalize hv' : lv a j d' = v' at *
    have hrun : replayOps a.pattern a.text a.textLen
        (List.replicate (v - c).toNat (ch '=')) c (c + d) = some (v, v + d) := by
      rw [replayOps_match]
      · rw [Int.toNat_of_nonneg (by omega)]
        congr 2 <;> ring
      · intro t ht
        have hcE : c ≤ min a.patternLen (a.textLen - d) := by
          by_contra hE
          omega
        obtain ⟨-, i2, i3, -⟩ := hins hcE
        have := i3 (c + t) (by omega) (by omega)
        have e1 : d + (c + (t : Int)) = c + d + t := by ring
        rw [e1] at this
        exact ⟨this, by omega⟩
    have hsplit : ∀ (x : Byte) (l : List Byte), x :: l = [x] ++ l := fun _ _ => rfl
    rcases hstep with ⟨q1, q2, q3⟩ | ⟨q1, q2, q3⟩ | ⟨q1, q2, q3⟩
    · rw [q1]
      simp only [replayOps, if_neg n4.symm, if_neg n2, if_true]
      have e1 : v' + 1 = c := by omega
      have e2 : v' + d' = c + d := by omega
      rw [e1, e2]; exact hrun
    · rw [q1]
      simp only [replayOps, if_neg n5.symm, if_neg n3, if_neg n1.symm, if_true]
      have e1 : v' = c := by omega
      have e2 : v' + d' + 1 = c + d := by omega
      rw [e2, e1]; exact hrun
    · rw [q1]
      have hx : a.pattern v' ≠ a.text (v' + d') ∨ a.textLen ≤ v' + d' := by
        rcases hfr with h | h
        · left; rw [add_comm v' d']; exact h
        · right; omega
      simp only [replayOps, if_neg n6.symm, if_true, hx]
      have e1 : v' + 1 = c := by omega
      have e2 : v' + d' + 1 = c + d := by omega
      rw [e1, e2]; exact hrun


/-! ## The backtrace arrays -/

theorem backtrace_frame (K : Int) (n : Nat) : ∀ (curE curD : Int) (st : LVState),
    (backtrace K n curE curD st).L = st.L ∧ (backtrace K n curE curD st).A = st.A ∧
    ∀ i : Int, curE < i →
      (backtrace K n curE curD st).backtraceAction i = st.backtraceAction i ∧
      (backtrace K n curE curD st).backtraceMatched i = st.backtraceMatched i := by
  induction n with
  | zero => intro curE curD st; exact ⟨rfl, rfl, fun i _ => ⟨rfl, rfl⟩⟩
  | succ n ih =>
    intro curE curD st
    simp only [backtrace]
    by_cases h : curE ≥ 1
    · rw [if_pos h]
      split_ifs
      all_goals
        obtain ⟨i1, i2, i3⟩ := ih (curE - 1) _
          { st with
            backtraceAction := set1 st.backtraceAction curE (st.A curE (K + curD)),
            backtraceD := _, backtraceMatched := _ }
        refine ⟨i1, i2, fun i hi => ?_⟩
        obtain ⟨j1, j2⟩ := i3 i (by omega)
        refine ⟨?_, ?_⟩
        · rw [j1]; simp only [set1]; rw [if_neg (by omega)]
        · rw [j2]; simp only [set1]; rw [if_neg (by omega)]
    · rw [if_neg h]; exact ⟨rfl, rfl, fun i _ => ⟨rfl, rfl⟩⟩

theorem backtrace_succ (K : Int) (n : Nat) (curE curD : Int) (st : LVState) (h : curE ≥ 1) :
    backtrace K (n + 1) curE curD st =
      backtrace K n (curE - 1) (prevD (st.A curE (K + curD)) curD)
        { st with
          backtraceAction := set1 st.backtraceAction curE (st.A curE (K + curD)),
          backtraceD := set1 st.backtraceD curE (prevD (st.A curE (K + curD)) curD),
          backtraceMatched := set1 st.backtraceMatched curE
            (st.L curE (K + curD) - st.L (curE - 1) (K + prevD (st.A curE (K + curD)) curD)
              - (if st.A curE (K + curD) = ch 'D' then 0 else 1)) } := by
  obtain ⟨n1, -, -, -⟩ := ch_ne
  simp only [backtrace]
  rw [if_pos h]
  by_cases hI : st.A curE (K + curD) = ch 'I'
  · have hD : ¬ st.A curE (K + curD) = ch 'D' := by rw [hI]; exact n1
    have e1 : K + (curD + 1) = K + curD + 1 := by ring
    simp only [hI, if_true, prevD, set1, e1, if_neg n1]
  · by_cases hD : st.A curE (K + curD) = ch 'D'
    · have e1 : K + (curD - 1) = K + curD - 1 := by ring
      simp only [hD, if_true, prevD, set1, e1, if_neg n1.symm, sub_zero]
    · simp only [hI, hD, if_false, prevD, set1, if_true]

/-- After the loop of lines 279-296 the backtrace arrays hold, for every row of the path,
the action of its cell and the length of the exact matches after it. -/
theorem backtrace_spec (a : Args) (F : Nat) (df : Int) (L0 : Int → Int → Int)
    (A0 : Int → Int → Byte)
    (hLF : L0 (F : Int) (a.MAX_K + df) = lv a F df)
    (hL : ∀ j : Nat, j < F → ∀ d : Int, L0 (j : Int) (a.MAX_K + d) = lv a j d)
    (hA : ∀ j : Nat, j < F →
      A0 ((j : Int) + 1) (a.MAX_K + route a F df (j + 1)) = la a j (route a F df (j + 1)))
    (n : Nat) : n ≤ F → ∀ st : LVState, st.L = L0 → st.A = A0 →
    (backtrace a.MAX_K n n (route a F df n) st).L = L0 ∧
    (backtrace a.MAX_K n n (route a F df n) st).A = A0 ∧
    ∀ j : Nat, j < n →
      (backtrace a.MAX_K n n (route a F df n) st).backtraceAction ((j : Int) + 1)
        = la a j (route a F df (j + 1)) ∧
      (backtrace a.MAX_K n n (route a F df n) st).backtraceMatched ((j : Int) + 1)
        = lv a (j + 1) (route a F df (j + 1)) - lc a j (route a F df (j + 1)) := by
  induction n with
  | zero =>
    intro _ st h1 h2
    exact ⟨h1, h2, fun j hj => absurd hj (Nat.not_lt_zero _)⟩
  | succ n ih =>
    intro hn st h1 h2
    have hact : st.A ((n + 1 : Nat) : Int) (a.MAX_K + route a F df (n + 1))
        = la a n (route a F df (n + 1)) := by
      rw [h2]; push_cast; exact hA n (by omega)
    have hprev : prevD (la a n (route a F df (n + 1))) (route a F df (n + 1)) = route a F df n :=
      (route_pred a F df n (by omega)).symm
    have hLrow : st.L ((n + 1 : Nat) : Int) (a.MAX_K + route a F df (n + 1))
        = lv a (n + 1) (route a F df (n + 1)) := by
      rw [h1]
      by_cases hnF : n + 1 = F
      · have : route a F df (n + 1) = df := by rw [hnF]; exact route_self a F df F (le_refl _)
        rw [this, hnF]; exact hLF
      · exact hL (n + 1) (by omega) _
    have hLprev : st.L (((n + 1 : Nat) : Int) - 1) (a.MAX_K + route a F df n)
        = lv a n (route a F df n) := by
      rw [h1]
      have : ((n + 1 : Nat) : Int) - 1 = (n : Int) := by push_cast; ring
      rw [this]; exact hL n (by omega) _
    rw [backtrace_succ _ _ _ _ _ (by push_cast; omega), hact, hprev, hLrow, hLprev]
    have e1 : ((n + 1 : Nat) : Int) - 1 = (n : Int) := by push_cast; ring
    rw [e1]
    generalize hst' : ({ st with
        backtraceAction := set1 st.backtraceAction ((n + 1 : Nat) : Int) (la a n (route a F df (n + 1))),
        backtraceD := set1 st.backtraceD ((n + 1 : Nat) : Int) (route a F df n),
        backtraceMatched := set1 st.backtraceMatched ((n + 1 : Nat) : Int)
          (lv a (n + 1) (route a F df (n + 1)) - lv a n (route a F df n)
            - (if la a n (route a F df (n + 1)) = ch 'D' then 0 else 1)) } : LVState) = st'
    have h1' : st'.L = L0 := by rw [← hst']; exact h1
    have h2' : st'.A = A0 := by rw [← hst']; exact h2
    obtain ⟨i1, i2, i3⟩ := ih (by omega) st' h1' h2'
    obtain ⟨-, -, f3⟩ := backtrace_frame a.MAX_K n (n : Int) (route a F df n) st'
    refine ⟨i1, i2, fun j hj => ?_⟩
    by_cases hjn : j < n
    · exact i3 j hjn
    · have hj' : j = n := by omega
      subst hj'
      obtain ⟨g1, g2⟩ := f3 ((j : Int) + 1) (by omega)
      rw [g1, g2, ← hst']
      simp only [set1]
      have e2 : ((j + 1 : Nat) : Int) = (j : Int) + 1 := by push_cast; ring
      rw [e2]
      simp only [if_true]
      refine ⟨trivial, ?_⟩
      obtain ⟨n1, n2, n3, -⟩ := ch_ne
      rcases route_step a F df j (by omega) with ⟨q1, -, q3⟩ | ⟨q1, -, q3⟩ | ⟨q1, -, q3⟩
      · rw [q3, q1, if_neg n1]; ring
      · rw [q3, q1, if_pos rfl]; ring
      · rw [q3, q1, if_neg n3.symm]; ring


/-! ## The script of the backtrace, spelled out -/

theorem arrOps_add (st : LVState) (n : Nat) : ∀ (i : Int) (m : Nat),
    arrOps st i (n + m) = arrOps st i n ++ arrOps st (i + n) m := by
  induction n with
  | zero => intro i m; simp [arrOps]
  | succ n ih =>
    intro i m
    have e1 : n + 1 + m = (n + m) + 1 := by omega
    rw [e1, arrOps, arrOps, ih (i + 1) m]
    have e2 : i + 1 + (n : Int) = i + ((n + 1 : Nat) : Int) := by push_cast; ring
    rw [e2]
    simp

/-- The loop of lines 315-318: it advances over rows that repeat `action` with no exact
match in between, counting them. -/
theorem repeatLoop_spec (st : LVState) (e : Int) (action : Byte) (n : Nat) :
    ∀ (cnt curE : Int),
      curE ≤ (repeatLoop st e action n cnt curE).2 ∧
      (repeatLoop st e action n cnt curE).1 - cnt = (repeatLoop st e action n cnt curE).2 - curE ∧
      (curE ≤ e → (repeatLoop st e action n cnt curE).2 ≤ e) ∧
      ∀ i : Int, curE ≤ i → i < (repeatLoop st e action n cnt curE).2 →
        st.backtraceMatched i = 0 ∧ st.backtraceAction (i + 1) = action := by
  induction n with
  | zero =>
    intro cnt curE
    simp only [repeatLoop]
    exact ⟨le_refl _, by ring, fun h => h, fun i h1 h2 => by omega⟩
  | succ n ih =>
    intro cnt curE
    simp only [repeatLoop]
    by_cases h : curE + 1 ≤ e ∧ st.backtraceMatched curE = 0 ∧ st.backtraceAction (curE + 1) = action
    · rw [if_pos h]
      obtain ⟨i1, i2, i3, i4⟩ := ih (cnt + 1) (curE + 1)
      refine ⟨by omega, by omega, fun _ => i3 h.1, fun i h1 h2 => ?_⟩
      by_cases hi : i = curE
      · rw [hi]; exact h.2
      · exact i4 i (by omega) h2
    · rw [if_neg h]
      exact ⟨le_refl _, by ring, fun h => h, fun i h1 h2 => by omega⟩

/-- Rows that repeat one action with no exact match but after the last one spell out as
that many copies of the action followed by the exact matches of the last row. -/
theorem arrOps_run (st : LVState) (action : Byte) (n : Nat) : ∀ (i : Int),
    st.backtraceAction i = action →
    (∀ t : Int, i ≤ t → t < i + n → st.backtraceMatched t = 0 ∧ st.backtraceAction (t + 1) = action) →
    arrOps st i (n + 1) = List.replicate (n + 1) action
      ++ List.replicate (st.backtraceMatched (i + n)).toNat (ch '=') := by
  induction n with
  | zero =>
    intro i h1 _
    simp [arrOps, h1]
  | succ n ih =>
    intro i h1 h2
    have h3 := h2 i (le_refl _) (by push_cast; omega)
    rw [arrOps, ih (i + 1) h3.2 (fun t ht1 ht2 => h2 t (by omega) (by push_cast at ht2 ⊢; omega))]
    have e1 : i + 1 + (n : Int) = i + ((n + 1 : Nat) : Int) := by push_cast; ring
    rw [h1, h3.1, e1]
    simp [List.replicate_succ]

theorem emitCalls_succ (useM : Bool) (st : LVState) (e : Int) (n : Nat) (curE acc : Int)
    (h : curE ≤ e) :
    (emitCalls useM st e (n + 1) curE acc).2 =
      (roundCalls useM (st.backtraceAction curE)
          (repeatLoop st e (st.backtraceAction curE) (e - curE).toNat 1 curE).1
          (st.backtraceMatched (repeatLoop st e (st.backtraceAction curE) (e - curE).toNat 1 curE).2)
          acc).2 ++
        (emitCalls useM st e n
          ((repeatLoop st e (st.backtraceAction curE) (e - curE).toNat 1 curE).2 + 1)
          (roundCalls useM (st.backtraceAction curE)
            (repeatLoop st e (st.backtraceAction curE) (e - curE).toNat 1 curE).1
            (st.backtraceMatched (repeatLoop st e (st.backtraceAction curE) (e - curE).toNat 1 curE).2)
            acc).1).2 := by
  simp only [emitCalls]
  rw [if_pos h]

theorem emitCalls_done (useM : Bool) (st : LVState) (e : Int) (n : Nat) (curE acc : Int)
    (h : ¬ curE ≤ e) : emitCalls useM st e n curE acc = (acc, []) := by
  cases n with
  | zero => rfl
  | succ n => simp only [emitCalls]; rw [if_neg h]

/-- The calls of the loop of lines 311-349 for `useM = false`, spelled out, are the
opcodes of the backtrace arrays from row `curE` to row `e`. -/
theorem emitCalls_expand (st : LVState) (e : Int) (n : Nat) : ∀ (curE acc : Int),
    e - curE + 1 ≤ n →
    expand (emitCalls false st e n curE acc).2 = arrOps st curE (e - curE + 1).toNat := by
  induction n with
  | zero =>
    intro curE acc h
    have : (e - curE + 1).toNat = 0 := by simp at h; omega
    rw [this]; rfl
  | succ n ih =>
    intro curE acc h
    by_cases hc : curE ≤ e
    · rw [emitCalls_succ false st e n curE acc hc]
      obtain ⟨r1, r2, r3, r4⟩ := repeatLoop_spec st e (st.backtraceAction curE) (e - curE).toNat 1 curE
      generalize repeatLoop st e (st.backtraceAction curE) (e - curE).toNat 1 curE = r at r1 r2 r3 r4 ⊢
      obtain ⟨cnt, curE'⟩ := r
      simp only at r1 r2 r3 r4 ⊢
      have r3' := r3 hc
      rw [expand_append, ih (curE' + 1) _ (by push_cast at h ⊢; omega)]
      have hsplit : (e - curE + 1).toNat = (curE' - curE).toNat + 1 + (e - (curE' + 1) + 1).toNat := by
        omega
      rw [hsplit, arrOps_add]
      have hrun := arrOps_run st (st.backtraceAction curE) (curE' - curE).toNat curE rfl
        (fun t ht1 ht2 => r4 t ht1 (by omega))
      have e1 : curE + ((curE' - curE).toNat : Int) = curE' := by omega
      have e2 : curE + (((curE' - curE).toNat + 1 : Nat) : Int) = curE' + 1 := by push_cast; omega
      rw [e1] at hrun
      rw [hrun, e2]
      congr 1
      simp only [roundCalls, Bool.false_eq_true, if_false]
      have hcnt : cnt.toNat = (curE' - curE).toNat + 1 := by omega
      by_cases hm : st.backtraceMatched curE' > 0
      · rw [if_pos hm, expand_cons, expand_cons, expand_nil, List.append_nil]
        simp only [hcnt]
      · rw [if_neg hm, expand_cons, expand_nil, List.append_nil]
        have : (st.backtraceMatched curE').toNat = 0 := by omega
        simp only [hcnt, this, List.replicate_zero, List.append_nil]
    · rw [emitCalls_done false st e (n + 1) curE acc hc]
      have : (e - curE + 1).toNat = 0 := by omega
      rw [this]; rfl

/-- The script of lines 298-357 for `useM = false`, spelled out. -/
theorem backtraceCalls_expand (K : Int) (st : LVState) (e : Int) :
    expand (backtraceCalls false K st e)
      = List.replicate (st.L 0 (K + 0)).toNat (ch '=') ++ arrOps st 1 e.toNat := by
  simp only [backtraceCalls, Bool.false_eq_true, if_false]
  rw [expand_append, emitCalls_expand st e e.toNat 1 0 (by omega)]
  have : (e - 1 + 1).toNat = e.toNat := by omega
  rw [this]
  congr 1
  by_cases h : st.L 0 (K + 0) > 0
  · rw [if_pos h, expand_cons, expand_nil, List.append_nil]
  · rw [if_neg h, expand_nil]
    have : (st.L 0 (K + 0)).toNat = 0 := by omega
    rw [this]; rfl

/-- The opcodes of the backtrace arrays are the opcodes along the path. -/
theorem arrOps_route (a : Args) (F : Nat) (df : Int) (st : LVState)
    (harr : ∀ j : Nat, j < F →
      st.backtraceAction ((j : Int) + 1) = la a j (route a F df (j + 1)) ∧
      st.backtraceMatched ((j : Int) + 1)
        = lv a (j + 1) (route a F df (j + 1)) - lc a j (route a F df (j + 1))) (n : Nat) :
    n ≤ F →
    List.replicate (lv a 0 0).toNat (ch '=') ++ arrOps st 1 n = routeOps a F df n := by
  induction n with
  | zero => intro _; simp [arrOps, routeOps]
  | succ n ih =>
    intro hn
    rw [arrOps_add, ← List.append_assoc, ih (by omega)]
    obtain ⟨h1, h2⟩ := harr n (by omega)
    have e1 : (1 : Int) + (n : Int) = (n : Int) + 1 := by ring
    simp only [routeOps, arrOps, e1, h1, h2, List.append_nil]


theorem replayOps_mismatch (pattern text : Mem) (T : Int) (n : Nat) : ∀ (i j : Int),
    (∀ t : Nat, t < n → pattern (i + t) ≠ text (j + t) ∨ T ≤ j + t) →
    replayOps pattern text T (List.replicate n (ch 'X')) i j = some (i + n, j + n) := by
  obtain ⟨-, -, -, -, -, n6, -⟩ := ch_ne
  induction n with
  | zero => intro i j _; simp [replayOps]
  | succ n ih =>
    intro i j h
    have h0 := h 0 (by omega)
    simp only [Nat.cast_zero, add_zero] at h0
    simp only [List.replicate_succ, replayOps, if_neg n6.symm, if_true, h0]
    rw [ih (i + 1) (j + 1) (fun t ht => by
      have := h (t + 1) (by omega)
      push_cast at this
      have e1 : i + 1 + (t : Int) = i + (t + 1) := by ring
      have e2 : j + 1 + (t : Int) = j + (t + 1) := by ring
      rw [e1, e2]; exact this)]
    push_cast
    congr 2 <;> ring

theorem replayOps_insert (pattern text : Mem) (T : Int) (n : Nat) : ∀ (i j : Int),
    replayOps pattern text T (List.replicate n (ch 'I')) i j = some (i + n, j) := by
  obtain ⟨-, n2, -, n4, -⟩ := ch_ne
  induction n with
  | zero => intro i j; simp [replayOps]
  | succ n ih =>
    intro i j
    simp only [List.replicate_succ, replayOps, if_neg n4.symm, if_neg n2, if_true]
    rw [ih (i + 1) j]
    push_cast
    congr 2; ring

theorem replayOps_delete (pattern text : Mem) (T : Int) (n : Nat) : ∀ (i j : Int),
    replayOps pattern text T (List.replicate n (ch 'D')) i j = some (i, j + n) := by
  obtain ⟨n1, -, n3, -, n5, -⟩ := ch_ne
  induction n with
  | zero => intro i j; simp [replayOps]
  | succ n ih =>
    intro i j
    simp only [List.replicate_succ, replayOps, if_neg n5.symm, if_neg n3, if_neg n1.symm, if_true]
    rw [ih i (j + 1)]
    push_cast
    congr 2; ring

theorem replayOps_match_iff (pattern text : Mem) (T : Int) (n : Nat) : ∀ (i j : Int)
    (rest : List Byte),
    replayOps pattern text T (List.replicate n (ch '=') ++ rest) i j =
      if ∀ t : Nat, t < n → pattern (i + t) = text (j + t) ∧ j + t < T then
        replayOps pattern text T rest (i + n) (j + n)
      else none := by
  induction n with
  | zero => intro i j rest; simp
  | succ n ih =>
    intro i j rest
    simp only [List.replicate_succ, List.cons_append, replayOps, if_true, List.append_eq]
    by_cases h0 : pattern i = text j ∧ j < T
    · rw [if_pos h0, ih]
      have e1 : ∀ t : Nat, i + 1 + (t : Int) = i + ((t + 1 : Nat) : Int) := by
        intro t; push_cast; ring
      have e2 : ∀ t : Nat, j + 1 + (t : Int) = j + ((t + 1 : Nat) : Int) := by
        intro t; push_cast; ring
      have hiff : (∀ t : Nat, t < n → pattern (i + 1 + t) = text (j + 1 + t) ∧ j + 1 + t < T) ↔
          (∀ t : Nat, t < n + 1 → pattern (i + t) = text (j + t) ∧ j + t < T) := by
        constructor
        · intro h t ht
          rcases t with _ | t
          · simpa using h0
          · have := h t (by omega)
            rwa [e1, e2] at this
        · intro h t ht
          have := h (t + 1) (by omega)
          rwa [e1, e2]
      have e3 : i + 1 + (n : Int) = i + ((n + 1 : Nat) : Int) := by push_cast; ring
      have e4 : j + 1 + (n : Int) = j + ((n + 1 : Nat) : Int) := by push_cast; ring
      rw [e3, e4]
      by_cases hall : ∀ t : Nat, t < n + 1 → pattern (i + t) = text (j + t) ∧ j + t < T
      · rw [if_pos (hiff.mpr hall), if_pos hall]
      · rw [if_neg (fun h => hall (hiff.mp h)), if_neg hall]
    · rw [if_neg h0, if_neg]
      intro h
      apply h0
      simpa using h 0 (by omega)

theorem replayOps_mismatch_iff (pattern text : Mem) (T : Int) (n : Nat) : ∀ (i j : Int)
    (rest : List Byte),
    replayOps pattern text T (List.replicate n (ch 'X') ++ rest) i j =
      if ∀ t : Nat, t < n → pattern (i + t) ≠ text (j + t) ∨ T ≤ j + t then
        replayOps pattern text T rest (i + n) (j + n)
      else none := by
  obtain ⟨-, -, -, -, -, n6, -⟩ := ch_ne
  induction n with
  | zero => intro i j rest; simp
  | succ n ih =>
    intro i j rest
    simp only [List.replicate_succ, List.cons_append, replayOps, if_neg n6.symm, if_true,
      List.append_eq]
    by_cases h0 : pattern i ≠ text j ∨ T ≤ j
    · rw [if_pos h0, ih]
      have e1 : ∀ t : Nat, i + 1 + (t : Int) = i + ((t + 1 : Nat) : Int) := by
        intro t; push_cast; ring
      have e2 : ∀ t : Nat, j + 1 + (t : Int) = j + ((t + 1 : Nat) : Int) := by
        intro t; push_cast; ring
      have hiff : (∀ t : Nat, t < n → pattern (i + 1 + t) ≠ text (j + 1 + t) ∨ T ≤ j + 1 + t) ↔
          (∀ t : Nat, t < n + 1 → pattern (i + t) ≠ text (j + t) ∨ T ≤ j + t) := by
        constructor
        · intro h t ht
          rcases t with _ | t
          · simpa using h0
          · have := h t (by omega)
            rwa [e1, e2] at this
        · intro h t ht
          have := h (t + 1) (by omega)
          rwa [e1, e2]
      have e3 : i + 1 + (n : Int) = i + ((n + 1 : Nat) : Int) := by push_cast; ring
      have e4 : j + 1 + (n : Int) = j + ((n + 1 : Nat) : Int) := by push_cast; ring
      rw [e3, e4]
      by_cases hall : ∀ t : Nat, t < n + 1 → pattern (i + t) ≠ text (j + t) ∨ T ≤ j + t
      · rw [if_pos (hiff.mpr hall), if_pos hall]
      · rw [if_neg (fun h => hall (hiff.mp h)), if_neg hall]
    · rw [if_neg h0, if_neg]
      intro h
      apply h0
      simpa using h 0 (by omega)

/-- Replaying runs is replaying their opcodes one by one. -/
theorem replay_expand (pattern text : Mem) (T : Int) (s : List (Int × Byte)) :
    (∀ op ∈ s, 1 ≤ op.1) → ∀ (i j : Int),
    replay pattern text T s i j = replayOps pattern text T (expand s) i j := by
  obtain ⟨n1, n2, n3, n4, n5, n6, -⟩ := ch_ne
  induction s with
  | nil => intro _ i j; rfl
  | cons op s ih =>
    intro h i j
    obtain ⟨n, c⟩ := op
    have hn : 1 ≤ n := h (n, c) (by simp)
    have ih' := ih (fun o ho => h o (by simp [ho]))
    have hnn : ((n.toNat : Nat) : Int) = n := Int.toNat_of_nonneg (by omega)
    rw [expand_cons]
    simp only [replay]
    by_cases hc1 : c = ch '='
    · subst hc1
      rw [if_pos rfl, replayOps_match_iff, hnn]
      split_ifs
      · exact ih' _ _
      · rfl
    · rw [if_neg hc1]
      by_cases hc2 : c = ch 'X'
      · subst hc2
        rw [if_pos rfl, replayOps_mismatch_iff, hnn]
        split_ifs
        · exact ih' _ _
        · rfl
      · rw [if_neg hc2]
        by_cases hc3 : c = ch 'I'
        · subst hc3
          rw [if_pos rfl, replayOps_append _ _ _ _ _ _ _ _ _ (replayOps_insert pattern text T _ i j),
            hnn]
          exact ih' _ _
        · rw [if_neg hc3]
          by_cases hc4 : c = ch 'D'
          · subst hc4
            rw [if_pos rfl, replayOps_append _ _ _ _ _ _ _ _ _ (replayOps_delete pattern text T _ i j),
              hnn]
            exact ih' _ _
          · rw [if_neg hc4]
            obtain ⟨m, hm⟩ : ∃ m, n.toNat = m + 1 := ⟨n.toNat - 1, by omega⟩
            rw [hm, List.replicate_succ, List.cons_append]
            simp only [replayOps, if_neg hc1, if_neg hc2, if_neg hc3, if_neg hc4]

theorem written_pos (calls : List (Int × Byte)) : ∀ op ∈ written calls, 1 ≤ op.1 := by
  intro op h
  have := (List.mem_filter.mp h).2
  simp only [decide_eq_true_eq] at this
  omega

/-- Replaying the opcodes of an alignment without indels inside the text window. -/
theorem flatOps_replay (pattern text : Mem) (T E : Int) (hE : E ≤ T) (n : Nat) : ∀ (i : Int),
    i + n ≤ E →
    replayOps pattern text T (flatOps pattern text E i n) i i = some (i + n, i + n) := by
  obtain ⟨-, -, -, -, -, n6, -⟩ := ch_ne
  induction n with
  | zero => intro i _; simp [flatOps, replayOps]
  | succ n ih =>
    intro i h
    push_cast at h
    have hi : i < E := by omega
    simp only [flatOps, flatOp, hi, true_and]
    by_cases hb : pattern i = text i
    · simp only [hb, if_true, replayOps]
      rw [if_pos ⟨trivial, by omega⟩, ih (i + 1) (by omega)]
      push_cast; congr 2 <;> ring
    · simp only [hb, if_false, replayOps, if_neg n6.symm, if_true, ne_eq, not_false_eq_true,
        true_or]
      rw [ih (i + 1) (by omega)]
      push_cast; congr 2 <;> ring


/-- The script of the exact-match exit replays to the end of the pattern. -/
theorem exactCalls_replay (a : Args) (hP : 0 ≤ a.patternLen) (hT : 0 ≤ a.textLen)
    (hs : lv a 0 0 = min a.patternLen a.textLen) :
    replayOps a.pattern a.text a.textLen
      (expand (exactCalls false a.patternLen (min a.patternLen a.textLen))) 0 0 =
      some (a.patternLen, a.patternLen) := by
  have hE0 : 0 ≤ min a.patternLen a.textLen := le_min hP hT
  have hEP : min a.patternLen a.textLen ≤ a.patternLen := min_le_left _ _
  have hET : min a.patternLen a.textLen ≤ a.textLen := min_le_right _ _
  have heq := (lv_seed a).2.2.2.1
  rw [hs] at heq
  have hexp : expand (exactCalls false a.patternLen (min a.patternLen a.textLen)) =
      List.replicate (min a.patternLen a.textLen).toNat (ch '=') ++
        List.replicate (a.patternLen - min a.patternLen a.textLen).toNat (ch 'X') := by
    by_cases h : a.patternLen > min a.patternLen a.textLen
    · simp only [exactCalls, Bool.false_eq_true, if_false, if_pos h, expand_cons, expand_nil,
        List.append_nil]
    · have h0 : (a.patternLen - min a.patternLen a.textLen).toNat = 0 := by omega
      simp only [exactCalls, Bool.false_eq_true, if_false, if_neg h, expand_cons, expand_nil,
        List.append_nil, h0, List.replicate_zero]
  rw [hexp, replayOps_match_iff, if_pos, replayOps_mismatch]
  · congr 2 <;> omega
  · intro t ht
    right
    omega
  · intro t ht
    refine ⟨?_, by omega⟩
    have := heq t (by omega) (by omega)
    simpa using this

/-- The script of the exit without indels replays to the end of the pattern. -/
theorem flatCalls_replay (a : Args) (hP : 0 ≤ a.patternLen) (hT : 0 ≤ a.textLen) :
    replayOps a.pattern a.text a.textLen
      (expand (flatCalls false a.pattern a.text a.patternLen (min a.patternLen a.textLen))) 0 0 =
      some (a.patternLen, a.patternLen) := by
  have hE0 : 0 ≤ min a.patternLen a.textLen := le_min hP hT
  have hEP : min a.patternLen a.textLen ≤ a.patternLen := min_le_left _ _
  have hET : min a.patternLen a.textLen ≤ a.textLen := min_le_right _ _
  rw [(flatCalls_expand a.pattern a.text a.patternLen _ hE0 hEP).1]
  have h1 := flatOps_replay a.pattern a.text a.textLen (min a.patternLen a.textLen) hET
    (min a.patternLen a.textLen).toNat 0 (by omega)
  rw [replayOps_append _ _ _ _ _ _ _ _ _ h1, replayOps_mismatch]
  · congr 2 <;> omega
  · intro t ht
    right
    omega

/-- The script of the backtrace replays to the end of the pattern. -/
theorem backtraceCalls_replay (a : Args) (hP : 0 ≤ a.patternLen) (hT : 0 ≤ a.textLen)
    (e : Nat) (d : Int) (st1 : LVState) (hfound : RowFound a e d st1)
    (hno : ∀ e', e' ≤ e → ∀ d' : Int, -(e' : Int) ≤ d' → d' ≤ e' → lv a e' d' ≠ a.patternLen) :
    replayOps a.pattern a.text a.textLen
      (expand (backtraceCalls false a.MAX_K
        (backtrace a.MAX_K ((e : Int) + 1).toNat ((e : Int) + 1) d st1) ((e : Int) + 1))) 0 0 =
      some (a.patternLen, a.patternLen + d) := by
  obtain ⟨hd, hlv, htab, -, hL, hA⟩ := hfound
  have hdf : -((e + 1 : Nat) : Int) ≤ d ∧ d ≤ ((e + 1 : Nat) : Int) := by
    push_cast; exact hd
  have hno' : ∀ e' < e + 1, ∀ d' : Int, -(e' : Int) ≤ d' → d' ≤ e' → lv a e' d' ≠ a.patternLen :=
    fun e' he' => hno e' (by omega)
  have hgood := route_good a hP hT (e + 1) hno' d hdf hlv
  have hrs : route a (e + 1) d (e + 1) = d := route_self a (e + 1) d (e + 1) le_rfl
  have hnat : ((e : Int) + 1).toNat = e + 1 := by omega
  have hcast : ((e : Int) + 1) = ((e + 1 : Nat) : Int) := by push_cast; rfl
  have hspec := backtrace_spec a (e + 1) d st1.L st1.A
    (by rw [← hcast, hL, hlv])
    (fun j hj d' => htab.1 j hj d')
    (fun j hj => by
      by_cases hje : j + 1 < e + 1
      · have hb := hgood.1 (j + 1) (by omega)
        push_cast at hb
        exact htab.2.1 j hje _ hb.1 hb.2
      · have hje' : j = e := by omega
        subst hje'
        rw [hrs]
        exact hA)
    (e + 1) le_rfl st1 rfl rfl
  rw [hrs, ← hcast] at hspec
  rw [hnat]
  obtain ⟨q1, -, q3⟩ := hspec
  have h00 : st1.L 0 (a.MAX_K + 0) = lv a 0 0 := by
    have := htab.1 0 (by omega) 0
    simpa using this
  rw [backtraceCalls_expand, q1, hnat, h00,
    arrOps_route a (e + 1) d _ q3 (e + 1) le_rfl,
    routeOps_replay a hP hT (e + 1) hno' d hdf hlv (e + 1) le_rfl, hrs, hlv]


/-- Claim C2 as stated fails for a negative budget: an exact match is accepted before the
budget is consulted, so with `k = -1` the call on equal one-byte inputs returns 0, and
0 is not at most `k`. -/
theorem replay_bound_negative_k :
    (computeEditDistance 31 (fun _ => 0) fresh (some (bytesOf ['A'] 0)) 1
      (bytesOf ['A'] 0) 1 (-1) (freshBuf 100 64) false .COMPACT_CIGAR_STRING true).result
      = some 0 ∧ ¬ ((0 : Int) ≤ -1) := by
  decide

/-- Claim C2, amended: on an instance whose unwritten cells hold -2, for non-negative
lengths and `useM = false`, when the call returns `e ≥ 0` then `e ≤ max k 0` (so `e ≤ k`
whenever `k ≥ 0`), every run of the emitted script has a count of at least one, and
replaying the script from pattern cursor 0 and text cursor 0 is consistent with the
inputs and ends with the pattern cursor at `patternLen`. The lengths are such that the
`int` arithmetic of lines 167 and 176 is exact: `patternLen < 2^31 - 7` and
`textLen + k < 2^31`. -/
theorem script_replay (MAX_K : Int) (CigarToCode : Byte → Nat) (st : LVState) (text : Mem)
    (textLen : Int) (pattern : Mem) (patternLen k : Int) (cigarBuf : CigarBuf)
    (format : CigarFormat) (wantUsed : Bool) (e : Int)
    (hP : 0 ≤ patternLen) (hT : 0 ≤ textLen) (hc : st.Clean MAX_K)
    (hret : (computeEditDistance MAX_K CigarToCode st (some text) textLen pattern patternLen k
      cigarBuf false format wantUsed).result = some e)
    (he : 0 ≤ e) (hPw : patternLen < 2 ^ 31 - 7) (hTw : textLen + k < 2 ^ 31) :
    e ≤ max k 0 ∧
    (∀ op ∈ (computeEditDistance MAX_K CigarToCode st (some text) textLen pattern patternLen k
      cigarBuf false format wantUsed).script, 1 ≤ op.1) ∧
    ∃ j : Int, replay pattern text textLen
      (computeEditDistance MAX_K CigarToCode st (some text) textLen pattern patternLen k
        cigarBuf false format wantUsed).script 0 0 = some (patternLen, j) := by
  have hcases := call_cases MAX_K CigarToCode st text textLen pattern patternLen k cigarBuf
    false format wantUsed hc (call_nowrap MAX_K CigarToCode text textLen pattern patternLen k
      cigarBuf false format wantUsed hP hT hPw hTw)
  generalize ha : callArgs MAX_K CigarToCode text textLen pattern patternLen k cigarBuf false
    format wantUsed = a at hcases
  have hPa : a.patternLen = patternLen := by rw [← ha]; rfl
  have hTa : a.textLen = textLen := by rw [← ha]; rfl
  have hpat : a.pattern = pattern := by rw [← ha]; rfl
  have htxt : a.text = text := by rw [← ha]; rfl
  have hM : a.useM = false := by rw [← ha]; rfl
  have hK : a.MAX_K = MAX_K := by rw [← ha]; rfl
  have hbuf : (computeEditDistance MAX_K CigarToCode st (some text) textLen pattern patternLen k
      cigarBuf false format wantUsed).result ≠ some (-2) := by
    rw [hret]; intro h; injection h with h; omega
  have hnn : (computeEditDistance MAX_K CigarToCode st (some text) textLen pattern patternLen k
      cigarBuf false format wantUsed).result ≠ none := by
    rw [hret]; exact Option.some_ne_none _
  rcases hcases with ⟨hs, hr⟩ | ⟨-, ⟨st1, hr⟩, -⟩ | ⟨-, e0, d, st1, hek, hfound, hno, hr⟩
  · -- exact match
    rw [hr] at hbuf hnn hret ⊢
    obtain ⟨q1, q2⟩ := finish_ok _ _ _ _ _ _ hbuf hnn
    rw [q2] at hret
    injection hret with hret
    obtain ⟨-, q4⟩ := writeAll_ok _ _ _ _ q1
    rw [finish_script, q4]
    simp only [List.nil_append]
    refine ⟨by omega, written_pos _, a.patternLen, ?_⟩
    rw [replay_expand _ _ _ _ (written_pos _), expand_written]
    have := exactCalls_replay a (by rw [hPa]; exact hP) (by rw [hTa]; exact hT)
      (by rw [hPa, hTa]; exact hs)
    rw [hPa, hTa, hpat, htxt] at this
    rw [this, hPa]
  · -- budget exceeded
    rw [hr] at hret
    simp only [exceeded] at hret
    injection hret with hret
    omega
  · -- accepted in row e0 + 1
    rw [hr] at hbuf hnn hret ⊢
    obtain ⟨q1, q2⟩ := acceptRet_ok a _ d st1 cigarBuf hbuf hnn
    rw [q1] at hret
    injection hret with hret
    rw [q2, hM]
    refine ⟨by omega, ?_, ?_⟩
    · split_ifs
      · exact written_pos _
      · exact written_pos _
    · split_ifs
      · refine ⟨a.patternLen, ?_⟩
        rw [replay_expand _ _ _ _ (written_pos _), expand_written]
        have := flatCalls_replay a (by rw [hPa]; exact hP) (by rw [hTa]; exact hT)
        simp only [hpat, htxt, hTa, hPa] at this ⊢
        exact this
      · refine ⟨a.patternLen + d, ?_⟩
        rw [replay_expand _ _ _ _ (written_pos _), expand_written]
        have := backtraceCalls_replay a (by rw [hPa]; exact hP) (by rw [hTa]; exact hT)
          e0 d st1 hfound (by rw [hPa]; exact hno)
        simp only [hpat, htxt, hTa, hPa] at this ⊢
        exact this

theorem script_replay_witness :
    (computeEditDistance 31 (fun _ => 0) fresh (some (bytesOf ['A', 'C', 'C', 'G', 'T'] 0)) 5
      (bytesOf ['A', 'C', 'G', 'T'] 1) 4 1 (freshBuf 100 64) false .COMPACT_CIGAR_STRING
      true).script = [(2, ch '='), (1, ch 'D'), (2, ch '=')] ∧
    ((1 : Int) ≤ max 1 0 ∧
    (∀ op ∈ (computeEditDistance 31 (fun _ => 0) fresh
      (some (bytesOf ['A', 'C', 'C', 'G', 'T'] 0)) 5
      (bytesOf ['A', 'C', 'G', 'T'] 1) 4 1 (freshBuf 100 64) false .COMPACT_CIGAR_STRING
      true).script, 1 ≤ op.1) ∧
    ∃ j : Int, replay (bytesOf ['A', 'C', 'G', 'T'] 1) (bytesOf ['A', 'C', 'C', 'G', 'T'] 0) 5
      (computeEditDistance 31 (fun _ => 0) fresh
        (some (bytesOf ['A', 'C', 'C', 'G', 'T'] 0)) 5
        (bytesOf ['A', 'C', 'G', 'T'] 1) 4 1 (freshBuf 100 64) false .COMPACT_CIGAR_STRING
        true).script 0 0 = some (4, j)) :=
  ⟨by decide, script_replay 31 (fun _ => 0) fresh (bytesOf ['A', 'C', 'C', 'G', 'T'] 0) 5
    (bytesOf ['A', 'C', 'G', 'T'] 1) 4 1 (freshBuf 100 64) .COMPACT_CIGAR_STRING true 1
    (by decide) (by decide) (fun _ _ _ => rfl) (by decide) (by decide) (by decide) (by decide)⟩


theorem written_cons (op : Int × Byte) (calls : List (Int × Byte)) :
    written (op :: calls) = if op.1 > 0 then op :: written calls else written calls := by
  by_cases h : op.1 > 0 <;> simp [written, List.filter_cons, h]

theorem written_append (s t : List (Int × Byte)) :
    written (s ++ t) = written s ++ written t := by
  simp [written, List.filter_append]

theorem mergeM_other (n : Int) (op : Byte) (rest : List (Int × Byte)) (h : op ≠ ch 'M') :
    mergeM ((n, op) :: rest) = (n, op) :: mergeM rest := by
  simp only [mergeM]
  cases mergeM rest with
  | nil => rfl
  | cons x r =>
    obtain ⟨m, op2⟩ := x
    simp only
    rw [if_neg (fun hh => h hh.1)]

theorem mergeM_head (n : Int) (op : Byte) (rest : List (Int × Byte)) :
    ∃ n1 r, mergeM ((n, op) :: rest) = (n1, op) :: r := by
  simp only [mergeM]
  cases mergeM rest with
  | nil => exact ⟨n, [], rfl⟩
  | cons x r =>
    obtain ⟨m, op2⟩ := x
    simp only
    by_cases hh : op = ch 'M' ∧ op2 = ch 'M'
    · rw [if_pos hh]
      exact ⟨n + m, r, by rw [hh.1]⟩
    · rw [if_neg hh]
      exact ⟨n, (m, op2) :: r, rfl⟩

theorem mergeM_before_other (x : Int × Byte) (n : Int) (op : Byte) (rest : List (Int × Byte))
    (h : op ≠ ch 'M') :
    mergeM (x :: (n, op) :: rest) = x :: mergeM ((n, op) :: rest) := by
  obtain ⟨n1, r, hr⟩ := mergeM_head n op rest
  obtain ⟨k, c⟩ := x
  rw [mergeM, hr]
  simp only
  rw [if_neg (fun hh => h hh.2)]

theorem mergeM_two (n1 n2 : Int) (rest : List (Int × Byte)) :
    mergeM ((n1, ch 'M') :: (n2, ch 'M') :: rest) = mergeM ((n1 + n2, ch 'M') :: rest) := by
  simp only [mergeM]
  cases mergeM rest with
  | nil => simp
  | cons x r =>
    obtain ⟨m, op2⟩ := x
    simp only
    by_cases hh : op2 = ch 'M'
    · simp only [hh, and_self, if_true]
      rw [add_assoc]
    · simp [hh]

theorem toM_match : toM (ch '=') = ch 'M' := by decide

theorem toM_mismatch : toM (ch 'X') = ch 'M' := by decide

theorem toM_other (op : Byte) (h1 : op ≠ ch '=') (h2 : op ≠ ch 'X') : toM op = op := by
  unfold toM
  rw [if_neg (by rintro (h | h); exact h1 h; exact h2 h)]

theorem collapse_cons (x : Int × Byte) (s : List (Int × Byte)) :
    collapse (x :: s) = mergeM ((x.1, toM x.2) :: s.map (fun op => (op.1, toM op.2))) := rfl

/-- Two adjacent runs of matching class count as one run. -/
theorem collapse_join (a c : Int) (x y : Byte) (rest : List (Int × Byte)) (ha : 0 ≤ a)
    (hc : 0 ≤ c) (hx : toM x = ch 'M') (hy : toM y = ch 'M') :
    collapse (written ((a, x) :: (c, y) :: rest)) =
      collapse (written ((a + c, ch '=') :: rest)) := by
  rw [written_cons, written_cons, written_cons]
  simp only
  by_cases h1 : a > 0
  · by_cases h2 : c > 0
    · rw [if_pos h1, if_pos h2, if_pos (by omega)]
      rw [collapse_cons, collapse_cons, List.map_cons]
      simp only [hx, hy, toM_match]
      rw [mergeM_two]
    · have : c = 0 := by omega
      subst this
      rw [if_pos h1, if_neg h2, if_pos (by omega)]
      rw [collapse_cons, collapse_cons]
      simp only [hx, toM_match, add_zero]
  · have : a = 0 := by omega
    subst this
    rw [if_neg h1]
    by_cases h2 : c > 0
    · rw [if_pos h2, if_pos (by omega)]
      rw [collapse_cons, collapse_cons]
      simp only [hy, toM_match, zero_add]
    · rw [if_neg h2, if_neg (by omega)]

/-- A run of another class separates what is before it from what is after it. -/
theorem collapse_split (a c : Int) (op : Byte) (rest : List (Int × Byte)) (hc : 0 < c)
    (h1 : op ≠ ch '=') (h2 : op ≠ ch 'X') (h3 : op ≠ ch 'M') :
    collapse (written ((a, ch '=') :: (c, op) :: rest)) =
      written [(a, ch 'M')] ++ (c, op) :: collapse (written rest) := by
  rw [written_cons, written_cons, written_cons]
  simp only
  rw [if_pos hc]
  have hcc : collapse ((c, op) :: written rest) = (c, op) :: collapse (written rest) := by
    rw [collapse_cons]
    simp only [toM_other op h1 h2]
    rw [mergeM_other _ _ _ h3]
    rfl
  by_cases ha : a > 0
  · rw [if_pos ha, if_pos ha]
    rw [collapse_cons, List.map_cons]
    simp only [toM_other op h1 h2, toM_match]
    rw [mergeM_before_other _ _ _ _ h3, mergeM_other _ _ _ h3]
    rfl
  · rw [if_neg ha, if_neg ha, hcc]
    rfl

/-- A script of positive runs of matching class collapses to one `M` run. -/
theorem collapse_all (s : List (Int × Byte)) (hpos : ∀ op ∈ s, 0 < op.1)
    (hcl : ∀ op ∈ s, op.2 = ch '=' ∨ op.2 = ch 'X') :
    collapse s = written [((s.map (fun op => op.1)).sum, ch 'M')] ∧
      0 ≤ (s.map (fun op => op.1)).sum := by
  induction s with
  | nil => exact ⟨rfl, le_refl _⟩
  | cons x s ih =>
    obtain ⟨ih1, ih2⟩ := ih (fun op h => hpos op (by simp [h])) (fun op h => hcl op (by simp [h]))
    have hx := hpos x (by simp)
    have hm : toM x.2 = ch 'M' := by
      rcases hcl x (by simp) with h | h <;> rw [h] <;> decide
    refine ⟨?_, by simp only [List.map_cons, List.sum_cons]; omega⟩
    rw [collapse_cons, hm]
    have ih1' : mergeM (s.map (fun op => (op.1, toM op.2))) =
        written [((s.map (fun op => op.1)).sum, ch 'M')] := ih1
    simp only [List.map_cons, List.sum_cons]
    rw [written_cons] at ih1' ⊢
    simp only at ih1' ⊢
    rw [if_pos (by omega)]
    simp only [mergeM, ih1']
    by_cases hs : (s.map (fun op => op.1)).sum > 0
    · rw [if_pos hs]
      simp [written]
    · rw [if_neg hs]
      have : (s.map (fun op => op.1)).sum = 0 := by omega
      simp [written, this]


theorem emitCalls_succ_fst (useM : Bool) (st : LVState) (e : Int) (n : Nat) (curE acc : Int)
    (h : curE ≤ e) :
    (emitCalls useM st e (n + 1) curE acc).1 =
      (emitCalls useM st e n
          ((repeatLoop st e (st.backtraceAction curE) (e - curE).toNat 1 curE).2 + 1)
          (roundCalls useM (st.backtraceAction curE)
            (repeatLoop st e (st.backtraceAction curE) (e - curE).toNat 1 curE).1
            (st.backtraceMatched (repeatLoop st e (st.backtraceAction curE) (e - curE).toNat 1 curE).2)
            acc).1).1 := by
  simp only [emitCalls]
  rw [if_pos h]

theorem written_flush (acc : Int) :
    written (if acc ≠ 0 then [(acc, ch 'M')] else []) = written [(acc, ch 'M')] := by
  by_cases h : acc = 0
  · subst h; rfl
  · rw [if_pos h]

/-- The loop of lines 311-349 in the unified-match mode writes the collapse of what it
writes in the distinct mode, the pending matches `accumulatedMs` counting as a run
written before. -/
theorem emitCalls_collapse (st : LVState) (e : Int) (n : Nat) : ∀ (curE acc a0 : Int),
    0 ≤ acc →
    (∀ i : Int, curE ≤ i → i ≤ e →
      st.backtraceAction i = ch 'X' ∨ st.backtraceAction i = ch 'I' ∨
        st.backtraceAction i = ch 'D') →
    collapse (written ((acc, ch '=') :: (emitCalls false st e n curE a0).2)) =
      written ((emitCalls true st e n curE acc).2 ++
        (if (emitCalls true st e n curE acc).1 ≠ 0 then
          [((emitCalls true st e n curE acc).1, ch 'M')] else [])) := by
  obtain ⟨n1, n2, n3, n4, n5, n6, n7⟩ := ch_ne
  induction n with
  | zero =>
    intro curE acc a0 hacc _
    simp only [emitCalls, List.nil_append]
    rw [written_flush, written_cons]
    simp only
    by_cases h : acc > 0
    · rw [if_pos h, written_cons, if_pos h]; rfl
    · rw [if_neg h, written_cons, if_neg h]; rfl
  | succ n ih =>
    intro curE acc a0 hacc hact
    by_cases hle : curE ≤ e
    · rw [emitCalls_succ _ _ _ _ _ _ hle, emitCalls_succ _ _ _ _ _ _ hle,
        emitCalls_succ_fst _ _ _ _ _ _ hle]
      obtain ⟨s1, s2, s3, -⟩ := repeatLoop_spec st e (st.backtraceAction curE)
        (e - curE).toNat 1 curE
      have s3' := s3 hle
      generalize (repeatLoop st e (st.backtraceAction curE) (e - curE).toNat 1 curE).1 = cnt
        at s2 ⊢
      generalize (repeatLoop st e (st.backtraceAction curE) (e - curE).toNat 1 curE).2 = curE1
        at s1 s2 s3' ⊢
      have hcnt : 1 ≤ cnt := by omega
      have hact' : ∀ i : Int, curE1 + 1 ≤ i → i ≤ e →
          st.backtraceAction i = ch 'X' ∨ st.backtraceAction i = ch 'I' ∨
            st.backtraceAction i = ch 'D' := fun i h1 h2 => hact i (by omega) h2
      have hfalse : ∀ (act : Byte) (m : Int), roundCalls false act cnt m a0 =
          (a0, (cnt, act) :: (if m > 0 then [(m, ch '=')] else [])) := fun _ _ => rfl
      rw [hfalse]
      simp only
      generalize st.backtraceMatched curE1 = m
      rcases hact curE le_rfl hle with hX | hID
      · -- a mismatch: it joins the pending matches
        rw [hX]
        have htrue : roundCalls true (ch 'X') cnt m acc =
            (if m > 0 then acc + cnt + m else acc + cnt, []) := by
          simp [roundCalls]
        rw [htrue]
        simp only [List.nil_append, List.cons_append]
        rw [collapse_join acc cnt _ _ _ hacc (by omega) toM_match toM_mismatch]
        by_cases hm : m > 0
        · rw [if_pos hm, if_pos hm]
          simp only [List.cons_append, List.nil_append]
          rw [collapse_join (acc + cnt) m _ _ _ (by omega) (by omega) toM_match toM_match]
          exact ih (curE1 + 1) (acc + cnt + m) a0 (by omega) hact'
        · rw [if_neg hm, if_neg hm]
          simp only [List.nil_append]
          exact ih (curE1 + 1) (acc + cnt) a0 (by omega) hact'
      · -- an insertion or a deletion: the pending matches are written before it
        have hne : st.backtraceAction curE ≠ ch '=' ∧ st.backtraceAction curE ≠ ch 'X' ∧
            st.backtraceAction curE ≠ ch 'M' := by
          rcases hID with h | h <;> rw [h] <;> decide
        generalize st.backtraceAction curE = act at hne ⊢
        have htrue : roundCalls true act cnt m acc =
            (if m > 0 then 0 + m else 0,
              (if acc ≠ 0 then [(acc, ch 'M')] else []) ++ [(cnt, act)]) := by
          simp only [roundCalls, if_true]
          rw [if_neg (by rintro (h | h); exact hne.1 h; exact hne.2.1 h)]
        rw [htrue]
        simp only [List.cons_append]
        rw [collapse_split acc cnt act _ (by omega) hne.1 hne.2.1 hne.2.2]
        rw [List.append_assoc, List.append_assoc]
        conv_rhs => rw [written_append, written_flush, List.singleton_append,
          written_cons (cnt, act)]
        simp only
        rw [if_pos (show cnt > 0 by omega)]
        congr 2
        have hpre : written ((if m > 0 then [(m, ch '=')] else []) ++
            (emitCalls false st e n (curE1 + 1) a0).2) =
            written (((if m > 0 then 0 + m else 0), ch '=') ::
              (emitCalls false st e n (curE1 + 1) a0).2) := by
          by_cases hm : m > 0
          · rw [if_pos hm, if_pos hm, zero_add]; rfl
          · rw [if_neg hm, if_neg hm, written_cons]
            simp
        rw [hpre]
        exact ih (curE1 + 1) _ a0 (by split_ifs <;> omega) hact'
    · rw [emitCalls_done _ _ _ _ _ _ hle, emitCalls_done _ _ _ _ _ _ hle]
      simp only [List.nil_append]
      rw [written_flush, written_cons]
      simp only
      by_cases h : acc > 0
      · rw [if_pos h, written_cons, if_pos h]; rfl
      · rw [if_neg h, written_cons, if_neg h]; rfl

/-- The script of the backtrace in the unified-match mode is the collapse of its script
in the distinct mode. -/
theorem backtraceCalls_collapse (K : Int) (st : LVState) (e : Int)
    (h0 : 0 ≤ st.L 0 (K + 0))
    (hact : ∀ i : Int, 1 ≤ i → i ≤ e →
      st.backtraceAction i = ch 'X' ∨ st.backtraceAction i = ch 'I' ∨
        st.backtraceAction i = ch 'D') :
    collapse (written (backtraceCalls false K st e)) = written (backtraceCalls true K st e) := by
  have := emitCalls_collapse st e e.toNat 1 (st.L 0 (K + 0)) 0 h0 hact
  simp only [backtraceCalls, Bool.false_eq_true, if_false, if_true]
  rw [← this]
  congr 1
  rw [written_append, written_cons]
  simp only
  by_cases h : st.L 0 (K + 0) > 0
  · rw [if_pos h, if_pos h, written_cons, if_pos h]; rfl
  · rw [if_neg h, if_neg h]; rfl


theorem lv_congr (a b : Args) (h1 : a.pattern = b.pattern) (h2 : a.text = b.text)
    (h3 : a.patternLen = b.patternLen) (h4 : a.textLen = b.textLen) : lv a = lv b := by
  funext e
  induction e with
  | zero => funext d; simp only [lv, h1, h2, h3, h4]
  | succ e ih => funext d; simp only [lv, h1, h2, h3, h4, ih]

theorem lc_congr (a b : Args) (h : lv a = lv b) : lc a = lc b := by
  funext e d; simp only [lc, h]

theorem la_congr (a b : Args) (h : lv a = lv b) : la a = la b := by
  funext e d; simp only [la, h]

theorem route_congr (a b : Args) (h : lv a = lv b) : route a = route b := by
  funext e
  induction e with
  | zero => funext d j; rfl
  | succ e ih => funext d j; simp only [route, la_congr a b h, ih]

theorem la_cases (a : Args) (e : Nat) (d : Int) :
    la a e d = ch 'X' ∨ la a e d = ch 'I' ∨ la a e d = ch 'D' := by
  unfold la
  rcases choose_cases (lv a e d) (lv a e (d - 1)) (lv a e (d + 1)) with h | h | h
  · right; left; rw [h.1]
  · right; right; rw [h.1]
  · left; rw [h.1]

theorem repeatLoop_congr (st st1 : LVState) (e : Int) (action : Byte)
    (hA : ∀ i : Int, 1 ≤ i → i ≤ e → st.backtraceAction i = st1.backtraceAction i)
    (hM : ∀ i : Int, 1 ≤ i → i ≤ e → st.backtraceMatched i = st1.backtraceMatched i)
    (n : Nat) : ∀ (cnt curE : Int), 1 ≤ curE →
    repeatLoop st e action n cnt curE = repeatLoop st1 e action n cnt curE := by
  induction n with
  | zero => intro _ _ _; rfl
  | succ n ih =>
    intro cnt curE h1
    simp only [repeatLoop]
    by_cases hle : curE + 1 ≤ e
    · rw [hA (curE + 1) (by omega) hle, hM curE h1 (by omega), ih (cnt + 1) (curE + 1) (by omega)]
    · rw [if_neg (fun h => hle h.1), if_neg (fun h => hle h.1)]

theorem emitCalls_congr (useM : Bool) (st st1 : LVState) (e : Int)
    (hA : ∀ i : Int, 1 ≤ i → i ≤ e → st.backtraceAction i = st1.backtraceAction i)
    (hM : ∀ i : Int, 1 ≤ i → i ≤ e → st.backtraceMatched i = st1.backtraceMatched i)
    (n : Nat) : ∀ (curE acc : Int), 1 ≤ curE →
    emitCalls useM st e n curE acc = emitCalls useM st1 e n curE acc := by
  induction n with
  | zero => intro _ _ _; rfl
  | succ n ih =>
    intro curE acc h1
    by_cases hle : curE ≤ e
    · obtain ⟨s1, -, s3, -⟩ := repeatLoop_spec st e (st.backtraceAction curE)
        (e - curE).toNat 1 curE
      have s3' := s3 hle
      simp only [emitCalls]
      rw [if_pos hle, if_pos hle, ← hA curE h1 hle,
        ← repeatLoop_congr st st1 e _ hA hM _ 1 curE h1,
        ← hM _ (by omega) s3', ih _ _ (by omega)]
    · rw [emitCalls_done _ _ _ _ _ _ hle, emitCalls_done _ _ _ _ _ _ hle]

theorem backtraceCalls_congr (useM : Bool) (K : Int) (st st1 : LVState) (e : Int)
    (hL : st.L 0 (K + 0) = st1.L 0 (K + 0))
    (hA : ∀ i : Int, 1 ≤ i → i ≤ e → st.backtraceAction i = st1.backtraceAction i)
    (hM : ∀ i : Int, 1 ≤ i → i ≤ e → st.backtraceMatched i = st1.backtraceMatched i) :
    backtraceCalls useM K st e = backtraceCalls useM K st1 e := by
  simp only [backtraceCalls, hL, emitCalls_congr useM st st1 e hA hM _ _ _ le_rfl]

/-- The arrays the backtrace fills from the cell that reached `patternLen`. -/
theorem backtrace_found (a : Args) (hP : 0 ≤ a.patternLen) (hT : 0 ≤ a.textLen)
    (e : Nat) (d : Int) (st1 : LVState) (hfound : RowFound a e d st1)
    (hno : ∀ e', e' ≤ e → ∀ d' : Int, -(e' : Int) ≤ d' → d' ≤ e' → lv a e' d' ≠ a.patternLen) :
    (backtrace a.MAX_K ((e : Int) + 1).toNat ((e : Int) + 1) d st1).L 0 (a.MAX_K + 0) = lv a 0 0 ∧
    ∀ i : Int, 1 ≤ i → i ≤ (e : Int) + 1 →
      (backtrace a.MAX_K ((e : Int) + 1).toNat ((e : Int) + 1) d st1).backtraceAction i =
        la a (i - 1).toNat (route a (e + 1) d i.toNat) ∧
      (backtrace a.MAX_K ((e : Int) + 1).toNat ((e : Int) + 1) d st1).backtraceMatched i =
        lv a i.toNat (route a (e + 1) d i.toNat)
          - lc a (i - 1).toNat (route a (e + 1) d i.toNat) := by
  obtain ⟨hd, hlv, htab, -, hL, hA⟩ := hfound
  have hdf : -((e + 1 : Nat) : Int) ≤ d ∧ d ≤ ((e + 1 : Nat) : Int) := by
    push_cast; exact hd
  have hno' : ∀ e' < e + 1, ∀ d' : Int, -(e' : Int) ≤ d' → d' ≤ e' → lv a e' d' ≠ a.patternLen :=
    fun e' he' => hno e' (by omega)
  have hgood := route_good a hP hT (e + 1) hno' d hdf hlv
  have hrs : route a (e + 1) d (e + 1) = d := route_self a (e + 1) d (e + 1) le_rfl
  have hnat : ((e : Int) + 1).toNat = e + 1 := by omega
  have hcast : ((e : Int) + 1) = ((e + 1 : Nat) : Int) := by push_cast; rfl
  have hspec := backtrace_spec a (e + 1) d st1.L st1.A
    (by rw [← hcast, hL, hlv])
    (fun j hj d' => htab.1 j hj d')
    (fun j hj => by
      by_cases hje : j + 1 < e + 1
      · have hb := hgood.1 (j + 1) (by omega)
        push_cast at hb
        exact htab.2.1 j hje _ hb.1 hb.2
      · have hje' : j = e := by omega
        subst hje'
        rw [hrs]
        exact hA)
    (e + 1) le_rfl st1 rfl rfl
  rw [hrs, ← hcast] at hspec
  rw [hnat]
  obtain ⟨q1, -, q3⟩ := hspec
  have h00 : st1.L 0 (a.MAX_K + 0) = lv a 0 0 := by
    have := htab.1 0 (by omega) 0
    simpa using this
  refine ⟨by rw [q1, h00], fun i h1 h2 => ?_⟩
  obtain ⟨j, rfl⟩ : ∃ j : Nat, i = (j : Int) + 1 := ⟨(i - 1).toNat, by omega⟩
  have e1 : ((j : Int) + 1 - 1).toNat = j := by omega
  have e2 : ((j : Int) + 1).toNat = j + 1 := by omega
  rw [e1, e2]
  exact q3 j (by omega)


/-- The cell at which a call stops is the first one, in the order of the loops, whose
table value is `patternLen`. -/
theorem found_unique (a : Args) (e e1 : Nat) (d d1 : Int)
    (hd : -((e : Int) + 1) ≤ d ∧ d ≤ (e : Int) + 1) (hlv : lv a (e + 1) d = a.patternLen)
    (hpart : ∀ d' : Int, scanPos d' < scanPos d → lv a (e + 1) d' ≠ a.patternLen)
    (hno : ∀ e', e' ≤ e → ∀ d' : Int, -(e' : Int) ≤ d' → d' ≤ e' → lv a e' d' ≠ a.patternLen)
    (hd1 : -((e1 : Int) + 1) ≤ d1 ∧ d1 ≤ (e1 : Int) + 1) (hlv1 : lv a (e1 + 1) d1 = a.patternLen)
    (hpart1 : ∀ d' : Int, scanPos d' < scanPos d1 → lv a (e1 + 1) d' ≠ a.patternLen)
    (hno1 : ∀ e', e' ≤ e1 → ∀ d' : Int, -(e' : Int) ≤ d' → d' ≤ e' → lv a e' d' ≠ a.patternLen) :
    e = e1 ∧ d = d1 := by
  have he : e = e1 := by
    rcases Nat.lt_trichotomy e e1 with h | h | h
    · exact absurd hlv (hno1 (e + 1) (by omega) d (by push_cast; omega) (by push_cast; omega))
    · exact h
    · exact absurd hlv1 (hno (e1 + 1) (by omega) d1 (by push_cast; omega) (by push_cast; omega))
  subst he
  refine ⟨rfl, ?_⟩
  rcases Nat.lt_trichotomy (scanPos d) (scanPos d1) with h | h | h
  · exact absurd hlv (hpart1 d h)
  · exact scanPos_inj d d1 h
  · exact absurd hlv1 (hpart d1 h)

/-- The script of the exact-match exit in the unified-match mode is the collapse of the
one in the distinct mode. -/
theorem exactCalls_collapse (P E : Int) (hE : 0 ≤ E) (hEP : E ≤ P) :
    collapse (written (exactCalls false P E)) = written (exactCalls true P E) := by
  have hcl : ∀ op ∈ written (exactCalls false P E), op.2 = ch '=' ∨ op.2 = ch 'X' := by
    intro op hop
    have hmem := List.mem_of_mem_filter hop
    simp only [exactCalls, Bool.false_eq_true, if_false] at hmem
    split_ifs at hmem
    · simp only [List.mem_cons, List.mem_singleton, List.not_mem_nil, or_false] at hmem
      rcases hmem with h | h <;> rw [h]
      · left; rfl
      · right; rfl
    · simp only [List.mem_singleton] at hmem
      rw [hmem]; left; rfl
  rw [(collapse_all _ (fun op h => by have := written_pos _ op h; omega) hcl).1, written_sum]
  have hlen : ((expand (exactCalls false P E)).length : Int) = P := by
    simp only [exactCalls, Bool.false_eq_true, if_false]
    split_ifs
    · simp only [expand_cons, expand_nil, List.append_nil, List.length_append,
        List.length_replicate]
      omega
    · simp only [expand_cons, expand_nil, List.append_nil, List.length_replicate]
      omega
  rw [hlen]
  simp only [exactCalls, if_true]

/-- The script of the exit without indels in the unified-match mode is the collapse of
the one in the distinct mode. -/
theorem flatCalls_collapse (pattern text : Mem) (P E : Int) (hE : 0 ≤ E) (hEP : E ≤ P) :
    collapse (written (flatCalls false pattern text P E)) =
      written (flatCalls true pattern text P E) := by
  obtain ⟨h1, h2⟩ := flatCalls_expand pattern text P E hE hEP
  rw [(collapse_all (written (flatCalls false pattern text P E))
    (fun op h => by have := written_pos _ op h; omega)
    (fun op h => h2 op (List.mem_of_mem_filter h))).1, written_sum, h1]
  have hlen : (((flatOps pattern text E 0 E.toNat ++
      List.replicate (P - E).toNat (ch 'X')).length : Nat) : Int) = P := by
    rw [List.length_append, flatOps_length, List.length_replicate]
    omega
  rw [hlen]
  simp only [flatCalls, if_true]


/-- The script of an accepted cell in the unified-match mode is the collapse of the one
in the distinct mode, on any two instances. -/
theorem accept_collapse (a b : Args) (hP : 0 ≤ a.patternLen) (hT : 0 ≤ a.textLen)
    (h1 : b.pattern = a.pattern) (h2 : b.text = a.text)
    (h3 : b.patternLen = a.patternLen) (h4 : b.textLen = a.textLen) (h5 : b.MAX_K = a.MAX_K)
    (e : Nat) (d : Int) (st st1 : LVState)
    (hf : RowFound a e d st) (hf1 : RowFound b e d st1)
    (hno : ∀ e', e' ≤ e → ∀ d' : Int, -(e' : Int) ≤ d' → d' ≤ e' → lv a e' d' ≠ a.patternLen) :
    collapse (written (backtraceCalls false a.MAX_K
        (backtrace a.MAX_K ((e : Int) + 1).toNat ((e : Int) + 1) d st) ((e : Int) + 1))) =
      written (backtraceCalls true b.MAX_K
        (backtrace b.MAX_K ((e : Int) + 1).toNat ((e : Int) + 1) d st1) ((e : Int) + 1)) := by
  have hlv : lv b = lv a := lv_congr b a h1 h2 h3 h4
  obtain ⟨p1, p2⟩ := backtrace_found a hP hT e d st hf hno
  obtain ⟨q1, q2⟩ := backtrace_found b (by rw [h3]; exact hP) (by rw [h4]; exact hT) e d st1 hf1
    (by rw [hlv, h3]; exact hno)
  rw [hlv, la_congr b a hlv, lc_congr b a hlv, route_congr b a hlv, h5] at q2
  rw [hlv, h5] at q1
  rw [h5, backtraceCalls_collapse a.MAX_K _ _ (by rw [p1]; exact (lv_seed a).2.1 (le_min hP hT))
    (fun i hi1 hi2 => by rw [(p2 i hi1 hi2).1]; exact la_cases a _ _)]
  rw [backtraceCalls_congr true a.MAX_K _ (backtrace a.MAX_K ((e : Int) + 1).toNat
    ((e : Int) + 1) d st1) _ (by rw [p1, q1])
    (fun i hi1 hi2 => by rw [(p2 i hi1 hi2).1, (q2 i hi1 hi2).1])
    (fun i hi1 hi2 => by rw [(p2 i hi1 hi2).2, (q2 i hi1 hi2).2])]

/-- Claim C6: on instances whose unwritten cells hold -2, for non-negative lengths and
buffers large enough in both runs, the call returns the same value with `useM = true`
as with `useM = false`, and the script emitted with `useM = true` is the collapse of
the script emitted with `useM = false`. The lengths are such that the `int` arithmetic
of lines 167 and 176 is exact: `patternLen < 2^31 - 7` and `textLen + k < 2^31`. -/
theorem useM_collapse (MAX_K : Int) (CigarToCode : Byte → Nat) (st st1 : LVState) (text : Mem)
    (textLen : Int) (pattern : Mem) (patternLen k : Int) (cigarBuf cigarBuf1 : CigarBuf)
    (format : CigarFormat) (wantUsed : Bool)
    (hP : 0 ≤ patternLen) (hT : 0 ≤ textLen) (hc : st.Clean MAX_K) (hc1 : st1.Clean MAX_K)
    (hbuf : (computeEditDistance MAX_K CigarToCode st (some text) textLen pattern patternLen k
      cigarBuf false format wantUsed).result ≠ some (-2))
    (hnn : (computeEditDistance MAX_K CigarToCode st (some text) textLen pattern patternLen k
      cigarBuf false format wantUsed).result ≠ none)
    (hbuf1 : (computeEditDistance MAX_K CigarToCode st1 (some text) textLen pattern patternLen k
      cigarBuf1 true format wantUsed).result ≠ some (-2))
    (hnn1 : (computeEditDistance MAX_K CigarToCode st1 (some text) textLen pattern patternLen k
      cigarBuf1 true format wantUsed).result ≠ none)
    (hPw : patternLen < 2 ^ 31 - 7) (hTw : textLen + k < 2 ^ 31) :
    (computeEditDistance MAX_K CigarToCode st1 (some text) textLen pattern patternLen k
      cigarBuf1 true format wantUsed).result =
    (computeEditDistance MAX_K CigarToCode st (some text) textLen pattern patternLen k
      cigarBuf false format wantUsed).result ∧
    (computeEditDistance MAX_K CigarToCode st1 (some text) textLen pattern patternLen k
      cigarBuf1 true format wantUsed).script =
    collapse (computeEditDistance MAX_K CigarToCode st (some text) textLen pattern patternLen k
      cigarBuf false format wantUsed).script := by
  have hcases := call_cases MAX_K CigarToCode st text textLen pattern patternLen k cigarBuf
    false format wantUsed hc (call_nowrap MAX_K CigarToCode text textLen pattern patternLen k
      cigarBuf false format wantUsed hP hT hPw hTw)
  have hcases1 := call_cases MAX_K CigarToCode st1 text textLen pattern patternLen k cigarBuf1
    true format wantUsed hc1 (call_nowrap MAX_K CigarToCode text textLen pattern patternLen k
      cigarBuf1 true format wantUsed hP hT hPw hTw)
  have hlv : lv (callArgs MAX_K CigarToCode text textLen pattern patternLen k cigarBuf1 true
      format wantUsed) = lv (callArgs MAX_K CigarToCode text textLen pattern patternLen k
      cigarBuf false format wantUsed) := lv_congr _ _ rfl rfl rfl rfl
  rw [hlv] at hcases1
  generalize ha : callArgs MAX_K CigarToCode text textLen pattern patternLen k cigarBuf false
    format wantUsed = a at hcases hcases1 hlv
  generalize hb : callArgs MAX_K CigarToCode text textLen pattern patternLen k cigarBuf1 true
    format wantUsed = b at hcases1 hlv
  have hPa : a.patternLen = patternLen := by rw [← ha]; rfl
  have hTa : a.textLen = textLen := by rw [← ha]; rfl
  have hMa : a.useM = false := by rw [← ha]; rfl
  have hKa : a.MAX_K = MAX_K := by rw [← ha]; rfl
  have hPb : b.patternLen = a.patternLen := by rw [← ha, ← hb]; rfl
  have hTb : b.textLen = a.textLen := by rw [← ha, ← hb]; rfl
  have hpb : b.pattern = a.pattern := by rw [← ha, ← hb]; rfl
  have htb : b.text = a.text := by rw [← ha, ← hb]; rfl
  have hMb : b.useM = true := by rw [← hb]; rfl
  have hKb : b.MAX_K = a.MAX_K := by rw [← ha, ← hb]; rfl
  have hE0 : 0 ≤ min patternLen textLen := le_min hP hT
  have hEP : min patternLen textLen ≤ patternLen := min_le_left _ _
  rcases hcases with ⟨hs, hr⟩ | ⟨hs, ⟨st2, hr⟩, hno⟩ | ⟨hs, e, d, st2, hek, hfound, hno, hr⟩
  · -- exact match
    rcases hcases1 with ⟨-, hr1⟩ | ⟨hs1, -⟩ | ⟨hs1, -⟩
    · rw [hr] at hbuf hnn ⊢
      rw [hr1] at hbuf1 hnn1 ⊢
      obtain ⟨q1, q2⟩ := finish_ok _ _ _ _ _ _ hbuf hnn
      obtain ⟨r1, r2⟩ := finish_ok _ _ _ _ _ _ hbuf1 hnn1
      obtain ⟨-, q4⟩ := writeAll_ok _ _ _ _ q1
      obtain ⟨-, r4⟩ := writeAll_ok _ _ _ _ r1
      refine ⟨by rw [q2, r2], ?_⟩
      rw [finish_script, finish_script, q4, r4]
      simp only [List.nil_append]
      exact (exactCalls_collapse patternLen _ hE0 hEP).symm
    · exact absurd hs hs1
    · exact absurd hs hs1
  · -- budget exceeded
    rcases hcases1 with ⟨hs1, -⟩ | ⟨-, ⟨st3, hr1⟩, -⟩ | ⟨-, e1, d1, st3, hek1, hfound1, -, -⟩
    · exact absurd hs1 hs
    · rw [hr, hr1]
      exact ⟨rfl, rfl⟩
    · exfalso
      obtain ⟨hd1, hlv1, -⟩ := hfound1
      rw [hlv, hPb, hPa] at hlv1
      exact hno (e1 + 1) (by push_cast; omega) d1 (by push_cast; omega) (by push_cast; omega) hlv1
  · -- accepted in row e + 1
    rcases hcases1 with ⟨hs1, -⟩ | ⟨-, -, hno1⟩ | ⟨-, e1, d1, st3, hek1, hfound1, hno1, hr1⟩
    · exact absurd hs1 hs
    · exfalso
      obtain ⟨hd, hlv0, -⟩ := hfound
      rw [hPa] at hlv0
      exact hno1 (e + 1) (by push_cast; omega) d (by push_cast; omega) (by push_cast; omega) hlv0
    · have huniq : e = e1 ∧ d = d1 := by
        obtain ⟨hd, hlv0, -, hpart, -, -⟩ := hfound
        obtain ⟨hd1, hlv1, -, hpart1, -, -⟩ := hfound1
        rw [hlv, hPb] at hlv1
        refine found_unique a e e1 d d1 hd hlv0 (fun d' h => (hpart d' h).2.2)
          (by rw [hPa]; exact hno) hd1 hlv1 (fun d' h => ?_) (by rw [hPa]; exact hno1)
        have := (hpart1 d' h).2.2
        rw [hlv, hPb] at this
        exact this
      obtain ⟨rfl, rfl⟩ := huniq
      rw [hr] at hbuf hnn ⊢
      rw [hr1] at hbuf1 hnn1 ⊢
      obtain ⟨q1, q2⟩ := acceptRet_ok a _ d st2 cigarBuf hbuf hnn
      obtain ⟨r1, r2⟩ := acceptRet_ok b _ d st3 cigarBuf1 hbuf1 hnn1
      refine ⟨by rw [q1, r1], ?_⟩
      rw [q2, r2, hMa, hMb, hpb, htb, hPb, hTb]
      split_ifs
      · rw [hPa, hTa]
        exact (flatCalls_collapse _ _ patternLen _ hE0 hEP).symm
      · exact (accept_collapse a b (by rw [hPa]; exact hP) (by rw [hTa]; exact hT) hpb htb hPb
          hTb hKb e d st2 st3 hfound hfound1 (by rw [hPa]; exact hno)).symm

theorem useM_collapse_witness :
    (computeEditDistance 31 (fun _ => 0) fresh (some (bytesOf ['A', 'C', 'C', 'G', 'A', 'T'] 0)) 6
      (bytesOf ['A', 'C', 'G', 'T', 'T'] 1) 5 2 (freshBuf 100 64) false .COMPACT_CIGAR_STRING
      true).script = [(2, ch '='), (1, ch 'D'), (1, ch '='), (1, ch 'X'), (1, ch '=')] ∧
    (computeEditDistance 31 (fun _ => 0) fresh (some (bytesOf ['A', 'C', 'C', 'G', 'A', 'T'] 0)) 6
      (bytesOf ['A', 'C', 'G', 'T', 'T'] 1) 5 2 (freshBuf 200 64) true .COMPACT_CIGAR_STRING
      true).script = [(2, ch 'M'), (1, ch 'D'), (3, ch 'M')] ∧
    ((computeEditDistance 31 (fun _ => 0) fresh (some (bytesOf ['A', 'C', 'C', 'G', 'A', 'T'] 0)) 6
      (bytesOf ['A', 'C', 'G', 'T', 'T'] 1) 5 2 (freshBuf 200 64) true .COMPACT_CIGAR_STRING
      true).result =
    (computeEditDistance 31 (fun _ => 0) fresh (some (bytesOf ['A', 'C', 'C', 'G', 'A', 'T'] 0)) 6
      (bytesOf ['A', 'C', 'G', 'T', 'T'] 1) 5 2 (freshBuf 100 64) false .COMPACT_CIGAR_STRING
      true).result ∧
    (computeEditDistance 31 (fun _ => 0) fresh (some (bytesOf ['A', 'C', 'C', 'G', 'A', 'T'] 0)) 6
      (bytesOf ['A', 'C', 'G', 'T', 'T'] 1) 5 2 (freshBuf 200 64) true .COMPACT_CIGAR_STRING
      true).script =
    collapse (computeEditDistance 31 (fun _ => 0) fresh
      (some (bytesOf ['A', 'C', 'C', 'G', 'A', 'T'] 0)) 6
      (bytesOf ['A', 'C', 'G', 'T', 'T'] 1) 5 2 (freshBuf 100 64) false .COMPACT_CIGAR_STRING
      true).script) :=
  ⟨by decide, by decide, useM_collapse 31 (fun _ => 0) fresh fresh
    (bytesOf ['A', 'C', 'C', 'G', 'A', 'T'] 0) 6 (bytesOf ['A', 'C', 'G', 'T', 'T'] 1) 5 2
    (freshBuf 100 64) (freshBuf 200 64) .COMPACT_CIGAR_STRING true
    (by decide) (by decide) (fun _ _ _ => rfl) (fun _ _ _ => rfl)
    (by decide) (by decide) (by decide) (by decide) (by decide) (by decide)⟩


theorem readBytes_cons (m : Mem) (i : Int) (n : Nat) (h : 0 < n) :
    readBytes m i n = m i :: readBytes m (i + 1) (n - 1) := by
  obtain ⟨k, rfl⟩ : ∃ k, n = k + 1 := ⟨n - 1, by omega⟩
  rfl

theorem lev_delete_le (x : Byte) (xs ys : List Byte) :
    levenshtein Levenshtein.defaultCost (x :: xs) ys ≤
      1 + levenshtein Levenshtein.defaultCost xs ys := by
  cases ys with
  | nil => rw [levenshtein_cons_nil]; rfl
  | cons y ys => rw [levenshtein_cons_cons]; exact min_le_left _ _

theorem lev_insert_le (xs : List Byte) (y : Byte) (ys : List Byte) :
    levenshtein Levenshtein.defaultCost xs (y :: ys) ≤
      1 + levenshtein Levenshtein.defaultCost xs ys := by
  cases xs with
  | nil => rw [levenshtein_nil_cons]; rfl
  | cons x xs =>
    rw [levenshtein_cons_cons]
    exact le_trans (min_le_right _ _) (min_le_left _ _)

theorem lev_subst_le (x : Byte) (xs : List Byte) (y : Byte) (ys : List Byte) :
    levenshtein Levenshtein.defaultCost (x :: xs) (y :: ys) ≤
      (if x = y then 0 else 1) + levenshtein Levenshtein.defaultCost xs ys := by
  rw [levenshtein_cons_cons]
  exact le_trans (min_le_right _ _) (min_le_right _ _)

theorem replayOps_mono (pattern text : Mem) (T : Int) (ops : List Byte) :
    ∀ (i j i1 j1 : Int), replayOps pattern text T ops i j = some (i1, j1) → i ≤ i1 ∧ j ≤ j1 := by
  induction ops with
  | nil =>
    intro i j i1 j1 h
    simp only [replayOps, Option.some.injEq, Prod.mk.injEq] at h
    omega
  | cons op ops ih =>
    intro i j i1 j1 h
    simp only [replayOps] at h
    split_ifs at h
    · have := ih _ _ _ _ h; omega
    · have := ih _ _ _ _ h; omega
    · have := ih _ _ _ _ h; omega
    · have := ih _ _ _ _ h; omega

theorem editCost_cons (op : Byte) (ops : List Byte) :
    editCost (op :: ops) = (if op = ch '=' then 0 else 1) + editCost ops := by
  unfold editCost
  by_cases h : op = ch '='
  · simp [List.filter_cons, h]
  · simp [List.filter_cons, h]; omega

theorem editCost_append (s t : List Byte) : editCost (s ++ t) = editCost s + editCost t := by
  simp [editCost, List.filter_append]

theorem editCost_matches (n : Nat) : editCost (List.replicate n (ch '=')) = 0 := by
  induction n with
  | zero => rfl
  | succ n ih => rw [List.replicate_succ, editCost_cons, if_pos rfl, ih]

/-- The opcodes along the path of the backtrace hold one edit per row. -/
theorem routeOps_cost (a : Args) (F : Nat) (df : Int) (j : Nat) :
    editCost (routeOps a F df j) = j := by
  obtain ⟨-, -, -, n4, n5, n6, -⟩ := ch_ne
  induction j with
  | zero => exact editCost_matches _
  | succ j ih =>
    rw [routeOps, editCost_append, ih, editCost_cons, editCost_matches, if_neg]
    rcases la_cases a j (route a F df (j + 1)) with h | h | h <;> rw [h]
    · exact n6.symm
    · exact n4.symm
    · exact n5.symm

/-- A sequence of opcodes that replays from `(i, j)` to `(P, J)` bounds the distance
between `pattern[i..P)` and `text[j..J)` by its number of edits. -/
theorem replayOps_distance (pattern text : Mem) (T P J : Int) (ops : List Byte) :
    ∀ (i j : Int), replayOps pattern text T ops i j = some (P, J) →
    levenshtein Levenshtein.defaultCost (readBytes pattern i (P - i).toNat)
      (readBytes text j (J - j).toNat) ≤ editCost ops := by
  induction ops with
  | nil =>
    intro i j h
    simp only [replayOps, Option.some.injEq, Prod.mk.injEq] at h
    obtain ⟨rfl, rfl⟩ := h
    simp [readBytes]
  | cons op ops ih =>
    intro i j h
    rw [editCost_cons]
    simp only [replayOps] at h
    split_ifs at h with h1 h2 h3 h4 h5 h6
    · -- a match
      obtain ⟨m1, m2⟩ := replayOps_mono _ _ _ _ _ _ _ _ h
      have := ih _ _ h
      rw [readBytes_cons pattern i _ (by omega), readBytes_cons text j _ (by omega)]
      have e1 : (P - i).toNat - 1 = (P - (i + 1)).toNat := by omega
      have e2 : (J - j).toNat - 1 = (J - (j + 1)).toNat := by omega
      rw [e1, e2]
      refine le_trans (lev_subst_le _ _ _ _) ?_
      rw [if_pos h2.1]
      omega
    · -- a mismatch
      obtain ⟨m1, m2⟩ := replayOps_mono _ _ _ _ _ _ _ _ h
      have := ih _ _ h
      rw [readBytes_cons pattern i _ (by omega), readBytes_cons text j _ (by omega)]
      have e1 : (P - i).toNat - 1 = (P - (i + 1)).toNat := by omega
      have e2 : (J - j).toNat - 1 = (J - (j + 1)).toNat := by omega
      rw [e1, e2]
      refine le_trans (lev_subst_le _ _ _ _) ?_
      split_ifs <;> omega
    · -- an insertion
      obtain ⟨m1, m2⟩ := replayOps_mono _ _ _ _ _ _ _ _ h
      have := ih _ _ h
      rw [readBytes_cons pattern i _ (by omega)]
      have e1 : (P - i).toNat - 1 = (P - (i + 1)).toNat := by omega
      rw [e1]
      refine le_trans (lev_delete_le _ _ _) ?_
      rw [if_neg h1]
      omega
    · -- a deletion
      obtain ⟨m1, m2⟩ := replayOps_mono _ _ _ _ _ _ _ _ h
      have := ih _ _ h
      rw [readBytes_cons text j _ (by omega)]
      have e2 : (J - j).toNat - 1 = (J - (j + 1)).toNat := by omega
      rw [e2]
      refine le_trans (lev_insert_le _ _ _) ?_
      rw [if_neg h1]
      omega

theorem minDistance_le (pattern text : Mem) (P : Int) (n : Nat) :
    ∀ J, J ≤ n → minDistance pattern text P n ≤ prefixDistance pattern text P J := by
  induction n with
  | zero => intro J hJ; have : J = 0 := by omega
            subst this; exact le_refl _
  | succ n ih =>
    intro J hJ
    rw [minDistance]
    by_cases h : J ≤ n
    · exact le_trans (min_le_left _ _) (ih J h)
    · have : J = n + 1 := by omega
      subst this
      exact min_le_right _ _

theorem minDistance_mem (pattern text : Mem) (P : Int) (n : Nat) :
    ∃ J, J ≤ n ∧ minDistance pattern text P n = prefixDistance pattern text P J := by
  induction n with
  | zero => exact ⟨0, le_refl _, rfl⟩
  | succ n ih =>
    obtain ⟨J, hJ, hm⟩ := ih
    rw [minDistance]
    rcases le_total (minDistance pattern text P n) (prefixDistance pattern text P (n + 1)) with h | h
    · exact ⟨J, by omega, by rw [min_eq_left h, hm]⟩
    · exact ⟨n + 1, le_refl _, by rw [min_eq_right h]⟩

/-- The minimum is `F` when some prefix is at distance at most `F` and none is nearer. -/
theorem minDistance_eq (pattern text : Mem) (P : Int) (n F : Nat)
    (h1 : ∃ J, J ≤ n ∧ prefixDistance pattern text P J ≤ F)
    (h2 : ∀ J, J ≤ n → F ≤ prefixDistance pattern text P J) :
    minDistance pattern text P n = F := by
  obtain ⟨J, hJ, hle⟩ := h1
  obtain ⟨J1, hJ1, hm⟩ := minDistance_mem pattern text P n
  have := minDistance_le pattern text P n J hJ
  have := h2 J1 hJ1
  omega


/-- A cell of a row before the first hit, in a window that is long enough, is at least
its candidate. -/
theorem lv_ge_lc (a : Args) (hP : 0 ≤ a.patternLen) (F : Nat)
    (hno : ∀ e' < F, ∀ d' : Int, -(e' : Int) ≤ d' → d' ≤ e' → lv a e' d' ≠ a.patternLen)
    (e : Nat) (he : e < F) (d : Int) (hd : -((e : Int) + 1) ≤ d ∧ d ≤ (e : Int) + 1)
    (hT : a.patternLen ≤ a.textLen - d) : lc a e d ≤ lv a (e + 1) d := by
  rw [lv_succ a e d hd]
  have h1 := lc_le a hP F hno e he d
  exact (extend_inside a d (lc a e d) (le_min h1 (by omega))).1

/-- Before the first hit, no alignment of the rest of the pattern with the text up to
`J` is cheaper than the rows still to go: if row `e` has reached pattern position `i`
on the diagonal of `(i, j)`, the distance between `pattern[i..P)` and `text[j..J)` is at
least `F - e`. -/
theorem frontier_complete (a : Args) (hP : 0 ≤ a.patternLen) (hT0 : 0 ≤ a.textLen) (F : Nat)
    (hno : ∀ e' < F, ∀ d' : Int, -(e' : Int) ≤ d' → d' ≤ e' → lv a e' d' ≠ a.patternLen)
    (hT : a.patternLen + F ≤ a.textLen + 1) (J : Int) (hJ : J ≤ a.textLen) (n : Nat) :
    ∀ (i j : Int) (e : Nat), (a.patternLen - i).toNat + (J - j).toNat ≤ n →
      i ≤ a.patternLen → j ≤ J → e < F → i ≤ lv a e (j - i) → 0 ≤ i →
      F ≤ e + levenshtein Levenshtein.defaultCost (readBytes a.pattern i (a.patternLen - i).toNat)
        (readBytes a.text j (J - j).toNat) := by
  induction n with
  | zero =>
    intro i j e hn hi hj he hlv h0
    have := lv_lt a hP F hno e he (j - i)
    omega
  | succ n ih =>
    intro i j e hn hi hj he hlv h0
    have hlt := lv_lt a hP F hno e he (j - i)
    have hiP : i < a.patternLen := by omega
    have hrange : -(e : Int) ≤ j - i ∧ j - i ≤ e := by
      by_contra hc
      have := lv_unwritten a e (j - i) (by omega)
      omega
    obtain ⟨g1, g2, g3⟩ := lc_ge a e (j - i - 1)
    obtain ⟨f1, f2, f3⟩ := lc_ge a e (j - i)
    obtain ⟨k1, k2, k3⟩ := lc_ge a e (j - i + 1)
    rw [show j - i - 1 + 1 = j - i by ring] at g3
    rw [show j - i + 1 - 1 = j - i by ring] at k2
    -- the three moves
    have stepI : ∀ ys : List Byte, ys = readBytes a.text j (J - j).toNat →
        F ≤ e + (1 + levenshtein Levenshtein.defaultCost
          (readBytes a.pattern (i + 1) (a.patternLen - (i + 1)).toNat) ys) := by
      intro ys hys
      by_cases hF : e + 1 < F
      · have hcell := lv_ge_lc a hP F hno e he (j - i - 1) (by omega) (by omega)
        have := ih (i + 1) j (e + 1) (by omega) (by omega) hj hF
          (by rw [show j - (i + 1) = j - i - 1 by ring]; omega) (by omega)
        rw [hys]
        omega
      · omega
    have stepD : j < J →
        F ≤ e + (1 + levenshtein Levenshtein.defaultCost
          (readBytes a.pattern i (a.patternLen - i).toNat)
          (readBytes a.text (j + 1) (J - (j + 1)).toNat)) := by
      intro hjJ
      by_cases hF : e + 1 < F
      · have hcell := lv_ge_lc a hP F hno e he (j - i + 1) (by omega) (by omega)
        have := ih i (j + 1) (e + 1) (by omega) hi (by omega) hF
          (by rw [show j + 1 - i = j - i + 1 by ring]; omega) h0
        omega
      · omega
    have stepX : j < J →
        F ≤ e + (1 + levenshtein Levenshtein.defaultCost
          (readBytes a.pattern (i + 1) (a.patternLen - (i + 1)).toNat)
          (readBytes a.text (j + 1) (J - (j + 1)).toNat)) := by
      intro hjJ
      by_cases hF : e + 1 < F
      · have hcell := lv_ge_lc a hP F hno e he (j - i) (by omega) (by omega)
        have := ih (i + 1) (j + 1) (e + 1) (by omega) (by omega) (by omega) hF
          (by rw [show j + 1 - (i + 1) = j - i by ring]; omega) (by omega)
        omega
      · omega
    have stepM : j < J → a.pattern i = a.text j →
        F ≤ e + levenshtein Levenshtein.defaultCost
          (readBytes a.pattern (i + 1) (a.patternLen - (i + 1)).toNat)
          (readBytes a.text (j + 1) (J - (j + 1)).toNat) := by
      intro hjJ heq
      have hfr := lv_frontier a hP hT0 F hno e he (j - i) hrange
      have hnext : i + 1 ≤ lv a e (j - i) := by
        by_contra hc
        have hi' : lv a e (j - i) = i := by omega
        rw [hi', show j - i + i = j by ring] at hfr
        rcases hfr with h | h
        · exact h heq
        · omega
      exact ih (i + 1) (j + 1) e (by omega) (by omega) (by omega) he
        (by rw [show j + 1 - (i + 1) = j - i by ring]; exact hnext) (by omega)
    rw [readBytes_cons a.pattern i _ (by omega)]
    rw [show (a.patternLen - i).toNat - 1 = (a.patternLen - (i + 1)).toNat by omega]
    by_cases hjJ : j < J
    · rw [readBytes_cons a.text j _ (by omega)]
      rw [show (J - j).toNat - 1 = (J - (j + 1)).toNat by omega]
      rw [levenshtein_cons_cons]
      have hI := stepI (a.text j :: readBytes a.text (j + 1) (J - (j + 1)).toNat)
        (by rw [readBytes_cons a.text j _ (by omega)]
            rw [show (J - j).toNat - 1 = (J - (j + 1)).toNat by omega])
      have hD := stepD hjJ
      rw [readBytes_cons a.pattern i _ (by omega),
        show (a.patternLen - i).toNat - 1 = (a.patternLen - (i + 1)).toNat by omega] at hD
      have hXM : F ≤ e + (Levenshtein.defaultCost.substitute (a.pattern i) (a.text j) +
          levenshtein Levenshtein.defaultCost
            (readBytes a.pattern (i + 1) (a.patternLen - (i + 1)).toNat)
            (readBytes a.text (j + 1) (J - (j + 1)).toNat)) := by
        by_cases heq : a.pattern i = a.text j
        · have := stepM hjJ heq
          simp only [Levenshtein.defaultCost, heq, if_true, zero_add]
          exact this
        · have := stepX hjJ
          simp only [Levenshtein.defaultCost, heq, if_false]
          exact this
      simp only [Levenshtein.defaultCost] at hXM ⊢
      have key : ∀ x y z : Nat, F ≤ e + x → F ≤ e + y → F ≤ e + z → F ≤ e + min x (min y z) := by
        intro x y z hx hy hz
        rcases le_total x (min y z) with h | h
        · rw [min_eq_left h]; exact hx
        · rw [min_eq_right h]
          rcases le_total y z with h' | h'
          · rw [min_eq_left h']; exact hy
          · rw [min_eq_right h']; exact hz
      exact key _ _ _ hI hD hXM
    · have hJj : (J - j).toNat = 0 := by omega
      rw [hJj]
      have hI := stepI [] (by rw [hJj]; rfl)
      simp only [readBytes]
      rw [levenshtein_cons_nil]
      exact hI


/-- Before the first hit no prefix of the text is nearer to the pattern than the number
of rows searched. -/
theorem prefixDistance_ge (a : Args) (hP : 0 ≤ a.patternLen) (hT0 : 0 ≤ a.textLen) (F : Nat)
    (hno : ∀ e' < F, ∀ d' : Int, -(e' : Int) ≤ d' → d' ≤ e' → lv a e' d' ≠ a.patternLen)
    (hT : a.patternLen + F ≤ a.textLen + 1) (J : Nat) (hJ : J ≤ a.textLen.toNat) :
    F ≤ prefixDistance a.pattern a.text a.patternLen J := by
  by_cases hF : 0 < F
  · have := frontier_complete a hP hT0 F hno hT J (by omega) _ 0 0 0 (le_refl _) hP (by omega) hF
      (by simpa using (lv_seed a).2.1 (le_min hP hT0)) (le_refl _)
    simpa [prefixDistance] using this
  · omega

/-- The path of the backtrace shows a prefix of the text at distance at most the row of
the hit. -/
theorem prefixDistance_le (a : Args) (hP : 0 ≤ a.patternLen) (hT0 : 0 ≤ a.textLen) (F : Nat)
    (hno : ∀ e' < F, ∀ d' : Int, -(e' : Int) ≤ d' → d' ≤ e' → lv a e' d' ≠ a.patternLen)
    (df : Int) (hdf : -(F : Int) ≤ df ∧ df ≤ F) (hlv : lv a F df = a.patternLen) :
    0 ≤ a.patternLen + df ∧
      prefixDistance a.pattern a.text a.patternLen (a.patternLen + df).toNat ≤ F := by
  have h := routeOps_replay a hP hT0 F hno df hdf hlv F le_rfl
  rw [route_self a F df F le_rfl, hlv] at h
  have hm := replayOps_mono _ _ _ _ _ _ _ _ h
  have := replayOps_distance _ _ _ _ _ _ _ _ h
  rw [routeOps_cost] at this
  refine ⟨hm.2, ?_⟩
  simpa [prefixDistance] using this

/-- Claim C1, amended: for `0 ≤ k < MAX_K`, `patternLen ≥ 0`, `textLen ≥ patternLen + k`
and lengths for which the `int` arithmetic of lines 167 and 176 is exact
(`textLen + k < 2^31` and `patternLen < 2^31 - 7`), on an instance whose unwritten cells
hold -2 and with an output buffer large enough, the call returns the minimum `D`, over
the prefixes of the text, of the Levenshtein distance between the pattern and the prefix
when `D ≤ k`, and -1 when `D > k`. -/
theorem min_edit_distance (MAX_K : Int) (CigarToCode : Byte → Nat) (st : LVState) (text : Mem)
    (textLen : Int) (pattern : Mem) (patternLen k : Int) (cigarBuf : CigarBuf) (useM : Bool)
    (format : CigarFormat) (wantUsed : Bool)
    (hk0 : 0 ≤ k) (_hk : k < MAX_K) (hP : 0 ≤ patternLen) (hT : patternLen + k ≤ textLen)
    (hc : st.Clean MAX_K)
    (hbuf : (computeEditDistance MAX_K CigarToCode st (some text) textLen pattern patternLen k
      cigarBuf useM format wantUsed).result ≠ some (-2))
    (hnn : (computeEditDistance MAX_K CigarToCode st (some text) textLen pattern patternLen k
      cigarBuf useM format wantUsed).result ≠ none)
    (hPw : patternLen < 2 ^ 31 - 7) (hTw : textLen + k < 2 ^ 31) :
    (computeEditDistance MAX_K CigarToCode st (some text) textLen pattern patternLen k
      cigarBuf useM format wantUsed).result =
      if (minDistance pattern text patternLen textLen.toNat : Int) ≤ k then
        some (minDistance pattern text patternLen textLen.toNat : Int)
      else some (-1) := by
  have hcases := call_cases MAX_K CigarToCode st text textLen pattern patternLen k cigarBuf
    useM format wantUsed hc (call_nowrap MAX_K CigarToCode text textLen pattern patternLen k
      cigarBuf useM format wantUsed hP (by omega) hPw hTw)
  generalize ha : callArgs MAX_K CigarToCode text textLen pattern patternLen k cigarBuf useM
    format wantUsed = a at hcases
  have hPa : a.patternLen = patternLen := by rw [← ha]; rfl
  have hTa : a.textLen = textLen := by rw [← ha]; rfl
  have hpat : a.pattern = pattern := by rw [← ha]; rfl
  have htxt : a.text = text := by rw [← ha]; rfl
  have hP' : 0 ≤ a.patternLen := by rw [hPa]; exact hP
  have hT0 : 0 ≤ a.textLen := by rw [hTa]; omega
  have hDeq : minDistance pattern text patternLen textLen.toNat =
      minDistance a.pattern a.text a.patternLen a.textLen.toNat := by
    rw [hpat, htxt, hPa, hTa]
  rw [hDeq]
  rcases hcases with ⟨hs, hr⟩ | ⟨-, ⟨st1, hr⟩, hno⟩ | ⟨-, e, d, st1, hek, hfound, hno, hr⟩
  · -- exact match: the distance to the prefix of length patternLen is 0
    rw [hr] at hbuf hnn ⊢
    obtain ⟨-, q2⟩ := finish_ok _ _ _ _ _ _ hbuf hnn
    have hmin : min patternLen textLen = patternLen := min_eq_left (by omega)
    rw [hmin] at hs
    have hlv : lv a 0 0 = a.patternLen := by rw [hPa]; exact hs
    have hle := prefixDistance_le a hP' hT0 0
      (fun e' he' => absurd he' (Nat.not_lt_zero _)) 0 (by simp) hlv
    have hD : minDistance a.pattern a.text a.patternLen a.textLen.toNat = 0 :=
      minDistance_eq _ _ _ _ 0 ⟨(a.patternLen + 0).toNat, by omega, hle.2⟩ (fun _ _ => Nat.zero_le _)
    rw [q2, hD]
    simp only [Nat.cast_zero]
    rw [if_pos hk0]
  · -- budget exceeded: every prefix is farther than k
    have hno' : ∀ e' < k.toNat + 1, ∀ d' : Int, -(e' : Int) ≤ d' → d' ≤ e' →
        lv a e' d' ≠ a.patternLen := by
      intro e' he' d' h1 h2
      rw [hPa]
      exact hno e' (by omega) d' h1 h2
    obtain ⟨J, hJ, hm⟩ := minDistance_mem a.pattern a.text a.patternLen a.textLen.toNat
    have := prefixDistance_ge a hP' hT0 (k.toNat + 1) hno' (by push_cast; omega) J hJ
    rw [hr, hm, if_neg (by omega)]
    rfl
  · -- found in row e + 1
    rw [hr] at hbuf hnn ⊢
    obtain ⟨q1, -⟩ := acceptRet_ok a _ d st1 cigarBuf hbuf hnn
    obtain ⟨hd, hlv, -⟩ := hfound
    have hno' : ∀ e' < e + 1, ∀ d' : Int, -(e' : Int) ≤ d' → d' ≤ e' →
        lv a e' d' ≠ a.patternLen := by
      intro e' he' d' h1 h2
      rw [hPa]
      exact hno e' (by omega) d' h1 h2
    have hle := prefixDistance_le a hP' hT0 (e + 1) hno' d (by push_cast; exact hd) hlv
    have hD : minDistance a.pattern a.text a.patternLen a.textLen.toNat = e + 1 :=
      minDistance_eq _ _ _ _ (e + 1) ⟨(a.patternLen + d).toNat, by omega, hle.2⟩
        (fun J hJ => prefixDistance_ge a hP' hT0 (e + 1) hno' (by push_cast; omega) J hJ)
    rw [q1, hD]
    push_cast
    rw [if_pos hek]

theorem min_edit_distance_witness :
    minDistance (bytesOf ['A', 'C', 'G', 'T'] 1) (bytesOf ['A', 'C', 'C', 'G', 'T', 'A'] 0) 4
      (6 : Int).toNat = 1 ∧
    (computeEditDistance 31 (fun _ => 0) fresh (some (bytesOf ['A', 'C', 'C', 'G', 'T', 'A'] 0)) 6
      (bytesOf ['A', 'C', 'G', 'T'] 1) 4 2 (freshBuf 100 64) false .COMPACT_CIGAR_STRING
      true).result =
      if (minDistance (bytesOf ['A', 'C', 'G', 'T'] 1)
          (bytesOf ['A', 'C', 'C', 'G', 'T', 'A'] 0) 4 (6 : Int).toNat : Int) ≤ 2 then
        some (minDistance (bytesOf ['A', 'C', 'G', 'T'] 1)
          (bytesOf ['A', 'C', 'C', 'G', 'T', 'A'] 0) 4 (6 : Int).toNat : Int)
      else some (-1) :=
  ⟨by decide, min_edit_distance 31 (fun _ => 0) fresh (bytesOf ['A', 'C', 'C', 'G', 'T', 'A'] 0) 6
    (bytesOf ['A', 'C', 'G', 'T'] 1) 4 2 (freshBuf 100 64) false .COMPACT_CIGAR_STRING true
    (by decide) (by decide) (by decide) (by decide) (fun _ _ _ => rfl) (by decide) (by decide)
    (by decide) (by decide)⟩

/-- Claim C1 as stated fails when line 167 overflows: pattern "ACCGT" against the text
"ACGTTTTT" with `textLen = 2^31 - 1` and `k = 1`. The pattern is one edit away from the
prefix "ACGT" of the text, so the minimum distance is at most 1, but on diagonal -1 the
`int` difference `textLen - d` wraps to `-2^31`, the cell `L[1][MAX_K-1]` is stored as
`-2^31`, and the call returns -1. -/
theorem min_edit_distance_overflow :
    (5 : Int) + 1 ≤ 2147483647 ∧
    (minDistance (bytesOf ['A', 'C', 'C', 'G', 'T'] 1)
      (bytesOf ['A', 'C', 'G', 'T', 'T', 'T', 'T', 'T'] 0) 5 (2147483647 : Int).toNat : Int) ≤ 1 ∧
    (computeEditDistance 31 (fun _ => 0) fresh
      (some (bytesOf ['A', 'C', 'G', 'T', 'T', 'T', 'T', 'T'] 0)) 2147483647
      (bytesOf ['A', 'C', 'C', 'G', 'T'] 1) 5 1 (freshBuf 100 64) false .COMPACT_CIGAR_STRING
      true).result = some (-1) ∧
    (computeEditDistance 31 (fun _ => 0) fresh
      (some (bytesOf ['A', 'C', 'G', 'T', 'T', 'T', 'T', 'T'] 0)) 2147483647
      (bytesOf ['A', 'C', 'C', 'G', 'T'] 1) 5 1 (freshBuf 100 64) false .COMPACT_CIGAR_STRING
      true).st.L 1 (31 - 1) = -2147483648 := by
  refine ⟨by decide, ?_, by decide, by decide⟩
  have h1 := minDistance_le (bytesOf ['A', 'C', 'C', 'G', 'T'] 1)
    (bytesOf ['A', 'C', 'G', 'T', 'T', 'T', 'T', 'T'] 0) 5 (2147483647 : Int).toNat 4
    (by decide)
  have h2 : prefixDistance (bytesOf ['A', 'C', 'C', 'G', 'T'] 1)
      (bytesOf ['A', 'C', 'G', 'T', 'T', 'T', 'T', 'T'] 0) 5 4 = 1 := by decide
  omega


/-- Up to the row of the first hit, in a window that is long enough, a cell is at most
`patternLen` and stops below it only at a mismatch. -/
theorem lv_stop (a : Args) (hP : 0 ≤ a.patternLen) (F : Nat)
    (hno : ∀ e' < F, ∀ d' : Int, -(e' : Int) ≤ d' → d' ≤ e' → lv a e' d' ≠ a.patternLen)
    (e : Nat) (he : e ≤ F) (d : Int) (hd : -(e : Int) ≤ d ∧ d ≤ e)
    (hT : a.patternLen ≤ a.textLen - d) :
    lv a e d ≤ a.patternLen ∧
      (lv a e d < a.patternLen → a.pattern (lv a e d) ≠ a.text (d + lv a e d)) := by
  cases e with
  | zero =>
    have hd0 : d = 0 := by simp at hd; omega
    subst hd0
    have hmin : min a.patternLen a.textLen = a.patternLen := min_eq_left (by omega)
    obtain ⟨-, -, s3, -, s5⟩ := lv_seed a
    rw [hmin] at s3 s5
    refine ⟨by rw [max_eq_left hP] at s3; exact s3, fun h => ?_⟩
    simpa using s5 h
  | succ e =>
    have hd' : -((e : Int) + 1) ≤ d ∧ d ≤ (e : Int) + 1 := by push_cast at hd; exact hd
    rw [lv_succ a e d hd']
    have h1 := lc_le a hP F hno e (by omega) d
    have hmin : min a.patternLen (a.textLen - d) = a.patternLen := min_eq_left hT
    obtain ⟨-, x2, -, x4⟩ := extend_inside a d (lc a e d) (by rw [hmin]; exact h1)
    rw [hmin] at x2 x4
    exact ⟨x2, x4⟩

/-- An alignment with `F` edits that ends at text position `J` brings row `F` of the
table to `patternLen` on the diagonal `J - patternLen`. -/
theorem frontier_ops (a : Args) (hP : 0 ≤ a.patternLen) (F : Nat)
    (hno : ∀ e' < F, ∀ d' : Int, -(e' : Int) ≤ d' → d' ≤ e' → lv a e' d' ≠ a.patternLen)
    (hT : a.patternLen + F ≤ a.textLen) (J : Int) (ops : List Byte) :
    ∀ (i j : Int) (e : Nat), e ≤ F → i ≤ lv a e (j - i) → 0 ≤ i →
      replayOps a.pattern a.text a.textLen ops i j = some (a.patternLen, J) →
      e + editCost ops = F → a.patternLen ≤ lv a F (J - a.patternLen) := by
  induction ops with
  | nil =>
    intro i j e _ hlv _ h hc
    simp only [replayOps, Option.some.injEq, Prod.mk.injEq] at h
    obtain ⟨rfl, rfl⟩ := h
    have : e = F := by simpa [editCost] using hc
    subst this
    exact hlv
  | cons op ops ih =>
    intro i j e he hlv h0 h hc
    have hrange : -(e : Int) ≤ j - i ∧ j - i ≤ e := by
      by_contra hcon
      have := lv_unwritten a e (j - i) (by omega)
      omega
    obtain ⟨g1, g2, g3⟩ := lc_ge a e (j - i - 1)
    obtain ⟨f1, f2, f3⟩ := lc_ge a e (j - i)
    obtain ⟨k1, k2, k3⟩ := lc_ge a e (j - i + 1)
    rw [show j - i - 1 + 1 = j - i by ring] at g3
    rw [show j - i + 1 - 1 = j - i by ring] at k2
    rw [editCost_cons] at hc
    simp only [replayOps] at h
    split_ifs at h hc with h1 h2 h3 h4 h5 h6
    · -- a match
      obtain ⟨m1, -⟩ := replayOps_mono _ _ _ _ _ _ _ _ h
      obtain ⟨s1, s2⟩ := lv_stop a hP F hno e he (j - i) hrange (by omega)
      have hnext : i + 1 ≤ lv a e (j - i) := by
        by_contra hcon
        have hi' : lv a e (j - i) = i := by omega
        rw [hi', show j - i + i = j by ring] at s2
        exact s2 (by omega) h2.1
      exact ih (i + 1) (j + 1) e he (by rw [show j + 1 - (i + 1) = j - i by ring]; exact hnext)
        (by omega) h (by omega)
    · -- a mismatch
      have hcell := lv_ge_lc a hP F hno e (by omega) (j - i) (by omega) (by omega)
      exact ih (i + 1) (j + 1) (e + 1) (by omega)
        (by rw [show j + 1 - (i + 1) = j - i by ring]; omega) (by omega) h (by omega)
    · -- an insertion
      have hcell := lv_ge_lc a hP F hno e (by omega) (j - i - 1) (by omega) (by omega)
      exact ih (i + 1) j (e + 1) (by omega)
        (by rw [show j - (i + 1) = j - i - 1 by ring]; omega) (by omega) h (by omega)
    · -- a deletion
      have hcell := lv_ge_lc a hP F hno e (by omega) (j - i + 1) (by omega) (by omega)
      exact ih i (j + 1) (e + 1) (by omega)
        (by rw [show j + 1 - i = j - i + 1 by ring]; omega) h0 h (by omega)


theorem indelLength_flat (s : List (Int × Byte))
    (h : ∀ op ∈ s, op.2 = ch '=' ∨ op.2 = ch 'X') : indelLength s = 0 := by
  obtain ⟨-, n2, n3, n4, n5, -⟩ := ch_ne
  unfold indelLength
  have : s.filter (fun op => decide (op.2 = ch 'I' ∨ op.2 = ch 'D')) = [] := by
    rw [List.filter_eq_nil_iff]
    intro op hop
    simp only [decide_eq_true_eq]
    rcases h op hop with h1 | h1 <;> rw [h1]
    · rintro (h2 | h2)
      · exact n4 h2
      · exact n5 h2
    · rintro (h2 | h2)
      · exact n2 h2.symm
      · exact n3 h2.symm
  rw [this]
  rfl

/-- Claim C4 as stated fails: for pattern "ABA" and text "CABBA" with `k = 2` the call
returns 2 with the script `1D 2= 1I` of indel length 2, while `1D 2= 1X` is an alignment
of the whole pattern with 2 edits and indel length 1. -/
theorem fewest_indels_fails :
    (computeEditDistance 31 (fun _ => 0) fresh (some (bytesOf ['C', 'A', 'B', 'B', 'A'] 0)) 5
      (bytesOf ['A', 'B', 'A'] 1) 3 2 (freshBuf 100 64) false .COMPACT_CIGAR_STRING
      true).result = some 2 ∧
    (computeEditDistance 31 (fun _ => 0) fresh (some (bytesOf ['C', 'A', 'B', 'B', 'A'] 0)) 5
      (bytesOf ['A', 'B', 'A'] 1) 3 2 (freshBuf 100 64) false .COMPACT_CIGAR_STRING
      true).script = [(1, ch 'D'), (2, ch '='), (1, ch 'I')] ∧
    indelLength [(1, ch 'D'), (2, ch '='), (1, ch 'I')] = 2 ∧
    replay (bytesOf ['A', 'B', 'A'] 1) (bytesOf ['C', 'A', 'B', 'B', 'A'] 0) 5
      [(1, ch 'D'), (2, ch '='), (1, ch 'X')] 0 0 = some (3, 4) ∧
    editLength [(1, ch 'D'), (2, ch '='), (1, ch 'X')] = 2 ∧
    indelLength [(1, ch 'D'), (2, ch '='), (1, ch 'X')] = 1 := by
  decide

/-- The order of the end diagonals needs exact arithmetic: for pattern "ABAB" and text
"BABAB" with `textLen = 2^31 - 1` and `k = 1` the difference `textLen - d` of line 167
wraps on diagonal -1, and the call ends its script `1D 4=` on diagonal 1 although the
alignment `1I 3=` has one edit and ends on diagonal -1, which comes first. -/
theorem end_diagonal_overflow :
    (4 : Int) + 1 ≤ 2147483647 ∧
    (computeEditDistance 31 (fun _ => 0) fresh (some (bytesOf ['B', 'A', 'B', 'A', 'B'] 0))
      2147483647 (bytesOf ['A', 'B', 'A', 'B'] 1) 4 1 (freshBuf 100 64) false
      .COMPACT_CIGAR_STRING true).result = some 1 ∧
    (computeEditDistance 31 (fun _ => 0) fresh (some (bytesOf ['B', 'A', 'B', 'A', 'B'] 0))
      2147483647 (bytesOf ['A', 'B', 'A', 'B'] 1) 4 1 (freshBuf 100 64) false
      .COMPACT_CIGAR_STRING true).script = [(1, ch 'D'), (4, ch '=')] ∧
    replay (bytesOf ['A', 'B', 'A', 'B'] 1) (bytesOf ['B', 'A', 'B', 'A', 'B'] 0) 2147483647
      [(1, ch 'D'), (4, ch '=')] 0 0 = some (4, 4 + 1) ∧
    replayOps (bytesOf ['A', 'B', 'A', 'B'] 1) (bytesOf ['B', 'A', 'B', 'A', 'B'] 0) 2147483647
      [ch 'I', ch '=', ch '=', ch '='] 0 0 = some (4, 4 + -1) ∧
    editCost [ch 'I', ch '=', ch '=', ch '='] = 1 ∧
    scanPos (-1) < scanPos 1 := by
  decide

/-- The end diagonal of the script: on an instance whose unwritten cells hold -2, for
`useM = false`, `textLen ≥ patternLen + k` and lengths for which the `int` arithmetic is
exact, when the call returns `e ≥ 1` the script ends on a diagonal `d` that no alignment
with `e` edits precedes in the order `0, -1, 1, -2, 2, ...` of the end diagonals. -/
theorem first_end_diagonal (MAX_K : Int) (CigarToCode : Byte → Nat) (st : LVState) (text : Mem)
    (textLen : Int) (pattern : Mem) (patternLen k : Int) (cigarBuf : CigarBuf)
    (format : CigarFormat) (wantUsed : Bool) (e : Int)
    (hP : 0 ≤ patternLen) (hT : 0 ≤ textLen) (hc : st.Clean MAX_K)
    (hret : (computeEditDistance MAX_K CigarToCode st (some text) textLen pattern patternLen k
      cigarBuf false format wantUsed).result = some e)
    (he : 1 ≤ e) (hlong : patternLen + k ≤ textLen)
    (hPw : patternLen < 2 ^ 31 - 7) (hTw : textLen + k < 2 ^ 31) :
    ∃ d : Int, replay pattern text textLen
      (computeEditDistance MAX_K CigarToCode st (some text) textLen pattern patternLen k
        cigarBuf false format wantUsed).script 0 0 = some (patternLen, patternLen + d) ∧
      ∀ (ops : List Byte) (J : Int),
        replayOps pattern text textLen ops 0 0 = some (patternLen, J) →
        (editCost ops : Int) = e → scanPos d ≤ scanPos (J - patternLen) := by
  have hcases := call_cases MAX_K CigarToCode st text textLen pattern patternLen k cigarBuf
    false format wantUsed hc (call_nowrap MAX_K CigarToCode text textLen pattern patternLen k
      cigarBuf false format wantUsed hP hT hPw hTw)
  generalize ha : callArgs MAX_K CigarToCode text textLen pattern patternLen k cigarBuf false
    format wantUsed = a at hcases
  have hPa : a.patternLen = patternLen := by rw [← ha]; rfl
  have hTa : a.textLen = textLen := by rw [← ha]; rfl
  have hpat : a.pattern = pattern := by rw [← ha]; rfl
  have htxt : a.text = text := by rw [← ha]; rfl
  have hM : a.useM = false := by rw [← ha]; rfl
  have hP' : 0 ≤ a.patternLen := by rw [hPa]; exact hP
  have hT' : 0 ≤ a.textLen := by rw [hTa]; exact hT
  have hbuf : (computeEditDistance MAX_K CigarToCode st (some text) textLen pattern patternLen k
      cigarBuf false format wantUsed).result ≠ some (-2) := by
    rw [hret]; intro h; injection h with h; omega
  have hnn : (computeEditDistance MAX_K CigarToCode st (some text) textLen pattern patternLen k
      cigarBuf false format wantUsed).result ≠ none := by
    rw [hret]; exact Option.some_ne_none _
  have hE0 : 0 ≤ min a.patternLen a.textLen := le_min hP' hT'
  have hEP : min a.patternLen a.textLen ≤ a.patternLen := min_le_left _ _
  rcases hcases with ⟨-, hr⟩ | ⟨-, ⟨st1, hr⟩, -⟩ | ⟨-, e0, d, st1, hek, hfound, hno, hr⟩
  · -- exact match: the value is 0
    exfalso
    rw [hr] at hbuf hnn hret
    obtain ⟨-, q2⟩ := finish_ok _ _ _ _ _ _ hbuf hnn
    rw [q2] at hret
    injection hret with hret
    omega
  · -- budget exceeded: the value is -1
    exfalso
    rw [hr] at hret
    simp only [exceeded] at hret
    injection hret with hret
    omega
  · rw [hr] at hbuf hnn hret ⊢
    obtain ⟨q1, q2⟩ := acceptRet_ok a _ d st1 cigarBuf hbuf hnn
    rw [q1] at hret
    injection hret with hret
    have hcm := countMismatches_eq a.pattern a.text (min a.patternLen a.textLen).toNat 0 0
    simp only [Nat.cast_zero, zero_add, mismatches, sub_zero] at hcm
    rw [q2, hM, hcm]
    have hno' : ∀ e' < e0 + 1, ∀ d' : Int, -(e' : Int) ≤ d' → d' ≤ e' →
        lv a e' d' ≠ a.patternLen := by
      intro e' he' d' h1 h2
      rw [hPa]
      exact hno e' (by omega) d' h1 h2
    · split_ifs
      · refine ⟨0, ?_, fun ops J _ _ => by simp [scanPos]⟩
        rw [replay_expand _ _ _ _ (written_pos _), expand_written]
        have := flatCalls_replay a hP' hT'
        simp only [hpat, htxt, hTa, hPa] at this ⊢
        rw [this, add_zero]
      · refine ⟨d, ?_, fun ops J hops hcost => ?_⟩
        · rw [replay_expand _ _ _ _ (written_pos _), expand_written]
          have := backtraceCalls_replay a hP' hT' e0 d st1 hfound (by rw [hPa]; exact hno)
          simp only [hpat, htxt, hTa, hPa] at this ⊢
          exact this
        · obtain ⟨-, -, -, hpart, -, -⟩ := hfound
          have hfr := frontier_ops a hP' (e0 + 1) hno' (by rw [hPa, hTa]; push_cast; omega) J ops
            0 0 0 (Nat.zero_le _) (by simpa using (lv_seed a).2.1 hE0) (le_refl _)
            (by rw [hpat, htxt, hTa, hPa]; exact hops)
            (by have : ((editCost ops : Nat) : Int) = ((e0 + 1 : Nat) : Int) := by
                  rw [hcost, ← hret]; push_cast; rfl
                have := Int.ofNat_inj.mp this
                omega)
          have hrange : -((e0 + 1 : Nat) : Int) ≤ J - a.patternLen ∧
              J - a.patternLen ≤ ((e0 + 1 : Nat) : Int) := by
            by_contra hcon
            have := lv_unwritten a (e0 + 1) (J - a.patternLen) (by omega)
            omega
          obtain ⟨s1, -⟩ := lv_stop a hP' (e0 + 1) hno' (e0 + 1) le_rfl (J - a.patternLen) hrange
            (by rw [hPa, hTa]; push_cast at hrange; rw [hPa] at hrange; omega)
          by_contra hlt
          have := (hpart (J - a.patternLen) (by rw [hPa]; omega)).2.2
          omega


/-- Claim C7 fails on the code for an empty output buffer (`cigarBufLen = 0` at address
1000): on the -1 path the terminating NUL is stored at address 999, index -1, for the
text formats and for the BAM format alike; on the -2 path `writeCigar` stores its NUL at
index -1 for the expanded and the compact text formats and at index 0, which is not below
`cigarBufLen`, for the compact binary format. -/
theorem empty_buffer_stores :
    ((computeEditDistance 31 (fun _ => 0) fresh (some (bytesOf ['B'] 0)) 1 (bytesOf ['A'] 1) 1 0
        (freshBuf 1000 0) false .COMPACT_CIGAR_STRING true).result = some (-1) ∧
      (computeEditDistance 31 (fun _ => 0) fresh (some (bytesOf ['B'] 0)) 1 (bytesOf ['A'] 1) 1 0
        (freshBuf 1000 0) false .COMPACT_CIGAR_STRING true).buf.log = [999]) ∧
    ((computeEditDistance 31 (fun _ => 0) fresh (some (bytesOf ['B'] 0)) 1 (bytesOf ['A'] 1) 1 0
        (freshBuf 1000 0) false .BAM_CIGAR_OPS true).result = some (-1) ∧
      (computeEditDistance 31 (fun _ => 0) fresh (some (bytesOf ['B'] 0)) 1 (bytesOf ['A'] 1) 1 0
        (freshBuf 1000 0) false .BAM_CIGAR_OPS true).buf.log = [999]) ∧
    ((computeEditDistance 31 (fun _ => 0) fresh (some (bytesOf ['A'] 0)) 1 (bytesOf ['A'] 1) 1 0
        (freshBuf 1000 0) false .EXPANDED_CIGAR_STRING true).result = some (-2) ∧
      (computeEditDistance 31 (fun _ => 0) fresh (some (bytesOf ['A'] 0)) 1 (bytesOf ['A'] 1) 1 0
        (freshBuf 1000 0) false .EXPANDED_CIGAR_STRING true).buf.log = [999]) ∧
    ((computeEditDistance 31 (fun _ => 0) fresh (some (bytesOf ['A'] 0)) 1 (bytesOf ['A'] 1) 1 0
        (freshBuf 1000 0) false .COMPACT_CIGAR_STRING true).result = some (-2) ∧
      (computeEditDistance 31 (fun _ => 0) fresh (some (bytesOf ['A'] 0)) 1 (bytesOf ['A'] 1) 1 0
        (freshBuf 1000 0) false .COMPACT_CIGAR_STRING true).buf.log = [999]) ∧
    ((computeEditDistance 31 (fun _ => 0) fresh (some (bytesOf ['A'] 0)) 1 (bytesOf ['A'] 1) 1 0
        (freshBuf 1000 0) false .COMPACT_CIGAR_BINARY true).result = some (-2) ∧
      (computeEditDistance 31 (fun _ => 0) fresh (some (bytesOf ['A'] 0)) 1 (bytesOf ['A'] 1) 1 0
        (freshBuf 1000 0) false .COMPACT_CIGAR_BINARY true).buf.log = [1000]) := by
  decide

theorem finish_st (st : LVState) (s : Int) (w t : Bool) (e : Int) (em : Emit) :
    (finish st s w t e em).st = st := by
  unfold finish
  split <;> rfl

/-- A newly constructed instance holds -2 in every cell of `L`. -/
theorem init_clean (MAX_K : Int) (A0 : Int → Int → Byte) (bA0 : Int → Byte)
    (bM0 bD0 : Int → Int) : (LVState.init A0 bA0 bM0 bD0).Clean MAX_K :=
  fun _ _ _ => rfl

/-- A call leaves -2 in the cells of `L` that no call writes, so the instance can be used
for the next call. -/
theorem computeEditDistance_clean (MAX_K : Int) (CigarToCode : Byte → Nat) (st : LVState)
    (text : Option Mem) (textLen : Int) (pattern : Mem) (patternLen k : Int)
    (cigarBuf : CigarBuf) (useM : Bool) (format : CigarFormat) (wantUsed : Bool)
    (hc : st.Clean MAX_K) :
    (computeEditDistance MAX_K CigarToCode st text textLen pattern patternLen k cigarBuf useM
      format wantUsed).st.Clean MAX_K := by
  cases text with
  | none => exact hc
  | some text =>
    rw [computeEditDistance_eq]
    generalize ha : callArgs MAX_K CigarToCode text textLen pattern patternLen k cigarBuf useM
      format wantUsed = a
    have hK : a.MAX_K = MAX_K := by rw [← ha]; rfl
    have hP : a.patternLen = patternLen := by rw [← ha]; rfl
    have hT : a.textLen = textLen := by rw [← ha]; rfl
    have hk : a.k = k := by rw [← ha]; rfl
    have htab := seed_tab a st (by rw [hK]; exact hc)
    rw [hK] at htab
    by_cases hs : lv a 0 0 = min patternLen textLen
    · rw [if_pos hs, finish_st]
      have := htab.2.2
      rw [hK] at this
      exact this
    · rw [if_neg hs]
      have hsp := eSearch_clean a k.toNat 1 { st with L := set2 st.L 0 MAX_K (lv a 0 0) }
        htab.2.2
      simp only [Nat.cast_one] at hsp
      rcases hes : eSearch a k.toNat 1
        { st with L := set2 st.L 0 MAX_K (lv a 0 0) } with st1 | ⟨e1, d1, st1⟩
      · rw [hes] at hsp
        have := hsp
        rw [hK] at this
        exact this
      · rw [hes] at hsp
        have hcl : st1.Clean a.MAX_K := hsp
        rw [hK] at hcl
        simp only
        rw [acceptRet_eq]
        split_ifs
        · rw [finish_st]; exact hcl
        · rw [finish_st]
          intro e d hd
          rw [(backtrace_frame a.MAX_K _ _ _ _).1]
          exact hcl e d hd


/-- The loop of the compact binary case with enough fuel: it fails exactly when the
remaining length is below `2n + 1` for the `n = ceil(count / 255)` chunks, and otherwise
stores the `n` pairs at the cursor and nothing else. -/
theorem writeBinary_spec (code : Byte) (fuel : Nat) : ∀ (count : Int) (b : CigarBuf),
    1 ≤ count → count ≤ 255 * fuel →
    ((writeBinary code fuel count b).1 = true ↔ 2 * ((count + 254) / 255) + 1 ≤ b.buflen) ∧
    (2 * ((count + 254) / 255) + 1 ≤ b.buflen →
      (writeBinary code fuel count b).2.buf = b.buf + 2 * ((count + 254) / 255) ∧
      (writeBinary code fuel count b).2.buflen = b.buflen - 2 * ((count + 254) / 255) ∧
      (writeBinary code fuel count b).2.log =
        ((List.range (2 * ((count + 254) / 255)).toNat).map (fun i : Nat => b.buf + i)).reverse
          ++ b.log ∧
      (∀ i : Int, 0 ≤ i → i < (count + 254) / 255 - 1 →
        ((writeBinary code fuel count b).2.mem (b.buf + 2 * i)).val = 255 ∧
        (writeBinary code fuel count b).2.mem (b.buf + 2 * i + 1) = code) ∧
      (((writeBinary code fuel count b).2.mem (b.buf + 2 * ((count + 254) / 255 - 1))).val : Int)
        = count - 255 * ((count + 254) / 255 - 1) ∧
      (writeBinary code fuel count b).2.mem (b.buf + 2 * ((count + 254) / 255) - 1) = code ∧
      ∀ x : Int, (x < b.buf ∨ b.buf + 2 * ((count + 254) / 255) ≤ x) →
        (writeBinary code fuel count b).2.mem x = b.mem x) := by
  induction fuel with
  | zero => intro count b h1 h2; omega
  | succ fuel ih =>
    intro count b h1 h2
    simp only [writeBinary]
    by_cases hlen : b.buflen < 3
    · rw [if_pos hlen]
      constructor
      · constructor
        · intro h; simp at h
        · intro h; omega
      · intro h; omega
    · rw [if_neg hlen]
      by_cases hc : count ≤ 255
      · -- the last chunk
        rw [if_pos hc]
        have hn : (count + 254) / 255 = 1 := by omega
        rw [hn]
        simp only [CigarBuf.store]
        have hmin : min count 255 = count := min_eq_left hc
        refine ⟨⟨fun _ => by omega, fun _ => trivial⟩, fun _ => ⟨by ring, by ring, ?_, ?_, ?_, ?_, ?_⟩⟩
        · simp [List.range_succ]
        · intro i h0 hi; omega
        · have e1 : ¬ (b.buf = b.buf + 1) := by omega
          have e2 : b.buf + 2 * (1 - 1) = b.buf := by ring
          rw [e2, if_neg e1, if_pos rfl, hmin, fin_ofNat_val (by omega)]
          omega
        · have e1 : b.buf + 2 * 1 - 1 = b.buf + 1 := by ring
          simp only [e1, if_true]
          exact Fin.ext (fin_ofNat_val code.isLt)
        · intro x hx
          have e1 : ¬ (x = b.buf + 1) := by omega
          have e2 : ¬ (x = b.buf) := by omega
          simp only [if_neg e1, if_neg e2]
      · -- a full chunk, then the rest
        rw [if_neg hc]
        have hn : (count + 254) / 255 = (count - 255 + 254) / 255 + 1 := by omega
        have hn1 : 1 ≤ (count - 255 + 254) / 255 := by omega
        obtain ⟨i1, i2⟩ := ih (count - 255)
          { buf := b.buf + 1 + 1, buflen := b.buflen - 2,
            mem := ((b.store b.buf (min count 255).toNat).store (b.buf + 1) code.val).mem,
            log := ((b.store b.buf (min count 255).toNat).store (b.buf + 1) code.val).log }
          (by omega) (by push_cast at h2; omega)
        simp only [CigarBuf.store] at i1 i2 ⊢
        rw [hn]
        generalize (count - 255 + 254) / 255 = m at hn hn1 i1 i2 ⊢
        constructor
        · rw [i1]; constructor <;> intro h <;> omega
        · intro hfit
          obtain ⟨j1, j2, j3, j4, j5, j6, j7⟩ := i2 (by omega)
          have hmin : min count 255 = 255 := min_eq_right (by omega)
          have hfirst : ∀ x : Int, x = b.buf ∨ x = b.buf + 1 →
              (writeBinary code fuel (count - 255)
                { buf := b.buf + 1 + 1, buflen := b.buflen - 2,
                  mem := fun i => if i = b.buf + 1 then Fin.ofNat code.val
                    else if i = b.buf then Fin.ofNat (min count 255).toNat else b.mem i,
                  log := (b.buf + 1) :: b.buf :: b.log }).2.mem x =
                if x = b.buf + 1 then Fin.ofNat code.val
                else if x = b.buf then Fin.ofNat (min count 255).toNat else b.mem x :=
            fun x hx => j7 x (by omega)
          refine ⟨by rw [j1]; ring, by rw [j2]; ring, ?_, ?_, ?_, ?_, ?_⟩
          · rw [j3]
            have e1 : (2 * (m + 1)).toNat = 2 + (2 * m).toNat := by omega
            rw [e1, List.range_add, List.map_append, List.reverse_append]
            simp only [List.range_succ, List.range_zero, List.nil_append, List.map_cons,
              List.map_nil, List.map_map, List.append_assoc, List.reverse_cons, List.reverse_nil,
              List.singleton_append, List.cons_append, Nat.cast_zero, add_zero, Nat.cast_one,
              zero_add, Nat.cast_ofNat]
            congr 2
            apply List.map_congr_left
            intro i _
            simp only [Function.comp]
            push_cast
            ring
          · intro i h0 hi
            by_cases hi0 : i = 0
            · subst hi0
              have e1 : b.buf + 2 * 0 = b.buf := by ring
              have e2 : b.buf + 2 * 0 + 1 = b.buf + 1 := by ring
              rw [e1, hfirst b.buf (Or.inl rfl), hfirst (b.buf + 1) (Or.inr rfl)]
              have e3 : ¬ (b.buf = b.buf + 1) := by omega
              simp only [if_neg e3, if_true, hmin]
              exact ⟨fin_ofNat_val (by norm_num), Fin.ext (fin_ofNat_val code.isLt)⟩
            · have := j4 (i - 1) (by omega) (by omega)
              have e1 : b.buf + 1 + 1 + 2 * (i - 1) = b.buf + 2 * i := by ring
              have e2 : b.buf + 1 + 1 + 2 * (i - 1) + 1 = b.buf + 2 * i + 1 := by ring
              rw [e2, e1] at this
              exact this
          · have e1 : b.buf + 1 + 1 + 2 * (m - 1) = b.buf + 2 * (m + 1 - 1) := by ring
            rw [e1] at j5
            rw [j5]
            ring
          · have e1 : b.buf + 1 + 1 + 2 * m - 1 = b.buf + 2 * (m + 1) - 1 := by ring
            rw [e1] at j6
            exact j6
          · intro x hx
            rw [j7 x (by omega)]
            have e1 : ¬ (x = b.buf + 1) := by omega
            have e2 : ¬ (x = b.buf) := by omega
            simp only [if_neg e1, if_neg e2]


/-- Claim C11: `writeCigar` in `COMPACT_CIGAR_BINARY` format with `count ≥ 1` and
`n = ceil(count / 255)` returns true exactly when the remaining length is at least
`2n + 1`, and false otherwise.  On success the `2n` bytes at the cursor are the only ones
stored, each once: `n` (count byte, opcode byte) pairs, the first `n - 1` with count
byte 255 and the last with count byte `count - 255 (n - 1)`, which is in `1..255`; the
cursor advances by `2n` and the remaining length drops by `2n`. -/
theorem binary_chunking (CigarToCode : Byte → Nat) (b : CigarBuf) (count : Int) (code : Byte)
    (hc : 1 ≤ count) :
    (writeCigar CigarToCode b count code .COMPACT_CIGAR_BINARY).1 =
      some (decide (2 * ((count + 254) / 255) + 1 ≤ b.buflen)) ∧
    (2 * ((count + 254) / 255) + 1 ≤ b.buflen →
      (writeCigar CigarToCode b count code .COMPACT_CIGAR_BINARY).2.buf =
        b.buf + 2 * ((count + 254) / 255) ∧
      (writeCigar CigarToCode b count code .COMPACT_CIGAR_BINARY).2.buflen =
        b.buflen - 2 * ((count + 254) / 255) ∧
      (writeCigar CigarToCode b count code .COMPACT_CIGAR_BINARY).2.log =
        ((List.range (2 * ((count + 254) / 255)).toNat).map (fun i : Nat => b.buf + i)).reverse
          ++ b.log ∧
      (∀ i : Int, 0 ≤ i → i < (count + 254) / 255 - 1 →
        ((writeCigar CigarToCode b count code .COMPACT_CIGAR_BINARY).2.mem (b.buf + 2 * i)).val
          = 255 ∧
        (writeCigar CigarToCode b count code .COMPACT_CIGAR_BINARY).2.mem (b.buf + 2 * i + 1)
          = code) ∧
      (((writeCigar CigarToCode b count code .COMPACT_CIGAR_BINARY).2.mem
          (b.buf + 2 * ((count + 254) / 255 - 1))).val : Int)
        = count - 255 * ((count + 254) / 255 - 1) ∧
      1 ≤ count - 255 * ((count + 254) / 255 - 1) ∧
      count - 255 * ((count + 254) / 255 - 1) ≤ 255 ∧
      (writeCigar CigarToCode b count code .COMPACT_CIGAR_BINARY).2.mem
        (b.buf + 2 * ((count + 254) / 255) - 1) = code ∧
      ∀ x : Int, (x < b.buf ∨ b.buf + 2 * ((count + 254) / 255) ≤ x) →
        (writeCigar CigarToCode b count code .COMPACT_CIGAR_BINARY).2.mem x = b.mem x) := by
  obtain ⟨h1, h2⟩ := writeBinary_spec code (count.toNat + 1) count b hc (by push_cast; omega)
  have hw : writeCigar CigarToCode b count code .COMPACT_CIGAR_BINARY =
      (some (writeBinary code (count.toNat + 1) count b).1,
        (writeBinary code (count.toNat + 1) count b).2) := by
    simp only [writeCigar]
    rw [if_neg (by omega)]
  rw [hw]
  constructor
  · simp only
    congr 1
    by_cases hfit : 2 * ((count + 254) / 255) + 1 ≤ b.buflen
    · rw [h1.mpr hfit, decide_eq_true hfit]
    · rw [decide_eq_false hfit]
      cases hr : (writeBinary code (count.toNat + 1) count b).1
      · rfl
      · exact absurd (h1.mp hr) hfit
  · intro hfit
    obtain ⟨j1, j2, j3, j4, j5, j6, j7⟩ := h2 hfit
    exact ⟨j1, j2, j3, j4, j5, by omega, by omega, j6, j7⟩

theorem binary_chunking_witness :
    readBytes (writeCigar (fun _ => 0) (freshBuf 100 5) 256 (ch 'M') .COMPACT_CIGAR_BINARY).2.mem
      100 4 = [255, ch 'M', 1, ch 'M'] ∧
    readBytes (writeCigar (fun _ => 0) (freshBuf 100 3) 255 (ch 'M') .COMPACT_CIGAR_BINARY).2.mem
      100 2 = [255, ch 'M'] ∧
    (writeCigar (fun _ => 0) (freshBuf 100 4) 256 (ch 'M') .COMPACT_CIGAR_BINARY).1 = some false ∧
    ((writeCigar (fun _ => 0) (freshBuf 100 5) 256 (ch 'M') .COMPACT_CIGAR_BINARY).1 =
      some (decide (2 * (((256 : Int) + 254) / 255) + 1 ≤ (freshBuf 100 5).buflen)) ∧
    (2 * (((256 : Int) + 254) / 255) + 1 ≤ (freshBuf 100 5).buflen →
      (writeCigar (fun _ => 0) (freshBuf 100 5) 256 (ch 'M') .COMPACT_CIGAR_BINARY).2.buf =
        (freshBuf 100 5).buf + 2 * (((256 : Int) + 254) / 255) ∧
      (writeCigar (fun _ => 0) (freshBuf 100 5) 256 (ch 'M') .COMPACT_CIGAR_BINARY).2.buflen =
        (freshBuf 100 5).buflen - 2 * (((256 : Int) + 254) / 255) ∧
      (writeCigar (fun _ => 0) (freshBuf 100 5) 256 (ch 'M') .COMPACT_CIGAR_BINARY).2.log =
        ((List.range (2 * (((256 : Int) + 254) / 255)).toNat).map
          (fun i : Nat => (freshBuf 100 5).buf + i)).reverse ++ (freshBuf 100 5).log ∧
      (∀ i : Int, 0 ≤ i → i < ((256 : Int) + 254) / 255 - 1 →
        ((writeCigar (fun _ => 0) (freshBuf 100 5) 256 (ch 'M') .COMPACT_CIGAR_BINARY).2.mem
          ((freshBuf 100 5).buf + 2 * i)).val = 255 ∧
        (writeCigar (fun _ => 0) (freshBuf 100 5) 256 (ch 'M') .COMPACT_CIGAR_BINARY).2.mem
          ((freshBuf 100 5).buf + 2 * i + 1) = ch 'M') ∧
      (((writeCigar (fun _ => 0) (freshBuf 100 5) 256 (ch 'M') .COMPACT_CIGAR_BINARY).2.mem
          ((freshBuf 100 5).buf + 2 * (((256 : Int) + 254) / 255 - 1))).val : Int)
        = 256 - 255 * (((256 : Int) + 254) / 255 - 1) ∧
      1 ≤ 256 - 255 * (((256 : Int) + 254) / 255 - 1) ∧
      256 - 255 * (((256 : Int) + 254) / 255 - 1) ≤ 255 ∧
      (writeCigar (fun _ => 0) (freshBuf 100 5) 256 (ch 'M') .COMPACT_CIGAR_BINARY).2.mem
        ((freshBuf 100 5).buf + 2 * (((256 : Int) + 254) / 255) - 1) = ch 'M' ∧
      ∀ x : Int, (x < (freshBuf 100 5).buf ∨
          (freshBuf 100 5).buf + 2 * (((256 : Int) + 254) / 255) ≤ x) →
        (writeCigar (fun _ => 0) (freshBuf 100 5) 256 (ch 'M') .COMPACT_CIGAR_BINARY).2.mem x
          = (freshBuf 100 5).mem x)) :=
  ⟨by decide, by decide, by decide,
    binary_chunking (fun _ => 0) (freshBuf 100 5) 256 (ch 'M') (by decide)⟩


/-- The loop storing `n` copies of `code` at the cursor. -/
theorem storeRun_spec (code : Byte) (n : Nat) : ∀ (b : CigarBuf),
    (storeRun code n b).buf = b.buf + n ∧
    (storeRun code n b).buflen = b.buflen ∧
    (storeRun code n b).log =
      ((List.range n).map (fun i : Nat => b.buf + i)).reverse ++ b.log ∧
    ∀ x : Int, (storeRun code n b).mem x =
      if b.buf ≤ x ∧ x < b.buf + n then code else b.mem x := by
  induction n with
  | zero =>
    intro b
    refine ⟨by simp [storeRun], rfl, by simp [storeRun], fun x => ?_⟩
    rw [if_neg (by push_cast; omega)]
    rfl
  | succ n ih =>
    intro b
    obtain ⟨i1, i2, i3, i4⟩ := ih { b.store b.buf code.val with buf := b.buf + 1 }
    simp only [storeRun]
    simp only [CigarBuf.store] at i1 i2 i3 i4 ⊢
    refine ⟨by rw [i1]; push_cast; ring, i2, ?_, fun x => ?_⟩
    · rw [i3]
      have e1 : n + 1 = 1 + n := by omega
      rw [e1, List.range_add, List.map_append, List.reverse_append]
      simp only [List.range_succ, List.range_zero, List.nil_append, List.map_cons,
        List.map_nil, List.map_map, List.append_assoc, List.reverse_cons, List.reverse_nil,
        List.singleton_append, Nat.cast_zero, add_zero]
      congr 2
      apply List.map_congr_left
      intro i _
      simp only [Function.comp]
      push_cast
      ring
    · rw [i4]
      by_cases hx : x = b.buf
      · subst hx
        rw [if_neg (by omega), if_pos rfl, if_pos (by push_cast; omega)]
        exact Fin.ext (fin_ofNat_val code.isLt)
      · rw [if_neg hx]
        by_cases h1 : b.buf + 1 ≤ x ∧ x < b.buf + 1 + n
        · rw [if_pos h1, if_pos (by push_cast; omega)]
        · rw [if_neg h1, if_neg (by push_cast; omega)]

/-- Claim C12: `writeCigar` in `EXPANDED_CIGAR_STRING` format with `count ≥ 1` and
remaining length `b ≥ 1`.  If `count < b` it stores the opcode `count` times at the
cursor, advances the cursor by `count`, leaves remaining length `b - count` and returns
true.  If `count ≥ b` it returns false with remaining length 0, the opcode in the first
`b - 1` remaining positions and a NUL in the last position of the buffer.  Bytes outside
the positions written are unchanged. -/
theorem expanded_truncation (CigarToCode : Byte → Nat) (b : CigarBuf) (count : Int)
    (code : Byte) (hc : 1 ≤ count) (hb : 1 ≤ b.buflen) :
    (count < b.buflen →
      (writeCigar CigarToCode b count code .EXPANDED_CIGAR_STRING).1 = some true ∧
      (writeCigar CigarToCode b count code .EXPANDED_CIGAR_STRING).2.buflen
        = b.buflen - count ∧
      (writeCigar CigarToCode b count code .EXPANDED_CIGAR_STRING).2.buf = b.buf + count ∧
      ∀ x : Int, (writeCigar CigarToCode b count code .EXPANDED_CIGAR_STRING).2.mem x =
        if b.buf ≤ x ∧ x < b.buf + count then code else b.mem x) ∧
    (b.buflen ≤ count →
      (writeCigar CigarToCode b count code .EXPANDED_CIGAR_STRING).1 = some false ∧
      (writeCigar CigarToCode b count code .EXPANDED_CIGAR_STRING).2.buflen = 0 ∧
      ∀ x : Int, (writeCigar CigarToCode b count code .EXPANDED_CIGAR_STRING).2.mem x =
        if b.buf ≤ x ∧ x < b.buf + b.buflen - 1 then code
        else if x = b.buf + b.buflen - 1 then 0 else b.mem x) := by
  have hw : writeCigar CigarToCode b count code .EXPANDED_CIGAR_STRING =
      (some (decide ((if b.buflen - min b.buflen count = 0 then
          ({ storeRun code (min b.buflen count).toNat b with
              buflen := (storeRun code (min b.buflen count).toNat b).buflen
                - min b.buflen count } : CigarBuf).store
            ((storeRun code (min b.buflen count).toNat b).buf - 1) 0
        else { storeRun code (min b.buflen count).toNat b with
              buflen := (storeRun code (min b.buflen count).toNat b).buflen
                - min b.buflen count }).buflen > 0)),
       if b.buflen - min b.buflen count = 0 then
          ({ storeRun code (min b.buflen count).toNat b with
              buflen := (storeRun code (min b.buflen count).toNat b).buflen
                - min b.buflen count } : CigarBuf).store
            ((storeRun code (min b.buflen count).toNat b).buf - 1) 0
        else { storeRun code (min b.buflen count).toNat b with
              buflen := (storeRun code (min b.buflen count).toNat b).buflen
                - min b.buflen count }) := by
    simp only [writeCigar]
    rw [if_neg (by omega)]
    simp only [(storeRun_spec code _ b).2.1]
  rw [hw]
  obtain ⟨s1, s2, -, s4⟩ := storeRun_spec code (min b.buflen count).toNat b
  constructor
  · intro hlt
    have hmin : min b.buflen count = count := min_eq_right (by omega)
    rw [hmin] at s1 s2 s4 ⊢
    have hne : ¬ (b.buflen - count = 0) := by omega
    simp only [if_neg hne]
    refine ⟨?_, by rw [s2], by rw [s1]; congr 1; omega, fun x => ?_⟩
    · rw [s2]; congr 1; exact decide_eq_true (by omega)
    · rw [s4]
      have : ((count.toNat : Nat) : Int) = count := by omega
      rw [this]
  · intro hge
    have hmin : min b.buflen count = b.buflen := min_eq_left hge
    rw [hmin] at s1 s2 s4 ⊢
    simp only [sub_self, if_true, CigarBuf.store]
    have hn : ((b.buflen.toNat : Nat) : Int) = b.buflen := by omega
    rw [hn] at s1 s4
    refine ⟨?_, by rw [s2]; ring, fun x => ?_⟩
    · rw [s2]; congr 1; exact decide_eq_false (by omega)
    · rw [s1, s4]
      by_cases hx : x = b.buf + b.buflen - 1
      · rw [if_pos hx, if_neg (by omega), if_pos hx]
        rfl
      · rw [if_neg hx, if_neg hx]
        by_cases h1 : b.buf ≤ x ∧ x < b.buf + b.buflen
        · rw [if_pos h1, if_pos (by omega)]
        · rw [if_neg h1, if_neg (by omega)]

theorem expanded_truncation_witness :
    readBytes (writeCigar (fun _ => 0) (freshBuf 100 4) 6 (ch 'X')
      .EXPANDED_CIGAR_STRING).2.mem 100 4 = [ch 'X', ch 'X', ch 'X', 0] ∧
    ((6 < (freshBuf 100 4).buflen →
      (writeCigar (fun _ => 0) (freshBuf 100 4) 6 (ch 'X') .EXPANDED_CIGAR_STRING).1
        = some true ∧
      (writeCigar (fun _ => 0) (freshBuf 100 4) 6 (ch 'X') .EXPANDED_CIGAR_STRING).2.buflen
        = (freshBuf 100 4).buflen - 6 ∧
      (writeCigar (fun _ => 0) (freshBuf 100 4) 6 (ch 'X') .EXPANDED_CIGAR_STRING).2.buf
        = (freshBuf 100 4).buf + 6 ∧
      ∀ x : Int, (writeCigar (fun _ => 0) (freshBuf 100 4) 6 (ch 'X')
          .EXPANDED_CIGAR_STRING).2.mem x =
        if (freshBuf 100 4).buf ≤ x ∧ x < (freshBuf 100 4).buf + 6 then ch 'X'
        else (freshBuf 100 4).mem x) ∧
    ((freshBuf 100 4).buflen ≤ 6 →
      (writeCigar (fun _ => 0) (freshBuf 100 4) 6 (ch 'X') .EXPANDED_CIGAR_STRING).1
        = some false ∧
      (writeCigar (fun _ => 0) (freshBuf 100 4) 6 (ch 'X') .EXPANDED_CIGAR_STRING).2.buflen
        = 0 ∧
      ∀ x : Int, (writeCigar (fun _ => 0) (freshBuf 100 4) 6 (ch 'X')
          .EXPANDED_CIGAR_STRING).2.mem x =
        if (freshBuf 100 4).buf ≤ x ∧ x < (freshBuf 100 4).buf + (freshBuf 100 4).buflen - 1
        then ch 'X'
        else if x = (freshBuf 100 4).buf + (freshBuf 100 4).buflen - 1 then 0
        else (freshBuf 100 4).mem x)) :=
  ⟨by decide, expanded_truncation (fun _ => 0) (freshBuf 100 4) 6 (ch 'X') (by decide)
    (by decide)⟩


/-- Claim C13 as stated fails: with count 12, opcode `M` and remaining length 3 on a
zero-filled buffer at address 100, the encoding `12M` does not fit with its terminator;
`writeCigar` in `COMPACT_CIGAR_STRING` format returns false, but `snprintf` has stored
the digits `1`, `2` and a NUL at addresses 100, 101, 102, and no NUL is stored at the
cursor position. -/
theorem compact_overflow_stores_digits :
    (writeCigar (fun _ => 0) (freshBuf 100 3) 12 (ch 'M') .COMPACT_CIGAR_STRING).1 = some false ∧
    readBytes (writeCigar (fun _ => 0) (freshBuf 100 3) 12 (ch 'M')
      .COMPACT_CIGAR_STRING).2.mem 100 3 = [ch '1', ch '2', 0] ∧
    (writeCigar (fun _ => 0) (freshBuf 100 3) 12 (ch 'M') .COMPACT_CIGAR_STRING).2.log
      = [102, 101, 100] ∧
    (writeCigar (fun _ => 0) (freshBuf 100 3) 12 (ch 'M') .COMPACT_CIGAR_STRING).2.buf = 0 := by
  decide

/-- Claim C13, amended: `writeCigar` in `COMPACT_CIGAR_STRING` format with `count ≥ 1` and
remaining length `b ≥ 1`, when the encoding does not fit with its terminator (number of
decimal digits of `count` plus 1 at least `b`), returns false and leaves the remaining
length as it was; the `b` remaining bytes then hold the first `b - 1` characters of the
encoding (the digits, then the opcode) followed by a NUL, and no byte outside them is
changed. -/
theorem compact_overflow (CigarToCode : Byte → Nat) (b : CigarBuf) (count : Int) (code : Byte)
    (hc : 1 ≤ count) (hb : 1 ≤ b.buflen)
    (hov : b.buflen ≤ ((decimal count.toNat).length : Int) + 1) :
    (writeCigar CigarToCode b count code .COMPACT_CIGAR_STRING).1 = some false ∧
    (writeCigar CigarToCode b count code .COMPACT_CIGAR_STRING).2.buflen = b.buflen ∧
    readBytes (writeCigar CigarToCode b count code .COMPACT_CIGAR_STRING).2.mem b.buf
      b.buflen.toNat =
      ((decimal count.toNat ++ [code.val]).take (b.buflen.toNat - 1) ++ [0]).map
        (fun v => (Fin.ofNat v : Byte)) ∧
    ∀ x : Int, (x < b.buf ∨ b.buf + b.buflen ≤ x) →
      (writeCigar CigarToCode b count code .COMPACT_CIGAR_STRING).2.mem x = b.mem x := by
  rw [writeCigar_compact_eq CigarToCode b count code hc, if_neg (by omega),
    if_pos (by push_cast; omega)]
  have hsz : sizeT b.buflen = b.buflen.toNat := by
    unfold sizeT; rw [if_neg (by omega)]
  have hsn : (snprintf b (sizeT b.buflen) count.toNat code).2 =
      storeBytes ((decimal count.toNat ++ [code.val]).take (b.buflen.toNat - 1) ++ [0])
        b.buf b := by
    simp only [snprintf, hsz]
    rw [if_neg (by omega)]
  have hlen : ((decimal count.toNat ++ [code.val]).take (b.buflen.toNat - 1) ++ [0]).length
      = b.buflen.toNat := by
    rw [List.length_append, List.length_take, List.length_append, List.length_singleton,
      List.length_singleton]
    omega
  simp only
  rw [hsn]
  refine ⟨trivial, storeBytes_buflen _ _ _, ?_, fun x hx => ?_⟩
  · have := readBytes_storeBytes
      ((decimal count.toNat ++ [code.val]).take (b.buflen.toNat - 1) ++ [0]) b.buf b
    rw [hlen] at this
    exact this
  · exact storeBytes_mem_out _ _ _ x (by rw [hlen]; omega)

theorem compact_overflow_witness :
    (writeCigar (fun _ => 0) (freshBuf 100 3) 12 (ch 'M') .COMPACT_CIGAR_STRING).1 = some false ∧
    (writeCigar (fun _ => 0) (freshBuf 100 3) 12 (ch 'M') .COMPACT_CIGAR_STRING).2.buflen
      = (freshBuf 100 3).buflen ∧
    readBytes (writeCigar (fun _ => 0) (freshBuf 100 3) 12 (ch 'M')
      .COMPACT_CIGAR_STRING).2.mem (freshBuf 100 3).buf (freshBuf 100 3).buflen.toNat =
      ((decimal (12 : Int).toNat ++ [(ch 'M').val]).take ((freshBuf 100 3).buflen.toNat - 1)
        ++ [0]).map (fun v => (Fin.ofNat v : Byte)) ∧
    ∀ x : Int, (x < (freshBuf 100 3).buf ∨ (freshBuf 100 3).buf + (freshBuf 100 3).buflen ≤ x) →
      (writeCigar (fun _ => 0) (freshBuf 100 3) 12 (ch 'M') .COMPACT_CIGAR_STRING).2.mem x
        = (freshBuf 100 3).mem x :=
  compact_overflow (fun _ => 0) (freshBuf 100 3) 12 (ch 'M') (by decide) (by decide) (by decide)

/-- Claim C15: for every format selector value, every opcode and every buffer state,
`writeCigar` with `count = 0` returns true and leaves the buffer, the cursor, the
remaining length and the record of stores as they were. -/
theorem zero_count_noop (CigarToCode : Byte → Nat) (b : CigarBuf) (code : Byte)
    (format : CigarFormat) :
    writeCigar CigarToCode b 0 code format = (some true, b) := by
  unfold writeCigar
  rw [if_pos (le_refl 0)]


theorem storeBytes_mem_last (vs : List Nat) : ∀ (a : Int) (b : CigarBuf) (v : Nat),
    (storeBytes (vs ++ [v]) a b).mem (a + vs.length) = Fin.ofNat v := by
  induction vs with
  | nil =>
    intro a b v
    simp [storeBytes, CigarBuf.store]
  | cons w vs ih =>
    intro a b v
    have := ih (a + 1) (b.store a w) v
    simp only [List.cons_append, storeBytes, List.length_cons, Nat.cast_add, Nat.cast_one]
    rw [show a + ((vs.length : Int) + 1) = a + 1 + vs.length by ring]
    exact this

/-- One call of `writeCigar` in a text format on a buffer with room left: when it returns
true the end of the buffer (cursor plus remaining length) and the record of room left are
kept; when it returns false the last byte of the buffer is a NUL. -/
theorem text_write_step (CigarToCode : Byte → Nat) (b : CigarBuf) (count : Int) (code : Byte)
    (format : CigarFormat)
    (hf : format = .EXPANDED_CIGAR_STRING ∨ format = .COMPACT_CIGAR_STRING)
    (hb : 1 ≤ b.buflen) :
    ((writeCigar CigarToCode b count code format).1 = some true ∧
      (writeCigar CigarToCode b count code format).2.buf
        + (writeCigar CigarToCode b count code format).2.buflen = b.buf + b.buflen ∧
      1 ≤ (writeCigar CigarToCode b count code format).2.buflen) ∨
    ((writeCigar CigarToCode b count code format).1 = some false ∧
      (writeCigar CigarToCode b count code format).2.mem (b.buf + b.buflen - 1) = 0) := by
  by_cases hc : count ≤ 0
  · left
    have hw : writeCigar CigarToCode b count code format = (some true, b) := by
      simp only [writeCigar, if_pos hc]
    rw [hw]
    exact ⟨rfl, rfl, hb⟩
  · rcases hf with hf | hf
    · subst hf
      obtain ⟨s1, s2, -, s4⟩ := storeRun_spec code (min b.buflen count).toNat b
      simp only [writeCigar, if_neg hc, s2]
      by_cases hlt : count < b.buflen
      · left
        have hmin : min b.buflen count = count := min_eq_right (by omega)
        rw [hmin] at s1 s2 ⊢
        have hne : ¬ (b.buflen - count = 0) := by omega
        simp only [if_neg hne]
        refine ⟨?_, ?_, by omega⟩
        · congr 1; exact decide_eq_true (by omega)
        · rw [s1]; omega
      · right
        have hmin : min b.buflen count = b.buflen := min_eq_left (by omega)
        rw [hmin] at s1 s2 s4 ⊢
        simp only [sub_self, if_true, CigarBuf.store]
        refine ⟨?_, ?_⟩
        · rfl
        · have hn : ((b.buflen.toNat : Nat) : Int) = b.buflen := by omega
          rw [s1, hn, if_pos rfl]
          rfl
    · subst hf
      rw [writeCigar_compact_eq CigarToCode b count code (by omega)]
      rw [if_neg (by omega)]
      have hsz : sizeT b.buflen = b.buflen.toNat := by
        unfold sizeT; rw [if_neg (by omega)]
      have hsn : (snprintf b (sizeT b.buflen) count.toNat code).2 =
          storeBytes ((decimal count.toNat ++ [code.val]).take (b.buflen.toNat - 1) ++ [0])
            b.buf b := by
        simp only [snprintf, hsz]
        rw [if_neg (by omega)]
      by_cases hov : (((decimal count.toNat).length + 1 : Nat) : Int) > b.buflen - 1
      · right
        rw [if_pos hov]
        refine ⟨rfl, ?_⟩
        simp only
        rw [hsn]
        have hlen : ((decimal count.toNat ++ [code.val]).take (b.buflen.toNat - 1)).length
            = b.buflen.toNat - 1 := by
          rw [List.length_take, List.length_append, List.length_singleton]
          push_cast at hov
          omega
        have := storeBytes_mem_last
          ((decimal count.toNat ++ [code.val]).take (b.buflen.toNat - 1)) b.buf b 0
        rw [hlen] at this
        rw [show b.buf + b.buflen - 1 = b.buf + ((b.buflen.toNat - 1 : Nat) : Int) by omega]
        exact this
      · left
        rw [if_neg hov]
        refine ⟨rfl, ?_, ?_⟩
        · simp only
          rw [hsn, storeBytes_buf, storeBytes_buflen]
          ring
        · simp only
          rw [hsn, storeBytes_buflen]
          push_cast at hov ⊢
          omega


theorem write_textInv (CigarToCode : Byte → Nat) (format : CigarFormat)
    (hf : format = .EXPANDED_CIGAR_STRING ∨ format = .COMPACT_CIGAR_STRING) (E : Int)
    (em : Emit) (count : Int) (code : Byte) (h : TextInv E em) :
    TextInv E (em.write CigarToCode format count code) := by
  obtain ⟨b, s, sc⟩ := em
  obtain ⟨h1, h2, h3⟩ := h
  rcases s with _ | (_ | _)
  · exact absurd rfl h3
  · exact ⟨h1, h2, h3⟩
  · obtain ⟨g1, g2⟩ := h1 rfl
    simp only at g1 g2
    simp only [Emit.write]
    rcases text_write_step CigarToCode b count code format hf g2 with ⟨t1, t2, t3⟩ | ⟨t1, t2⟩
    · refine ⟨fun _ => ⟨by rw [← g1]; exact t2, t3⟩, fun hs => ?_, ?_⟩
      · simp only [t1] at hs; cases hs
      · simp only [t1]; exact Option.some_ne_none _
    · refine ⟨fun hs => ?_, fun _ => ?_, ?_⟩
      · simp only [t1] at hs; cases hs
      · rw [← g1]
        have : b.buf + b.buflen - 1 = b.buf + b.buflen - 1 := rfl
        exact t2
      · simp only [t1]; exact Option.some_ne_none _

theorem writeAll_textInv (CigarToCode : Byte → Nat) (format : CigarFormat)
    (hf : format = .EXPANDED_CIGAR_STRING ∨ format = .COMPACT_CIGAR_STRING) (E : Int)
    (calls : List (Int × Byte)) : ∀ em : Emit, TextInv E em →
    TextInv E (writeAll CigarToCode format calls em) := by
  induction calls with
  | nil => intro em h; exact h
  | cons op calls ih =>
    intro em h
    rw [writeAll_cons]
    exact ih _ (write_textInv CigarToCode format hf E em op.1 op.2 h)

/-- When a path that writes a script ends with `-2`, a call of `writeCigar` returned
false and the buffer is as that call left it. -/
theorem finish_fail (st : LVState) (s : Int) (w t : Bool) (e : Int) (em : Emit)
    (he : e ≠ -2) (h : (finish st s w t e em).result = some (-2)) :
    em.status = some false ∧ (finish st s w t e em).buf = em.buf := by
  obtain ⟨b, s1, sc⟩ := em
  rcases s1 with _ | (_ | _)
  · simp [finish] at h
  · exact ⟨rfl, rfl⟩
  · simp only [finish, Option.some.injEq] at h
    exact absurd h he

/-- Claim C14: for the two text formats and an output buffer of length at least 1,
whenever `computeEditDistance` returns -2 the last byte of the buffer is a NUL, so the
buffer holds a NUL at an index below `cigarBufLen`. -/
theorem exhausted_terminated (MAX_K : Int) (CigarToCode : Byte → Nat) (st : LVState)
    (text : Option Mem) (textLen : Int) (pattern : Mem) (patternLen k : Int)
    (cigarBuf : CigarBuf) (useM : Bool) (format : CigarFormat) (wantUsed : Bool)
    (hf : format = .EXPANDED_CIGAR_STRING ∨ format = .COMPACT_CIGAR_STRING)
    (hlen : 1 ≤ cigarBuf.buflen)
    (hret : (computeEditDistance MAX_K CigarToCode st text textLen pattern patternLen k
      cigarBuf useM format wantUsed).result = some (-2)) :
    (computeEditDistance MAX_K CigarToCode st text textLen pattern patternLen k
      cigarBuf useM format wantUsed).buf.mem (cigarBuf.buf + (cigarBuf.buflen - 1)) = 0 ∧
    ∃ i : Int, 0 ≤ i ∧ i < cigarBuf.buflen ∧
      (computeEditDistance MAX_K CigarToCode st text textLen pattern patternLen k
        cigarBuf useM format wantUsed).buf.mem (cigarBuf.buf + i) = 0 := by
  have hinv0 : TextInv (cigarBuf.buf + cigarBuf.buflen)
      { buf := cigarBuf, status := some true, script := [] } :=
    ⟨fun _ => ⟨rfl, hlen⟩, fun h => absurd h (by simp), Option.some_ne_none _⟩
  have key : (computeEditDistance MAX_K CigarToCode st text textLen pattern patternLen k
      cigarBuf useM format wantUsed).buf.mem (cigarBuf.buf + (cigarBuf.buflen - 1)) = 0 := by
    cases text with
    | none => simp [computeEditDistance] at hret
    | some text =>
      rw [computeEditDistance_eq] at hret ⊢
      split_ifs at hret ⊢
      · obtain ⟨f1, f2⟩ := finish_fail _ _ _ _ _ _ (by norm_num) hret
        rw [f2]
        have := (writeAll_textInv CigarToCode format hf _ _ _ hinv0).2.1 f1
        rw [show cigarBuf.buf + (cigarBuf.buflen - 1) = cigarBuf.buf + cigarBuf.buflen - 1 by ring]
        exact this
      · rcases hes : eSearch (callArgs MAX_K CigarToCode text textLen pattern patternLen k
            cigarBuf useM format wantUsed) k.toNat 1
            { st with L := set2 st.L 0 MAX_K (lv (callArgs MAX_K CigarToCode text textLen
              pattern patternLen k cigarBuf useM format wantUsed) 0 0) }
          with st1 | ⟨e1, d1, st1⟩
        · rw [hes] at hret
          simp [exceeded] at hret
        · rw [hes] at hret
          simp only at hret ⊢
          have hr := eSearch_range _ _ _ _ _ _ _ hes
          rw [acceptRet_eq] at hret ⊢
          have hfm : (callArgs MAX_K CigarToCode text textLen pattern patternLen k
            cigarBuf useM format wantUsed).format = format := rfl
          have hC : (callArgs MAX_K CigarToCode text textLen pattern patternLen k
            cigarBuf useM format wantUsed).CigarToCode = CigarToCode := rfl
          rw [hfm, hC] at hret ⊢
          split_ifs at hret ⊢
          · obtain ⟨f1, f2⟩ := finish_fail _ _ _ _ _ _ (by omega) hret
            rw [f2]
            have := (writeAll_textInv CigarToCode format hf _ _ _ hinv0).2.1 f1
            rw [show cigarBuf.buf + (cigarBuf.buflen - 1) = cigarBuf.buf + cigarBuf.buflen - 1
              by ring]
            exact this
          · obtain ⟨f1, f2⟩ := finish_fail _ _ _ _ _ _ (by omega) hret
            rw [f2]
            have := (writeAll_textInv CigarToCode format hf _ _ _ hinv0).2.1 f1
            rw [show cigarBuf.buf + (cigarBuf.buflen - 1) = cigarBuf.buf + cigarBuf.buflen - 1
              by ring]
            exact this
  exact ⟨key, cigarBuf.buflen - 1, by omega, by omega, key⟩

theorem exhausted_terminated_witness :
    (computeEditDistance 31 (fun _ => 0) fresh
      (some (bytesOf ['A', 'C', 'G', 'T', 'A', 'C', 'G', 'T'] 0)) 8
      (bytesOf ['A', 'C', 'G', 'T', 'A', 'C', 'G', 'T'] 1) 8 2
      { buf := 100, buflen := 1, mem := fun _ => 7, log := [] } false
      .COMPACT_CIGAR_STRING true).result = some (-2) ∧
    ((computeEditDistance 31 (fun _ => 0) fresh
      (some (bytesOf ['A', 'C', 'G', 'T', 'A', 'C', 'G', 'T'] 0)) 8
      (bytesOf ['A', 'C', 'G', 'T', 'A', 'C', 'G', 'T'] 1) 8 2
      { buf := 100, buflen := 1, mem := fun _ => 7, log := [] } false
      .COMPACT_CIGAR_STRING true).buf.mem (100 + (1 - 1)) = 0 ∧
    ∃ i : Int, 0 ≤ i ∧ i < 1 ∧
      (computeEditDistance 31 (fun _ => 0) fresh
        (some (bytesOf ['A', 'C', 'G', 'T', 'A', 'C', 'G', 'T'] 0)) 8
        (bytesOf ['A', 'C', 'G', 'T', 'A', 'C', 'G', 'T'] 1) 8 2
        { buf := 100, buflen := 1, mem := fun _ => 7, log := [] } false
        .COMPACT_CIGAR_STRING true).buf.mem (100 + i) = 0) :=
  ⟨by decide, exhausted_terminated 31 (fun _ => 0) fresh
    (some (bytesOf ['A', 'C', 'G', 'T', 'A', 'C', 'G', 'T'] 0)) 8
    (bytesOf ['A', 'C', 'G', 'T', 'A', 'C', 'G', 'T'] 1) 8 2
    { buf := 100, buflen := 1, mem := fun _ => 7, log := [] } false
    .COMPACT_CIGAR_STRING true (Or.inr rfl) (by decide) (by decide)⟩


theorem rlePush_zero (c : Byte) (s : List (Int × Byte)) : rlePush 0 c s = s := by
  unfold rlePush
  rw [if_pos (le_refl 0)]

theorem rlePush_head (n : Int) (c : Byte) (s : List (Int × Byte)) (hn : 0 < n) :
    ∃ x r, rlePush n c s = (x, c) :: r := by
  unfold rlePush
  rw [if_neg (by omega)]
  cases s with
  | nil => exact ⟨n, [], rfl⟩
  | cons y r =>
    obtain ⟨k, c2⟩ := y
    simp only
    by_cases h : c = c2
    · rw [if_pos h]; exact ⟨n + k, r, rfl⟩
    · rw [if_neg h]; exact ⟨n, (k, c2) :: r, rfl⟩

theorem rlePush_add (a b : Int) (c : Byte) (s : List (Int × Byte)) (ha : 0 ≤ a) (hb : 0 ≤ b) :
    rlePush a c (rlePush b c s) = rlePush (a + b) c s := by
  by_cases hb0 : b = 0
  · subst hb0; rw [rlePush_zero, add_zero]
  by_cases ha0 : a = 0
  · subst ha0; rw [rlePush_zero, zero_add]
  have h1 : ¬ a ≤ 0 := by omega
  have h2 : ¬ b ≤ 0 := by omega
  have h3 : ¬ a + b ≤ 0 := by omega
  cases s with
  | nil =>
    simp only [rlePush, if_neg h1, if_neg h2, if_neg h3, if_true]
  | cons y r =>
    obtain ⟨k, c2⟩ := y
    by_cases h : c = c2
    · simp only [rlePush, if_neg h1, if_neg h2, if_neg h3, if_pos h, if_true, add_assoc]
    · simp only [rlePush, if_neg h1, if_neg h2, if_neg h3, if_neg h, if_true]

theorem rlePush_ne (a b : Int) (c c2 : Byte) (s : List (Int × Byte)) (hc : c ≠ c2)
    (ha : 0 ≤ a) (hb : 0 < b) :
    rlePush a c (rlePush b c2 s) = written [(a, c)] ++ rlePush b c2 s := by
  obtain ⟨x, r, hx⟩ := rlePush_head b c2 s hb
  rw [hx, written_cons]
  simp only
  by_cases ha0 : a = 0
  · subst ha0
    rw [rlePush_zero, if_neg (lt_irrefl 0)]
    rfl
  · rw [if_pos (by omega)]
    simp only [rlePush, if_neg (show ¬ a ≤ 0 by omega), if_neg hc]
    rfl

theorem rle_replicate_append (n : Nat) (c : Byte) (l : List Byte) :
    rle (List.replicate n c ++ l) = rlePush n c (rle l) := by
  induction n with
  | zero => simp [rlePush_zero]
  | succ n ih =>
    rw [List.replicate_succ, List.cons_append, rle, ih,
      rlePush_add 1 n c _ (by norm_num) (by omega)]
    push_cast
    rw [add_comm]

theorem rle_cons (c : Byte) (l : List Byte) : rle (c :: l) = rlePush 1 c (rle l) := rfl

/-- The calls of the streak loop are the run-length encoding of the positions visited,
the streak open at the start and the streak open when the loop ends counting as runs that
join their neighbours. -/
theorem streakCalls_rle (pattern text : Mem) (E : Int) (n : Nat) :
    ∀ (i ss : Int) (m : Bool) (rest : List Byte), ss ≤ i → i + n ≤ E →
      written (streakCalls pattern text n i ss m).2.2
          ++ rlePush (i + n - (streakCalls pattern text n i ss m).1)
              (if (streakCalls pattern text n i ss m).2.1 then ch '=' else ch 'X') (rle rest)
        = rlePush (i - ss) (if m then ch '=' else ch 'X')
            (rle (flatOps pattern text E i n ++ rest)) ∧
      (streakCalls pattern text n i ss m).1 ≤ i + n := by
  obtain ⟨-, -, -, -, -, n6, -⟩ := ch_ne
  induction n with
  | zero =>
    intro i ss m rest h1 h2
    simp only [streakCalls, written, List.filter_nil, List.nil_append, Nat.cast_zero, add_zero,
      flatOps]
    exact ⟨trivial, h1⟩
  | succ n ih =>
    intro i ss m rest h1 h2
    have hiE : i < E := by push_cast at h2; omega
    have hop : flatOp pattern text E i = if decide (pattern i = text i) then ch '=' else ch 'X' := by
      simp only [flatOp, hiE, true_and, decide_eq_true_eq]
    have hcast : i + ((n + 1 : Nat) : Int) = i + 1 + (n : Int) := by push_cast; ring
    by_cases hm : decide (pattern i = text i) ≠ m
    · rw [streakCalls_change pattern text n i ss m hm]
      simp only
      obtain ⟨q1, q2⟩ := ih (i + 1) i (decide (pattern i = text i)) rest (by omega)
        (by push_cast at h2 ⊢; omega)
      rw [hcast]
      refine ⟨?_, q2⟩
      rw [written_cons]
      simp only [flatOps, List.cons_append, rle_cons, hop]
      have hne : (if m then ch '=' else ch 'X') ≠
          (if decide (pattern i = text i) then ch '=' else ch 'X') := by
        generalize decide (pattern i = text i) = dd at hm
        cases m <;> cases dd
        · exact absurd rfl hm
        · simp only [Bool.false_eq_true, if_false, if_true]; exact fun h => n6 h.symm
        · simp only [Bool.false_eq_true, if_false, if_true]; exact n6
        · exact absurd rfl hm
      rw [rlePush_ne _ _ _ _ _ hne (by omega) (by norm_num), written_cons]
      simp only
      have e1 : i + 1 - i = 1 := by ring
      rw [e1] at q1
      rw [← q1]
      by_cases h0 : i - ss > 0
      · rw [if_pos h0, if_pos h0]
        simp [written]
      · rw [if_neg h0, if_neg h0]
        simp [written]
    · rw [streakCalls_same pattern text n i ss m hm]
      have hm' : decide (pattern i = text i) = m := by
        by_contra h; exact hm h
      obtain ⟨q1, q2⟩ := ih (i + 1) ss m rest (by omega) (by push_cast at h2 ⊢; omega)
      rw [hcast]
      refine ⟨?_, q2⟩
      rw [q1]
      simp only [flatOps, List.cons_append, rle_cons, hop, hm']
      rw [rlePush_add _ _ _ _ (by omega) (by norm_num)]
      congr 1
      ring


theorem rle_mismatches (n : Nat) : rle (List.replicate n (ch 'X')) = rlePush n (ch 'X') [] := by
  have := rle_replicate_append n (ch 'X') []
  simpa using this

/-- The script of lines 203-244 for `useM = false` is the run-length encoding of the
opcodes of the positions below `end` followed by an `X` for every position from `end` to
`patternLen`. -/
theorem flatCalls_rle (pattern text : Mem) (P E : Int) (hE : 0 ≤ E) (hPE : E ≤ P) :
    written (flatCalls false pattern text P E) =
      rle (flatOps pattern text E 0 E.toNat ++ List.replicate (P - E).toNat (ch 'X')) := by
  obtain ⟨-, -, -, -, -, n6, -⟩ := ch_ne
  obtain ⟨q1, q2⟩ := streakCalls_rle pattern text E E.toNat 0 0 (decide (pattern 0 = text 0))
    (List.replicate (P - E).toNat (ch 'X')) (le_refl 0) (by omega)
  rw [sub_self, rlePush_zero] at q1
  rw [← q1]
  simp only [flatCalls, Bool.false_eq_true, if_false]
  rw [written_append]
  congr 1
  have hEn : (0 : Int) + (E.toNat : Int) = E := by omega
  rw [hEn] at q2 ⊢
  generalize (streakCalls pattern text E.toNat 0 0 (decide (pattern 0 = text 0))).1 = ss at q2 ⊢
  generalize (streakCalls pattern text E.toNat 0 0 (decide (pattern 0 = text 0))).2.1 = m
  rw [rle_mismatches]
  have hPEn : (((P - E).toNat : Nat) : Int) = P - E := by omega
  rw [hPEn]
  cases m
  · -- the open streak is a mismatch streak
    simp only [Bool.false_eq_true, if_false, Bool.not_false, if_true]
    rw [rlePush_add _ _ _ _ (by omega) (by omega)]
    rw [show E - ss + (P - E) = P - ss by ring]
    by_cases h : P > ss
    · rw [if_pos h, written_cons]
      simp only
      rw [if_pos (by omega)]
      simp only [rlePush, if_neg (show ¬ P - ss ≤ 0 by omega)]
      rfl
    · rw [if_neg h]
      have : P - ss = 0 := by omega
      rw [this, rlePush_zero]
      rfl
  · -- the open streak is a match streak
    simp only [if_true, Bool.not_true, Bool.false_eq_true, if_false]
    by_cases h : P > ss
    · rw [if_pos h, written_cons, written]
      simp only
      by_cases hPE' : P > E
      · rw [if_pos hPE']
        have hx : rlePush (P - E) (ch 'X') [] = [(P - E, ch 'X')] := by
          simp only [rlePush, if_neg (show ¬ P - E ≤ 0 by omega)]
        rw [hx]
        by_cases hs : E - ss > 0
        · rw [if_pos hs]
          simp only [rlePush, if_neg (show ¬ E - ss ≤ 0 by omega), if_neg n6]
          simp [show P - E > 0 by omega]
        · rw [if_neg hs]
          have : E - ss = 0 := by omega
          rw [this, rlePush_zero]
          simp [show P - E > 0 by omega]
      · rw [if_neg hPE']
        have hz : P - E = 0 := by omega
        rw [hz, rlePush_zero]
        have hs : E - ss > 0 := by omega
        rw [if_pos hs]
        simp only [rlePush, if_neg (show ¬ E - ss ≤ 0 by omega), List.filter_nil]
    · rw [if_neg h]
      have h1 : P - E = 0 := by omega
      have h2 : E - ss = 0 := by omega
      rw [h1, h2, rlePush_zero, rlePush_zero]
      rfl

theorem flatOps_add (pattern text : Mem) (E : Int) (n : Nat) : ∀ (i : Int) (m : Nat),
    flatOps pattern text E i (n + m) =
      flatOps pattern text E i n ++ flatOps pattern text E (i + n) m := by
  induction n with
  | zero => intro i m; simp [flatOps]
  | succ n ih =>
    intro i m
    have e1 : n + 1 + m = (n + m) + 1 := by omega
    rw [e1, flatOps, flatOps, ih (i + 1) m]
    have e2 : i + 1 + (n : Int) = i + ((n + 1 : Nat) : Int) := by push_cast; ring
    rw [e2]
    rfl

theorem flatOps_past (pattern text : Mem) (E : Int) (n : Nat) : ∀ (i : Int), E ≤ i →
    flatOps pattern text E i n = List.replicate n (ch 'X') := by
  induction n with
  | zero => intro i _; rfl
  | succ n ih =>
    intro i h
    rw [flatOps, ih (i + 1) (by omega), List.replicate_succ]
    congr 1
    unfold flatOp
    rw [if_neg (fun hh => by omega)]

theorem flatOps_end (pattern text : Mem) (E E1 : Int) (n : Nat) : ∀ (i : Int),
    (∀ j : Int, i ≤ j → j < i + n → (j < E ↔ j < E1)) →
    flatOps pattern text E i n = flatOps pattern text E1 i n := by
  induction n with
  | zero => intro i _; rfl
  | succ n ih =>
    intro i h
    rw [flatOps, flatOps, ih (i + 1) (fun j h1 h2 => h j (by omega) (by push_cast; omega))]
    congr 1
    unfold flatOp
    have := h i (le_refl _) (by push_cast; omega)
    by_cases hi : i < E
    · simp only [hi, this.mp hi]
    · have h1 : ¬ i < E1 := fun hh => hi (this.mpr hh)
      simp only [hi, h1]

/-- The opcodes of all pattern positions against the text: those below `end`, then `X`. -/
theorem flatOps_whole (pattern text : Mem) (P T : Int) (hP : 0 ≤ P) (hT : 0 ≤ T) :
    flatOps pattern text T 0 P.toNat =
      flatOps pattern text (min P T) 0 (min P T).toNat
        ++ List.replicate (P - min P T).toNat (ch 'X') := by
  have hE0 : 0 ≤ min P T := le_min hP hT
  have hEP : min P T ≤ P := min_le_left _ _
  have hsplit : P.toNat = (min P T).toNat + (P - min P T).toNat := by omega
  rw [flatOps_end pattern text T (min P T) P.toNat 0 (fun j h1 h2 => by
    constructor
    · intro h; exact lt_min (by omega) h
    · intro h; exact lt_of_lt_of_le h (min_le_right _ _))]
  rw [hsplit, flatOps_add, flatOps_past pattern text (min P T) (P - min P T).toNat
    (0 + (((min P T).toNat : Nat) : Int)) (by omega)]


theorem xidCount_cons (c : Byte) (ops : List Byte) :
    xidCount (c :: ops) =
      (if c = ch 'X' ∨ c = ch 'I' ∨ c = ch 'D' then 1 else 0) + xidCount ops := by
  unfold xidCount
  by_cases h : c = ch 'X' ∨ c = ch 'I' ∨ c = ch 'D'
  · simp [List.filter_cons, h]; omega
  · simp [List.filter_cons, h]

theorem xidCount_append (s t : List Byte) : xidCount (s ++ t) = xidCount s + xidCount t := by
  simp [xidCount, List.filter_append]

theorem xidCount_replicate (n : Nat) (c : Byte) :
    xidCount (List.replicate n c) = if c = ch 'X' ∨ c = ch 'I' ∨ c = ch 'D' then n else 0 := by
  induction n with
  | zero => simp [xidCount]
  | succ n ih =>
    rw [List.replicate_succ, xidCount_cons, ih]
    split_ifs <;> omega

theorem xidCount_matches (n : Nat) : xidCount (List.replicate n (ch '=')) = 0 := by
  rw [xidCount_replicate, if_neg (by decide)]

/-- The total length of the edit runs written is the number of edit opcodes of the calls
spelled out. -/
theorem xidLength_written (calls : List (Int × Byte)) :
    xidLength (written calls) = (xidCount (expand calls) : Int) := by
  induction calls with
  | nil => rfl
  | cons op calls ih =>
    rw [written_cons, expand_cons, xidCount_append, xidCount_replicate]
    have hcons : ∀ s : List (Int × Byte), xidLength (op :: s) =
        (if op.2 = ch 'X' ∨ op.2 = ch 'I' ∨ op.2 = ch 'D' then op.1 else 0) + xidLength s := by
      intro s
      unfold xidLength
      by_cases h : op.2 = ch 'X' ∨ op.2 = ch 'I' ∨ op.2 = ch 'D'
      · simp [List.filter_cons, h]
      · simp [List.filter_cons, h]
    by_cases hpos : op.1 > 0
    · rw [if_pos hpos, hcons, ih]
      push_cast
      split_ifs
      · omega
      · omega
    · rw [if_neg hpos, ih]
      have : op.1.toNat = 0 := by omega
      rw [this]
      push_cast
      split_ifs <;> simp

/-- The opcodes along the path of the backtrace hold one `X`, `I` or `D` per row. -/
theorem routeOps_xid (a : Args) (F : Nat) (df : Int) (j : Nat) :
    xidCount (routeOps a F df j) = j := by
  induction j with
  | zero => exact xidCount_matches _
  | succ j ih =>
    rw [routeOps, xidCount_append, ih, xidCount_cons, xidCount_matches, if_pos]
    rcases la_cases a j (route a F df (j + 1)) with h | h | h
    · exact Or.inl h
    · exact Or.inr (Or.inl h)
    · exact Or.inr (Or.inr h)

/-- The opcodes of the positions below `end` hold one `X` per mismatching position. -/
theorem flatOps_xid (pattern text : Mem) (E : Int) (n : Nat) : ∀ (i : Nat),
    ((i + n : Nat) : Int) ≤ E →
    xidCount (flatOps pattern text E i n) + mismatches pattern text i
      = mismatches pattern text (i + n) := by
  induction n with
  | zero => intro i _; simp [flatOps, xidCount]
  | succ n ih =>
    intro i h
    have := ih (i + 1) (by push_cast at h ⊢; omega)
    have e1 : ((i : Int) + 1) = ((i + 1 : Nat) : Int) := by push_cast; rfl
    rw [flatOps, xidCount_cons, e1]
    have e2 : i + (n + 1) = i + 1 + n := by omega
    rw [e2, ← this, mismatches]
    have hi : (i : Int) < E := by push_cast at h; omega
    unfold flatOp
    by_cases hb : pattern (i : Int) = text (i : Int)
    · simp only [hb, hi, and_self, if_true, ne_eq, not_true_eq_false, if_false]
      rw [if_neg (by decide)]
      omega
    · simp only [hb, and_false, if_false, ne_eq, not_false_eq_true, if_true]
      rw [if_pos (Or.inl trivial)]
      omega


theorem mismatches_le (pattern text : Mem) (n : Nat) : mismatches pattern text n ≤ n := by
  induction n with
  | zero => exact le_refl _
  | succ n ih =>
    rw [mismatches]
    split_ifs <;> omega

/-- A call that returns `e ≥ 1` returns from the block entered when `best == patternLen`. -/
theorem accepted_cases (MAX_K : Int) (CigarToCode : Byte → Nat) (st : LVState) (text : Mem)
    (textLen : Int) (pattern : Mem) (patternLen k : Int) (cigarBuf : CigarBuf) (useM : Bool)
    (format : CigarFormat) (wantUsed : Bool) (e : Int)
    (hret : (computeEditDistance MAX_K CigarToCode st (some text) textLen pattern patternLen k
      cigarBuf useM format wantUsed).result = some e)
    (he : 1 ≤ e) :
    ∃ (d : Int) (st1 : LVState),
      computeEditDistance MAX_K CigarToCode st (some text) textLen pattern patternLen k
        cigarBuf useM format wantUsed =
      acceptRet (callArgs MAX_K CigarToCode text textLen pattern patternLen k cigarBuf useM
        format wantUsed) e d st1 cigarBuf := by
  rw [computeEditDistance_eq] at hret ⊢
  split_ifs at hret ⊢
  · exfalso
    rw [finish_result] at hret
    split at hret
    · injection hret with h; omega
    · injection hret with h; omega
    · cases hret
  · rcases hes : eSearch (callArgs MAX_K CigarToCode text textLen pattern patternLen k
        cigarBuf useM format wantUsed) k.toNat 1
        { st with L := set2 st.L 0 MAX_K (lv (callArgs MAX_K CigarToCode text textLen
          pattern patternLen k cigarBuf useM format wantUsed) 0 0) }
      with st1 | ⟨e1, d1, st1⟩
    · rw [hes] at hret
      simp only [exceeded] at hret
      injection hret with h
      omega
    · rw [hes] at hret
      simp only at hret ⊢
      rcases acceptRet_result _ _ _ _ _ _ hret with h | h
      · subst h
        exact ⟨d1, st1, rfl⟩
      · omega

/-- Claim C16: when the call returns `e ≥ 1` and the number of positions below
`min(patternLen, textLen)` where pattern and text differ plus `max(0, patternLen -
textLen)` equals `e`, the script for `useM = false` is the run-length encoding of the
per-position sequence over `0 .. patternLen - 1` that has `=` where the bytes agree inside
the text and `X` elsewhere: its opcodes are `=` and `X` only, its run lengths sum to
`patternLen` and its `X` lengths to `e`; for `useM = true` it is the one run `M` of
length `patternLen`. -/
theorem early_accept_script (MAX_K : Int) (CigarToCode : Byte → Nat) (st : LVState)
    (text : Mem) (textLen : Int) (pattern : Mem) (patternLen k : Int) (cigarBuf : CigarBuf)
    (useM : Bool) (format : CigarFormat) (wantUsed : Bool) (e : Int)
    (hP : 0 ≤ patternLen) (hT : 0 ≤ textLen)
    (hret : (computeEditDistance MAX_K CigarToCode st (some text) textLen pattern patternLen k
      cigarBuf useM format wantUsed).result = some e)
    (he : 1 ≤ e)
    (hflat : (mismatches pattern text (min patternLen textLen).toNat : Int)
      + max 0 (patternLen - textLen) = e) :
    (computeEditDistance MAX_K CigarToCode st (some text) textLen pattern patternLen k
      cigarBuf useM format wantUsed).script =
      (if useM then [(patternLen, ch 'M')]
       else rle (flatOps pattern text textLen 0 patternLen.toNat)) ∧
    (useM = false →
      (∀ op ∈ (computeEditDistance MAX_K CigarToCode st (some text) textLen pattern patternLen k
        cigarBuf useM format wantUsed).script, op.2 = ch '=' ∨ op.2 = ch 'X') ∧
      (((computeEditDistance MAX_K CigarToCode st (some text) textLen pattern patternLen k
        cigarBuf useM format wantUsed).script).map (fun op => op.1)).sum = patternLen ∧
      xidLength (computeEditDistance MAX_K CigarToCode st (some text) textLen pattern patternLen
        k cigarBuf useM format wantUsed).script = e) := by
  obtain ⟨d, st1, hr⟩ := accepted_cases MAX_K CigarToCode st text textLen pattern patternLen k
    cigarBuf useM format wantUsed e hret he
  have hbuf : (computeEditDistance MAX_K CigarToCode st (some text) textLen pattern patternLen k
      cigarBuf useM format wantUsed).result ≠ some (-2) := by
    rw [hret]; intro h; injection h with h; omega
  have hnn : (computeEditDistance MAX_K CigarToCode st (some text) textLen pattern patternLen k
      cigarBuf useM format wantUsed).result ≠ none := by
    rw [hret]; exact Option.some_ne_none _
  rw [hr] at hbuf hnn ⊢
  obtain ⟨-, q2⟩ := acceptRet_ok _ e d st1 cigarBuf hbuf hnn
  have hE0 : 0 ≤ min patternLen textLen := le_min hP hT
  have hEP : min patternLen textLen ≤ patternLen := min_le_left _ _
  have hmax : max 0 (patternLen - textLen) = patternLen - min patternLen textLen := by
    rcases le_total patternLen textLen with h | h
    · rw [min_eq_left h, max_eq_left (by omega)]; ring
    · rw [min_eq_right h, max_eq_right (by omega)]
  have hcm := countMismatches_eq pattern text (min patternLen textLen).toNat 0 0
  simp only [Nat.cast_zero, zero_add, mismatches, sub_zero] at hcm
  have hcond : countMismatches pattern text (min patternLen textLen).toNat 0 0
      + (patternLen - min patternLen textLen) = e := by
    rw [hcm, ← hmax]; exact hflat
  have hscript : (acceptRet (callArgs MAX_K CigarToCode text textLen pattern patternLen k
      cigarBuf useM format wantUsed) e d st1 cigarBuf).script =
      written (flatCalls useM pattern text patternLen (min patternLen textLen)) := by
    rw [q2]
    exact if_pos hcond
  have hle := mismatches_le pattern text (min patternLen textLen).toNat
  have hP1 : 1 ≤ patternLen := by omega
  rw [hscript]
  refine ⟨?_, fun hM => ?_⟩
  · cases useM
    · simp only [Bool.false_eq_true, if_false]
      rw [flatCalls_rle pattern text patternLen _ hE0 hEP, flatOps_whole pattern text _ _ hP hT]
    · simp only [if_true, flatCalls]
      rw [written_cons]
      simp only
      rw [if_pos (by omega)]
      rfl
  · subst hM
    obtain ⟨f1, f2⟩ := flatCalls_expand pattern text patternLen _ hE0 hEP
    refine ⟨fun op hop => f2 op (List.mem_of_mem_filter hop), ?_, ?_⟩
    · rw [written_sum, f1, List.length_append, flatOps_length, List.length_replicate]
      omega
    · rw [xidLength_written, f1, xidCount_append, xidCount_replicate, if_pos (Or.inl rfl)]
      have := flatOps_xid pattern text (min patternLen textLen) (min patternLen textLen).toNat 0
        (by omega)
      simp only [Nat.cast_zero, zero_add, mismatches, add_zero] at this
      rw [this]
      push_cast
      omega

theorem early_accept_script_witness :
    (computeEditDistance 31 (fun _ => 0) fresh
      (some (bytesOf ['A', 'C', 'G', 'A', 'A', 'C', 'G', 'T'] 0)) 8
      (bytesOf ['A', 'C', 'G', 'T', 'A', 'C', 'G', 'T'] 1) 8 1 (freshBuf 100 64) false
      .COMPACT_CIGAR_STRING true).script = [(3, ch '='), (1, ch 'X'), (4, ch '=')] ∧
    ((computeEditDistance 31 (fun _ => 0) fresh
      (some (bytesOf ['A', 'C', 'G', 'A', 'A', 'C', 'G', 'T'] 0)) 8
      (bytesOf ['A', 'C', 'G', 'T', 'A', 'C', 'G', 'T'] 1) 8 1 (freshBuf 100 64) false
      .COMPACT_CIGAR_STRING true).script =
      (if false then [(8, ch 'M')]
       else rle (flatOps (bytesOf ['A', 'C', 'G', 'T', 'A', 'C', 'G', 'T'] 1)
        (bytesOf ['A', 'C', 'G', 'A', 'A', 'C', 'G', 'T'] 0) 8 0 (8 : Int).toNat)) ∧
    (false = false →
      (∀ op ∈ (computeEditDistance 31 (fun _ => 0) fresh
        (some (bytesOf ['A', 'C', 'G', 'A', 'A', 'C', 'G', 'T'] 0)) 8
        (bytesOf ['A', 'C', 'G', 'T', 'A', 'C', 'G', 'T'] 1) 8 1 (freshBuf 100 64) false
        .COMPACT_CIGAR_STRING true).script, op.2 = ch '=' ∨ op.2 = ch 'X') ∧
      (((computeEditDistance 31 (fun _ => 0) fresh
        (some (bytesOf ['A', 'C', 'G', 'A', 'A', 'C', 'G', 'T'] 0)) 8
        (bytesOf ['A', 'C', 'G', 'T', 'A', 'C', 'G', 'T'] 1) 8 1 (freshBuf 100 64) false
        .COMPACT_CIGAR_STRING true).script).map (fun op => op.1)).sum = 8 ∧
      xidLength (computeEditDistance 31 (fun _ => 0) fresh
        (some (bytesOf ['A', 'C', 'G', 'A', 'A', 'C', 'G', 'T'] 0)) 8
        (bytesOf ['A', 'C', 'G', 'T', 'A', 'C', 'G', 'T'] 1) 8 1 (freshBuf 100 64) false
        .COMPACT_CIGAR_STRING true).script = 1)) :=
  ⟨by decide, early_accept_script 31 (fun _ => 0) fresh
    (bytesOf ['A', 'C', 'G', 'A', 'A', 'C', 'G', 'T'] 0) 8
    (bytesOf ['A', 'C', 'G', 'T', 'A', 'C', 'G', 'T'] 1) 8 1 (freshBuf 100 64) false
    .COMPACT_CIGAR_STRING true 1 (by decide) (by decide) (by decide) (by decide) (by decide)⟩


/-- Claim C4, amended: on an instance whose unwritten cells hold -2, for non-negative
lengths and `useM = false`, when the call returns `e ≥ 1`: if the alignment without
indels has exactly `e` mismatches (positions past `textLen` counted), the script has no
insertion and no deletion; and when `textLen ≥ patternLen + k`, `patternLen < 2^31 - 7`
and `textLen + k < 2^31` (the `int` arithmetic of lines 167 and 176 is exact) the
script ends on a diagonal `d` (text consumed minus pattern consumed) that no alignment
with `e` edits precedes in the order `0, -1, 1, -2, 2, ...` of the end diagonals. -/
theorem fewest_indels (MAX_K : Int) (CigarToCode : Byte → Nat) (st : LVState) (text : Mem)
    (textLen : Int) (pattern : Mem) (patternLen k : Int) (cigarBuf : CigarBuf)
    (format : CigarFormat) (wantUsed : Bool) (e : Int)
    (hP : 0 ≤ patternLen) (hT : 0 ≤ textLen) (hc : st.Clean MAX_K)
    (hret : (computeEditDistance MAX_K CigarToCode st (some text) textLen pattern patternLen k
      cigarBuf false format wantUsed).result = some e)
    (he : 1 ≤ e) :
    ((mismatches pattern text (min patternLen textLen).toNat : Int)
        + (patternLen - min patternLen textLen) = e →
      indelLength (computeEditDistance MAX_K CigarToCode st (some text) textLen pattern
        patternLen k cigarBuf false format wantUsed).script = 0) ∧
    (patternLen + k ≤ textLen → patternLen < 2 ^ 31 - 7 → textLen + k < 2 ^ 31 →
      ∃ d : Int, replay pattern text textLen
        (computeEditDistance MAX_K CigarToCode st (some text) textLen pattern patternLen k
          cigarBuf false format wantUsed).script 0 0 = some (patternLen, patternLen + d) ∧
        ∀ (ops : List Byte) (J : Int),
          replayOps pattern text textLen ops 0 0 = some (patternLen, J) →
          (editCost ops : Int) = e → scanPos d ≤ scanPos (J - patternLen)) := by
  refine ⟨fun hflat => ?_, fun hlong hPw hTw =>
    first_end_diagonal MAX_K CigarToCode st text textLen pattern patternLen k cigarBuf format
      wantUsed e hP hT hc hret he hlong hPw hTw⟩
  obtain ⟨d, st1, hr⟩ := accepted_cases MAX_K CigarToCode st text textLen pattern patternLen k
    cigarBuf false format wantUsed e hret he
  have hbuf : (computeEditDistance MAX_K CigarToCode st (some text) textLen pattern patternLen k
      cigarBuf false format wantUsed).result ≠ some (-2) := by
    rw [hret]; intro h; injection h with h; omega
  have hnn : (computeEditDistance MAX_K CigarToCode st (some text) textLen pattern patternLen k
      cigarBuf false format wantUsed).result ≠ none := by
    rw [hret]; exact Option.some_ne_none _
  rw [hr] at hbuf hnn ⊢
  obtain ⟨-, q2⟩ := acceptRet_ok _ e d st1 cigarBuf hbuf hnn
  have hE0 : 0 ≤ min patternLen textLen := le_min hP hT
  have hEP : min patternLen textLen ≤ patternLen := min_le_left _ _
  have hcm := countMismatches_eq pattern text (min patternLen textLen).toNat 0 0
  simp only [Nat.cast_zero, zero_add, mismatches, sub_zero] at hcm
  have hcond : countMismatches pattern text (min patternLen textLen).toNat 0 0
      + (patternLen - min patternLen textLen) = e := by
    rw [hcm]; exact hflat
  have hscript : (acceptRet (callArgs MAX_K CigarToCode text textLen pattern patternLen k
      cigarBuf false format wantUsed) e d st1 cigarBuf).script =
      written (flatCalls false pattern text patternLen (min patternLen textLen)) := by
    rw [q2]
    exact if_pos hcond
  rw [hscript]
  exact indelLength_flat _ (fun op hop =>
    (flatCalls_expand pattern text patternLen _ hE0 hEP).2 op (List.mem_of_mem_filter hop))

theorem fewest_indels_witness :
    (computeEditDistance 31 (fun _ => 0) fresh (some (bytesOf ['A', 'C', 'C', 'G', 'T', 'A'] 0)) 6
      (bytesOf ['A', 'C', 'G', 'T'] 1) 4 2 (freshBuf 100 64) false .COMPACT_CIGAR_STRING
      true).script = [(2, ch '='), (1, ch 'D'), (2, ch '=')] ∧
    (((mismatches (bytesOf ['A', 'C', 'G', 'T'] 1) (bytesOf ['A', 'C', 'C', 'G', 'T', 'A'] 0)
          (min (4 : Int) 6).toNat : Int) + (4 - min (4 : Int) 6) = 1 →
      indelLength (computeEditDistance 31 (fun _ => 0) fresh
        (some (bytesOf ['A', 'C', 'C', 'G', 'T', 'A'] 0)) 6
        (bytesOf ['A', 'C', 'G', 'T'] 1) 4 2 (freshBuf 100 64) false .COMPACT_CIGAR_STRING
        true).script = 0) ∧
    ((4 : Int) + 2 ≤ 6 → (4 : Int) < 2 ^ 31 - 7 → (6 : Int) + 2 < 2 ^ 31 →
      ∃ d : Int, replay (bytesOf ['A', 'C', 'G', 'T'] 1)
        (bytesOf ['A', 'C', 'C', 'G', 'T', 'A'] 0) 6
        (computeEditDistance 31 (fun _ => 0) fresh
          (some (bytesOf ['A', 'C', 'C', 'G', 'T', 'A'] 0)) 6
          (bytesOf ['A', 'C', 'G', 'T'] 1) 4 2 (freshBuf 100 64) false .COMPACT_CIGAR_STRING
          true).script 0 0 = some (4, 4 + d) ∧
        ∀ (ops : List Byte) (J : Int),
          replayOps (bytesOf ['A', 'C', 'G', 'T'] 1)
            (bytesOf ['A', 'C', 'C', 'G', 'T', 'A'] 0) 6 ops 0 0 = some (4, J) →
          (editCost ops : Int) = 1 → scanPos d ≤ scanPos (J - 4))) :=
  ⟨by decide, fewest_indels 31 (fun _ => 0) fresh (bytesOf ['A', 'C', 'C', 'G', 'T', 'A'] 0) 6
    (bytesOf ['A', 'C', 'G', 'T'] 1) 4 2 (freshBuf 100 64) .COMPACT_CIGAR_STRING true 1
    (by decide) (by decide) (fun _ _ _ => rfl) (by decide) (by decide)⟩


/-- The script of the backtrace holds one `X`, `I` or `D` per row. -/
theorem backtraceCalls_xid (a : Args) (hP : 0 ≤ a.patternLen) (hT : 0 ≤ a.textLen)
    (e : Nat) (d : Int) (st1 : LVState) (hfound : RowFound a e d st1)
    (hno : ∀ e', e' ≤ e → ∀ d' : Int, -(e' : Int) ≤ d' → d' ≤ e' → lv a e' d' ≠ a.patternLen) :
    xidCount (expand (backtraceCalls false a.MAX_K
      (backtrace a.MAX_K ((e : Int) + 1).toNat ((e : Int) + 1) d st1) ((e : Int) + 1))) = e + 1 := by
  obtain ⟨p1, p2⟩ := backtrace_found a hP hT e d st1 hfound hno
  have hnat : ((e : Int) + 1).toNat = e + 1 := by omega
  rw [backtraceCalls_expand, p1, hnat,
    arrOps_route a (e + 1) d _ (fun j hj => by
      have := p2 ((j : Int) + 1) (by omega) (by omega)
      have e1 : ((j : Int) + 1 - 1).toNat = j := by omega
      have e2 : ((j : Int) + 1).toNat = j + 1 := by omega
      rw [e1, e2] at this
      exact this) (e + 1) le_rfl,
    routeOps_xid]

/-- Claim C19: for `0 ≤ patternLen ≤ textLen` and `useM = false`, on an instance whose
unwritten cells hold -2, when the call returns `e ≥ 0` the run lengths of the `X`, `I`
and `D` operations of the emitted script sum to `e`. The lengths are such that the `int`
arithmetic of lines 167 and 176 is exact: `patternLen < 2^31 - 7` and
`textLen + k < 2^31`. -/
theorem edit_count (MAX_K : Int) (CigarToCode : Byte → Nat) (st : LVState) (text : Mem)
    (textLen : Int) (pattern : Mem) (patternLen k : Int) (cigarBuf : CigarBuf)
    (format : CigarFormat) (wantUsed : Bool) (e : Int)
    (hP : 0 ≤ patternLen) (hTP : patternLen ≤ textLen) (hc : st.Clean MAX_K)
    (hret : (computeEditDistance MAX_K CigarToCode st (some text) textLen pattern patternLen k
      cigarBuf false format wantUsed).result = some e)
    (he : 0 ≤ e) (hPw : patternLen < 2 ^ 31 - 7) (hTw : textLen + k < 2 ^ 31) :
    xidLength (computeEditDistance MAX_K CigarToCode st (some text) textLen pattern patternLen k
      cigarBuf false format wantUsed).script = e := by
  have hcases := call_cases MAX_K CigarToCode st text textLen pattern patternLen k cigarBuf
    false format wantUsed hc (call_nowrap MAX_K CigarToCode text textLen pattern patternLen k
      cigarBuf false format wantUsed hP (by omega) hPw hTw)
  generalize ha : callArgs MAX_K CigarToCode text textLen pattern patternLen k cigarBuf false
    format wantUsed = a at hcases
  have hPa : a.patternLen = patternLen := by rw [← ha]; rfl
  have hTa : a.textLen = textLen := by rw [← ha]; rfl
  have hM : a.useM = false := by rw [← ha]; rfl
  have hP' : 0 ≤ a.patternLen := by rw [hPa]; exact hP
  have hT' : 0 ≤ a.textLen := by rw [hTa]; omega
  have hmin : min a.patternLen a.textLen = a.patternLen := min_eq_left (by rw [hPa, hTa]; exact hTP)
  have hbuf : (computeEditDistance MAX_K CigarToCode st (some text) textLen pattern patternLen k
      cigarBuf false format wantUsed).result ≠ some (-2) := by
    rw [hret]; intro h; injection h with h; omega
  have hnn : (computeEditDistance MAX_K CigarToCode st (some text) textLen pattern patternLen k
      cigarBuf false format wantUsed).result ≠ none := by
    rw [hret]; exact Option.some_ne_none _
  rcases hcases with ⟨-, hr⟩ | ⟨-, ⟨st1, hr⟩, -⟩ | ⟨-, e0, d, st1, hek, hfound, hno, hr⟩
  · -- exact match: one run of matches
    rw [hr] at hbuf hnn hret ⊢
    obtain ⟨q1, q2⟩ := finish_ok _ _ _ _ _ _ hbuf hnn
    rw [q2] at hret
    injection hret with hret
    obtain ⟨-, q4⟩ := writeAll_ok _ _ _ _ q1
    rw [finish_script, q4]
    simp only [List.nil_append]
    rw [xidLength_written, ← hPa, ← hTa, hmin]
    simp only [exactCalls, Bool.false_eq_true, if_false, gt_iff_lt, lt_self_iff_false,
      expand_cons, expand_nil, List.append_nil, xidCount_matches]
    rw [← hret]
    rfl
  · -- budget exceeded
    rw [hr] at hret
    simp only [exceeded] at hret
    injection hret with hret
    omega
  · rw [hr] at hbuf hnn hret ⊢
    obtain ⟨q1, q2⟩ := acceptRet_ok a _ d st1 cigarBuf hbuf hnn
    rw [q1] at hret
    injection hret with hret
    rw [q2, hM, hmin]
    split_ifs with hflat
    · -- the script without indels
      obtain ⟨f1, -⟩ := flatCalls_expand a.pattern a.text a.patternLen a.patternLen hP' (le_refl _)
      rw [xidLength_written, f1, xidCount_append, xidCount_replicate, if_pos (Or.inl rfl)]
      have hcm := countMismatches_eq a.pattern a.text a.patternLen.toNat 0 0
      simp only [Nat.cast_zero, zero_add, mismatches, sub_zero] at hcm
      have := flatOps_xid a.pattern a.text a.patternLen a.patternLen.toNat 0 (by omega)
      simp only [Nat.cast_zero, zero_add, mismatches, add_zero] at this
      rw [this]
      rw [hcm] at hflat
      push_cast
      omega
    · -- the script of the backtrace
      rw [xidLength_written, backtraceCalls_xid a hP' hT' e0 d st1 hfound
        (by rw [hPa]; exact hno)]
      push_cast
      omega

theorem edit_count_witness :
    (computeEditDistance 31 (fun _ => 0) fresh
      (some (bytesOf ['A', 'C', 'C', 'G', 'A', 'T'] 0)) 6
      (bytesOf ['A', 'C', 'G', 'T', 'T'] 1) 5 2 (freshBuf 100 64) false .COMPACT_CIGAR_STRING
      true).script = [(2, ch '='), (1, ch 'D'), (1, ch '='), (1, ch 'X'), (1, ch '=')] ∧
    xidLength (computeEditDistance 31 (fun _ => 0) fresh
      (some (bytesOf ['A', 'C', 'C', 'G', 'A', 'T'] 0)) 6
      (bytesOf ['A', 'C', 'G', 'T', 'T'] 1) 5 2 (freshBuf 100 64) false .COMPACT_CIGAR_STRING
      true).script = 2 :=
  ⟨by decide, edit_count 31 (fun _ => 0) fresh (bytesOf ['A', 'C', 'C', 'G', 'A', 'T'] 0) 6
    (bytesOf ['A', 'C', 'G', 'T', 'T'] 1) 5 2 (freshBuf 100 64) .COMPACT_CIGAR_STRING true 2
    (by decide) (by decide) (fun _ _ _ => rfl) (by decide) (by decide) (by decide)
    (by decide)⟩


/-- What the end of a path that writes a script leaves behind, apart from the instance,
does not depend on the instance. -/
theorem finish_indep (st st1 : LVState) (s : Int) (w t : Bool) (e : Int) (em : Emit) :
    (finish st s w t e em).result = (finish st1 s w t e em).result ∧
    (finish st s w t e em).buf = (finish st1 s w t e em).buf ∧
    (finish st s w t e em).cigarBufUsed = (finish st1 s w t e em).cigarBufUsed ∧
    (finish st s w t e em).script = (finish st1 s w t e em).script := by
  obtain ⟨b, s1, sc⟩ := em
  rcases s1 with _ | (_ | _) <;> exact ⟨rfl, rfl, rfl, rfl⟩

/-- The block entered when `best == patternLen` gives the same value, output and script on
any two instances that hold the tables of the call. -/
theorem acceptRet_indep (a : Args) (hP : 0 ≤ a.patternLen) (hT : 0 ≤ a.textLen)
    (e : Nat) (d : Int) (st st1 : LVState) (buf : CigarBuf)
    (hf : RowFound a e d st) (hf1 : RowFound a e d st1)
    (hno : ∀ e', e' ≤ e → ∀ d' : Int, -(e' : Int) ≤ d' → d' ≤ e' → lv a e' d' ≠ a.patternLen) :
    (acceptRet a ((e : Int) + 1) d st buf).result = (acceptRet a ((e : Int) + 1) d st1 buf).result ∧
    (acceptRet a ((e : Int) + 1) d st buf).buf = (acceptRet a ((e : Int) + 1) d st1 buf).buf ∧
    (acceptRet a ((e : Int) + 1) d st buf).cigarBufUsed
      = (acceptRet a ((e : Int) + 1) d st1 buf).cigarBufUsed ∧
    (acceptRet a ((e : Int) + 1) d st buf).script = (acceptRet a ((e : Int) + 1) d st1 buf).script := by
  rw [acceptRet_eq, acceptRet_eq]
  split_ifs
  · exact finish_indep _ _ _ _ _ _ _
  · obtain ⟨p1, p2⟩ := backtrace_found a hP hT e d st hf hno
    obtain ⟨q1, q2⟩ := backtrace_found a hP hT e d st1 hf1 hno
    rw [backtraceCalls_congr a.useM a.MAX_K _ (backtrace a.MAX_K ((e : Int) + 1).toNat
      ((e : Int) + 1) d st1) _ (by rw [p1, q1])
      (fun i hi1 hi2 => by rw [(p2 i hi1 hi2).1, (q2 i hi1 hi2).1])
      (fun i hi1 hi2 => by rw [(p2 i hi1 hi2).2, (q2 i hi1 hi2).2])]
    exact finish_indep _ _ _ _ _ _ _

/-- A call whose `int` arithmetic is exact gives the same value, output and script on any
two instances whose unwritten cells of `L` hold -2, whatever the other cells of the tables
and arrays hold. -/
theorem call_indep (MAX_K : Int) (CigarToCode : Byte → Nat) (st st1 : LVState)
    (text : Option Mem) (textLen : Int) (pattern : Mem) (patternLen k : Int)
    (cigarBuf : CigarBuf) (useM : Bool) (format : CigarFormat) (wantUsed : Bool)
    (hP : 0 ≤ patternLen) (hT : 0 ≤ textLen)
    (hc : st.Clean MAX_K) (hc1 : st1.Clean MAX_K)
    (hPw : patternLen < 2 ^ 31 - 7) (hTw : textLen + k < 2 ^ 31) :
    (computeEditDistance MAX_K CigarToCode st text textLen pattern patternLen k cigarBuf useM
      format wantUsed).result =
    (computeEditDistance MAX_K CigarToCode st1 text textLen pattern patternLen k cigarBuf useM
      format wantUsed).result ∧
    (computeEditDistance MAX_K CigarToCode st text textLen pattern patternLen k cigarBuf useM
      format wantUsed).buf =
    (computeEditDistance MAX_K CigarToCode st1 text textLen pattern patternLen k cigarBuf useM
      format wantUsed).buf ∧
    (computeEditDistance MAX_K CigarToCode st text textLen pattern patternLen k cigarBuf useM
      format wantUsed).cigarBufUsed =
    (computeEditDistance MAX_K CigarToCode st1 text textLen pattern patternLen k cigarBuf useM
      format wantUsed).cigarBufUsed ∧
    (computeEditDistance MAX_K CigarToCode st text textLen pattern patternLen k cigarBuf useM
      format wantUsed).script =
    (computeEditDistance MAX_K CigarToCode st1 text textLen pattern patternLen k cigarBuf useM
      format wantUsed).script := by
  cases text with
  | none => exact ⟨rfl, rfl, rfl, rfl⟩
  | some text =>
    have hx := call_nowrap MAX_K CigarToCode text textLen pattern patternLen k cigarBuf useM
      format wantUsed hP hT hPw hTw
    have hcases := call_cases MAX_K CigarToCode st text textLen pattern patternLen k cigarBuf
      useM format wantUsed hc hx
    have hcases1 := call_cases MAX_K CigarToCode st1 text textLen pattern patternLen k cigarBuf
      useM format wantUsed hc1 hx
    generalize ha : callArgs MAX_K CigarToCode text textLen pattern patternLen k cigarBuf useM
      format wantUsed = a at hcases hcases1
    have hPa : a.patternLen = patternLen := by rw [← ha]; rfl
    have hTa : a.textLen = textLen := by rw [← ha]; rfl
    rcases hcases with ⟨hs, hr⟩ | ⟨hs, ⟨st2, hr⟩, hno⟩ | ⟨hs, e, d, st2, hek, hfound, hno, hr⟩
    · rcases hcases1 with ⟨-, hr1⟩ | ⟨hs1, -⟩ | ⟨hs1, -⟩
      · rw [hr, hr1]
        exact finish_indep _ _ _ _ _ _ _
      · exact absurd hs hs1
      · exact absurd hs hs1
    · rcases hcases1 with ⟨hs1, -⟩ | ⟨-, ⟨st3, hr1⟩, -⟩ | ⟨-, e1, d1, st3, hek1, hfound1, -, -⟩
      · exact absurd hs1 hs
      · rw [hr, hr1]
        exact ⟨rfl, rfl, rfl, rfl⟩
      · exfalso
        obtain ⟨hd1, hlv1, -⟩ := hfound1
        rw [hPa] at hlv1
        exact hno (e1 + 1) (by push_cast; omega) d1 (by push_cast; omega) (by push_cast; omega)
          hlv1
    · rcases hcases1 with ⟨hs1, -⟩ | ⟨-, -, hno1⟩ | ⟨-, e1, d1, st3, hek1, hfound1, hno1, hr1⟩
      · exact absurd hs1 hs
      · exfalso
        obtain ⟨hd, hlv0, -⟩ := hfound
        rw [hPa] at hlv0
        exact hno1 (e + 1) (by push_cast; omega) d (by push_cast; omega) (by push_cast; omega)
          hlv0
      · have huniq : e = e1 ∧ d = d1 := by
          obtain ⟨hd, hlv0, -, hpart, -, -⟩ := hfound
          obtain ⟨hd1, hlv1, -, hpart1, -, -⟩ := hfound1
          exact found_unique a e e1 d d1 hd hlv0 (fun d' h => (hpart d' h).2.2)
            (by rw [hPa]; exact hno) hd1 hlv1 (fun d' h => (hpart1 d' h).2.2)
            (by rw [hPa]; exact hno1)
        obtain ⟨rfl, rfl⟩ := huniq
        rw [hr, hr1]
        exact acceptRet_indep a (by rw [hPa]; exact hP) (by rw [hTa]; exact hT) e d st2 st3
          cigarBuf hfound hfound1 (by rw [hPa]; exact hno)


/-- After any calls on a constructed instance the cells of `L` that no call writes still
hold the constructor's -2. -/
theorem afterCalls_clean (MAX_K : Int) (CigarToCode : Byte → Nat) (calls : List Call) :
    ∀ st : LVState, st.Clean MAX_K → (afterCalls MAX_K CigarToCode st calls).Clean MAX_K := by
  induction calls with
  | nil => intro st h; exact h
  | cons c cs ih =>
    intro st h
    rw [afterCalls]
    exact ih _ (computeEditDistance_clean MAX_K CigarToCode st c.text c.textLen c.pattern
      c.patternLen c.k c.cigarBuf c.useM c.format c.wantUsed h)

/-- Claim C17: for every constructed instance, whatever its uninitialised arrays hold, and
every sequence of earlier calls made on it (of any lengths), a further call with
non-negative lengths for which the `int` arithmetic of lines 167 and 176 is exact
(`patternLen < 2^31 - 7` and `textLen + k < 2^31`) returns the same value, leaves the same
output buffer (bytes, cursor, remaining length and record of stores), stores the same
`cigarBufUsed` and writes the same script as the same call on a freshly constructed
instance; the cells of `L` that no call writes still hold the constructor's -2. -/
theorem no_cross_call_state (MAX_K : Int) (CigarToCode : Byte → Nat)
    (A0 A1 : Int → Int → Byte) (bA0 bA1 : Int → Byte) (bM0 bD0 bM1 bD1 : Int → Int)
    (calls : List Call) (c : Call) (hP : 0 ≤ c.patternLen) (hT : 0 ≤ c.textLen)
    (hPw : c.patternLen < 2 ^ 31 - 7) (hTw : c.textLen + c.k < 2 ^ 31) :
    (afterCalls MAX_K CigarToCode (LVState.init A0 bA0 bM0 bD0) calls).Clean MAX_K ∧
    (c.run MAX_K CigarToCode (afterCalls MAX_K CigarToCode (LVState.init A0 bA0 bM0 bD0)
      calls)).result = (c.run MAX_K CigarToCode (LVState.init A1 bA1 bM1 bD1)).result ∧
    (c.run MAX_K CigarToCode (afterCalls MAX_K CigarToCode (LVState.init A0 bA0 bM0 bD0)
      calls)).buf = (c.run MAX_K CigarToCode (LVState.init A1 bA1 bM1 bD1)).buf ∧
    (c.run MAX_K CigarToCode (afterCalls MAX_K CigarToCode (LVState.init A0 bA0 bM0 bD0)
      calls)).cigarBufUsed
      = (c.run MAX_K CigarToCode (LVState.init A1 bA1 bM1 bD1)).cigarBufUsed ∧
    (c.run MAX_K CigarToCode (afterCalls MAX_K CigarToCode (LVState.init A0 bA0 bM0 bD0)
      calls)).script = (c.run MAX_K CigarToCode (LVState.init A1 bA1 bM1 bD1)).script := by
  have h1 := afterCalls_clean MAX_K CigarToCode calls (LVState.init A0 bA0 bM0 bD0)
    (init_clean MAX_K A0 bA0 bM0 bD0)
  exact ⟨h1, call_indep MAX_K CigarToCode _ _ c.text c.textLen c.pattern c.patternLen c.k
    c.cigarBuf c.useM c.format c.wantUsed hP hT h1 (init_clean MAX_K A1 bA1 bM1 bD1)
    hPw hTw⟩

theorem no_cross_call_state_witness :
    (Call.run 31 (fun _ => 0)
      (afterCalls 31 (fun _ => 0) (LVState.init (fun _ _ => 0) (fun _ => 0) (fun _ => 0)
        (fun _ => 0))
        [{ text := some (bytesOf ['C', 'A', 'B', 'B', 'A'] 0), textLen := 5,
           pattern := bytesOf ['A', 'B', 'A'] 1, patternLen := 3, k := 2,
           cigarBuf := freshBuf 100 64, useM := false, format := .COMPACT_CIGAR_STRING,
           wantUsed := true }])
      { text := some (bytesOf ['A', 'C', 'C', 'G', 'T', 'A'] 0), textLen := 6,
        pattern := bytesOf ['A', 'C', 'G', 'T'] 1, patternLen := 4, k := 2,
        cigarBuf := freshBuf 200 64, useM := false, format := .COMPACT_CIGAR_STRING,
        wantUsed := true }).script = [(2, ch '='), (1, ch 'D'), (2, ch '=')] ∧
    ((afterCalls 31 (fun _ => 0) (LVState.init (fun _ _ => 0) (fun _ => 0) (fun _ => 0)
        (fun _ => 0))
        [{ text := some (bytesOf ['C', 'A', 'B', 'B', 'A'] 0), textLen := 5,
           pattern := bytesOf ['A', 'B', 'A'] 1, patternLen := 3, k := 2,
           cigarBuf := freshBuf 100 64, useM := false, format := .COMPACT_CIGAR_STRING,
           wantUsed := true }]).Clean 31 ∧
    (Call.run 31 (fun _ => 0)
      (afterCalls 31 (fun _ => 0) (LVState.init (fun _ _ => 0) (fun _ => 0) (fun _ => 0)
        (fun _ => 0))
        [{ text := some (bytesOf ['C', 'A', 'B', 'B', 'A'] 0), textLen := 5,
           pattern := bytesOf ['A', 'B', 'A'] 1, patternLen := 3, k := 2,
           cigarBuf := freshBuf 100 64, useM := false, format := .COMPACT_CIGAR_STRING,
           wantUsed := true }])
      { text := some (bytesOf ['A', 'C', 'C', 'G', 'T', 'A'] 0), textLen := 6,
        pattern := bytesOf ['A', 'C', 'G', 'T'] 1, patternLen := 4, k := 2,
        cigarBuf := freshBuf 200 64, useM := false, format := .COMPACT_CIGAR_STRING,
        wantUsed := true }).result =
    (Call.run 31 (fun _ => 0) (LVState.init (fun _ _ => 7) (fun _ => 7) (fun _ => 7)
        (fun _ => 7))
      { text := some (bytesOf ['A', 'C', 'C', 'G', 'T', 'A'] 0), textLen := 6,
        pattern := bytesOf ['A', 'C', 'G', 'T'] 1, patternLen := 4, k := 2,
        cigarBuf := freshBuf 200 64, useM := false, format := .COMPACT_CIGAR_STRING,
        wantUsed := true }).result ∧
    (Call.run 31 (fun _ => 0)
      (afterCalls 31 (fun _ => 0) (LVState.init (fun _ _ => 0) (fun _ => 0) (fun _ => 0)
        (fun _ => 0))
        [{ text := some (bytesOf ['C', 'A', 'B', 'B', 'A'] 0), textLen := 5,
           pattern := bytesOf ['A', 'B', 'A'] 1, patternLen := 3, k := 2,
           cigarBuf := freshBuf 100 64, useM := false, format := .COMPACT_CIGAR_STRING,
           wantUsed := true }])
      { text := some (bytesOf ['A', 'C', 'C', 'G', 'T', 'A'] 0), textLen := 6,
        pattern := bytesOf ['A', 'C', 'G', 'T'] 1, patternLen := 4, k := 2,
        cigarBuf := freshBuf 200 64, useM := false, format := .COMPACT_CIGAR_STRING,
        wantUsed := true }).buf =
    (Call.run 31 (fun _ => 0) (LVState.init (fun _ _ => 7) (fun _ => 7) (fun _ => 7)
        (fun _ => 7))
      { text := some (bytesOf ['A', 'C', 'C', 'G', 'T', 'A'] 0), textLen := 6,
        pattern := bytesOf ['A', 'C', 'G', 'T'] 1, patternLen := 4, k := 2,
        cigarBuf := freshBuf 200 64, useM := false, format := .COMPACT_CIGAR_STRING,
        wantUsed := true }).buf ∧
    (Call.run 31 (fun _ => 0)
      (afterCalls 31 (fun _ => 0) (LVState.init (fun _ _ => 0) (fun _ => 0) (fun _ => 0)
        (fun _ => 0))
        [{ text := some (bytesOf ['C', 'A', 'B', 'B', 'A'] 0), textLen := 5,
           pattern := bytesOf ['A', 'B', 'A'] 1, patternLen := 3, k := 2,
           cigarBuf := freshBuf 100 64, useM := false, format := .COMPACT_CIGAR_STRING,
           wantUsed := true }])
      { text := some (bytesOf ['A', 'C', 'C', 'G', 'T', 'A'] 0), textLen := 6,
        pattern := bytesOf ['A', 'C', 'G', 'T'] 1, patternLen := 4, k := 2,
        cigarBuf := freshBuf 200 64, useM := false, format := .COMPACT_CIGAR_STRING,
        wantUsed := true }).cigarBufUsed =
    (Call.run 31 (fun _ => 0) (LVState.init (fun _ _ => 7) (fun _ => 7) (fun _ => 7)
        (fun _ => 7))
      { text := some (bytesOf ['A', 'C', 'C', 'G', 'T', 'A'] 0), textLen := 6,
        pattern := bytesOf ['A', 'C', 'G', 'T'] 1, patternLen := 4, k := 2,
        cigarBuf := freshBuf 200 64, useM := false, format := .COMPACT_CIGAR_STRING,
        wantUsed := true }).cigarBufUsed ∧
    (Call.run 31 (fun _ => 0)
      (afterCalls 31 (fun _ => 0) (LVState.init (fun _ _ => 0) (fun _ => 0) (fun _ => 0)
        (fun _ => 0))
        [{ text := some (bytesOf ['C', 'A', 'B', 'B', 'A'] 0), textLen := 5,
           pattern := bytesOf ['A', 'B', 'A'] 1, patternLen := 3, k := 2,
           cigarBuf := freshBuf 100 64, useM := false, format := .COMPACT_CIGAR_STRING,
           wantUsed := true }])
      { text := some (bytesOf ['A', 'C', 'C', 'G', 'T', 'A'] 0), textLen := 6,
        pattern := bytesOf ['A', 'C', 'G', 'T'] 1, patternLen := 4, k := 2,
        cigarBuf := freshBuf 200 64, useM := false, format := .COMPACT_CIGAR_STRING,
        wantUsed := true }).script =
    (Call.run 31 (fun _ => 0) (LVState.init (fun _ _ => 7) (fun _ => 7) (fun _ => 7)
        (fun _ => 7))
      { text := some (bytesOf ['A', 'C', 'C', 'G', 'T', 'A'] 0), textLen := 6,
        pattern := bytesOf ['A', 'C', 'G', 'T'] 1, patternLen := 4, k := 2,
        cigarBuf := freshBuf 200 64, useM := false, format := .COMPACT_CIGAR_STRING,
        wantUsed := true }).script) :=
  ⟨by decide, no_cross_call_state 31 (fun _ => 0) (fun _ _ => 0) (fun _ _ => 7) (fun _ => 0)
    (fun _ => 7) (fun _ => 0) (fun _ => 0) (fun _ => 7) (fun _ => 7)
    [{ text := some (bytesOf ['C', 'A', 'B', 'B', 'A'] 0), textLen := 5,
       pattern := bytesOf ['A', 'B', 'A'] 1, patternLen := 3, k := 2,
       cigarBuf := freshBuf 100 64, useM := false, format := .COMPACT_CIGAR_STRING,
       wantUsed := true }]
    { text := some (bytesOf ['A', 'C', 'C', 'G', 'T', 'A'] 0), textLen := 6,
      pattern := bytesOf ['A', 'C', 'G', 'T'] 1, patternLen := 4, k := 2,
      cigarBuf := freshBuf 200 64, useM := false, format := .COMPACT_CIGAR_STRING,
      wantUsed := true } (by decide) (by decide) (by decide) (by decide)⟩


/-- The tables after a call that stops at the cell `(e + 1, d)` hold the main-diagonal
cells of the rows up to `e + 1`. -/
theorem found_diag_zero (a : Args) (e : Nat) (d : Int) (st1 : LVState)
    (hfound : RowFound a e d st1) (e' : Nat) (he' : e' ≤ e + 1) :
    st1.L e' (a.MAX_K + 0) = lv a e' 0 := by
  obtain ⟨hd, hlv, htab, hpart, hL, -⟩ := hfound
  by_cases h : e' < e + 1
  · exact htab.1 e' h 0
  · have : e' = e + 1 := by omega
    subst this
    push_cast
    by_cases hd0 : d = 0
    · subst hd0
      rw [hL, hlv]
    · exact (hpart 0 (by unfold scanPos; split_ifs <;> omega)).1

/-- Claim C20: for a pattern and a text of equal length `n ≥ 0` whose Hamming distance `h`
is at most `k` (`k < MAX_K`, buffer large enough, instance with -2 in its unwritten
cells; `n < 2^31 - 7` and `n + k < 2^31`, so that the `int` arithmetic is exact), the
call returns a value `r` with `0 ≤ r ≤ h`, so never -1; and in every row
`e ≤ r` the main-diagonal cell `L[e][MAX_K]` left by the call is at least every position
`x ≤ n` whose prefix `[0, x)` holds at most `e` mismatching bytes. -/
theorem substitution_not_missed (MAX_K : Int) (CigarToCode : Byte → Nat) (st : LVState)
    (text : Mem) (pattern : Mem) (n k : Int) (cigarBuf : CigarBuf) (useM : Bool)
    (format : CigarFormat) (wantUsed : Bool) (hn : 0 ≤ n)
    (hh : (mismatches pattern text n.toNat : Int) ≤ k) (_hk : k < MAX_K)
    (hc : st.Clean MAX_K)
    (hbuf : (computeEditDistance MAX_K CigarToCode st (some text) n pattern n k
      cigarBuf useM format wantUsed).result ≠ some (-2))
    (hnn : (computeEditDistance MAX_K CigarToCode st (some text) n pattern n k
      cigarBuf useM format wantUsed).result ≠ none)
    (hnw : n < 2 ^ 31 - 7) (hkw : n + k < 2 ^ 31) :
    ∃ r : Int,
      (computeEditDistance MAX_K CigarToCode st (some text) n pattern n k
        cigarBuf useM format wantUsed).result = some r ∧
      0 ≤ r ∧ r ≤ mismatches pattern text n.toNat ∧
      ∀ (e x : Nat), (e : Int) ≤ r → (x : Int) ≤ n → mismatches pattern text x ≤ e →
        (x : Int) ≤ (computeEditDistance MAX_K CigarToCode st (some text) n pattern n k
          cigarBuf useM format wantUsed).st.L e (MAX_K + 0) := by
  have hcases := call_cases MAX_K CigarToCode st text n pattern n k cigarBuf useM format
    wantUsed hc (call_nowrap MAX_K CigarToCode text n pattern n k cigarBuf useM format
      wantUsed hn hn hnw hkw)
  generalize ha : callArgs MAX_K CigarToCode text n pattern n k cigarBuf useM format
    wantUsed = a at hcases
  have hP : a.patternLen = n := by rw [← ha]; rfl
  have hT : a.textLen = n := by rw [← ha]; rfl
  have hK : a.MAX_K = MAX_K := by rw [← ha]; rfl
  have hpat : a.pattern = pattern := by rw [← ha]; rfl
  have htxt : a.text = text := by rw [← ha]; rfl
  have hreach := diag_zero_reach a (by rw [hP, hT]) (by rw [hP]; exact hn)
  rw [hpat, htxt, hP] at hreach
  rcases hcases with ⟨hs, hr⟩ | ⟨hs, ⟨st1, hr⟩, hno⟩ | ⟨hs, e, d, st1, hek, hfound, hno, hr⟩
  · -- exact match
    rw [hr] at hbuf hnn ⊢
    obtain ⟨-, q2⟩ := finish_ok _ _ _ _ _ _ hbuf hnn
    refine ⟨0, q2, le_refl _, by omega, fun e' x he' hx hm => ?_⟩
    have he0 : e' = 0 := by omega
    subst he0
    rw [finish_st]
    simp only [set2, Nat.cast_zero, add_zero, and_self, if_true]
    exact hreach 0 x hx hm
  · -- budget exceeded: impossible
    exfalso
    have h1 := hreach (mismatches pattern text n.toNat) n.toNat (by omega) (le_refl _)
    have h2 := lv_le a (by rw [hP]; exact hn) (mismatches pattern text n.toNat)
      (fun e' he' d' hd1 hd2 => by rw [hP]; exact hno e' (by omega) d' hd1 hd2)
      (mismatches pattern text n.toNat) (le_refl _) 0
    rw [hP] at h2
    exact hno (mismatches pattern text n.toNat) hh 0 (by omega) (by omega) (by omega)
  · -- found in row e + 1
    have hle : (e : Int) + 1 ≤ mismatches pattern text n.toNat := by
      by_contra hlt
      have h1 := hreach (mismatches pattern text n.toNat) n.toNat (by omega) (le_refl _)
      have h2 := lv_le a (by rw [hP]; exact hn) (mismatches pattern text n.toNat)
        (fun e' he' d' hd1 hd2 => by rw [hP]; exact hno e' (by omega) d' hd1 hd2)
        (mismatches pattern text n.toNat) (le_refl _) 0
      rw [hP] at h2
      exact hno (mismatches pattern text n.toNat) (by omega) 0 (by omega) (by omega) (by omega)
    rw [hr] at hbuf hnn ⊢
    obtain ⟨q1, -⟩ := acceptRet_ok a _ _ _ _ hbuf hnn
    refine ⟨(e : Int) + 1, q1, by omega, hle, fun e' x he' hx hm => ?_⟩
    have hcell := found_diag_zero a e d st1 hfound e' (by omega)
    rw [hK] at hcell
    have hL : (acceptRet a ((e : Int) + 1) d st1 cigarBuf).st.L = st1.L := by
      rw [acceptRet_eq]
      split_ifs
      · rw [finish_st]
      · rw [finish_st, (backtrace_frame a.MAX_K _ _ _ _).1]
    rw [hL, hcell]
    exact hreach e' x hx hm

theorem substitution_not_missed_witness :
    (computeEditDistance 31 (fun _ => 0) fresh (some (bytesOf ['A', 'B', 'A'] 0)) 3
      (bytesOf ['A', 'A', 'B'] 1) 3 2 (freshBuf 100 64) false .COMPACT_CIGAR_STRING
      true).result = some 1 ∧
    mismatches (bytesOf ['A', 'A', 'B'] 1) (bytesOf ['A', 'B', 'A'] 0) (3 : Int).toNat = 2 ∧
    ∃ r : Int,
      (computeEditDistance 31 (fun _ => 0) fresh (some (bytesOf ['A', 'B', 'A'] 0)) 3
        (bytesOf ['A', 'A', 'B'] 1) 3 2 (freshBuf 100 64) false .COMPACT_CIGAR_STRING
        true).result = some r ∧
      0 ≤ r ∧
      r ≤ mismatches (bytesOf ['A', 'A', 'B'] 1) (bytesOf ['A', 'B', 'A'] 0) (3 : Int).toNat ∧
      ∀ (e x : Nat), (e : Int) ≤ r → (x : Int) ≤ 3 →
        mismatches (bytesOf ['A', 'A', 'B'] 1) (bytesOf ['A', 'B', 'A'] 0) x ≤ e →
        (x : Int) ≤ (computeEditDistance 31 (fun _ => 0) fresh
          (some (bytesOf ['A', 'B', 'A'] 0)) 3
          (bytesOf ['A', 'A', 'B'] 1) 3 2 (freshBuf 100 64) false .COMPACT_CIGAR_STRING
          true).st.L e (31 + 0) :=
  ⟨by decide, by decide, substitution_not_missed 31 (fun _ => 0) fresh
    (bytesOf ['A', 'B', 'A'] 0) (bytesOf ['A', 'A', 'B'] 1) 3 2 (freshBuf 100 64) false
    .COMPACT_CIGAR_STRING true (by decide) (by decide) (by decide) (fun _ _ _ => rfl)
    (by decide) (by decide) (by decide) (by decide)⟩


/-- The loop of `setLVProbabilities` sets the entries from `i` up to 254 and no other. -/
theorem setLoop_spec (phred : Nat → ℚ) (m : ℚ) (fuel : Nat) : ∀ (i : Nat) (table : Nat → ℚ),
    255 ≤ i + fuel → ∀ j : Nat,
    setLoop phred m fuel i table j =
      if i ≤ j ∧ j < 255 then 1 - (1 - phred j) * (1 - m) else table j := by
  induction fuel with
  | zero =>
    intro i table h j
    rw [setLoop, if_neg (by omega)]
  | succ fuel ih =>
    intro i table h j
    rw [setLoop]
    by_cases hi : i < 255
    · rw [if_pos hi, ih (i + 1) _ (by omega) j]
      by_cases hj : j = i
      · subst hj
        rw [if_neg (by omega), if_pos rfl, if_pos ⟨le_refl _, hi⟩]
      · rw [if_neg hj]
        by_cases h1 : i + 1 ≤ j ∧ j < 255
        · rw [if_pos h1, if_pos ⟨by omega, h1.2⟩]
        · rw [if_neg h1, if_neg (by omega)]
    · rw [if_neg hi, if_neg (by omega)]

/-- What `setLVProbabilities` leaves: the supplied indel array, the combined probability
in the entries 0 to 254, and the entries from 255 on as they were. -/
theorem setLVProbabilities_spec (g : LVGlobals) (indel phred : Nat → ℚ) (m : ℚ) :
    (setLVProbabilities g indel phred m).lv_indelProbabilities = indel ∧
    (∀ i : Nat, i < 255 →
      (setLVProbabilities g indel phred m).lv_phredToProbability i
        = 1 - (1 - phred i) * (1 - m)) ∧
    (∀ i : Nat, 255 ≤ i →
      (setLVProbabilities g indel phred m).lv_phredToProbability i
        = g.lv_phredToProbability i) := by
  refine ⟨rfl, fun i hi => ?_, fun i hi => ?_⟩
  · simp only [setLVProbabilities]
    rw [setLoop_spec phred m 255 0 _ (by omega) i, if_pos ⟨Nat.zero_le _, hi⟩]
  · simp only [setLVProbabilities]
    rw [setLoop_spec phred m 255 0 _ (by omega) i, if_neg (by omega)]

/-- Claim C18 fails on the code at quality score 255: on a zero-filled table, with
`phred[i] = 1/2` for every `i` and mutation probability 0, `setLVProbabilities` sets
entry 254 to `1 - (1 - 1/2) (1 - 0) = 1/2` and leaves entry 255 at 0. -/
theorem setLVProbabilities_skips_255 :
    (setLVProbabilities (LVGlobals.mk (fun _ => 0) (fun _ => 0)) (fun _ => 1) (fun _ => 1 / 2) 0
      ).lv_phredToProbability 254 = 1 / 2 ∧
    (setLVProbabilities (LVGlobals.mk (fun _ => 0) (fun _ => 0)) (fun _ => 1) (fun _ => 1 / 2) 0
      ).lv_phredToProbability 255 = 0 ∧
    (1 : ℚ) - (1 - 1 / 2) * (1 - 0) = 1 / 2 ∧ (0 : ℚ) ≠ 1 / 2 := by
  obtain ⟨-, h1, h2⟩ := setLVProbabilities_spec
    (LVGlobals.mk (fun _ => 0) (fun _ => 0)) (fun _ => 1) (fun _ => 1 / 2) 0
  refine ⟨?_, ?_, by norm_num, by norm_num⟩
  · rw [h1 254 (by norm_num)]; norm_num
  · rw [h2 255 (le_refl _)]

end SNAP
